import Mathlib

/-!
# NachOS scheduler and file system: a verification development

Shallow embedding of

* `code/threads/scheduler.h`, `code/threads/scheduler.cc` (MP3): the three-level
  ready queue, `ReadyToRun`, `FindNextToRun`, `Aging`;
* `code/filesys/filehdr.cc`, `code/filesys/directory.cc`, `code/filesys/filesys.cc`,
  `code/filesys/filesys.h` (MP4): linked file headers, directories, `Create`, `Open`,
  `Remove`, `create_directory`.

Threads are addressed through pointers (`Thread *`), so the scheduler state carries a
heap `threads : Nat → Thread` and the ready lists hold addresses.  C `int` fields are
modelled by `Int`; the arithmetic of `Aging` (`+100`, `-1500`, `+10`) stays far inside
the 32-bit range on every state the kernel can build.  A call that aborts the kernel
(failed `ASSERT`, wild pointer), that reads bytes nobody wrote, or that does not come
back is a `Fault`.
-/

namespace Nachos

/-! ## Calls that do not return -/

/-- Ways in which a call does not return normally. -/
inductive Fault where
  /-- A sector number outside `[0, NumSectors)` reached the disk. -/
  | badSector
  /-- An `ASSERT` failed. -/
  | assertion
  /-- A null or wild pointer was dereferenced. -/
  | nullPointer
  /-- Bytes were interpreted that the model does not track (never written, of another
  kind, or only partly transferred). -/
  | unspecified
  /-- The recursion did not end within the given fuel. -/
  | outOfFuel
  deriving DecidableEq, Repr

/-! ## Threads (thread.h is not part of the sources) -/

/-- Modelled from the spec: `enum ThreadStatus` of thread.h, which is missing from the
sources; the spec lists the statuses ready, running, blocked and zombie next to the
just-created state named in the contract of `readyToRun`. -/
inductive ThreadStatus where
  | JUST_CREATED
  | RUNNING
  | READY
  | BLOCKED
  | ZOMBIE
  deriving DecidableEq, Repr

/-- Modelled from the spec: the fields of `class Thread` (thread.h is missing from the
sources) that the scheduler reads or writes: unique id, priority, burst-time estimate,
accumulated waiting time, status and the ready-time stamp. -/
structure Thread where
  ID : Int
  priority : Int
  burstTime : Int
  waitingTime : Int
  status : ThreadStatus
  readyTime : Int
  deriving DecidableEq, Repr

/-- Accessor `Thread::getID`. -/
def Thread.getID (t : Thread) : Int := t.ID

/-- Accessor `Thread::getPriority`. -/
def Thread.getPriority (t : Thread) : Int := t.priority

/-- Accessor `Thread::getBurstTime`. -/
def Thread.getBurstTime (t : Thread) : Int := t.burstTime

/-- Setter `Thread::setStatus`. -/
def Thread.setStatus (t : Thread) (st : ThreadStatus) : Thread := { t with status := st }

/-- Modelled from the spec: `Thread::setReadyTime` (thread.h is missing from the
sources); the spec says the call "stamps ready-time" / "reset[s] the per-thread stamp",
so it records the current tick and touches nothing else. -/
def Thread.setReadyTime (t : Thread) (totalTicks : Int) : Thread :=
  { t with readyTime := totalTicks }

/-- Modelled from the spec: `Thread::setPriority` (thread.h is missing from the
sources); the spec says the priority is increased "by 10 (capped at 149)" and that
"priority is clamped to ≤ 149", and `Aging` itself applies no bound, so the clamp is
placed in the setter. -/
def Thread.setPriority (t : Thread) (p : Int) : Thread :=
  { t with priority := if p > 149 then 149 else p }

/-! ## Lists (lib/list.h is not part of the sources) -/

/-- Modelled from the spec: `List<T>::Append` of lib/list.h (missing from the sources):
the item goes to the tail, which makes L3 "FIFO ordered by enqueue time". -/
def List_Append {α : Type} (l : List α) (item : α) : List α := l ++ [item]

/-- Modelled from the spec: `SortedList<T>::Insert` of lib/list.h (missing from the
sources): the item is linked in front of the first element that compares greater than
it (`compare(item, x) < 0`), at the tail when there is none; this is what keeps a
sorted list "ordered by" its comparator. -/
def SortedList_Insert {α : Type} (compare : α → α → Int) (item : α) : List α → List α
  | [] => [item]
  | x :: xs =>
    if compare item x < 0 then item :: x :: xs
    else x :: SortedList_Insert compare item xs

/-- Modelled from the spec: `List<T>::Remove` of lib/list.h (missing from the sources):
unlinks the item from the list. -/
def List_Remove (l : List Nat) (item : Nat) : List Nat := l.erase item

/-- Modelled from the spec: what a `ListIterator` of lib/list.h (missing from the
sources) that stands on the element of `item` still has to visit: the elements linked
behind it, which `Next` reaches by following the `next` field element by element. -/
def List_After : List Nat → Nat → List Nat
  | [], _ => []
  | x :: xs, item => if x = item then xs else List_After xs item

/-! ## scheduler.h -/

/-- Source `Scheduler::comp_burst_time` (scheduler.h:36-45). -/
def comp_burst_time (T1 T2 : Thread) : Int :=
  if T1.getBurstTime > T2.getBurstTime then 1
  else if T1.getBurstTime < T2.getBurstTime then -1
  else
    if T1.getID > T2.getID then 1
    else if T1.getID < T2.getID then -1
    else 0

/-- Source `Scheduler::comp_priority` (scheduler.h:47-56). -/
def comp_priority (T1 T2 : Thread) : Int :=
  if T1.getPriority > T2.getPriority then -1
  else if T1.getPriority < T2.getPriority then 1
  else
    if T1.getID > T2.getID then 1
    else if T1.getID < T2.getID then -1
    else 0

/-- The scheduler together with the part of the kernel it touches: the thread objects
(by address) and the tick counter `kernel->stats->totalTicks`. -/
structure Scheduler where
  threads : Nat → Thread
  readyListL1 : List Nat
  readyListL2 : List Nat
  readyListL3 : List Nat
  totalTicks : Int

/-- Heap update: the thread object at address `p` becomes `t`. -/
def setThread (h : Nat → Thread) (p : Nat) (t : Thread) : Nat → Thread :=
  fun q => if q = p then t else h q

/-- Source `Scheduler::Scheduler` (scheduler.cc:31-39): no ready threads. -/
def Scheduler.init (threads : Nat → Thread) (totalTicks : Int) : Scheduler :=
  { threads := threads, readyListL1 := [], readyListL2 := [], readyListL3 := [],
    totalTicks := totalTicks }

/-- The comparator of L1 applied through the pointers. -/
def Scheduler.cmpL1 (h : Nat → Thread) (a b : Nat) : Int := comp_burst_time (h a) (h b)

/-- The comparator of L2 applied through the pointers. -/
def Scheduler.cmpL2 (h : Nat → Thread) (a b : Nat) : Int := comp_priority (h a) (h b)

/-! ## scheduler.cc -/

/-- Source `Scheduler::ReadyToRun` (scheduler.cc:62-90). -/
def Scheduler.ReadyToRun (s : Scheduler) (thread : Nat) : Scheduler :=
  let t0 := (s.threads thread).setStatus ThreadStatus.READY
  if t0.getPriority ≤ 49 then
    { s with readyListL3 := List_Append s.readyListL3 thread,
             threads := setThread s.threads thread (t0.setReadyTime s.totalTicks) }
  else if t0.getPriority ≥ 50 ∧ t0.getPriority ≤ 99 then
    { s with readyListL2 := SortedList_Insert (Scheduler.cmpL2 (setThread s.threads thread t0))
                              thread s.readyListL2,
             threads := setThread s.threads thread (t0.setReadyTime s.totalTicks) }
  else if t0.getPriority ≥ 100 ∧ t0.getPriority ≤ 149 then
    { s with readyListL1 := SortedList_Insert (Scheduler.cmpL1 (setThread s.threads thread t0))
                              thread s.readyListL1,
             threads := setThread s.threads thread (t0.setReadyTime s.totalTicks) }
  else
    { s with threads := setThread s.threads thread t0 }

/-- Source `Scheduler::FindNextToRun` (scheduler.cc:100-132); `none` is `NULL`. -/
def Scheduler.FindNextToRun (s : Scheduler) : Option Nat × Scheduler :=
  match s.readyListL1 with
  | t :: rest => (some t, { s with readyListL1 := rest })
  | [] =>
    match s.readyListL2 with
    | t :: rest => (some t, { s with readyListL2 := rest })
    | [] =>
      match s.readyListL3 with
      | t :: rest => (some t, { s with readyListL3 := rest })
      | [] => (none, s)

/-- Body of the first loop of `Scheduler::Aging` (scheduler.cc:237-249). -/
def Scheduler.agingL1 (s : Scheduler) (cur : Nat) : Scheduler :=
  let t := s.threads cur
  let t1 := { t with waitingTime := t.waitingTime + 100 }
  if t1.waitingTime ≥ 1500 then
    let t2 := { t1 with waitingTime := t1.waitingTime - 1500 }
    let t3 := t2.setReadyTime s.totalTicks
    let new_priority := t3.getPriority + 10
    { s with threads := setThread s.threads cur (t3.setPriority new_priority) }
  else
    { s with threads := setThread s.threads cur t1 }

/-- Body of the second loop of `Scheduler::Aging` (scheduler.cc:251-270). -/
def Scheduler.agingL2 (s : Scheduler) (cur : Nat) : Scheduler :=
  let t := s.threads cur
  let t1 := { t with waitingTime := t.waitingTime + 100 }
  if t1.waitingTime ≥ 1500 then
    let t2 := { t1 with waitingTime := t1.waitingTime - 1500 }
    let t3 := t2.setReadyTime s.totalTicks
    let new_priority := t3.getPriority + 10
    if new_priority ≥ 100 then
      let h := setThread s.threads cur (t3.setPriority new_priority)
      { s with threads := h,
               readyListL2 := List_Remove s.readyListL2 cur,
               readyListL1 := SortedList_Insert (Scheduler.cmpL1 h) cur s.readyListL1 }
    else
      { s with threads := setThread s.threads cur (t3.setPriority new_priority) }
  else
    { s with threads := setThread s.threads cur t1 }

/-- Body of the third loop of `Scheduler::Aging` (scheduler.cc:272-292). -/
def Scheduler.agingL3 (s : Scheduler) (cur : Nat) : Scheduler :=
  let t := s.threads cur
  let t1 := { t with waitingTime := t.waitingTime + 100 }
  if t1.waitingTime ≥ 1500 then
    let t2 := { t1 with waitingTime := t1.waitingTime - 1500 }
    let t3 := t2.setReadyTime s.totalTicks
    let new_priority := t3.getPriority + 10
    if new_priority ≥ 50 then
      let h := setThread s.threads cur (t3.setPriority new_priority)
      { s with threads := h,
               readyListL3 := List_Remove s.readyListL3 cur,
               readyListL2 := SortedList_Insert (Scheduler.cmpL2 h) cur s.readyListL2 }
    else
      { s with threads := setThread s.threads cur (t3.setPriority new_priority) }
  else
    { s with threads := setThread s.threads cur t1 }

/-- The two tests of the second loop that lead to `readyListL2->Remove(curThread)`
(scheduler.cc:256 and 261), on the thread the iterator stands on. -/
def Scheduler.leavesL2 (s : Scheduler) (cur : Nat) : Bool :=
  decide ((s.threads cur).waitingTime + 100 ≥ 1500 ∧ (s.threads cur).getPriority + 10 ≥ 100)

/-- The two tests of the third loop that lead to `readyListL3->Remove(curThread)`
(scheduler.cc:277 and 282), on the thread the iterator stands on. -/
def Scheduler.leavesL3 (s : Scheduler) (cur : Nat) : Bool :=
  decide ((s.threads cur).waitingTime + 100 ≥ 1500 ∧ (s.threads cur).getPriority + 10 ≥ 50)

/-- A loop of `Scheduler::Aging` after its iterator has left the list it was made for:
`rest` holds the threads it still reaches.  The body runs on each of them as on any
other thread; when its tests lead to `Remove`, the thread is not in the list named there
and the `ASSERT(IsInList(item))` of `List::Remove` ends the call. -/
def Scheduler.agingAstray (body : Scheduler → Nat → Scheduler)
    (leaves : Scheduler → Nat → Bool) : Scheduler → List Nat → Except Fault Scheduler
  | s, [] => pure s
  | s, cur :: rest =>
    if leaves s cur then throw Fault.assertion
    else Scheduler.agingAstray body leaves (body s cur) rest

/-- A loop `for(; !it->IsDone(); it->Next())` of `Scheduler::Aging` (scheduler.cc:251-270
and 272-292) over the threads `rest` linked from the iterator's position.  When the body
leaves the thread in its list, `Next` goes on to the element linked behind it.  When the
body moves the thread, `Remove` deletes the element the iterator stands on and `Insert`
allocates the thread's new element; lib/list.h is not part of the sources, and with the
list of the Nachos distribution the new element takes the storage just freed, so `Next`
follows the link of the new element: the loop goes on with the threads linked behind the
moved thread in the list `dest` it was moved to, and what was left of its own list is
not visited in this call. -/
def Scheduler.agingWalk (body : Scheduler → Nat → Scheduler)
    (leaves : Scheduler → Nat → Bool) (dest : Scheduler → List Nat) :
    Scheduler → List Nat → Except Fault Scheduler
  | s, [] => pure s
  | s, cur :: rest =>
    if leaves s cur then
      Scheduler.agingAstray body leaves (body s cur) (List_After (dest (body s cur)) cur)
    else Scheduler.agingWalk body leaves dest (body s cur) rest

/-- Source `Scheduler::Aging` (scheduler.cc:231-293).  The three iterators are created on
entry.  The first loop moves no thread, so it visits L1 from head to tail; the second
and the third loop move threads to L1 and to L2 and are walked by `agingWalk`. -/
def Scheduler.Aging (s : Scheduler) : Except Fault Scheduler := do
  let s1 := s.readyListL1.foldl Scheduler.agingL1 s
  let s2 ← Scheduler.agingWalk Scheduler.agingL2 Scheduler.leavesL2
    (fun t => t.readyListL1) s1 s.readyListL2
  Scheduler.agingWalk Scheduler.agingL3 Scheduler.leavesL3
    (fun t => t.readyListL2) s2 s.readyListL3

/-- The addresses of all ready threads, L1 first. -/
def Scheduler.queued (s : Scheduler) : List Nat :=
  s.readyListL1 ++ s.readyListL2 ++ s.readyListL3

/-! # File system (MP4)

The disk driver, the bitmap, `OpenFile` and the headers `filehdr.h`, `directory.h`,
`disk.h` are not part of the sources; what the file-system code needs of them is
modelled from the spec.  A call that aborts the kernel (failed `ASSERT`, wild pointer),
that reads bytes nobody wrote, or that does not come back is a `Fault`. -/

/-- Modelled from the spec: `SectorSize` of disk.h (missing from the sources), "typically
128 bytes". -/
def SectorSize : Nat := 128

/-- Modelled from the spec: `NumSectors` of disk.h (missing from the sources), "fixed at
build time"; the stock disk has 32 tracks of 32 sectors. -/
def NumSectors : Nat := 1024

/-- Modelled from the spec: `NumDirect` of filehdr.h (missing from the sources): the
on-disk header layout is `numBytes`, `numSectors`, `nextHeaderSector` and `NumDirect`
4-byte pointers in one sector, so `(128 - 3 * 4) / 4`. -/
def NumDirect : Nat := 29

/-- Modelled from the spec: `MaxFileSize` of filehdr.h (missing from the sources), the
bytes one header maps: `NumDirect * SectorSize`. -/
def MaxFileSize : Nat := NumDirect * SectorSize

/-- Source `#define NumDirEntries 64` (filesys.cc:65, directory.cc:26). -/
def NumDirEntries : Nat := 64

/-- Modelled from the spec: `FileNameMaxLen` of directory.h (missing from the sources),
"e.g. ≤ 9 characters". -/
def FileNameMaxLen : Nat := 9

/-- Modelled from the spec: `sizeof(DirectoryEntry)` (directory.h is missing from the
sources), the packed layout `{inUse: u8, name: [char; FileNameMaxLen+1], sector: i32,
type: i32}`. -/
def DirectoryEntrySize : Nat := 19

/-- Source `#define FreeMapSector 0` (filesys.cc:58). -/
def FreeMapSector : Int := 0

/-- Source `#define DirectorySector 1` (filesys.cc:59). -/
def DirectorySector : Int := 1

/-- Source `#define FreeMapFileSize (NumSectors / BitsInByte)` (filesys.cc:64). -/
def FreeMapFileSize : Nat := NumSectors / 8

/-- Source `#define DirectoryFileSize (sizeof(DirectoryEntry) * NumDirEntries)`
(filesys.cc:66). -/
def DirectoryFileSize : Nat := DirectoryEntrySize * NumDirEntries

/-- Modelled from the spec: entry type "file" (the macro `FILE` of directory.h, which is
missing from the sources). -/
def FILE : Int := 0

/-- Modelled from the spec: entry type "directory" (the macro `DIR` of directory.h,
which is missing from the sources). -/
def DIR : Int := 1

/-- Modelled from the spec: `divRoundUp` of utility.h (missing from the sources),
"ceil(take / SectorSize)", in C integer arithmetic. -/
def divRoundUp (n s : Int) : Int :=
  Int.tdiv n s + (if Int.tmod n s > 0 then 1 else 0)

/-! ## Directory entries and the disk -/

/-- Modelled from the spec: `class DirectoryEntry` (directory.h is missing from the
sources): in-use flag, name, header sector, entry type.  The name is kept without its
terminating zero. -/
structure DirectoryEntry where
  inUse : Bool
  name : List Char
  sector : Int
  type : Int
  deriving DecidableEq, Repr

/-- The file-level objects whose bytes the file system stores in data sectors. -/
inductive FileObject where
  /-- A directory's entry table. -/
  | table (t : List DirectoryEntry)
  /-- The words of the free-sector bitmap. -/
  | bitmap (bits : List Bool)
  deriving DecidableEq, Repr

/-- What a sector of the simulated disk holds. -/
inductive SectorData where
  /-- Never written. -/
  | blank
  /-- The image of a file header (`FileHeader::WriteBack`). -/
  | header (numBytes numSectors next_hdf_sector : Int) (dataSectors : List Int)
  /-- The `index`-th sector-sized stretch of the bytes of `obj` (`OpenFile::WriteAt`). -/
  | piece (obj : FileObject) (index : Nat)
  deriving DecidableEq, Repr

/-- The disk: contents by sector number. -/
abbrev Disk := Nat → SectorData

/-- Modelled from the spec: `SynchDisk::ReadSector` (the disk driver is missing from the
sources); a sector number outside `[0, NumSectors)` aborts. -/
def ReadSector (disk : Disk) (sector : Int) : Except Fault SectorData :=
  if 0 ≤ sector ∧ sector < NumSectors then pure (disk sector.toNat)
  else throw Fault.badSector

/-- Modelled from the spec: `SynchDisk::WriteSector` (the disk driver is missing from
the sources); a sector number outside `[0, NumSectors)` aborts. -/
def WriteSector (disk : Disk) (sector : Int) (data : SectorData) : Except Fault Disk :=
  if 0 ≤ sector ∧ sector < NumSectors then
    pure (fun s => if s = sector.toNat then data else disk s)
  else throw Fault.badSector

/-! ## The free-sector bitmap (bitmap.h, pbitmap.h are not part of the sources) -/

/-- Modelled from the spec: `class Bitmap`, one flag per sector, `true` for in use. -/
abbrev Bitmap := List Bool

/-- Modelled from the spec: `Bitmap::Test`. -/
def Bitmap.Test (b : Bitmap) (which : Int) : Except Fault Bool :=
  if 0 ≤ which ∧ which < b.length then pure (b.getD which.toNat false)
  else throw Fault.assertion

/-- Modelled from the spec: `Bitmap::Mark`. -/
def Bitmap.Mark (b : Bitmap) (which : Int) : Except Fault Bitmap :=
  if 0 ≤ which ∧ which < b.length then pure (b.set which.toNat true)
  else throw Fault.assertion

/-- Modelled from the spec: `Bitmap::Clear`, "unmarks a previously marked bit; asserts
the bit was set". -/
def Bitmap.Clear (b : Bitmap) (which : Int) : Except Fault Bitmap :=
  if 0 ≤ which ∧ which < b.length then
    if b.getD which.toNat false then pure (b.set which.toNat false)
    else throw Fault.assertion
  else throw Fault.assertion

/-- Modelled from the spec: `Bitmap::NumClear`. -/
def Bitmap.NumClear (b : Bitmap) : Int := (b.count false : Nat)

/-- Index of the first clear bit. -/
def Bitmap.firstClear : List Bool → Option Nat
  | [] => none
  | x :: xs => if x = false then some 0 else (Bitmap.firstClear xs).map (· + 1)

/-- Modelled from the spec: `Bitmap::FindAndSet`, "returns the lowest-indexed clear bit
and marks it, or −1 if full". -/
def Bitmap.FindAndSet (b : Bitmap) : Int × Bitmap :=
  match Bitmap.firstClear b with
  | some i => ((i : Int), b.set i true)
  | none => (-1, b)

/-! ## filehdr.cc -/

/-- The in-core `FileHeader`: the fields written to disk and the pointer `next_hdf`;
`last` is a header whose `next_hdf` is `NULL`. -/
inductive FileHeader where
  | last (numBytes numSectors : Int) (dataSectors : List Int) (next_hdf_sector : Int)
  | link (numBytes numSectors : Int) (dataSectors : List Int) (next_hdf_sector : Int)
      (next_hdf : FileHeader)
  deriving DecidableEq, Repr

/-- Field `numBytes`. -/
def FileHeader.numBytes : FileHeader → Int
  | .last nb _ _ _ => nb
  | .link nb _ _ _ _ => nb

/-- Field `numSectors`. -/
def FileHeader.numSectors : FileHeader → Int
  | .last _ ns _ _ => ns
  | .link _ ns _ _ _ => ns

/-- Field `dataSectors`. -/
def FileHeader.dataSectors : FileHeader → List Int
  | .last _ _ ds _ => ds
  | .link _ _ ds _ _ => ds

/-- Field `next_hdf_sector`. -/
def FileHeader.next_hdf_sector : FileHeader → Int
  | .last _ _ _ nx => nx
  | .link _ _ _ nx _ => nx

/-- Source `FileHeader::get_next_hdf`: the pointer `next_hdf`, `none` for `NULL`. -/
def FileHeader.get_next_hdf : FileHeader → Option FileHeader
  | .last _ _ _ _ => none
  | .link _ _ _ _ n => some n

/-- Source `FileHeader::FileHeader` (filehdr.cc:39-47). -/
def FileHeader.new : FileHeader :=
  .last (-1) (-1) (List.replicate NumDirect (-1)) (-1)

/-- The loop `for(i<numSectors) dataSectors[i] = freeMap->FindAndSet(); ASSERT(>= 0)`
(filehdr.cc:98-101), returning the sectors taken. -/
def FileHeader.allocLoop : Nat → Bitmap → Except Fault (List Int × Bitmap)
  | 0, freeMap => pure ([], freeMap)
  | k + 1, freeMap =>
    let r := freeMap.FindAndSet
    if r.1 ≥ 0 then do
      let rest ← FileHeader.allocLoop k r.2
      pure (r.1 :: rest.1, rest.2)
    else throw Fault.assertion

/-- Source `FileHeader::Allocate` (filehdr.cc:73-109) on a fresh header; the result carries the
header and the bitmap as the call leaves them.  Each recursive call is for a size that
is `MaxFileSize` smaller, so `fuel` bounds the length of the chain. -/
def FileHeader.AllocateAux : Nat → Bitmap → Int → Except Fault (Bool × FileHeader × Bitmap)
  | 0, _, _ => throw Fault.outOfFuel
  | fuel + 1, freeMap, fileSize =>
    let numBytes : Int := if fileSize < MaxFileSize then fileSize else MaxFileSize
    let remain_file_size := fileSize - numBytes
    let numSectors := divRoundUp numBytes SectorSize
    if freeMap.NumClear < numSectors then
      pure (false, .last numBytes numSectors (List.replicate NumDirect (-1)) (-1), freeMap)
    else do
      let (got, freeMap1) ← FileHeader.allocLoop numSectors.toNat freeMap
      let dataSectors := got ++ List.replicate (NumDirect - got.length) (-1)
      if remain_file_size > 0 then
        let r := freeMap1.FindAndSet
        if r.1 = -1 then
          pure (false, .last numBytes numSectors dataSectors (-1), r.2)
        else do
          let (ok, next_hdf, freeMap2) ← FileHeader.AllocateAux fuel r.2 remain_file_size
          pure (ok, .link numBytes numSectors dataSectors r.1 next_hdf, freeMap2)
      else
        pure (true, .last numBytes numSectors dataSectors (-1), freeMap1)

/-- Source `FileHeader::Allocate` with fuel that always suffices. -/
def FileHeader.Allocate (freeMap : Bitmap) (fileSize : Int) :
    Except Fault (Bool × FileHeader × Bitmap) :=
  FileHeader.AllocateAux (fileSize.toNat + 1) freeMap fileSize

/-- Source `FileHeader::FetchFrom` (filehdr.cc:137-150). -/
def FileHeader.FetchFrom : Nat → Disk → Int → Except Fault FileHeader
  | 0, _, _ => throw Fault.outOfFuel
  | fuel + 1, disk, sector => do
    match ← ReadSector disk sector with
    | .header nb ns nx ds =>
      if nx ≠ -1 then do
        let next_hdf ← FileHeader.FetchFrom fuel disk nx
        pure (.link nb ns ds nx next_hdf)
      else pure (.last nb ns ds nx)
    | _ => throw Fault.unspecified

/-- Source `FileHeader::WriteBack` (filehdr.cc:159-175). -/
def FileHeader.WriteBack : FileHeader → Disk → Int → Except Fault Disk
  | .last nb ns ds nx, disk, sector => do
    let disk1 ← WriteSector disk sector (.header nb ns nx ds)
    if nx ≠ -1 then throw Fault.assertion else pure disk1
  | .link nb ns ds nx next_hdf, disk, sector => do
    let disk1 ← WriteSector disk sector (.header nb ns nx ds)
    if nx ≠ -1 then FileHeader.WriteBack next_hdf disk1 nx else pure disk1

/-- Source `FileHeader::ByteToSector` (filehdr.cc:187-197). -/
def FileHeader.ByteToSector : FileHeader → Int → Except Fault Int
  | .last _ _ ds _, offset =>
    let index := Int.tdiv offset SectorSize
    if index < NumDirect then
      if 0 ≤ index then pure (ds.getD index.toNat (-1)) else throw Fault.unspecified
    else throw Fault.assertion
  | .link _ _ ds _ next_hdf, offset =>
    let index := Int.tdiv offset SectorSize
    if index < NumDirect then
      if 0 ≤ index then pure (ds.getD index.toNat (-1)) else throw Fault.unspecified
    else FileHeader.ByteToSector next_hdf (offset - MaxFileSize)

/-- Source `FileHeader::FileLength` (filehdr.cc:204-207). -/
def FileHeader.FileLength (h : FileHeader) : Int := h.numBytes

/-- Source `FileHeader::cal_file_size` (filehdr.cc:241-250). -/
def FileHeader.cal_file_size : FileHeader → Int
  | .last nb _ _ _ => nb
  | .link nb _ _ _ next_hdf => nb + FileHeader.cal_file_size next_hdf

/-- The loop of `FileHeader::Deallocate` (filehdr.cc:120-123) from index `i` for `k` more
rounds: `ASSERT(freeMap->Test(dataSectors[i])); freeMap->Clear(dataSectors[i])`.  An index
past the array reads bytes the model does not track. -/
def FileHeader.deallocLoop (dataSectors : List Int) : Nat → Nat → Bitmap → Except Fault Bitmap
  | _, 0, freeMap => pure freeMap
  | i, k + 1, freeMap =>
    match dataSectors.get? i with
    | none => throw Fault.unspecified
    | some s => do
      let marked ← freeMap.Test s
      if !marked then throw Fault.assertion
      else do
        let freeMap1 ← freeMap.Clear s
        FileHeader.deallocLoop dataSectors (i + 1) k freeMap1

/-- Source `FileHeader::Deallocate` (filehdr.cc:118-128): the bitmap after the call. -/
def FileHeader.Deallocate : FileHeader → Bitmap → Except Fault Bitmap
  | .last _ ns ds nx, freeMap => do
    let freeMap1 ← FileHeader.deallocLoop ds 0 ns.toNat freeMap
    if nx ≠ -1 then throw Fault.assertion else pure freeMap1
  | .link _ ns ds nx next_hdf, freeMap => do
    let freeMap1 ← FileHeader.deallocLoop ds 0 ns.toNat freeMap
    if nx ≠ -1 then FileHeader.Deallocate next_hdf freeMap1 else pure freeMap1

/-! ## OpenFile (openfile.h is not part of the sources) -/

/-- Modelled from the spec: `class OpenFile`, a "handle binding a file-header chain" to a
cursor; `sector` records the header sector the handle was opened on. -/
structure OpenFile where
  sector : Int
  hdr : FileHeader
  deriving DecidableEq, Repr

/-- Modelled from the spec: `OpenFile::OpenFile(int sector)`: loads the header chain
from the sector. -/
def OpenFile.open (fuel : Nat) (disk : Disk) (sector : Int) : Except Fault OpenFile := do
  let hdr ← FileHeader.FetchFrom fuel disk sector
  pure { sector := sector, hdr := hdr }

/-- The sectors that hold the first `count` sector-sized stretches of the file. -/
def OpenFile.sectorsOf (f : OpenFile) : Nat → Nat → Except Fault (List Int)
  | _, 0 => pure []
  | i, count + 1 => do
    let s ← f.hdr.ByteToSector ((i : Int) * SectorSize)
    let rest ← OpenFile.sectorsOf f (i + 1) count
    pure (s :: rest)

/-- Reads the sectors in order and checks that they hold the stretches `i, i+1, ...` of
one object. -/
def readPieces (disk : Disk) : List Int → Nat → Option FileObject →
    Except Fault (Option FileObject)
  | [], _, acc => pure acc
  | s :: rest, i, acc => do
    match ← ReadSector disk s with
    | .piece obj j =>
      if j = i ∧ (acc = none ∨ acc = some obj) then readPieces disk rest (i + 1) (some obj)
      else throw Fault.unspecified
    | _ => throw Fault.unspecified

/-- Writes stretch `i, i+1, ...` of `obj` to the sectors in order. -/
def writePieces (obj : FileObject) : Disk → List Int → Nat → Except Fault Disk
  | disk, [], _ => pure disk
  | disk, s :: rest, i => do
    let disk1 ← WriteSector disk s (.piece obj i)
    writePieces obj disk1 rest (i + 1)

/-- Modelled from the spec: `OpenFile::ReadAt(into, numBytes, 0)` for a whole object
("whole-table read/write at offset 0").  Nothing is read (`none`) when the file is empty
according to `FileLength`; a file shorter than the object yields a partial transfer. -/
def OpenFile.ReadAt (disk : Disk) (f : OpenFile) (numBytes : Nat) :
    Except Fault (Option FileObject) :=
  let fileLength := f.hdr.FileLength
  if numBytes = 0 ∨ fileLength ≤ 0 then pure none
  else if fileLength < numBytes then throw Fault.unspecified
  else do
    let secs ← OpenFile.sectorsOf f 0 ((numBytes + SectorSize - 1) / SectorSize)
    readPieces disk secs 0 none

/-- Modelled from the spec: `OpenFile::WriteAt(from, numBytes, 0)` for a whole object.
Nothing is written when the file is empty according to `FileLength`; a file shorter than
the object yields a partial transfer. -/
def OpenFile.WriteAt (disk : Disk) (f : OpenFile) (obj : FileObject) (numBytes : Nat) :
    Except Fault Disk :=
  let fileLength := f.hdr.FileLength
  if numBytes = 0 ∨ fileLength ≤ 0 then pure disk
  else if fileLength < numBytes then throw Fault.unspecified
  else do
    let secs ← OpenFile.sectorsOf f 0 ((numBytes + SectorSize - 1) / SectorSize)
    writePieces obj disk secs 0

/-- Modelled from the spec: `PersistentBitmap::PersistentBitmap(file, numItems)`: a
cleared bitmap of `numItems` bits overwritten by the words read from the file. -/
def PersistentBitmap.fetch (disk : Disk) (file : OpenFile) (numItems : Nat) :
    Except Fault Bitmap := do
  match ← OpenFile.ReadAt disk file (((numItems + 31) / 32) * 4) with
  | none => pure (List.replicate numItems false)
  | some (.bitmap bits) =>
    if bits.length = numItems then pure bits else throw Fault.unspecified
  | some (.table _) => throw Fault.unspecified

/-- Modelled from the spec: `PersistentBitmap::WriteBack(file)`. -/
def PersistentBitmap.WriteBack (disk : Disk) (freeMap : Bitmap) (file : OpenFile) :
    Except Fault Disk :=
  OpenFile.WriteAt disk file (.bitmap freeMap) (((freeMap.length + 31) / 32) * 4)

/-! ## directory.cc -/

/-- An entry as `memset(table, 0, ...)` leaves it. -/
def DirectoryEntry.zero : DirectoryEntry :=
  { inUse := false, name := [], sector := 0, type := 0 }

/-- Source `Directory::Directory(size)` (directory.cc:37-47): the table of a new directory. -/
def Directory.new (size : Nat) : List DirectoryEntry :=
  List.replicate size DirectoryEntry.zero

/-- Source `Directory::FetchFrom` (directory.cc:66-69); `table` is the table before the call,
which stays when nothing is read. -/
def Directory.FetchFrom (disk : Disk) (file : OpenFile) (table : List DirectoryEntry) :
    Except Fault (List DirectoryEntry) := do
  match ← OpenFile.ReadAt disk file (table.length * DirectoryEntrySize) with
  | none => pure table
  | some (.table t) =>
    if t.length = table.length then pure t else throw Fault.unspecified
  | some (.bitmap _) => throw Fault.unspecified

/-- Source `Directory::WriteBack` (directory.cc:78-81). -/
def Directory.WriteBack (disk : Disk) (table : List DirectoryEntry) (file : OpenFile) :
    Except Fault Disk :=
  OpenFile.WriteAt disk file (.table table) (table.length * DirectoryEntrySize)

/-- Source `!strncmp(entry.name, name, FileNameMaxLen)` on zero-terminated strings. -/
def nameMatch (entryName name : List Char) : Bool :=
  entryName.take FileNameMaxLen == name.take FileNameMaxLen

/-- The loop of `Directory::FindIndex`, started at index `i`. -/
def Directory.FindIndexFrom (name : List Char) : List DirectoryEntry → Nat → Int
  | [], _ => -1
  | e :: es, i =>
    if e.inUse && nameMatch e.name name then (i : Int)
    else Directory.FindIndexFrom name es (i + 1)

/-- Source `Directory::FindIndex` (directory.cc:91-97). -/
def Directory.FindIndex (table : List DirectoryEntry) (name : List Char) : Int :=
  Directory.FindIndexFrom name table 0

/-- Source `table[i]` for a C index. -/
def Directory.entryAt (table : List DirectoryEntry) (i : Int) : Except Fault DirectoryEntry :=
  if 0 ≤ i then
    match table.get? i.toNat with
    | some e => pure e
    | none => throw Fault.unspecified
  else throw Fault.unspecified

/-- The loop over the sub-directories in `Directory::Find` (directory.cc:116-129);
`find` is the recursive call on a sub-directory's table. -/
def Directory.findSub (fuel : Nat) (disk : Disk)
    (find : List DirectoryEntry → Except Fault Int) :
    List DirectoryEntry → Except Fault Int
  | [] => pure (-1)
  | e :: es =>
    if e.inUse && e.type == DIR then do
      let next_directory_files ← OpenFile.open fuel disk e.sector
      let next_directory ← Directory.FetchFrom disk next_directory_files
        (Directory.new NumDirEntries)
      let result ← find next_directory
      if result ≠ -1 then pure result else Directory.findSub fuel disk find es
    else Directory.findSub fuel disk find es

/-- Source `Directory::Find` (directory.cc:108-133); `fuel` bounds the depth of the descent
into sub-directories (and the length of the header chains loaded on the way). -/
def Directory.Find : Nat → Disk → List DirectoryEntry → List Char → Bool → Except Fault Int
  | fuel, disk, table, name, need_find_sub_dir =>
    let i := Directory.FindIndex table name
    if i ≠ -1 then do
      let e ← Directory.entryAt table i
      pure e.sector
    else if need_find_sub_dir then
      match fuel with
      | 0 => throw Fault.outOfFuel
      | fuel' + 1 =>
        Directory.findSub fuel' disk (fun t => Directory.Find fuel' disk t name true) table
    else pure (-1)

/-- The loop of `Directory::Add` over the free slots. -/
def Directory.addLoop (name : List Char) (newSector : Int) (fileType : Int) :
    List DirectoryEntry → Option (List DirectoryEntry)
  | [] => none
  | e :: es =>
    if !e.inUse then
      some ({ inUse := true, name := name.take FileNameMaxLen, sector := newSector,
              type := fileType } :: es)
    else (Directory.addLoop name newSector fileType es).map (e :: ·)

/-- Source `Directory::Add` (directory.cc:146-161): the result and the table after the call. -/
def Directory.Add (table : List DirectoryEntry) (name : List Char) (newSector : Int)
    (fileType : Int) : Bool × List DirectoryEntry :=
  if Directory.FindIndex table name ≠ -1 then (false, table)
  else
    match Directory.addLoop name newSector fileType table with
    | some table' => (true, table')
    | none => (false, table)

/-- The word `table[i].type` as the machine reads it: the type of entry `i` for an index
inside the table; for an index outside, the word `stray` that lies at that place next to
the array. -/
def Directory.typeAt (table : List DirectoryEntry) (i : Int) (stray : Int) : Int :=
  if 0 ≤ i then
    match table.get? i.toNat with
    | some e => e.type
    | none => stray
  else stray

/-- The table after `table[i].inUse = FALSE`, for an index inside the table. -/
def Directory.clearAt (table : List DirectoryEntry) (i : Int) : List DirectoryEntry :=
  match table.get? i.toNat with
  | some e => table.set i.toNat { e with inUse := false }
  | none => table

/-- Source `Directory::Remove` (directory.cc:171-180): the result and the table after the
call.  With `is_remove_file` the type of `table[i]` is read before `i` is compared with
-1; for `i = -1` that read is of the word `stray` in front of the array. -/
def Directory.Remove (table : List DirectoryEntry) (name : List Char) (is_remove_file : Bool)
    (stray : Int) : Bool × List DirectoryEntry :=
  let i := Directory.FindIndex table name
  if is_remove_file && Directory.typeAt table i stray == DIR then (false, table)
  else if i = -1 then (false, table)
  else (true, Directory.clearAt table i)

/-- The loop of `Directory::remove_all_object` (directory.cc:234-253) over the entries;
`removeAll` is the recursive call on a sub-directory's table and file.  The result is the
table, the bitmap and the disk after the loop. -/
def Directory.removeLoop (fuel : Nat)
    (removeAll : List DirectoryEntry → OpenFile → Bitmap → Disk → Except Fault (Bitmap × Disk)) :
    List DirectoryEntry → Bitmap → Disk →
      Except Fault (List DirectoryEntry × Bitmap × Disk)
  | [], freeMap, disk => pure ([], freeMap, disk)
  | e :: es, freeMap, disk =>
    if e.inUse then do
      let (freeMap1, disk1) ←
        if e.type == DIR then do
          let next_directory_files ← OpenFile.open fuel disk e.sector
          let next_directory ← Directory.FetchFrom disk next_directory_files
            (Directory.new NumDirEntries)
          removeAll next_directory next_directory_files freeMap disk
        else pure (freeMap, disk)
      let hdr ← FileHeader.FetchFrom fuel disk1 e.sector
      let freeMap2 ← hdr.Deallocate freeMap1
      let freeMap3 ← freeMap2.Clear e.sector
      let (es', freeMap4, disk2) ← Directory.removeLoop fuel removeAll es freeMap3 disk1
      pure ({ e with inUse := false } :: es', freeMap4, disk2)
    else do
      let (es', freeMap1, disk1) ← Directory.removeLoop fuel removeAll es freeMap disk
      pure (e :: es', freeMap1, disk1)

/-- Source `Directory::remove_all_object` (directory.cc:233-255): the table, the bitmap and
the disk after the call; `fuel` bounds the depth of the descent into sub-directories (and
the length of the header chains loaded on the way). -/
def Directory.remove_all_object : Nat → List DirectoryEntry → OpenFile → Bitmap → Disk →
    Except Fault (List DirectoryEntry × Bitmap × Disk)
  | 0, _, _, _, _ => throw Fault.outOfFuel
  | fuel + 1, table, delete_file, freeMap, disk => do
    let (table1, freeMap1, disk1) ←
      Directory.removeLoop fuel
        (fun t f b d => do
          let r ← Directory.remove_all_object fuel t f b d
          pure (r.2.1, r.2.2))
        table freeMap disk
    let disk2 ← Directory.WriteBack disk1 table1 delete_file
    pure (table1, freeMap1, disk2)

/-! ## filesys.h: path helpers

A path is the text of the C string; a `char *` into it is the offset it points at. -/

/-- Offset of the last `'/'` of the text that starts at offset `i`. -/
def lastSlashFrom : List Char → Nat → Option Nat
  | [], _ => none
  | c :: cs, i =>
    match lastSlashFrom cs (i + 1) with
    | some k => some k
    | none => if c = '/' then some i else none

/-- Source `FileSystem::get_file_name` (filesys.h:131-135): `strrchr(name, '/') + 1`; `none` is
the wild pointer `NULL + 1` obtained when the path has no `'/'`. -/
def get_file_name (name : List Char) : Option Nat :=
  (lastSlashFrom name 0).map (· + 1)

/-- The successive results of `strtok(name, "/")`, `strtok(NULL, "/")`, ...: the start
offset and the text of every maximal stretch without `'/'`. -/
def strtokFrom : List Char → Nat → Option (Nat × List Char) → List (Nat × List Char)
  | [], _, none => []
  | [], _, some (start, acc) => [(start, acc.reverse)]
  | c :: cs, i, cur =>
    if c = '/' then
      match cur with
      | none => strtokFrom cs (i + 1) none
      | some (start, acc) => (start, acc.reverse) :: strtokFrom cs (i + 1) none
    else
      match cur with
      | none => strtokFrom cs (i + 1) (some (i, [c]))
      | some (start, acc) => strtokFrom cs (i + 1) (some (start, c :: acc))

/-- The `while (dir_name != file_name)` loop of `get_dir_name` (filesys.h:145-148) over
the tokens still to come; `ans` is the 255-byte buffer. -/
def dirNameLoop (file_name : Option Nat) : List (Nat × List Char) → List Char →
    Except Fault (List Char)
  | [], _ => throw Fault.nullPointer
  | (start, tok) :: rest, ans =>
    if some start = file_name then pure ans
    else if tok.length + 1 > 255 then throw Fault.unspecified
    else dirNameLoop file_name rest tok

/-- Source `FileSystem::get_dir_name` (filesys.h:136-153); `none` is `NULL`. -/
def get_dir_name (name : List Char) : Except Fault (Option (List Char)) := do
  let file_name := get_file_name name
  let ans ← dirNameLoop file_name (strtokFrom name 0 none) []
  if ans.length = 0 then pure none else pure (some ans)

/-- The loop of `get_dir_name` (filesys.h:142-148) with the text in the buffer `name`:
`strtok` ends every token it returns by writing a NUL over the `'/'` that follows it; a
token that reaches the end of the text is followed by the NUL that is there already. -/
def dirNameLoopText (file_name : Option Nat) : List (Nat × List Char) → List Char →
    List Char → Except Fault (List Char × List Char)
  | [], _, _ => throw Fault.nullPointer
  | (start, tok) :: rest, ans, text =>
    let text1 := text.set (start + tok.length) (Char.ofNat 0)
    if some start = file_name then pure (ans, text1)
    else if tok.length + 1 > 255 then throw Fault.unspecified
    else dirNameLoopText file_name rest tok text1

/-- Source `FileSystem::get_dir_name` (filesys.h:136-153) with the text it leaves in the
buffer `name`: the copy `tmp` taken at line 140 is copied back at line 149, over what the
calls of `strtok` wrote. -/
def get_dir_name_text (name : List Char) : Except Fault (Option (List Char) × List Char) := do
  let tmp := name
  let file_name := get_file_name name
  let (ans, _) ← dirNameLoopText file_name (strtokFrom name 0 none) [] name
  let name1 := tmp
  if ans.length = 0 then pure (none, name1) else pure (some ans, name1)

/-- Source `FileSystem::check_len` (filesys.h:154-161). -/
def check_len (name : List Char) : Except Fault Bool :=
  match get_file_name name with
  | none => throw Fault.nullPointer
  | some off =>
    let file_len := (name.drop off).length
    let path_len := name.length
    if file_len > 9 then pure false
    else if path_len > 255 then pure false
    else pure true

/-! ## filesys.cc -/

/-- The file system object: the disk and the two files kept open, whose headers were
loaded when they were opened. -/
structure FileSystem where
  disk : Disk
  freeMapFile : OpenFile
  directoryFile : OpenFile

/-- Source `FileSystem::FileSystem(format)` with `format = TRUE` (filesys.cc:84-136), on a disk
with arbitrary contents. -/
def FileSystem.format (disk : Disk) : Except Fault FileSystem := do
  let freeMap : Bitmap := List.replicate NumSectors false
  let directory := Directory.new NumDirEntries
  let freeMap ← freeMap.Mark FreeMapSector
  let freeMap ← freeMap.Mark DirectorySector
  let (ok1, mapHdr, freeMap) ← FileHeader.Allocate freeMap FreeMapFileSize
  if !ok1 then throw Fault.assertion
  let (ok2, dirHdr, freeMap) ← FileHeader.Allocate freeMap DirectoryFileSize
  if !ok2 then throw Fault.assertion
  let disk ← mapHdr.WriteBack disk FreeMapSector
  let disk ← dirHdr.WriteBack disk DirectorySector
  let freeMapFile ← OpenFile.open (NumSectors + 1) disk FreeMapSector
  let directoryFile ← OpenFile.open (NumSectors + 1) disk DirectorySector
  let disk ← PersistentBitmap.WriteBack disk freeMap freeMapFile
  let disk ← Directory.WriteBack disk directory directoryFile
  pure { disk := disk, freeMapFile := freeMapFile, directoryFile := directoryFile }

/-- The directory file `Create` works on (filesys.cc:201-213): the root directory file
when the path has no directory part, otherwise the file whose header sector the search
from the root returns for `dir_name`; `none` when the search returns -1. -/
def FileSystem.CreateDirFile (fuel : Nat) (fs : FileSystem) (dir_name : Option (List Char)) :
    Except Fault (Option OpenFile) :=
  match dir_name with
  | some dir_name => do
    let root_dir ← Directory.FetchFrom fs.disk fs.directoryFile (Directory.new NumDirEntries)
    let sector ← Directory.Find fuel fs.disk root_dir dir_name true
    if sector = -1 then pure none
    else do
      let directory_file ← OpenFile.open fuel fs.disk sector
      pure (some directory_file)
  | none => pure (some fs.directoryFile)

/-- The rest of `Create` (filesys.cc:215-248), once the directory file is known. -/
def FileSystem.CreateIn (fuel : Nat) (fs : FileSystem) (directory_file : OpenFile)
    (file_name : List Char) (initialSize : Int) : Except Fault (Bool × FileSystem) := do
  let directory ← Directory.FetchFrom fs.disk directory_file (Directory.new NumDirEntries)
  let found ← Directory.Find fuel fs.disk directory file_name false
  if found ≠ -1 then pure (false, fs)
  else do
    let freeMap ← PersistentBitmap.fetch fs.disk fs.freeMapFile NumSectors
    let r := freeMap.FindAndSet
    if r.1 = -1 then pure (false, fs)
    else
      let a := Directory.Add directory file_name r.1 FILE
      if !a.1 then pure (false, fs)
      else do
        let al ← FileHeader.Allocate r.2 initialSize
        if !al.1 then pure (false, fs)
        else do
          let disk ← al.2.1.WriteBack fs.disk r.1
          let disk ← Directory.WriteBack disk a.2 directory_file
          let disk ← PersistentBitmap.WriteBack disk al.2.2 fs.freeMapFile
          pure (true, { fs with disk := disk })

/-- Source `FileSystem::Create` (filesys.cc:184-249): the result and the file system after the
call. -/
def FileSystem.Create (fuel : Nat) (fs : FileSystem) (name : List Char) (initialSize : Int) :
    Except Fault (Bool × FileSystem) := do
  let okLen ← check_len name
  if !okLen then pure (false, fs)
  else
    match get_file_name name with
    | none => throw Fault.nullPointer
    | some off => do
      let dir_name ← get_dir_name name
      match ← FileSystem.CreateDirFile fuel fs dir_name with
      | none => pure (false, fs)
      | some directory_file =>
        FileSystem.CreateIn fuel fs directory_file (name.drop off) initialSize

/-- Source `FileSystem::Open` (filesys.cc:261-286); `none` is `NULL`. -/
def FileSystem.Open (fuel : Nat) (fs : FileSystem) (name : List Char) :
    Except Fault (Option OpenFile) := do
  let directory := Directory.new NumDirEntries
  let file_name ←
    match get_file_name name with
    | some off => pure (name.drop off)
    | none => throw Fault.nullPointer
  let dir_name ← get_dir_name name
  let directory ← Directory.FetchFrom fs.disk fs.directoryFile directory
  let directory ←
    match dir_name with
    | some dir_name => do
      let sector ← Directory.Find fuel fs.disk directory dir_name true
      let directory_file ← OpenFile.open fuel fs.disk sector
      Directory.FetchFrom fs.disk directory_file directory
    | none => pure directory
  let sector ← Directory.Find fuel fs.disk directory file_name false
  if sector ≥ 0 then do
    let openFile ← OpenFile.open fuel fs.disk sector
    pure (some openFile)
  else pure none

/-- The branch `rr_flag` of `FileSystem::Remove` (filesys.cc:318-378); `directory` is the
root table fetched at line 315.  `Directory::Remove` is called without `is_remove_file`
and reads no entry type, so the stray word passed to its model is immaterial. -/
def FileSystem.RemoveRecursive (fuel : Nat) (fs : FileSystem) (directory : List DirectoryEntry)
    (file_name : List Char) (dir_name : Option (List Char)) :
    Except Fault (Bool × FileSystem) := do
  let freeMap ← PersistentBitmap.fetch fs.disk fs.freeMapFile NumSectors
  let sector ← Directory.Find fuel fs.disk directory file_name true
  if sector = -1 then pure (false, fs)
  else do
    let tmp_dir ← Directory.FetchFrom fs.disk fs.directoryFile (Directory.new NumDirEntries)
    let directory1 ←
      match dir_name with
      | some dir_name => do
        let s ← Directory.Find fuel fs.disk directory dir_name true
        let _ ← OpenFile.open fuel fs.disk s
        Directory.FetchFrom fs.disk fs.directoryFile directory
      | none => pure directory
    let delete_file ← OpenFile.open fuel fs.disk sector
    let directory2 ← Directory.FetchFrom fs.disk delete_file directory1
    let (_, freeMap1, disk1) ←
      Directory.remove_all_object fuel directory2 delete_file freeMap fs.disk
    let fileHdr ← FileHeader.FetchFrom fuel disk1 sector
    let freeMap2 ← fileHdr.Deallocate freeMap1
    let freeMap3 ← freeMap2.Clear sector
    let (_, tmp_dir1) := Directory.Remove tmp_dir file_name false 0
    let disk2 ← PersistentBitmap.WriteBack disk1 freeMap3 fs.freeMapFile
    let disk3 ← Directory.WriteBack disk2 tmp_dir1 fs.directoryFile
    let directory3 ← Directory.FetchFrom disk3 fs.directoryFile (Directory.new NumDirEntries)
    let (delete_file1, directory4) ←
      match dir_name with
      | some dir_name => do
        let s ← Directory.Find fuel disk3 directory3 dir_name true
        let f ← OpenFile.open fuel disk3 s
        let d ← Directory.FetchFrom disk3 f directory3
        pure (f, d)
      | none => pure (fs.directoryFile, directory3)
    let fi ← Directory.Find fuel disk3 tmp_dir1 file_name true
    let freeMap4 ← freeMap3.Clear fi
    let (_, directory5) := Directory.Remove directory4 file_name false 0
    let disk4 ← PersistentBitmap.WriteBack disk3 freeMap4 fs.freeMapFile
    let disk5 ← Directory.WriteBack disk4 directory5 delete_file1
    pure (true, { fs with disk := disk5 })

/-- The branch without `rr_flag` of `FileSystem::Remove` (filesys.cc:379-404); `directory`
is the root table fetched at line 315.  `Directory::Remove` is reached only after `Find`
found the name in the table, so the index it reads is inside the table and the stray word
passed to its model is immaterial. -/
def FileSystem.RemoveFile (fuel : Nat) (fs : FileSystem) (directory : List DirectoryEntry)
    (file_name : List Char) (dir_name : Option (List Char)) :
    Except Fault (Bool × FileSystem) := do
  let (delete_file, directory1) ←
    match dir_name with
    | some dir_name => do
      let s ← Directory.Find fuel fs.disk directory dir_name true
      let f ← OpenFile.open fuel fs.disk s
      let d ← Directory.FetchFrom fs.disk f directory
      pure (f, d)
    | none => pure (fs.directoryFile, directory)
  let sector ← Directory.Find fuel fs.disk directory1 file_name false
  if sector = -1 then pure (false, fs)
  else do
    let fileHdr ← FileHeader.FetchFrom fuel fs.disk sector
    let freeMap ← PersistentBitmap.fetch fs.disk fs.freeMapFile NumSectors
    let freeMap1 ← fileHdr.Deallocate freeMap
    let freeMap2 ← freeMap1.Clear sector
    let (valid, directory2) := Directory.Remove directory1 file_name true 0
    if valid then do
      let disk1 ← PersistentBitmap.WriteBack fs.disk freeMap2 fs.freeMapFile
      let disk2 ← Directory.WriteBack disk1 directory2 delete_file
      pure (true, { fs with disk := disk2 })
    else pure (true, fs)

/-- Source `FileSystem::Remove` (filesys.cc:303-410): the result and the file system after the
call. -/
def FileSystem.Remove (fuel : Nat) (fs : FileSystem) (name : List Char) (rr_flag : Bool) :
    Except Fault (Bool × FileSystem) := do
  let okLen ← check_len name
  if !okLen then pure (false, fs)
  else
    match get_file_name name with
    | none => throw Fault.nullPointer
    | some off => do
      let dir_name ← get_dir_name name
      let directory ← Directory.FetchFrom fs.disk fs.directoryFile (Directory.new NumDirEntries)
      if rr_flag then FileSystem.RemoveRecursive fuel fs directory (name.drop off) dir_name
      else FileSystem.RemoveFile fuel fs directory (name.drop off) dir_name

/-- The rest of `create_directory` (filesys.cc:495-506, 511-518) once the parent's table
and file are known and the sector for the header was taken: the header, the empty table
of the new directory, the parent's table with the new entry and the free map are written
in this order. -/
def FileSystem.createDirectoryIn (fuel : Nat) (fs : FileSystem) (hdr : FileHeader)
    (freeMap : Bitmap) (freeMapFile : OpenFile) (parent : List DirectoryEntry)
    (parent_file : OpenFile) (file_name : List Char) (sector : Int) :
    Except Fault FileSystem := do
  let disk1 ← hdr.WriteBack fs.disk sector
  let inside_directory_file ← OpenFile.open fuel disk1 sector
  let disk2 ← Directory.WriteBack disk1 (Directory.new NumDirEntries) inside_directory_file
  let a := Directory.Add parent file_name sector DIR
  let disk3 ← Directory.WriteBack disk2 a.2 parent_file
  let disk4 ← PersistentBitmap.WriteBack disk3 freeMap freeMapFile
  pure { fs with disk := disk4 }

/-- Source `FileSystem::create_directory` (filesys.cc:473-525): the file system after the
call. -/
def FileSystem.create_directory (fuel : Nat) (fs : FileSystem) (name : List Char) :
    Except Fault FileSystem := do
  let okLen ← check_len name
  if !okLen then pure fs
  else
    match get_file_name name with
    | none => throw Fault.nullPointer
    | some off => do
      let dir_name ← get_dir_name name
      let freeMap ← PersistentBitmap.fetch fs.disk fs.freeMapFile NumSectors
      let freeMapFile ← OpenFile.open fuel fs.disk FreeMapSector
      let al ← FileHeader.Allocate freeMap DirectoryFileSize
      let directory ← Directory.FetchFrom fs.disk fs.directoryFile (Directory.new NumDirEntries)
      match dir_name with
      | some dir_name => do
        let dir_file_sector ← Directory.Find fuel fs.disk directory dir_name true
        if dir_file_sector = -1 then pure fs
        else do
          let current_directory_files ← OpenFile.open fuel fs.disk dir_file_sector
          let current_directory ← Directory.FetchFrom fs.disk current_directory_files
            (Directory.new NumDirEntries)
          let r := al.2.2.FindAndSet
          FileSystem.createDirectoryIn fuel fs al.2.1 r.2 freeMapFile current_directory
            current_directory_files (name.drop off) r.1
      | none =>
        let r := al.2.2.FindAndSet
        if r.1 = -1 then pure fs
        else
          FileSystem.createDirectoryIn fuel fs al.2.1 r.2 freeMapFile directory
            fs.directoryFile (name.drop off) r.1

/-! ## ksyscall.h -/

/-- The loop of `SysOpen` (ksyscall.h:30-36) from index `i` for `k` more rounds over the
array `fileDescriptorTable`: the first index whose slot is `NULL`, or -1.  A slot is
`none` for `NULL`; an index past the array reads bytes the model does not track. -/
def SysOpen.findSlot (table : List (Option OpenFile)) : Nat → Nat → Except Fault Int
  | _, 0 => pure (-1)
  | i, k + 1 =>
    match table.get? i with
    | none => throw Fault.unspecified
    | some none => pure (i : Int)
    | some (some _) => SysOpen.findSlot table (i + 1) k

/-- Source `SysOpen` (ksyscall.h:27-41): the value returned and the array
`kernel->fileSystem->fileDescriptorTable` (20 slots) after the call. -/
def SysOpen (fuel : Nat) (fs : FileSystem) (table : List (Option OpenFile))
    (filename : List Char) : Except Fault (Int × List (Option OpenFile)) := do
  let open_file ← FileSystem.Open fuel fs filename
  let index ← SysOpen.findSlot table 0 20
  if index = -1 then pure (-1, table)
  else pure (index + 1, table.set index.toNat open_file)

/-! ## filesys.h: the descriptor table -/

/-- The value of a C `int`: a 32-bit two's-complement word. -/
def toInt32 (x : Int) : Int := (x + 2 ^ 31) % 2 ^ 32 - 2 ^ 31

/-- Source `FileSystem::Close` (filesys.h:105-111): the value returned and the array
`fileDescriptorTable` (20 slots) after the call.  `id - 1` is computed in an `int`; a slot
is `none` for `NULL`, and an index past the array reads bytes the model does not
track. -/
def FileSystem.Close (table : List (Option OpenFile)) (id : Int) :
    Except Fault (Int × List (Option OpenFile)) :=
  let index := toInt32 (id - 1)
  if index < 0 ∨ index > 19 then pure (0, table)
  else
    match table.get? index.toNat with
    | none => throw Fault.unspecified
    | some none => pure (0, table)
    | some (some _) => pure (1, table.set index.toNat none)

/-! ## The write-back calls of Create, Remove and create_directory -/

/-- A call that flushes an in-core object to the disk: `hdr->WriteBack(sector)` of a file
header, `WriteBack(file)` of a directory table (`file` given by its header sector), or
`freeMap->WriteBack(freeMapFile)`. -/
inductive WriteBackCall where
  | header (sector : Int)
  | directory (file : Int)
  | freeMap
  deriving DecidableEq, Repr

/-- The disk together with the record of the write-back calls made on it so far, the
oldest first. -/
structure TracedDisk where
  disk : Disk
  calls : List WriteBackCall

/-- Source `FileHeader::WriteBack` (filehdr.cc:159-175) on a traced disk: the header is
written and the call is added to the record. -/
def FileHeader.WriteBackTraced (hdr : FileHeader) (td : TracedDisk) (sector : Int) :
    Except Fault TracedDisk := do
  let disk ← hdr.WriteBack td.disk sector
  pure { disk := disk, calls := td.calls ++ [WriteBackCall.header sector] }

/-- Source `Directory::WriteBack` (directory.cc:78-81) on a traced disk: the table is
written and the call is added to the record. -/
def Directory.WriteBackTraced (td : TracedDisk) (table : List DirectoryEntry)
    (file : OpenFile) : Except Fault TracedDisk := do
  let disk ← Directory.WriteBack td.disk table file
  pure { disk := disk, calls := td.calls ++ [WriteBackCall.directory file.sector] }

/-- Modelled from the spec: `PersistentBitmap::WriteBack(file)` on a traced disk: the
bitmap is written and the call is added to the record. -/
def PersistentBitmap.WriteBackTraced (td : TracedDisk) (freeMap : Bitmap) (file : OpenFile) :
    Except Fault TracedDisk := do
  let disk ← PersistentBitmap.WriteBack td.disk freeMap file
  pure { disk := disk, calls := td.calls ++ [WriteBackCall.freeMap] }

/-- The rest of `Create` (filesys.cc:215-248) on a traced disk: every statement of
`FileSystem.CreateIn` in the same order, the three write-backs of lines 238-240 made
through the traced operations; the result carries the record of the calls. -/
def FileSystem.CreateInTraced (fuel : Nat) (fs : FileSystem) (td : TracedDisk)
    (directory_file : OpenFile) (file_name : List Char) (initialSize : Int) :
    Except Fault (Bool × FileSystem × List WriteBackCall) := do
  let directory ← Directory.FetchFrom td.disk directory_file (Directory.new NumDirEntries)
  let found ← Directory.Find fuel td.disk directory file_name false
  if found ≠ -1 then pure (false, fs, td.calls)
  else do
    let freeMap ← PersistentBitmap.fetch td.disk fs.freeMapFile NumSectors
    let r := freeMap.FindAndSet
    if r.1 = -1 then pure (false, fs, td.calls)
    else
      let a := Directory.Add directory file_name r.1 FILE
      if !a.1 then pure (false, fs, td.calls)
      else do
        let al ← FileHeader.Allocate r.2 initialSize
        if !al.1 then pure (false, fs, td.calls)
        else do
          let td ← al.2.1.WriteBackTraced td r.1
          let td ← Directory.WriteBackTraced td a.2 directory_file
          let td ← PersistentBitmap.WriteBackTraced td al.2.2 fs.freeMapFile
          pure (true, { fs with disk := td.disk }, td.calls)

/-- Source `FileSystem::Create` (filesys.cc:184-249) on a traced disk whose record is empty
on entry: the result, the file system after the call and the write-back calls the call
made, in order. -/
def FileSystem.CreateTraced (fuel : Nat) (fs : FileSystem) (name : List Char)
    (initialSize : Int) : Except Fault (Bool × FileSystem × List WriteBackCall) := do
  let td : TracedDisk := { disk := fs.disk, calls := [] }
  let okLen ← check_len name
  if !okLen then pure (false, fs, td.calls)
  else
    match get_file_name name with
    | none => throw Fault.nullPointer
    | some off => do
      let dir_name ← get_dir_name name
      match ← FileSystem.CreateDirFile fuel fs dir_name with
      | none => pure (false, fs, td.calls)
      | some directory_file =>
        FileSystem.CreateInTraced fuel fs td directory_file (name.drop off) initialSize

/-- The loop of `Directory::remove_all_object` (directory.cc:234-253) on a traced disk;
`removeAll` is the recursive call on a sub-directory's table and file. -/
def Directory.removeLoopTraced (fuel : Nat)
    (removeAll : List DirectoryEntry → OpenFile → Bitmap → TracedDisk →
      Except Fault (Bitmap × TracedDisk)) :
    List DirectoryEntry → Bitmap → TracedDisk →
      Except Fault (List DirectoryEntry × Bitmap × TracedDisk)
  | [], freeMap, td => pure ([], freeMap, td)
  | e :: es, freeMap, td =>
    if e.inUse then do
      let (freeMap1, td1) ←
        if e.type == DIR then do
          let next_directory_files ← OpenFile.open fuel td.disk e.sector
          let next_directory ← Directory.FetchFrom td.disk next_directory_files
            (Directory.new NumDirEntries)
          removeAll next_directory next_directory_files freeMap td
        else pure (freeMap, td)
      let hdr ← FileHeader.FetchFrom fuel td1.disk e.sector
      let freeMap2 ← hdr.Deallocate freeMap1
      let freeMap3 ← freeMap2.Clear e.sector
      let (es', freeMap4, td2) ← Directory.removeLoopTraced fuel removeAll es freeMap3 td1
      pure ({ e with inUse := false } :: es', freeMap4, td2)
    else do
      let (es', freeMap1, td1) ← Directory.removeLoopTraced fuel removeAll es freeMap td
      pure (e :: es', freeMap1, td1)

/-- Source `Directory::remove_all_object` (directory.cc:233-255) on a traced disk: the
write-backs of the sub-directories are recorded by the recursive calls, its own at line
254 by the traced `WriteBack`. -/
def Directory.remove_all_objectTraced : Nat → List DirectoryEntry → OpenFile → Bitmap →
    TracedDisk → Except Fault (List DirectoryEntry × Bitmap × TracedDisk)
  | 0, _, _, _, _ => throw Fault.outOfFuel
  | fuel + 1, table, delete_file, freeMap, td => do
    let (table1, freeMap1, td1) ←
      Directory.removeLoopTraced fuel
        (fun t f b d => do
          let r ← Directory.remove_all_objectTraced fuel t f b d
          pure (r.2.1, r.2.2))
        table freeMap td
    let td2 ← Directory.WriteBackTraced td1 table1 delete_file
    pure (table1, freeMap1, td2)

/-- The branch `rr_flag` of `FileSystem::Remove` (filesys.cc:318-378) on a traced disk:
every statement of `FileSystem.RemoveRecursive` in the same order, the write-backs of
lines 353-354 and 374-375 made through the traced operations. -/
def FileSystem.RemoveRecursiveTraced (fuel : Nat) (fs : FileSystem) (td : TracedDisk)
    (directory : List DirectoryEntry) (file_name : List Char) (dir_name : Option (List Char)) :
    Except Fault (Bool × FileSystem × List WriteBackCall) := do
  let freeMap ← PersistentBitmap.fetch td.disk fs.freeMapFile NumSectors
  let sector ← Directory.Find fuel td.disk directory file_name true
  if sector = -1 then pure (false, fs, td.calls)
  else do
    let tmp_dir ← Directory.FetchFrom td.disk fs.directoryFile (Directory.new NumDirEntries)
    let directory1 ←
      match dir_name with
      | some dir_name => do
        let s ← Directory.Find fuel td.disk directory dir_name true
        let _ ← OpenFile.open fuel td.disk s
        Directory.FetchFrom td.disk fs.directoryFile directory
      | none => pure directory
    let delete_file ← OpenFile.open fuel td.disk sector
    let directory2 ← Directory.FetchFrom td.disk delete_file directory1
    let (_, freeMap1, td1) ←
      Directory.remove_all_objectTraced fuel directory2 delete_file freeMap td
    let fileHdr ← FileHeader.FetchFrom fuel td1.disk sector
    let freeMap2 ← fileHdr.Deallocate freeMap1
    let freeMap3 ← freeMap2.Clear sector
    let (_, tmp_dir1) := Directory.Remove tmp_dir file_name false 0
    let td2 ← PersistentBitmap.WriteBackTraced td1 freeMap3 fs.freeMapFile
    let td3 ← Directory.WriteBackTraced td2 tmp_dir1 fs.directoryFile
    let directory3 ← Directory.FetchFrom td3.disk fs.directoryFile (Directory.new NumDirEntries)
    let (delete_file1, directory4) ←
      match dir_name with
      | some dir_name => do
        let s ← Directory.Find fuel td3.disk directory3 dir_name true
        let f ← OpenFile.open fuel td3.disk s
        let d ← Directory.FetchFrom td3.disk f directory3
        pure (f, d)
      | none => pure (fs.directoryFile, directory3)
    let fi ← Directory.Find fuel td3.disk tmp_dir1 file_name true
    let freeMap4 ← freeMap3.Clear fi
    let (_, directory5) := Directory.Remove directory4 file_name false 0
    let td4 ← PersistentBitmap.WriteBackTraced td3 freeMap4 fs.freeMapFile
    let td5 ← Directory.WriteBackTraced td4 directory5 delete_file1
    pure (true, { fs with disk := td5.disk }, td5.calls)

/-- The branch without `rr_flag` of `FileSystem::Remove` (filesys.cc:379-404) on a traced
disk: every statement of `FileSystem.RemoveFile` in the same order, the write-backs of
lines 401-402 made through the traced operations. -/
def FileSystem.RemoveFileTraced (fuel : Nat) (fs : FileSystem) (td : TracedDisk)
    (directory : List DirectoryEntry) (file_name : List Char) (dir_name : Option (List Char)) :
    Except Fault (Bool × FileSystem × List WriteBackCall) := do
  let (delete_file, directory1) ←
    match dir_name with
    | some dir_name => do
      let s ← Directory.Find fuel td.disk directory dir_name true
      let f ← OpenFile.open fuel td.disk s
      let d ← Directory.FetchFrom td.disk f directory
      pure (f, d)
    | none => pure (fs.directoryFile, directory)
  let sector ← Directory.Find fuel td.disk directory1 file_name false
  if sector = -1 then pure (false, fs, td.calls)
  else do
    let fileHdr ← FileHeader.FetchFrom fuel td.disk sector
    let freeMap ← PersistentBitmap.fetch td.disk fs.freeMapFile NumSectors
    let freeMap1 ← fileHdr.Deallocate freeMap
    let freeMap2 ← freeMap1.Clear sector
    let (valid, directory2) := Directory.Remove directory1 file_name true 0
    if valid then do
      let td1 ← PersistentBitmap.WriteBackTraced td freeMap2 fs.freeMapFile
      let td2 ← Directory.WriteBackTraced td1 directory2 delete_file
      pure (true, { fs with disk := td2.disk }, td2.calls)
    else pure (true, fs, td.calls)

/-- Source `FileSystem::Remove` (filesys.cc:303-410) on a traced disk whose record is empty
on entry: the result, the file system after the call and the write-back calls the call
made, in order. -/
def FileSystem.RemoveTraced (fuel : Nat) (fs : FileSystem) (name : List Char)
    (rr_flag : Bool) : Except Fault (Bool × FileSystem × List WriteBackCall) := do
  let td : TracedDisk := { disk := fs.disk, calls := [] }
  let okLen ← check_len name
  if !okLen then pure (false, fs, td.calls)
  else
    match get_file_name name with
    | none => throw Fault.nullPointer
    | some off => do
      let dir_name ← get_dir_name name
      let directory ← Directory.FetchFrom td.disk fs.directoryFile (Directory.new NumDirEntries)
      if rr_flag then
        FileSystem.RemoveRecursiveTraced fuel fs td directory (name.drop off) dir_name
      else FileSystem.RemoveFileTraced fuel fs td directory (name.drop off) dir_name

/-- The rest of `create_directory` (filesys.cc:495-506, 511-518) on a traced disk: every
statement of `FileSystem.createDirectoryIn` in the same order, the four write-backs made
through the traced operations. -/
def FileSystem.createDirectoryInTraced (fuel : Nat) (fs : FileSystem) (td : TracedDisk)
    (hdr : FileHeader) (freeMap : Bitmap) (freeMapFile : OpenFile)
    (parent : List DirectoryEntry) (parent_file : OpenFile) (file_name : List Char)
    (sector : Int) : Except Fault (FileSystem × List WriteBackCall) := do
  let td1 ← hdr.WriteBackTraced td sector
  let inside_directory_file ← OpenFile.open fuel td1.disk sector
  let td2 ← Directory.WriteBackTraced td1 (Directory.new NumDirEntries) inside_directory_file
  let a := Directory.Add parent file_name sector DIR
  let td3 ← Directory.WriteBackTraced td2 a.2 parent_file
  let td4 ← PersistentBitmap.WriteBackTraced td3 freeMap freeMapFile
  pure ({ fs with disk := td4.disk }, td4.calls)

/-- Source `FileSystem::create_directory` (filesys.cc:473-525) on a traced disk whose record
is empty on entry: the file system after the call and the write-back calls the call made,
in order. -/
def FileSystem.create_directoryTraced (fuel : Nat) (fs : FileSystem) (name : List Char) :
    Except Fault (FileSystem × List WriteBackCall) := do
  let td : TracedDisk := { disk := fs.disk, calls := [] }
  let okLen ← check_len name
  if !okLen then pure (fs, td.calls)
  else
    match get_file_name name with
    | none => throw Fault.nullPointer
    | some off => do
      let dir_name ← get_dir_name name
      let freeMap ← PersistentBitmap.fetch td.disk fs.freeMapFile NumSectors
      let freeMapFile ← OpenFile.open fuel td.disk FreeMapSector
      let al ← FileHeader.Allocate freeMap DirectoryFileSize
      let directory ← Directory.FetchFrom td.disk fs.directoryFile (Directory.new NumDirEntries)
      match dir_name with
      | some dir_name => do
        let dir_file_sector ← Directory.Find fuel td.disk directory dir_name true
        if dir_file_sector = -1 then pure (fs, td.calls)
        else do
          let current_directory_files ← OpenFile.open fuel td.disk dir_file_sector
          let current_directory ← Directory.FetchFrom td.disk current_directory_files
            (Directory.new NumDirEntries)
          let r := al.2.2.FindAndSet
          FileSystem.createDirectoryInTraced fuel fs td al.2.1 r.2 freeMapFile
            current_directory current_directory_files (name.drop off) r.1
      | none =>
        let r := al.2.2.FindAndSet
        if r.1 = -1 then pure (fs, td.calls)
        else
          FileSystem.createDirectoryInTraced fuel fs td al.2.1 r.2 freeMapFile directory
            fs.directoryFile (name.drop off) r.1

/-! ## Specification vocabulary for the scheduler -/

/-- What one visit of an `Aging` loop does to the thread object it stands on, whichever
of the three loops it is: 100 ticks more waiting time; at 1500 the counter drops by
1500, the stamp is renewed and the priority is set to ten more. -/
def agedThread (totalTicks : Int) (t : Thread) : Thread :=
  if t.waitingTime + 100 ≥ 1500 then
    { t with waitingTime := t.waitingTime + 100 - 1500,
             readyTime := totalTicks,
             priority := if t.priority + 10 > 149 then 149 else t.priority + 10 }
  else
    { t with waitingTime := t.waitingTime + 100 }

/-- The ready lists hold each thread once and each list holds the threads of its
priority band: L1 from 100, L2 50..99, L3 up to 49. -/
def Scheduler.WellQueued (s : Scheduler) : Prop :=
  s.queued.Nodup ∧
  (∀ p ∈ s.readyListL1, 100 ≤ (s.threads p).priority) ∧
  (∀ p ∈ s.readyListL2, 50 ≤ (s.threads p).priority ∧ (s.threads p).priority ≤ 99) ∧
  (∀ p ∈ s.readyListL3, (s.threads p).priority ≤ 49)

/-- Scheduler states the kernel can reach: from the empty scheduler by `ReadyToRun` on a
thread that is in no ready list and has a priority in [0,149], by `FindNextToRun` and by
a call of `Aging` that returns; in between the rest of the kernel may rewrite a thread
object that is in no ready list (creation, burst-time update of the running thread) and
the clock may advance. -/
inductive Reachable : Scheduler → Prop
  | init (threads : Nat → Thread) (totalTicks : Int) :
      Reachable (Scheduler.init threads totalTicks)
  | ready (s : Scheduler) (p : Nat) : Reachable s → p ∉ s.queued →
      0 ≤ (s.threads p).priority → (s.threads p).priority ≤ 149 →
      Reachable (s.ReadyToRun p)
  | find (s : Scheduler) : Reachable s → Reachable (s.FindNextToRun).2
  | aging (s s' : Scheduler) : Reachable s → s.Aging = Except.ok s' → Reachable s'
  | update (s : Scheduler) (p : Nat) (t : Thread) : Reachable s → p ∉ s.queued →
      Reachable { s with threads := setThread s.threads p t }
  | tick (s : Scheduler) (totalTicks : Int) : Reachable s →
      Reachable { s with totalTicks := totalTicks }

/-- Function `Aging` called `k` times in a row. -/
def Scheduler.AgingTimes : Nat → Scheduler → Except Fault Scheduler
  | 0, s => pure s
  | k + 1, s => do
    let s' ← Scheduler.AgingTimes k s
    s'.Aging

/-- Whether a call of the scheduler came back. -/
def Scheduler.returned (r : Except Fault Scheduler) : Bool :=
  match r with
  | .ok _ => true
  | .error _ => false

/-- The scheduler a call left behind; `dflt` stands for a call that did not come back. -/
def Scheduler.after (r : Except Fault Scheduler) (dflt : Scheduler) : Scheduler :=
  match r with
  | .ok s => s
  | .error _ => dflt

/-! ## Concrete scheduler scenarios -/

/-- Three threads at addresses 1, 2, 3 with ids 1, 2, 3 and priorities 40, 60, 120;
every other address holds an idle thread object. -/
def heap3 : Nat → Thread := fun p =>
  if p = 1 then ⟨1, 40, 0, 0, ThreadStatus.JUST_CREATED, 0⟩
  else if p = 2 then ⟨2, 60, 0, 0, ThreadStatus.JUST_CREATED, 0⟩
  else if p = 3 then ⟨3, 120, 0, 0, ThreadStatus.JUST_CREATED, 0⟩
  else ⟨0, 0, 0, 0, ThreadStatus.JUST_CREATED, 0⟩

/-- The scheduler after T1 (priority 40), T2 (priority 60), T3 (priority 120) were made
ready in that order. -/
def sched3 : Scheduler :=
  (((Scheduler.init heap3 0).ReadyToRun 1).ReadyToRun 2).ReadyToRun 3

/-- The order of L1: smaller burst-time estimate first, equal estimates by smaller id. -/
def burstLe (h : Nat → Thread) (a b : Nat) : Prop :=
  (h a).burstTime < (h b).burstTime ∨
    ((h a).burstTime = (h b).burstTime ∧ (h a).ID ≤ (h b).ID)

/-- The order of L2: greater priority first, equal priorities by smaller id. -/
def priorityLe (h : Nat → Thread) (a b : Nat) : Prop :=
  (h a).priority > (h b).priority ∨
    ((h a).priority = (h b).priority ∧ (h a).ID ≤ (h b).ID)

/-- One thread at address 1 with id 1, priority 45 and waiting time 0; every other
address holds an idle thread object. -/
def heap45 : Nat → Thread := fun p =>
  if p = 1 then ⟨1, 45, 0, 0, ThreadStatus.JUST_CREATED, 0⟩
  else ⟨0, 0, 0, 0, ThreadStatus.JUST_CREATED, 0⟩

/-- The scheduler after the priority-45 thread was made ready at tick 0 and `Aging` ran
`k` times. -/
def sched45 (k : Nat) : Scheduler :=
  Scheduler.after (Scheduler.AgingTimes k ((Scheduler.init heap45 0).ReadyToRun 1))
    (Scheduler.init heap45 0)

/-- Two L2 threads: address 1 holds id 1 with priority 65, address 2 holds id 2 with
priority 60; both with waiting time 0. -/
def heapL2 : Nat → Thread := fun p =>
  if p = 1 then ⟨1, 65, 0, 0, ThreadStatus.JUST_CREATED, 0⟩
  else if p = 2 then ⟨2, 60, 0, 0, ThreadStatus.JUST_CREATED, 0⟩
  else ⟨0, 0, 0, 0, ThreadStatus.JUST_CREATED, 0⟩

/-- Thread 2 (priority 60) is made ready, `Aging` runs 14 times, thread 1 (priority 65)
is made ready, and `Aging` runs once more. -/
def schedL2 : Scheduler :=
  Scheduler.after
    ((Scheduler.after (Scheduler.AgingTimes 14 ((Scheduler.init heapL2 0).ReadyToRun 2))
        (Scheduler.init heapL2 0)).ReadyToRun 1).Aging
    (Scheduler.init heapL2 0)

/-- Two L1 threads with the same burst-time estimate 5: address 1 holds T_a (id 2),
address 2 holds T_b (id 1). -/
def heapTie : Nat → Thread := fun p =>
  if p = 1 then ⟨2, 120, 5, 0, ThreadStatus.JUST_CREATED, 0⟩
  else if p = 2 then ⟨1, 120, 5, 0, ThreadStatus.JUST_CREATED, 0⟩
  else ⟨0, 0, 0, 0, ThreadStatus.JUST_CREATED, 0⟩

/-- T_a then T_b made ready, in that order. -/
def schedTie : Scheduler := ((Scheduler.init heapTie 0).ReadyToRun 1).ReadyToRun 2

/-- One L1 thread at address 1 with priority 145 that has waited 1400 ticks. -/
def heapCap : Nat → Thread := fun p =>
  if p = 1 then ⟨1, 145, 0, 1400, ThreadStatus.JUST_CREATED, 0⟩
  else ⟨0, 0, 0, 0, ThreadStatus.JUST_CREATED, 0⟩

/-- The priority-145 thread made ready. -/
def schedCap : Scheduler := (Scheduler.init heapCap 0).ReadyToRun 1

/-- The scheduler after one `Aging` call on `schedCap`. -/
def schedCapAged : Scheduler := Scheduler.after schedCap.Aging schedCap

/-- Two L3 threads with priority 45 and waiting time 0: address 1 holds U (id 1),
address 2 holds T (id 2). -/
def heapPair : Nat → Thread := fun p =>
  if p = 1 then ⟨1, 45, 0, 0, ThreadStatus.JUST_CREATED, 0⟩
  else if p = 2 then ⟨2, 45, 0, 0, ThreadStatus.JUST_CREATED, 0⟩
  else ⟨0, 0, 0, 0, ThreadStatus.JUST_CREATED, 0⟩

/-- U then T made ready at tick 0, followed by `k` calls of `Aging`. -/
def schedPair (k : Nat) : Scheduler :=
  Scheduler.after
    (Scheduler.AgingTimes k (((Scheduler.init heapPair 0).ReadyToRun 1).ReadyToRun 2))
    (Scheduler.init heapPair 0)

/-- Three threads: address 1 holds A (id 1, priority 95, burst 5), address 2 holds B
(id 2, priority 60), address 3 holds C (id 3, priority 120, burst 9); all with waiting
time 0. -/
def heapABC : Nat → Thread := fun p =>
  if p = 1 then ⟨1, 95, 5, 0, ThreadStatus.JUST_CREATED, 0⟩
  else if p = 2 then ⟨2, 60, 0, 0, ThreadStatus.JUST_CREATED, 0⟩
  else if p = 3 then ⟨3, 120, 9, 0, ThreadStatus.JUST_CREATED, 0⟩
  else ⟨0, 0, 0, 0, ThreadStatus.JUST_CREATED, 0⟩

/-- A is made ready and `Aging` runs 14 times, so A has waited 1400 ticks; then B and C
are made ready: L1 = [C], L2 = [A, B]. -/
def schedABC : Scheduler :=
  (((Scheduler.after (Scheduler.AgingTimes 14 ((Scheduler.init heapABC 0).ReadyToRun 1))
      (Scheduler.init heapABC 0)).ReadyToRun 2).ReadyToRun 3)

/-- The scheduler after one more `Aging` call on `schedABC`. -/
def schedABCaged : Scheduler := Scheduler.after schedABC.Aging schedABC

/-! ## Specification vocabulary for the file system -/

/-- The sectors a header chain records: the data sectors in use in every header and the
sectors of the chained headers. -/
def FileHeader.allSectors : FileHeader → List Int
  | .last _ ns ds _ => ds.take ns.toNat
  | .link _ ns ds nx next_hdf => ds.take ns.toNat ++ nx :: FileHeader.allSectors next_hdf

/-- Number of headers in a chain. -/
def FileHeader.chainLength : FileHeader → Nat
  | .last _ _ _ _ => 1
  | .link _ _ _ _ next_hdf => FileHeader.chainLength next_hdf + 1

/-- The header of a directory file: one header for `DirectoryFileSize` bytes, as
`Allocate(freeMap, DirectoryFileSize)` builds it. -/
def FileHeader.isDirectoryHeader : FileHeader → Bool
  | .last nb ns ds nx =>
    nb == DirectoryFileSize && ns == divRoundUp DirectoryFileSize SectorSize &&
      nx == -1 && ds.length == NumDirect
  | .link _ _ _ _ _ => false

/-- The header of the free-map file: one header for `FreeMapFileSize` bytes, as
`Allocate(freeMap, FreeMapFileSize)` builds it. -/
def FileHeader.isFreeMapHeader : FileHeader → Bool
  | .last nb ns ds nx =>
    nb == FreeMapFileSize && ns == divRoundUp FreeMapFileSize SectorSize &&
      nx == -1 && ds.length == NumDirect
  | .link _ _ _ _ _ => false

/-- The sectors held by one directory entry: nothing for a free entry; the header sector
and the recorded sectors of the header chain for a file; for a sub-directory also the
sectors held by the entries of its table (computed by `below`). -/
def entrySectors (fuel : Nat) (disk : Disk)
    (below : List DirectoryEntry → Except Fault (List Int)) (e : DirectoryEntry) :
    Except Fault (List Int) :=
  if !e.inUse then pure []
  else do
    let f ← OpenFile.open fuel disk e.sector
    if e.type == DIR then
      if f.hdr.isDirectoryHeader then do
        let t ← Directory.FetchFrom disk f (Directory.new NumDirEntries)
        let sub ← below t
        pure (e.sector :: f.hdr.allSectors ++ sub)
      else throw Fault.unspecified
    else pure (e.sector :: f.hdr.allSectors)

/-- The sectors held by the entries of a list, in order. -/
def entriesSectors (fuel : Nat) (disk : Disk)
    (below : List DirectoryEntry → Except Fault (List Int)) :
    List DirectoryEntry → Except Fault (List Int)
  | [] => pure []
  | e :: es => do
    let a ← entrySectors fuel disk below e
    let b ← entriesSectors fuel disk below es
    pure (a ++ b)

/-- The sectors held by everything below a directory table, to depth `fuel`. -/
def treeSectors : Nat → Disk → List DirectoryEntry → Except Fault (List Int)
  | 0, _, _ => throw Fault.outOfFuel
  | fuel + 1, disk, table => entriesSectors fuel disk (treeSectors fuel disk) table

/-- A consistent file system: the free map and the root directory can be read from their
files, whose headers have the shape the formatter gives them; every directory below the
root can be loaded (within `fuel`) and is stored in a directory file; and the sectors
held by the two system files and by all files and directories are pairwise distinct,
lie on the disk and are marked in the free map. -/
def FileSystem.Consistent (fuel : Nat) (fs : FileSystem) : Prop :=
  ∃ freeMap rootTable below,
    PersistentBitmap.fetch fs.disk fs.freeMapFile NumSectors = .ok freeMap ∧
    Directory.FetchFrom fs.disk fs.directoryFile (Directory.new NumDirEntries) =
      .ok rootTable ∧
    treeSectors fuel fs.disk rootTable = .ok below ∧
    fs.freeMapFile.hdr.isFreeMapHeader = true ∧
    fs.directoryFile.hdr.isDirectoryHeader = true ∧
    (fs.freeMapFile.sector :: fs.freeMapFile.hdr.allSectors ++
      (fs.directoryFile.sector :: fs.directoryFile.hdr.allSectors ++ below)).Nodup ∧
    ∀ s ∈ fs.freeMapFile.sector :: fs.freeMapFile.hdr.allSectors ++
        (fs.directoryFile.sector :: fs.directoryFile.hdr.allSectors ++ below),
      0 ≤ s ∧ s < NumSectors ∧ freeMap[s.toNat]? = some true

/-- Sectors `Allocate(freeMap, n)` takes for a file of `n` bytes: one per started
`SectorSize` bytes and one per header after the first. -/
def sectorsNeeded (n : Int) : Int :=
  divRoundUp n SectorSize + (if n ≤ MaxFileSize then 0 else divRoundUp n MaxFileSize - 1)

/-- A bitmap after some of its clear bits were taken: the sectors `got` are distinct, in
range, were clear and are now marked; no other bit changed. -/
def Took (b : Bitmap) (got : List Int) (b' : Bitmap) : Prop :=
  b'.length = b.length ∧ got.Nodup ∧
  (∀ x ∈ got, 0 ≤ x ∧ b[x.toNat]? = some false ∧ b'[x.toNat]? = some true) ∧
  (∀ j : Nat, (j : Int) ∉ got → b'[j]? = b[j]?) ∧
  (b'.count false : Int) + got.length = b.count false

/-- A chain as `Allocate` links it: the last header has `next_hdf_sector = -1`, every
other header a `next_hdf_sector` different from -1. -/
def FileHeader.WellFormed : FileHeader → Prop
  | .last _ _ _ nx => nx = -1
  | .link _ _ _ nx next_hdf => nx ≠ -1 ∧ FileHeader.WellFormed next_hdf

/-- The sectors that hold the headers of a chain stored at `sector`. -/
def FileHeader.headerSectors : FileHeader → Int → List Int
  | .last _ _ _ _, sector => [sector]
  | .link _ _ _ nx next_hdf, sector => sector :: FileHeader.headerSectors next_hdf nx

/-- The disk holds the header chain `hdr` at `sector`. -/
def HoldsChain (disk : Disk) : FileHeader → Int → Prop
  | .last nb ns ds nx, sector =>
    (0 ≤ sector ∧ sector < NumSectors) ∧ disk sector.toNat = .header nb ns nx ds ∧ nx = -1
  | .link nb ns ds nx next_hdf, sector =>
    (0 ≤ sector ∧ sector < NumSectors) ∧ disk sector.toNat = .header nb ns nx ds ∧
      nx ≠ -1 ∧ HoldsChain disk next_hdf nx

/-- The sectors of the list hold the stretches `i, i+1, ...` of the object. -/
def HoldsPieces (disk : Disk) (obj : FileObject) : List Int → Nat → Prop
  | [], _ => True
  | s :: rest, i =>
    (0 ≤ s ∧ s < NumSectors) ∧ disk s.toNat = .piece obj i ∧ HoldsPieces disk obj rest (i + 1)

/-! ## Concrete file systems -/

/-- A disk on which nothing was written yet. -/
def blankDisk : Disk := fun _ => SectorData.blank

/-- A table whose 64 entries are all in use (files `x` on sectors 13, 14, ...). -/
def fullTable : List DirectoryEntry :=
  (List.range NumDirEntries).map
    (fun i => { inUse := true, name := ['x'], sector := (13 + i : Nat), type := FILE })

/-- The file system on a freshly formatted disk. -/
def formattedFS : FileSystem :=
  match FileSystem.format blankDisk with
  | .ok fs => fs
  | .error _ =>
    { disk := blankDisk, freeMapFile := ⟨FreeMapSector, FileHeader.new⟩,
      directoryFile := ⟨DirectorySector, FileHeader.new⟩ }

/-- The path `/f`. -/
def pathF : List Char := ['/', 'f']

/-- The path `/abcdefghij`, whose final name has ten characters. -/
def pathLong : List Char := ['/', 'a', 'b', 'c', 'd', 'e', 'f', 'g', 'h', 'i', 'j']

/-- The path `/d/f`. -/
def pathDF : List Char := ['/', 'd', '/', 'f']

/-- The file system after `Create("/f", 5 * SectorSize)` on the freshly formatted disk. -/
def fsWithF : FileSystem :=
  match FileSystem.Create 5 formattedFS pathF (5 * SectorSize) with
  | .ok (_, fs) => fs
  | .error _ => formattedFS

/-- The free map stored on the freshly formatted disk. -/
def formattedMap : Bitmap :=
  match PersistentBitmap.fetch formattedFS.disk formattedFS.freeMapFile NumSectors with
  | .ok b => b
  | .error _ => []

/-! ## Specification vocabulary for header chains -/

/-- The headers of a chain, first to last. -/
def FileHeader.chain : FileHeader → List FileHeader
  | .last nb ns ds nx => [.last nb ns ds nx]
  | .link nb ns ds nx next_hdf => .link nb ns ds nx next_hdf :: FileHeader.chain next_hdf

/-- The `dataSectors` arrays of the headers of a chain, one after the other in chain
order. -/
def FileHeader.allData : FileHeader → List Int
  | .last _ _ ds _ => ds
  | .link _ _ ds _ next_hdf => ds ++ FileHeader.allData next_hdf

/-- The data sectors a chain records: `dataSectors[i]` for `i < numSectors` of every
header. -/
def FileHeader.usedData : FileHeader → List Int
  | .last _ ns ds _ => ds.take ns.toNat
  | .link _ ns ds _ next_hdf => ds.take ns.toNat ++ FileHeader.usedData next_hdf

/-- The sizes the specification gives the headers of a chain that is to hold `remaining`
bytes: `numBytes = min(remaining, MaxFileSize)`, `numSectors = ceil(numBytes /
SectorSize)`, and the next header holds what is left. -/
def FileHeader.SizedFor : FileHeader → Int → Prop
  | .last nb ns _ _, remaining =>
    nb = min remaining MaxFileSize ∧ ns = (nb + SectorSize - 1) / SectorSize
  | .link nb ns _ _ next_hdf, remaining =>
    nb = min remaining MaxFileSize ∧ ns = (nb + SectorSize - 1) / SectorSize ∧
      FileHeader.SizedFor next_hdf (remaining - nb)

/-- What the fields of a chain are after `Allocate(freeMap, fileSize)` returned `true`, read
off the assignments of filehdr.cc:91-107. -/
def FileHeader.AllocatedFor : FileHeader → Int → Prop
  | .last nb ns ds nx, fileSize =>
    nb = (if fileSize < MaxFileSize then fileSize else MaxFileSize) ∧
      ns = divRoundUp nb SectorSize ∧ ds.length = NumDirect ∧ nx = -1 ∧ ¬ fileSize - nb > 0
  | .link nb ns ds nx next_hdf, fileSize =>
    nb = (if fileSize < MaxFileSize then fileSize else MaxFileSize) ∧
      ns = divRoundUp nb SectorSize ∧ ds.length = NumDirect ∧ nx ≠ -1 ∧ fileSize - nb > 0 ∧
      FileHeader.AllocatedFor next_hdf (fileSize - nb)

/-! ## Concrete allocations and directory trees -/

/-- The result of a call of `Allocate`, or a failed result when the call did not return. -/
def allocResult (r : Except Fault (Bool × FileHeader × Bitmap)) : Bool × FileHeader × Bitmap :=
  match r with
  | .ok v => v
  | .error _ => (false, FileHeader.new, [])

/-- The result of `Allocate(freeMap, 4000)` on the free map of the freshly formatted disk:
a chain of two headers. -/
def alloc4000 : Bool × FileHeader × Bitmap :=
  allocResult (FileHeader.Allocate formattedMap 4000)

/-- The result of `Allocate(freeMap, 5000)` on the free map of the freshly formatted
disk. -/
def alloc5000 : Bool × FileHeader × Bitmap :=
  allocResult (FileHeader.Allocate formattedMap 5000)

/-- The result of `Allocate(freeMap, 7500)` on the free map of the freshly formatted disk:
a chain of three headers. -/
def alloc7500 : Bool × FileHeader × Bitmap :=
  allocResult (FileHeader.Allocate formattedMap 7500)

/-- Whether a call returned, with result `b`. -/
def returned (r : Except Fault (Bool × FileSystem)) (b : Bool) : Bool :=
  match r with
  | .ok (b', _) => b' == b
  | .error _ => false

/-- Whether `create_directory` returned. -/
def returnedDir (r : Except Fault FileSystem) : Bool :=
  match r with
  | .ok _ => true
  | .error _ => false

/-- The fault a call ended in, if it did not return. -/
def faultOf {α : Type} (r : Except Fault α) : Option Fault :=
  match r with
  | .ok _ => none
  | .error f => some f

/-- The file system a call left, or `dflt` when the call did not return. -/
def FileSystem.after (r : Except Fault (Bool × FileSystem)) (dflt : FileSystem) : FileSystem :=
  match r with
  | .ok (_, fs) => fs
  | .error _ => dflt

/-- The file system `create_directory` left, or `dflt` when the call did not return. -/
def FileSystem.afterDir (r : Except Fault FileSystem) (dflt : FileSystem) : FileSystem :=
  match r with
  | .ok fs => fs
  | .error _ => dflt

/-- The path `/d`. -/
def pathD : List Char := ['/', 'd']

/-- The path `/d/g`. -/
def pathDG : List Char := ['/', 'd', '/', 'g']

/-- The path `/a`. -/
def pathA : List Char := ['/', 'a']

/-- The path `/a/x`. -/
def pathAX : List Char := ['/', 'a', '/', 'x']

/-- The path `/x`. -/
def pathX : List Char := ['/', 'x']

/-- The file system after `Create("/f", 4000)` on the freshly formatted disk: a file of two
headers. -/
def fsBigF : FileSystem :=
  FileSystem.after (FileSystem.Create 5 formattedFS pathF 4000) formattedFS

/-- The file system after `Remove("/f", false)` on `fsBigF`. -/
def fsBigFRemoved : FileSystem :=
  FileSystem.after (FileSystem.Remove 5 fsBigF pathF false) fsBigF

/-- The file system after `create_directory("/d")` on the freshly formatted disk. -/
def fsWithD : FileSystem :=
  FileSystem.afterDir (FileSystem.create_directory 5 formattedFS pathD) formattedFS

/-- The file system after `Create("/d/g", SectorSize)` on `fsWithD`. -/
def fsWithDG : FileSystem :=
  FileSystem.after (FileSystem.Create 5 fsWithD pathDG SectorSize) fsWithD

/-- The file system after `create_directory("/a")` on the freshly formatted disk. -/
def fsWithA : FileSystem :=
  FileSystem.afterDir (FileSystem.create_directory 5 formattedFS pathA) formattedFS

/-- The file system after `Create("/a/x", 0)` on `fsWithA`. -/
def fsWithAX : FileSystem :=
  FileSystem.after (FileSystem.Create 5 fsWithA pathAX 0) fsWithA

/-- The file system after `create_directory("/x")` on `fsWithAX`: the name `x` is in use in
the root and in `/a`. -/
def fsTwoX : FileSystem :=
  FileSystem.afterDir (FileSystem.create_directory 5 fsWithAX pathX) fsWithAX

/-- The file system after `Remove("/x", true)` on `fsTwoX`. -/
def fsTwoXRemoved : FileSystem :=
  FileSystem.after (FileSystem.Remove 5 fsTwoX pathX true) fsTwoX

/-! ## Specification vocabulary for the search of a directory tree -/

/-- The in-use entries met below the in-use sub-directory entries of a list, taken in table
order; `below` lists what is met in a sub-directory's table. -/
def subEntries (fuel : Nat) (disk : Disk)
    (below : List DirectoryEntry → Except Fault (List DirectoryEntry)) :
    List DirectoryEntry → Except Fault (List DirectoryEntry)
  | [] => pure []
  | e :: es =>
    if e.inUse && e.type == DIR then do
      let f ← OpenFile.open fuel disk e.sector
      let t ← Directory.FetchFrom disk f (Directory.new NumDirEntries)
      let a ← below t
      let b ← subEntries fuel disk below es
      pure (a ++ b)
    else subEntries fuel disk below es

/-- The in-use entries of a directory tree in the order of a depth-first descent: the
entries of this directory in table order, then, for each in-use sub-directory entry in
table order, the entries of its tree.  The result exists when every directory of the tree
can be loaded and the tree is no deeper than `fuel` (a cyclic tree is too deep for every
`fuel`). -/
def searchOrder : Nat → Disk → List DirectoryEntry → Except Fault (List DirectoryEntry)
  | 0, _, _ => throw Fault.outOfFuel
  | fuel + 1, disk, table => do
    let below ← subEntries fuel disk (searchOrder fuel disk) table
    pure (table.filter (·.inUse) ++ below)

/-- The sector of the first entry of a list whose name matches, or -1. -/
def firstNamed (name : List Char) (l : List DirectoryEntry) : Int :=
  match l.find? (fun e => nameMatch e.name name) with
  | some e => e.sector
  | none => -1

/-! ## Concrete directory tables and descriptor tables -/

/-- A table of four entries: `f` (a file) in use at index 0, a free entry at index 1, `d`
(a directory) in use at index 2, a free entry at index 3. -/
def smallTable : List DirectoryEntry :=
  [⟨true, ['f'], 13, FILE⟩, DirectoryEntry.zero, ⟨true, ['d'], 23, DIR⟩, DirectoryEntry.zero]

/-- A descriptor table whose 20 slots all hold a handle. -/
def fullDescriptors : List (Option OpenFile) :=
  List.replicate 20 (some ⟨13, FileHeader.new⟩)

/-- A descriptor table whose 20 slots are all `NULL`. -/
def emptyDescriptors : List (Option OpenFile) := List.replicate 20 none

/-- A descriptor table whose slots 0 and 1 hold a handle and whose other slots are
`NULL`. -/
def twoDescriptors : List (Option OpenFile) :=
  some ⟨13, FileHeader.new⟩ :: some ⟨13, FileHeader.new⟩ :: List.replicate 18 none

/-- The handle `Open("/f")` returns after `Create("/f", 5 * SectorSize)` on the freshly
formatted disk. -/
def handleF : OpenFile :=
  match FileSystem.Open 5 fsWithF pathF with
  | .ok (some h) => h
  | _ => ⟨-1, FileHeader.new⟩

/-- The file system after a second `create_directory("/d")` on `fsWithD`. -/
def fsWithDD : FileSystem :=
  FileSystem.afterDir (FileSystem.create_directory 5 fsWithD pathD) fsWithD

/-- The file system after `Create("/d/g", 4000)` on `fsWithD`: the directory `/d` holds a
file of two headers. -/
def fsWithDBig : FileSystem :=
  FileSystem.after (FileSystem.Create 5 fsWithD pathDG 4000) fsWithD

/-- The free map in which exactly the sectors below `n` are marked. -/
def markedBelow (n : Nat) : Bitmap := (List.range NumSectors).map (fun i => decide (i < n))

/-- The handle of the directory file of `/d` (header sector 23, data sectors 13 to 22). -/
def handleD : OpenFile :=
  ⟨23, .last 1216 10 ([13, 14, 15, 16, 17, 18, 19, 20, 21, 22] ++ List.replicate 19 (-1)) (-1)⟩

/-- The disk `remove_all_object` left, or `dflt` when the call did not return. -/
def diskAfter (r : Except Fault (List DirectoryEntry × Bitmap × Disk)) (dflt : Disk) : Disk :=
  match r with
  | .ok (_, _, disk) => disk
  | .error _ => dflt

/-- The table and the bitmap `remove_all_object` left. -/
def tableAndMap (r : Except Fault (List DirectoryEntry × Bitmap × Disk)) :
    Option (List DirectoryEntry × Bitmap) :=
  match r with
  | .ok (t, m, _) => some (t, m)
  | .error _ => none

/-- The path `/s1/s2/.../sk` of the segments `s1, ..., sk`. -/
def pathOf : List (List Char) → List Char
  | [] => []
  | s :: rest => ('/' :: s) ++ pathOf rest

/-- The tokens of the path of `segs` that starts at offset `i`: every segment with the
offset of its first character. -/
def tokensOf : List (List Char) → Nat → List (Nat × List Char)
  | [], _ => []
  | s :: rest, i => (i + 1, s) :: tokensOf rest (i + 1 + s.length)

/-- A directory path with a trailing `'/'`. -/
def pathATrail : List Char := ['/', 'a', '/']

/-- The result and the write-back calls of a traced `Create` or `Remove`, when the call
returned. -/
def tracedCalls (r : Except Fault (Bool × FileSystem × List WriteBackCall)) :
    Option (Bool × List WriteBackCall) :=
  match r with
  | .ok v => some (v.1, v.2.2)
  | .error _ => none

/-- The write-back calls of a traced `create_directory`, when the call returned. -/
def tracedDirCalls (r : Except Fault (FileSystem × List WriteBackCall)) :
    Option (List WriteBackCall) :=
  match r with
  | .ok v => some v.2
  | .error _ => none

/-- The record `after` continues the record `before` with write-backs of directory tables
only. -/
def DirectoryCallsOnly (before after : List WriteBackCall) : Prop :=
  ∃ more, after = before ++ more ∧ ∀ w ∈ more, ∃ s, w = WriteBackCall.directory s

/-! # Theorems: scheduler -/

/-! ## Lemmas on the list operations -/

theorem mem_SortedList_Insert {α : Type} (cmp : α → α → Int) (a x : α) (l : List α) :
    x ∈ SortedList_Insert cmp a l ↔ x = a ∨ x ∈ l := by
  induction l with
  | nil => simp [SortedList_Insert]
  | cons y ys ih =>
    unfold SortedList_Insert
    split
    · simp
    · simp only [List.mem_cons, ih]
      tauto

theorem perm_SortedList_Insert {α : Type} (cmp : α → α → Int) (a : α) (l : List α) :
    (SortedList_Insert cmp a l).Perm (a :: l) := by
  induction l with
  | nil => simp [SortedList_Insert]
  | cons y ys ih =>
    unfold SortedList_Insert
    split
    · exact List.Perm.refl _
    · exact (List.Perm.cons y ih).trans (List.Perm.swap a y ys)

theorem erase_SortedList_Insert (cmp : Nat → Nat → Int) (a : Nat) (l : List Nat)
    (h : a ∉ l) : (SortedList_Insert cmp a l).erase a = l := by
  induction l with
  | nil => simp [SortedList_Insert]
  | cons y ys ih =>
    have hy : y ≠ a := fun e => h (by simp [e])
    have hys : a ∉ ys := fun e => h (by simp [e])
    unfold SortedList_Insert
    split
    · simp
    · rw [List.erase_cons_tail (by simpa using hy), ih hys]

/-! ## FindNextToRun -/

/-- C1: `FindNextToRun` returns the front of L1 if L1 is non-empty, otherwise the front
of L2 if L2 is non-empty, otherwise the front of L3, and `NULL` exactly when the three
lists are empty; no thread object is touched; the returned thread is unlinked from its
list (each list afterwards is the old list without that thread, so every other ready
thread keeps its list and position) and, the ready lists holding each thread once, it is
in none of L1, L2, L3 afterwards. -/
theorem FindNextToRun_spec (s : Scheduler) (hnd : s.queued.Nodup) :
    (s.readyListL1 ≠ [] → (s.FindNextToRun).1 = s.readyListL1.head?) ∧
    (s.readyListL1 = [] → s.readyListL2 ≠ [] →
      (s.FindNextToRun).1 = s.readyListL2.head?) ∧
    (s.readyListL1 = [] → s.readyListL2 = [] →
      (s.FindNextToRun).1 = s.readyListL3.head?) ∧
    ((s.FindNextToRun).1 = none ↔
      s.readyListL1 = [] ∧ s.readyListL2 = [] ∧ s.readyListL3 = []) ∧
    (s.FindNextToRun).2.threads = s.threads ∧
    (∀ t, (s.FindNextToRun).1 = some t →
      t ∈ s.queued ∧ t ∉ (s.FindNextToRun).2.queued ∧
      (s.FindNextToRun).2.readyListL1 = s.readyListL1.erase t ∧
      (s.FindNextToRun).2.readyListL2 = s.readyListL2.erase t ∧
      (s.FindNextToRun).2.readyListL3 = s.readyListL3.erase t) := by
  obtain ⟨h, l1, l2, l3, tk⟩ := s
  simp only [Scheduler.queued] at hnd
  cases l1 with
  | cons a r1 =>
    simp only [List.cons_append, List.nodup_cons, List.mem_append, not_or] at hnd
    obtain ⟨⟨⟨h1, h2⟩, h3⟩, -⟩ := hnd
    simp [Scheduler.FindNextToRun, Scheduler.queued, List.erase_of_not_mem h2,
      List.erase_of_not_mem h3, h1, h2, h3]
  | nil =>
    cases l2 with
    | cons a r2 =>
      simp only [List.nil_append, List.cons_append, List.nodup_cons, List.mem_append,
        not_or] at hnd
      obtain ⟨⟨h2, h3⟩, -⟩ := hnd
      simp [Scheduler.FindNextToRun, Scheduler.queued, List.erase_of_not_mem h3, h2, h3]
    | nil =>
      cases l3 with
      | cons a r3 =>
        simp only [List.nil_append, List.nodup_cons] at hnd
        obtain ⟨h3, -⟩ := hnd
        simp [Scheduler.FindNextToRun, Scheduler.queued, h3]
      | nil => simp [Scheduler.FindNextToRun, Scheduler.queued]

/-- Witness for C1: T1 (priority 40), T2 (priority 60), T3 (priority 120) made ready in
that order are handed out as T3, T2, T1, after which `NULL` is returned. -/
theorem FindNextToRun_spec_witness :
    sched3.queued.Nodup ∧
    (sched3.FindNextToRun).1 = some 3 ∧
    3 ∉ (sched3.FindNextToRun).2.queued ∧
    ((sched3.FindNextToRun).2.FindNextToRun).1 = some 2 ∧
    (((sched3.FindNextToRun).2.FindNextToRun).2.FindNextToRun).1 = some 1 ∧
    ((((sched3.FindNextToRun).2.FindNextToRun).2.FindNextToRun).2.FindNextToRun).1 = none :=
  ⟨by decide, by decide,
   ((FindNextToRun_spec sched3 (by decide)).2.2.2.2.2 3 (by decide)).2.1,
   by decide, by decide, by decide⟩

/-! ## ReadyToRun -/

theorem setThread_same (h : Nat → Thread) (p : Nat) (t : Thread) :
    setThread h p t p = t := by
  simp [setThread]

theorem setThread_other (h : Nat → Thread) (p q : Nat) (t : Thread) (hq : q ≠ p) :
    setThread h p t q = h q := by
  simp [setThread, hq]

/-- C2: for a thread with priority in [0,149] that is in no ready list, `ReadyToRun`
sets its status to READY, leaves its priority and every other thread object alone, and
links it into exactly one list: at the tail of L3 for priority 0..49, into L2 for
50..99, into L1 for 100..149 (the list without the new thread is the old list); the
two other lists are unchanged. -/
theorem ReadyToRun_spec (s : Scheduler) (thread : Nat)
    (hlo : 0 ≤ (s.threads thread).priority) (hhi : (s.threads thread).priority ≤ 149)
    (hnq : thread ∉ s.queued) :
    ((s.ReadyToRun thread).threads thread).status = ThreadStatus.READY ∧
    ((s.ReadyToRun thread).threads thread).priority = (s.threads thread).priority ∧
    (∀ q, q ≠ thread → (s.ReadyToRun thread).threads q = s.threads q) ∧
    ((s.threads thread).priority ≤ 49 →
      (s.ReadyToRun thread).readyListL3 = s.readyListL3 ++ [thread] ∧
      (s.ReadyToRun thread).readyListL2 = s.readyListL2 ∧
      (s.ReadyToRun thread).readyListL1 = s.readyListL1) ∧
    (50 ≤ (s.threads thread).priority → (s.threads thread).priority ≤ 99 →
      thread ∈ (s.ReadyToRun thread).readyListL2 ∧
      (s.ReadyToRun thread).readyListL2.erase thread = s.readyListL2 ∧
      (s.ReadyToRun thread).readyListL3 = s.readyListL3 ∧
      (s.ReadyToRun thread).readyListL1 = s.readyListL1) ∧
    (100 ≤ (s.threads thread).priority →
      thread ∈ (s.ReadyToRun thread).readyListL1 ∧
      (s.ReadyToRun thread).readyListL1.erase thread = s.readyListL1 ∧
      (s.ReadyToRun thread).readyListL3 = s.readyListL3 ∧
      (s.ReadyToRun thread).readyListL2 = s.readyListL2) ∧
    (s.ReadyToRun thread).queued.count thread = 1 := by
  simp only [Scheduler.queued, List.mem_append, not_or] at hnq
  obtain ⟨⟨hn1, hn2⟩, hn3⟩ := hnq
  by_cases h49 : (s.threads thread).priority ≤ 49
  · have e : s.ReadyToRun thread =
        { s with readyListL3 := List_Append s.readyListL3 thread,
                 threads := setThread s.threads thread
                   (((s.threads thread).setStatus ThreadStatus.READY).setReadyTime
                     s.totalTicks) } := by
      simp [Scheduler.ReadyToRun, Thread.getPriority, Thread.setStatus, h49]
    rw [e]
    refine ⟨by simp [setThread, Thread.setStatus, Thread.setReadyTime],
      by simp [setThread, Thread.setStatus, Thread.setReadyTime],
      fun q hq => by simp [setThread, hq], fun _ => by simp [List_Append],
      fun h50 _ => by omega, fun h100 => by omega, ?_⟩
    simp [Scheduler.queued, List_Append, List.count_append, List.count_eq_zero_of_not_mem hn1,
      List.count_eq_zero_of_not_mem hn2, List.count_eq_zero_of_not_mem hn3]
  · by_cases h99 : (s.threads thread).priority ≤ 99
    · have e : s.ReadyToRun thread =
          { s with readyListL2 := SortedList_Insert
                     (Scheduler.cmpL2 (setThread s.threads thread
                       ((s.threads thread).setStatus ThreadStatus.READY)))
                     thread s.readyListL2,
                   threads := setThread s.threads thread
                     (((s.threads thread).setStatus ThreadStatus.READY).setReadyTime
                       s.totalTicks) } := by
        have h50 : 50 ≤ (s.threads thread).priority := by omega
        simp [Scheduler.ReadyToRun, Thread.getPriority, Thread.setStatus, h49, h99, h50]
      rw [e]
      refine ⟨by simp [setThread, Thread.setStatus, Thread.setReadyTime],
        by simp [setThread, Thread.setStatus, Thread.setReadyTime],
        fun q hq => by simp [setThread, hq], fun h => absurd h h49,
        fun _ _ => ⟨by simp [mem_SortedList_Insert],
          erase_SortedList_Insert _ _ _ hn2, rfl, rfl⟩,
        fun h100 => by omega, ?_⟩
      simp [Scheduler.queued, List.count_append, List.count_eq_zero_of_not_mem hn1,
        List.count_eq_zero_of_not_mem hn3,
        (perm_SortedList_Insert _ thread s.readyListL2).count_eq,
        List.count_eq_zero_of_not_mem hn2]
    · have e : s.ReadyToRun thread =
          { s with readyListL1 := SortedList_Insert
                     (Scheduler.cmpL1 (setThread s.threads thread
                       ((s.threads thread).setStatus ThreadStatus.READY)))
                     thread s.readyListL1,
                   threads := setThread s.threads thread
                     (((s.threads thread).setStatus ThreadStatus.READY).setReadyTime
                       s.totalTicks) } := by
        have h100 : 100 ≤ (s.threads thread).priority := by omega
        simp [Scheduler.ReadyToRun, Thread.getPriority, Thread.setStatus, h49, h99, h100, hhi]
      rw [e]
      refine ⟨by simp [setThread, Thread.setStatus, Thread.setReadyTime],
        by simp [setThread, Thread.setStatus, Thread.setReadyTime],
        fun q hq => by simp [setThread, hq], fun h => absurd h h49,
        fun _ h => absurd h h99,
        fun _ => ⟨by simp [mem_SortedList_Insert],
          erase_SortedList_Insert _ _ _ hn1, rfl, rfl⟩, ?_⟩
      simp [Scheduler.queued, List.count_append, List.count_eq_zero_of_not_mem hn2,
        List.count_eq_zero_of_not_mem hn3,
        (perm_SortedList_Insert _ thread s.readyListL1).count_eq,
        List.count_eq_zero_of_not_mem hn1]

/-- Witness for C2: T2 (priority 60, in no list) is made ready after T1 (priority 40):
it lands in L2 and is queued exactly once. -/
theorem ReadyToRun_spec_witness :
    (0 ≤ (((Scheduler.init heap3 0).ReadyToRun 1).threads 2).priority ∧
      (((Scheduler.init heap3 0).ReadyToRun 1).threads 2).priority ≤ 149 ∧
      2 ∉ ((Scheduler.init heap3 0).ReadyToRun 1).queued) ∧
    (((Scheduler.init heap3 0).ReadyToRun 1).ReadyToRun 2).readyListL2 = [2] ∧
    (((Scheduler.init heap3 0).ReadyToRun 1).ReadyToRun 2).queued.count 2 = 1 :=
  ⟨by decide, by decide,
   (ReadyToRun_spec ((Scheduler.init heap3 0).ReadyToRun 1) 2 (by decide) (by decide)
     (by decide)).2.2.2.2.2.2⟩

/-! ## Aging: the loop bodies -/

/-- A visit of the first loop rewrites the thread object and nothing else. -/
theorem agingL1_eq (s : Scheduler) (p : Nat) :
    s.agingL1 p =
      { s with threads := setThread s.threads p (agedThread s.totalTicks (s.threads p)) } := by
  unfold Scheduler.agingL1 agedThread
  simp only [Thread.setReadyTime, Thread.setPriority, Thread.getPriority]
  split <;> rfl

theorem agingL2_eq (s : Scheduler) (p : Nat) :
    s.agingL2 p =
      if (s.threads p).waitingTime + 100 ≥ 1500 ∧ (s.threads p).priority + 10 ≥ 100 then
        { s with threads := setThread s.threads p (agedThread s.totalTicks (s.threads p)),
                 readyListL2 := s.readyListL2.erase p,
                 readyListL1 := SortedList_Insert
                   (Scheduler.cmpL1
                     (setThread s.threads p (agedThread s.totalTicks (s.threads p))))
                   p s.readyListL1 }
      else
        { s with threads :=
            setThread s.threads p (agedThread s.totalTicks (s.threads p)) } := by
  unfold Scheduler.agingL2 agedThread
  simp only [Thread.setReadyTime, Thread.setPriority, Thread.getPriority, List_Remove]
  by_cases h1 : (s.threads p).waitingTime + 100 ≥ 1500
  · by_cases h2 : (s.threads p).priority + 10 ≥ 100
    · simp [h1, h2]
    · simp [h1, h2]
  · simp [h1]

theorem agingL3_eq (s : Scheduler) (p : Nat) :
    s.agingL3 p =
      if (s.threads p).waitingTime + 100 ≥ 1500 ∧ (s.threads p).priority + 10 ≥ 50 then
        { s with threads := setThread s.threads p (agedThread s.totalTicks (s.threads p)),
                 readyListL3 := s.readyListL3.erase p,
                 readyListL2 := SortedList_Insert
                   (Scheduler.cmpL2
                     (setThread s.threads p (agedThread s.totalTicks (s.threads p))))
                   p s.readyListL2 }
      else
        { s with threads :=
            setThread s.threads p (agedThread s.totalTicks (s.threads p)) } := by
  unfold Scheduler.agingL3 agedThread
  simp only [Thread.setReadyTime, Thread.setPriority, Thread.getPriority, List_Remove]
  by_cases h1 : (s.threads p).waitingTime + 100 ≥ 1500
  · by_cases h2 : (s.threads p).priority + 10 ≥ 50
    · simp [h1, h2]
    · simp [h1, h2]
  · simp [h1]

/-! ## Aging: the loops -/

theorem foldl_inv (f : Scheduler → Nat → Scheduler) (Inv : Scheduler → List Nat → Prop)
    (hstep : ∀ s p rest, Inv s (p :: rest) → Inv (f s p) rest) :
    ∀ (l : List Nat) (s : Scheduler), Inv s l → Inv (l.foldl f s) [] := by
  intro l
  induction l with
  | nil => intro s h; exact h
  | cons p rest ih => intro s h; exact ih (f s p) (hstep s p rest h)

theorem agingL2_queued_perm (s : Scheduler) (p : Nat) (hp : p ∈ s.readyListL2) :
    (s.agingL2 p).queued.Perm s.queued := by
  rw [agingL2_eq]
  split
  · simp only [Scheduler.queued]
    have h1 := perm_SortedList_Insert
      (Scheduler.cmpL1 (setThread s.threads p (agedThread s.totalTicks (s.threads p))))
      p s.readyListL1
    have h2 : (p :: s.readyListL2.erase p).Perm s.readyListL2 := (List.perm_cons_erase hp).symm
    have h3 : (SortedList_Insert
        (Scheduler.cmpL1 (setThread s.threads p (agedThread s.totalTicks (s.threads p))))
        p s.readyListL1 ++ s.readyListL2.erase p).Perm (s.readyListL1 ++ s.readyListL2) := by
      refine (List.Perm.append_right _ h1).trans ?_
      simp only [List.cons_append]
      refine List.perm_middle.symm.trans ?_
      exact List.Perm.append_left _ h2
    exact List.Perm.append_right _ h3
  · exact List.Perm.refl _

theorem agingL3_queued_perm (s : Scheduler) (p : Nat) (hp : p ∈ s.readyListL3) :
    (s.agingL3 p).queued.Perm s.queued := by
  rw [agingL3_eq]
  split
  · simp only [Scheduler.queued]
    have h1 := perm_SortedList_Insert
      (Scheduler.cmpL2 (setThread s.threads p (agedThread s.totalTicks (s.threads p))))
      p s.readyListL2
    have h2 : (p :: s.readyListL3.erase p).Perm s.readyListL3 := (List.perm_cons_erase hp).symm
    have h3 : (SortedList_Insert
        (Scheduler.cmpL2 (setThread s.threads p (agedThread s.totalTicks (s.threads p))))
        p s.readyListL2 ++ s.readyListL3.erase p).Perm (s.readyListL2 ++ s.readyListL3) := by
      refine (List.Perm.append_right _ h1).trans ?_
      simp only [List.cons_append]
      refine List.perm_middle.symm.trans ?_
      exact List.Perm.append_left _ h2
    simp only [List.append_assoc]
    exact List.Perm.append_left _ h3
  · exact List.Perm.refl _

theorem agingL1_lists (s : Scheduler) (p : Nat) :
    (s.agingL1 p).readyListL1 = s.readyListL1 ∧ (s.agingL1 p).readyListL2 = s.readyListL2 ∧
    (s.agingL1 p).readyListL3 = s.readyListL3 := by
  rw [agingL1_eq]; exact ⟨rfl, rfl, rfl⟩

theorem agingL2_L3 (s : Scheduler) (p : Nat) :
    (s.agingL2 p).readyListL3 = s.readyListL3 := by
  rw [agingL2_eq]; split <;> rfl

theorem agingL2_mem_L2 (s : Scheduler) (p q : Nat) (hq : q ∈ s.readyListL2) (hne : q ≠ p) :
    q ∈ (s.agingL2 p).readyListL2 := by
  rw [agingL2_eq]
  split
  · exact (List.mem_erase_of_ne hne).mpr hq
  · exact hq

theorem agingL3_mem_L3 (s : Scheduler) (p q : Nat) (hq : q ∈ s.readyListL3) (hne : q ≠ p) :
    q ∈ (s.agingL3 p).readyListL3 := by
  rw [agingL3_eq]
  split
  · exact (List.mem_erase_of_ne hne).mpr hq
  · exact hq

theorem mem_List_After (l : List Nat) (item q : Nat) (h : q ∈ List_After l item) : q ∈ l := by
  induction l with
  | nil => simp [List_After] at h
  | cons x xs ih =>
    unfold List_After at h
    split at h
    · exact List.mem_cons_of_mem _ h
    · exact List.mem_cons_of_mem _ (ih h)

/-- A visit of the second loop that does not reach `Remove` only rewrites the thread. -/
theorem agingL2_stay (s : Scheduler) (p : Nat) (h : s.leavesL2 p = false) :
    s.agingL2 p = s.agingL1 p := by
  rw [agingL2_eq, agingL1_eq]
  have hc : ¬ ((s.threads p).waitingTime + 100 ≥ 1500 ∧ (s.threads p).priority + 10 ≥ 100) := by
    simpa [Scheduler.leavesL2, Thread.getPriority] using h
  rw [if_neg hc]

/-- A visit of the third loop that does not reach `Remove` only rewrites the thread. -/
theorem agingL3_stay (s : Scheduler) (p : Nat) (h : s.leavesL3 p = false) :
    s.agingL3 p = s.agingL1 p := by
  rw [agingL3_eq, agingL1_eq]
  have hc : ¬ ((s.threads p).waitingTime + 100 ≥ 1500 ∧ (s.threads p).priority + 10 ≥ 50) := by
    simpa [Scheduler.leavesL3, Thread.getPriority] using h
  rw [if_neg hc]

/-- Invariants of a loop whose iterator has left its list. -/
theorem agingAstray_inv (body : Scheduler → Nat → Scheduler) (leaves : Scheduler → Nat → Bool)
    (Inv : Scheduler → List Nat → Prop)
    (hstep : ∀ s p rest, leaves s p = false → Inv s (p :: rest) → Inv (body s p) rest) :
    ∀ (l : List Nat) (s s' : Scheduler), Inv s l →
      Scheduler.agingAstray body leaves s l = Except.ok s' → Inv s' [] := by
  intro l
  induction l with
  | nil =>
    intro s s' h e
    simp only [Scheduler.agingAstray, pure, Except.pure] at e
    injection e with e
    exact e ▸ h
  | cons p rest ih =>
    intro s s' h e
    unfold Scheduler.agingAstray at e
    by_cases hl : leaves s p = true
    · rw [if_pos hl] at e
      exact absurd e (by simp [throw, throwThe, MonadExceptOf.throw])
    · rw [if_neg hl] at e
      exact ih _ _ (hstep s p rest (by simpa using hl) h) e

/-- Invariants of a loop of `Aging`: `Inv` holds while the iterator is in its own list,
`InvA` after a thread was moved. -/
theorem agingWalk_inv (body : Scheduler → Nat → Scheduler) (leaves : Scheduler → Nat → Bool)
    (dest : Scheduler → List Nat) (Inv InvA : Scheduler → List Nat → Prop)
    (hstay : ∀ s p rest, leaves s p = false → Inv s (p :: rest) → Inv (body s p) rest)
    (hmove : ∀ s p rest, leaves s p = true → Inv s (p :: rest) →
      InvA (body s p) (List_After (dest (body s p)) p))
    (hastray : ∀ s p rest, leaves s p = false → InvA s (p :: rest) → InvA (body s p) rest) :
    ∀ (l : List Nat) (s s' : Scheduler), Inv s l →
      Scheduler.agingWalk body leaves dest s l = Except.ok s' → Inv s' [] ∨ InvA s' [] := by
  intro l
  induction l with
  | nil =>
    intro s s' h e
    simp only [Scheduler.agingWalk, pure, Except.pure] at e
    injection e with e
    exact Or.inl (e ▸ h)
  | cons p rest ih =>
    intro s s' h e
    unfold Scheduler.agingWalk at e
    by_cases hl : leaves s p = true
    · rw [if_pos hl] at e
      exact Or.inr (agingAstray_inv body leaves InvA hastray _ _ _ (hmove s p rest hl h) e)
    · rw [if_neg hl] at e
      exact ih _ _ (hstay s p rest (by simpa using hl) h) e

/-- The two loops that `Aging` runs after the first one. -/
theorem Aging_ok (s s' : Scheduler) (h : s.Aging = Except.ok s') :
    ∃ s2, Scheduler.agingWalk Scheduler.agingL2 Scheduler.leavesL2 (fun t => t.readyListL1)
        (s.readyListL1.foldl Scheduler.agingL1 s) s.readyListL2 = Except.ok s2 ∧
      Scheduler.agingWalk Scheduler.agingL3 Scheduler.leavesL3 (fun t => t.readyListL2)
        s2 s.readyListL3 = Except.ok s' := by
  unfold Scheduler.Aging at h
  simp only [bind, Except.bind] at h
  split at h
  · exact absurd h (by simp)
  · rename_i s2 e
    exact ⟨s2, e, h⟩

/-- Induction principle for `Aging`: a property of scheduler states that every visit of
each loop preserves, on states whose ready lists hold each thread once and for a visited
thread that is in the list the iterator is in (its own list, or the list a thread was
moved to), holds after an `Aging` call that returns. -/
theorem Aging_induct (Base : Scheduler → Prop)
    (h1 : ∀ s p, s.queued.Nodup → p ∈ s.readyListL1 → Base s → Base (s.agingL1 p))
    (h2 : ∀ s p, s.queued.Nodup → p ∈ s.readyListL2 → Base s → Base (s.agingL2 p))
    (h3 : ∀ s p, s.queued.Nodup → p ∈ s.readyListL3 → Base s → Base (s.agingL3 p))
    (h3a : ∀ s p, s.queued.Nodup → p ∈ s.readyListL2 → s.leavesL3 p = false → Base s →
      Base (s.agingL1 p))
    (s s' : Scheduler) (hnd : s.queued.Nodup) (hB : Base s) (h : s.Aging = Except.ok s') :
    Base s' ∧ s'.queued.Nodup := by
  have n3 : s.readyListL3.Nodup := List.Nodup.of_append_right hnd
  have n2 : s.readyListL2.Nodup :=
    List.Nodup.of_append_right (List.Nodup.of_append_left hnd)
  obtain ⟨s2, w2, w3⟩ := Aging_ok s s' h
  -- first loop
  have p1 := foldl_inv Scheduler.agingL1
    (fun t rest => Base t ∧ t.queued.Nodup ∧ (∀ p ∈ rest, p ∈ t.readyListL1) ∧
      t.readyListL2 = s.readyListL2 ∧ t.readyListL3 = s.readyListL3)
    (by
      intro t p rest ⟨hb, hn, hm, e2, e3⟩
      obtain ⟨f1, f2, f3⟩ := agingL1_lists t p
      refine ⟨h1 t p hn (hm p (by simp)) hb, ?_, ?_, f2.trans e2, f3.trans e3⟩
      · simpa [Scheduler.queued, f1, f2, f3] using hn
      · intro q hq; rw [f1]; exact hm q (by simp [hq]))
    s.readyListL1 s ⟨hB, hnd, fun _ h => h, rfl, rfl⟩
  obtain ⟨b1, d1, -, e2, e3⟩ := p1
  -- second loop
  have p2 := agingWalk_inv Scheduler.agingL2 Scheduler.leavesL2 (fun t => t.readyListL1)
    (fun t rest => Base t ∧ t.queued.Nodup ∧ rest.Nodup ∧ (∀ p ∈ rest, p ∈ t.readyListL2) ∧
      t.readyListL3 = s.readyListL3)
    (fun t rest => Base t ∧ t.queued.Nodup ∧ (∀ p ∈ rest, p ∈ t.readyListL1) ∧
      t.readyListL3 = s.readyListL3)
    (by
      intro t p rest _ ⟨hb, hn, hr, hm, e3⟩
      have hp : p ∈ t.readyListL2 := hm p (by simp)
      obtain ⟨hpr, hr'⟩ := List.nodup_cons.mp hr
      refine ⟨h2 t p hn hp hb, (agingL2_queued_perm t p hp).nodup_iff.mpr hn, hr', ?_,
        (agingL2_L3 t p).trans e3⟩
      intro q hq
      exact agingL2_mem_L2 t p q (hm q (by simp [hq])) (fun e => hpr (e ▸ hq)))
    (by
      intro t p rest _ ⟨hb, hn, _, hm, e3⟩
      have hp : p ∈ t.readyListL2 := hm p (by simp)
      exact ⟨h2 t p hn hp hb, (agingL2_queued_perm t p hp).nodup_iff.mpr hn,
        fun q hq => mem_List_After _ p q hq, (agingL2_L3 t p).trans e3⟩)
    (by
      intro t p rest hl ⟨hb, hn, hm, e3⟩
      rw [agingL2_stay t p hl]
      obtain ⟨f1, f2, f3⟩ := agingL1_lists t p
      refine ⟨h1 t p hn (hm p (by simp)) hb, ?_, ?_, f3.trans e3⟩
      · simpa [Scheduler.queued, f1, f2, f3] using hn
      · intro q hq; rw [f1]; exact hm q (by simp [hq]))
    s.readyListL2 (s.readyListL1.foldl Scheduler.agingL1 s) s2
    ⟨b1, d1, n2, fun p hp => e2 ▸ hp, e3⟩ w2
  have q2 : Base s2 ∧ s2.queued.Nodup ∧ s2.readyListL3 = s.readyListL3 := by
    rcases p2 with ⟨a, b, -, -, d⟩ | ⟨a, b, -, d⟩
    · exact ⟨a, b, d⟩
    · exact ⟨a, b, d⟩
  obtain ⟨b2, d2, e3'⟩ := q2
  -- third loop
  have p3 := agingWalk_inv Scheduler.agingL3 Scheduler.leavesL3 (fun t => t.readyListL2)
    (fun t rest => Base t ∧ t.queued.Nodup ∧ rest.Nodup ∧ (∀ p ∈ rest, p ∈ t.readyListL3))
    (fun t rest => Base t ∧ t.queued.Nodup ∧ (∀ p ∈ rest, p ∈ t.readyListL2))
    (by
      intro t p rest _ ⟨hb, hn, hr, hm⟩
      have hp : p ∈ t.readyListL3 := hm p (by simp)
      obtain ⟨hpr, hr'⟩ := List.nodup_cons.mp hr
      refine ⟨h3 t p hn hp hb, (agingL3_queued_perm t p hp).nodup_iff.mpr hn, hr', ?_⟩
      intro q hq
      exact agingL3_mem_L3 t p q (hm q (by simp [hq])) (fun e => hpr (e ▸ hq)))
    (by
      intro t p rest _ ⟨hb, hn, _, hm⟩
      have hp : p ∈ t.readyListL3 := hm p (by simp)
      exact ⟨h3 t p hn hp hb, (agingL3_queued_perm t p hp).nodup_iff.mpr hn,
        fun q hq => mem_List_After _ p q hq⟩)
    (by
      intro t p rest hl ⟨hb, hn, hm⟩
      rw [agingL3_stay t p hl]
      obtain ⟨f1, f2, f3⟩ := agingL1_lists t p
      refine ⟨h3a t p hn (hm p (by simp)) hl hb, ?_, ?_⟩
      · simpa [Scheduler.queued, f1, f2, f3] using hn
      · intro q hq; rw [f2]; exact hm q (by simp [hq]))
    s.readyListL3 s2 s' ⟨b2, d2, n3, fun p hp => e3' ▸ hp⟩ w3
  rcases p3 with ⟨a, b, -, -⟩ | ⟨a, b, -⟩
  · exact ⟨a, b⟩
  · exact ⟨a, b⟩

theorem agingL2_queued_sub (s : Scheduler) (p x : Nat) (hx : x ∈ (s.agingL2 p).queued) :
    x = p ∨ x ∈ s.queued := by
  rw [agingL2_eq] at hx
  split at hx
  · simp only [Scheduler.queued, List.mem_append, mem_SortedList_Insert] at hx
    rcases hx with ((e | h1) | h2) | h3
    · exact Or.inl e
    · exact Or.inr (by simp [Scheduler.queued, h1])
    · exact Or.inr (by simp [Scheduler.queued, List.mem_of_mem_erase h2])
    · exact Or.inr (by simp [Scheduler.queued, h3])
  · exact Or.inr hx

theorem agingL3_queued_sub (s : Scheduler) (p x : Nat) (hx : x ∈ (s.agingL3 p).queued) :
    x = p ∨ x ∈ s.queued := by
  rw [agingL3_eq] at hx
  split at hx
  · simp only [Scheduler.queued, List.mem_append, mem_SortedList_Insert] at hx
    rcases hx with (h1 | (e | h2)) | h3
    · exact Or.inr (by simp [Scheduler.queued, h1])
    · exact Or.inl e
    · exact Or.inr (by simp [Scheduler.queued, h2])
    · exact Or.inr (by simp [Scheduler.queued, List.mem_of_mem_erase h3])
  · exact Or.inr hx

/-- Induction principle for `Aging` on any state: a property that every visit of a
thread that was ready on entry preserves holds after an `Aging` call that returns, and
the threads ready afterwards were ready on entry. -/
theorem Aging_induct_mem (Base : Scheduler → Prop) (s : Scheduler)
    (h1 : ∀ t p, p ∈ s.queued → Base t → Base (t.agingL1 p))
    (h2 : ∀ t p, p ∈ s.queued → Base t → Base (t.agingL2 p))
    (h3 : ∀ t p, p ∈ s.queued → Base t → Base (t.agingL3 p))
    (s' : Scheduler) (hB : Base s) (h : s.Aging = Except.ok s') :
    Base s' ∧ ∀ x ∈ s'.queued, x ∈ s.queued := by
  have m1 : ∀ x ∈ s.readyListL1, x ∈ s.queued := fun x hx => by simp [Scheduler.queued, hx]
  have m2 : ∀ x ∈ s.readyListL2, x ∈ s.queued := fun x hx => by simp [Scheduler.queued, hx]
  have m3 : ∀ x ∈ s.readyListL3, x ∈ s.queued := fun x hx => by simp [Scheduler.queued, hx]
  obtain ⟨s2, w2, w3⟩ := Aging_ok s s' h
  have stepL1 : ∀ (t : Scheduler) (p : Nat) (rest : List Nat),
      (Base t ∧ (∀ x ∈ t.queued, x ∈ s.queued) ∧ (∀ x ∈ p :: rest, x ∈ s.queued)) →
      (Base (t.agingL1 p) ∧ (∀ x ∈ (t.agingL1 p).queued, x ∈ s.queued) ∧
        (∀ x ∈ rest, x ∈ s.queued)) := by
    intro t p rest ⟨hb, hq, hm⟩
    obtain ⟨f1, f2, f3⟩ := agingL1_lists t p
    refine ⟨h1 t p (hm p (by simp)) hb, ?_, fun x hx => hm x (by simp [hx])⟩
    simpa [Scheduler.queued, f1, f2, f3] using hq
  have p1 := foldl_inv Scheduler.agingL1
    (fun t rest => Base t ∧ (∀ x ∈ t.queued, x ∈ s.queued) ∧ (∀ x ∈ rest, x ∈ s.queued))
    stepL1 s.readyListL1 s ⟨hB, fun _ h => h, m1⟩
  have p2 := agingWalk_inv Scheduler.agingL2 Scheduler.leavesL2 (fun t => t.readyListL1)
    (fun t rest => Base t ∧ (∀ x ∈ t.queued, x ∈ s.queued) ∧ (∀ x ∈ rest, x ∈ s.queued))
    (fun t rest => Base t ∧ (∀ x ∈ t.queued, x ∈ s.queued) ∧ (∀ x ∈ rest, x ∈ s.queued))
    (by
      intro t p rest _ ⟨hb, hq, hm⟩
      have hp := hm p (by simp)
      refine ⟨h2 t p hp hb, ?_, fun x hx => hm x (by simp [hx])⟩
      intro x hx
      rcases agingL2_queued_sub t p x hx with e | h'
      · exact e ▸ hp
      · exact hq x h')
    (by
      intro t p rest _ ⟨hb, hq, hm⟩
      have hp := hm p (by simp)
      have hsub : ∀ x ∈ (t.agingL2 p).queued, x ∈ s.queued := by
        intro x hx
        rcases agingL2_queued_sub t p x hx with e | h'
        · exact e ▸ hp
        · exact hq x h'
      refine ⟨h2 t p hp hb, hsub, fun x hx => hsub x ?_⟩
      have := mem_List_After _ p x hx
      simp [Scheduler.queued, this])
    (by
      intro t p rest hl hi
      rw [agingL2_stay t p hl]
      exact stepL1 t p rest hi)
    s.readyListL2 _ s2 ⟨p1.1, p1.2.1, m2⟩ w2
  have q2 : Base s2 ∧ (∀ x ∈ s2.queued, x ∈ s.queued) := by
    rcases p2 with ⟨a, b, -⟩ | ⟨a, b, -⟩
    · exact ⟨a, b⟩
    · exact ⟨a, b⟩
  have p3 := agingWalk_inv Scheduler.agingL3 Scheduler.leavesL3 (fun t => t.readyListL2)
    (fun t rest => Base t ∧ (∀ x ∈ t.queued, x ∈ s.queued) ∧ (∀ x ∈ rest, x ∈ s.queued))
    (fun t rest => Base t ∧ (∀ x ∈ t.queued, x ∈ s.queued) ∧ (∀ x ∈ rest, x ∈ s.queued))
    (by
      intro t p rest _ ⟨hb, hq, hm⟩
      have hp := hm p (by simp)
      refine ⟨h3 t p hp hb, ?_, fun x hx => hm x (by simp [hx])⟩
      intro x hx
      rcases agingL3_queued_sub t p x hx with e | h'
      · exact e ▸ hp
      · exact hq x h')
    (by
      intro t p rest _ ⟨hb, hq, hm⟩
      have hp := hm p (by simp)
      have hsub : ∀ x ∈ (t.agingL3 p).queued, x ∈ s.queued := by
        intro x hx
        rcases agingL3_queued_sub t p x hx with e | h'
        · exact e ▸ hp
        · exact hq x h'
      refine ⟨h3 t p hp hb, hsub, fun x hx => hsub x ?_⟩
      have := mem_List_After _ p x hx
      simp [Scheduler.queued, this])
    (by
      intro t p rest hl hi
      rw [agingL3_stay t p hl]
      exact stepL1 t p rest hi)
    s.readyListL3 s2 s' ⟨q2.1, q2.2, m3⟩ w3
  rcases p3 with ⟨a, b, -⟩ | ⟨a, b, -⟩
  · exact ⟨a, b⟩
  · exact ⟨a, b⟩

/-! ## Aging: effect on the thread objects -/

theorem agingL1_threads (s : Scheduler) (p : Nat) :
    (s.agingL1 p).threads = setThread s.threads p (agedThread s.totalTicks (s.threads p)) ∧
    (s.agingL1 p).totalTicks = s.totalTicks := by
  rw [agingL1_eq]; exact ⟨rfl, rfl⟩

theorem agingL2_threads (s : Scheduler) (p : Nat) :
    (s.agingL2 p).threads = setThread s.threads p (agedThread s.totalTicks (s.threads p)) ∧
    (s.agingL2 p).totalTicks = s.totalTicks := by
  rw [agingL2_eq]; split <;> exact ⟨rfl, rfl⟩

theorem agingL3_threads (s : Scheduler) (p : Nat) :
    (s.agingL3 p).threads = setThread s.threads p (agedThread s.totalTicks (s.threads p)) ∧
    (s.agingL3 p).totalTicks = s.totalTicks := by
  rw [agingL3_eq]; split <;> exact ⟨rfl, rfl⟩

/-- An `Aging` call that returns leaves the ready threads ready, each once. -/
theorem Aging_queued_perm (s s' : Scheduler) (hnd : s.queued.Nodup)
    (h : s.Aging = Except.ok s') : s'.queued.Perm s.queued :=
  (Aging_induct (fun t => t.queued.Perm s.queued)
    (fun t p _ _ hb => by
      obtain ⟨f1, f2, f3⟩ := agingL1_lists t p
      simpa [Scheduler.queued, f1, f2, f3] using hb)
    (fun t p _ hp hb => (agingL2_queued_perm t p hp).trans hb)
    (fun t p _ hp hb => (agingL3_queued_perm t p hp).trans hb)
    (fun t p _ _ _ hb => by
      obtain ⟨f1, f2, f3⟩ := agingL1_lists t p
      simpa [Scheduler.queued, f1, f2, f3] using hb)
    s s' hnd (List.Perm.refl _) h).1

/-! ## Aging: the priority bands -/

theorem agedThread_priority_ge (tk : Int) (t : Thread) (h : t.priority ≤ 149) :
    t.priority ≤ (agedThread tk t).priority := by
  unfold agedThread
  split
  · simp only []; split <;> omega
  · exact le_refl _

theorem agedThread_priority_le (tk : Int) (t : Thread) (h : t.priority ≤ 149) :
    (agedThread tk t).priority ≤ 149 := by
  unfold agedThread
  split
  · simp only []; split <;> omega
  · exact h

theorem agedThread_priority_cases (tk : Int) (t : Thread) :
    (t.waitingTime + 100 ≥ 1500 ∧
        (agedThread tk t).priority = (if t.priority + 10 > 149 then 149 else t.priority + 10)) ∨
    (¬ t.waitingTime + 100 ≥ 1500 ∧ (agedThread tk t).priority = t.priority) := by
  unfold agedThread
  by_cases h : t.waitingTime + 100 ≥ 1500
  · left; simp [h]
  · right; simp [h]

theorem nodup_three {l1 l2 l3 : List Nat} (h : (l1 ++ l2 ++ l3).Nodup) :
    l1.Nodup ∧ l2.Nodup ∧ l3.Nodup ∧ (∀ x ∈ l1, x ∉ l2) ∧ (∀ x ∈ l1, x ∉ l3) ∧
    (∀ x ∈ l2, x ∉ l3) := by
  rw [List.nodup_append] at h
  obtain ⟨h12, n3, d3⟩ := h
  rw [List.nodup_append] at h12
  obtain ⟨n1, n2, d12⟩ := h12
  refine ⟨n1, n2, n3, fun x hx hx2 => d12 hx hx2, fun x hx hx3 => d3 (by simp [hx]) hx3,
    fun x hx hx3 => d3 (by simp [hx]) hx3⟩

/-- The three band conditions of `WellQueued`. -/
theorem bands_agingL1 (s : Scheduler) (p : Nat) (hnd : s.queued.Nodup)
    (hp : p ∈ s.readyListL1)
    (hb : (∀ q ∈ s.readyListL1, 100 ≤ (s.threads q).priority) ∧
      (∀ q ∈ s.readyListL2, 50 ≤ (s.threads q).priority ∧ (s.threads q).priority ≤ 99) ∧
      (∀ q ∈ s.readyListL3, (s.threads q).priority ≤ 49)) :
    (∀ q ∈ (s.agingL1 p).readyListL1, 100 ≤ ((s.agingL1 p).threads q).priority) ∧
    (∀ q ∈ (s.agingL1 p).readyListL2, 50 ≤ ((s.agingL1 p).threads q).priority ∧
      ((s.agingL1 p).threads q).priority ≤ 99) ∧
    (∀ q ∈ (s.agingL1 p).readyListL3, ((s.agingL1 p).threads q).priority ≤ 49) := by
  obtain ⟨-, -, -, d12, d13, -⟩ := nodup_three hnd
  obtain ⟨b1, b2, b3⟩ := hb
  rw [agingL1_eq]
  refine ⟨?_, ?_, ?_⟩
  · intro q hq
    by_cases e : q = p
    · subst e
      simp only [setThread_same]
      have := b1 q hq
      rcases agedThread_priority_cases s.totalTicks (s.threads q) with ⟨-, h⟩ | ⟨-, h⟩
      · rw [h]; split <;> omega
      · rw [h]; exact this
    · simp only [setThread_other _ _ _ _ e]; exact b1 q hq
  · intro q hq
    have e : q ≠ p := fun e => d12 p hp (e ▸ hq)
    simp only [setThread_other _ _ _ _ e]; exact b2 q hq
  · intro q hq
    have e : q ≠ p := fun e => d13 p hp (e ▸ hq)
    simp only [setThread_other _ _ _ _ e]; exact b3 q hq

theorem bands_agingL2 (s : Scheduler) (p : Nat) (hnd : s.queued.Nodup)
    (hp : p ∈ s.readyListL2)
    (hb : (∀ q ∈ s.readyListL1, 100 ≤ (s.threads q).priority) ∧
      (∀ q ∈ s.readyListL2, 50 ≤ (s.threads q).priority ∧ (s.threads q).priority ≤ 99) ∧
      (∀ q ∈ s.readyListL3, (s.threads q).priority ≤ 49)) :
    (∀ q ∈ (s.agingL2 p).readyListL1, 100 ≤ ((s.agingL2 p).threads q).priority) ∧
    (∀ q ∈ (s.agingL2 p).readyListL2, 50 ≤ ((s.agingL2 p).threads q).priority ∧
      ((s.agingL2 p).threads q).priority ≤ 99) ∧
    (∀ q ∈ (s.agingL2 p).readyListL3, ((s.agingL2 p).threads q).priority ≤ 49) := by
  obtain ⟨-, n2, -, d12, -, d23⟩ := nodup_three hnd
  obtain ⟨b1, b2, b3⟩ := hb
  have hpp := b2 p hp
  rw [agingL2_eq]
  by_cases hc : (s.threads p).waitingTime + 100 ≥ 1500 ∧ (s.threads p).priority + 10 ≥ 100
  · rw [if_pos hc]
    refine ⟨?_, ?_, ?_⟩
    · intro q hq
      simp only [mem_SortedList_Insert] at hq
      by_cases e : q = p
      · subst e
        simp only [setThread_same]
        rcases agedThread_priority_cases s.totalTicks (s.threads q) with ⟨-, h⟩ | ⟨h, -⟩
        · rw [h]; split <;> omega
        · exact absurd hc.1 h
      · simp only [setThread_other _ _ _ _ e]
        exact b1 q (hq.resolve_left e)
    · intro q hq
      have hq' := (List.Nodup.mem_erase_iff n2).mp hq
      simp only [setThread_other _ _ _ _ hq'.1]; exact b2 q hq'.2
    · intro q hq
      have e : q ≠ p := fun e => d23 p hp (e ▸ hq)
      simp only [setThread_other _ _ _ _ e]; exact b3 q hq
  · rw [if_neg hc]
    refine ⟨?_, ?_, ?_⟩
    · intro q hq
      have e : q ≠ p := fun e => d12 q hq (e ▸ hp)
      simp only [setThread_other _ _ _ _ e]; exact b1 q hq
    · intro q hq
      by_cases e : q = p
      · subst e
        simp only [setThread_same]
        rcases agedThread_priority_cases s.totalTicks (s.threads q) with ⟨hw, h⟩ | ⟨-, h⟩
        · rw [h]
          have : ¬ (s.threads q).priority + 10 ≥ 100 := fun h' => hc ⟨hw, h'⟩
          split <;> omega
        · rw [h]; exact hpp
      · simp only [setThread_other _ _ _ _ e]; exact b2 q hq
    · intro q hq
      have e : q ≠ p := fun e => d23 p hp (e ▸ hq)
      simp only [setThread_other _ _ _ _ e]; exact b3 q hq

theorem bands_agingL3 (s : Scheduler) (p : Nat) (hnd : s.queued.Nodup)
    (hp : p ∈ s.readyListL3)
    (hb : (∀ q ∈ s.readyListL1, 100 ≤ (s.threads q).priority) ∧
      (∀ q ∈ s.readyListL2, 50 ≤ (s.threads q).priority ∧ (s.threads q).priority ≤ 99) ∧
      (∀ q ∈ s.readyListL3, (s.threads q).priority ≤ 49)) :
    (∀ q ∈ (s.agingL3 p).readyListL1, 100 ≤ ((s.agingL3 p).threads q).priority) ∧
    (∀ q ∈ (s.agingL3 p).readyListL2, 50 ≤ ((s.agingL3 p).threads q).priority ∧
      ((s.agingL3 p).threads q).priority ≤ 99) ∧
    (∀ q ∈ (s.agingL3 p).readyListL3, ((s.agingL3 p).threads q).priority ≤ 49) := by
  obtain ⟨-, -, n3, -, d13, d23⟩ := nodup_three hnd
  obtain ⟨b1, b2, b3⟩ := hb
  have hpp := b3 p hp
  rw [agingL3_eq]
  by_cases hc : (s.threads p).waitingTime + 100 ≥ 1500 ∧ (s.threads p).priority + 10 ≥ 50
  · rw [if_pos hc]
    refine ⟨?_, ?_, ?_⟩
    · intro q hq
      have e : q ≠ p := fun e => d13 q hq (e ▸ hp)
      simp only [setThread_other _ _ _ _ e]; exact b1 q hq
    · intro q hq
      simp only [mem_SortedList_Insert] at hq
      by_cases e : q = p
      · subst e
        simp only [setThread_same]
        rcases agedThread_priority_cases s.totalTicks (s.threads q) with ⟨-, h⟩ | ⟨h, -⟩
        · rw [h]; split <;> omega
        · exact absurd hc.1 h
      · simp only [setThread_other _ _ _ _ e]
        exact b2 q (hq.resolve_left e)
    · intro q hq
      have hq' := (List.Nodup.mem_erase_iff n3).mp hq
      simp only [setThread_other _ _ _ _ hq'.1]; exact b3 q hq'.2
  · rw [if_neg hc]
    refine ⟨?_, ?_, ?_⟩
    · intro q hq
      have e : q ≠ p := fun e => d13 q hq (e ▸ hp)
      simp only [setThread_other _ _ _ _ e]; exact b1 q hq
    · intro q hq
      have e : q ≠ p := fun e => d23 q hq (e ▸ hp)
      simp only [setThread_other _ _ _ _ e]; exact b2 q hq
    · intro q hq
      by_cases e : q = p
      · subst e
        simp only [setThread_same]
        rcases agedThread_priority_cases s.totalTicks (s.threads q) with ⟨hw, h⟩ | ⟨-, h⟩
        · rw [h]
          have : ¬ (s.threads q).priority + 10 ≥ 50 := fun h' => hc ⟨hw, h'⟩
          split <;> omega
        · rw [h]; exact hpp
      · simp only [setThread_other _ _ _ _ e]; exact b3 q hq

/-- A visit of the third loop to a thread of L2 that does not reach `Remove` keeps the
bands: the thread has not waited 1500 ticks, so its priority stays. -/
theorem bands_astrayL3 (s : Scheduler) (p : Nat) (hnd : s.queued.Nodup)
    (hp : p ∈ s.readyListL2) (hl : s.leavesL3 p = false)
    (hb : (∀ q ∈ s.readyListL1, 100 ≤ (s.threads q).priority) ∧
      (∀ q ∈ s.readyListL2, 50 ≤ (s.threads q).priority ∧ (s.threads q).priority ≤ 99) ∧
      (∀ q ∈ s.readyListL3, (s.threads q).priority ≤ 49)) :
    (∀ q ∈ (s.agingL1 p).readyListL1, 100 ≤ ((s.agingL1 p).threads q).priority) ∧
    (∀ q ∈ (s.agingL1 p).readyListL2, 50 ≤ ((s.agingL1 p).threads q).priority ∧
      ((s.agingL1 p).threads q).priority ≤ 99) ∧
    (∀ q ∈ (s.agingL1 p).readyListL3, ((s.agingL1 p).threads q).priority ≤ 49) := by
  obtain ⟨-, -, -, d12, -, d23⟩ := nodup_three hnd
  obtain ⟨b1, b2, b3⟩ := hb
  have hpp := b2 p hp
  have hc : ¬ ((s.threads p).waitingTime + 100 ≥ 1500 ∧ (s.threads p).priority + 10 ≥ 50) := by
    simpa [Scheduler.leavesL3, Thread.getPriority] using hl
  rw [agingL1_eq]
  refine ⟨?_, ?_, ?_⟩
  · intro q hq
    have e : q ≠ p := fun e => d12 q hq (e ▸ hp)
    simp only [setThread_other _ _ _ _ e]; exact b1 q hq
  · intro q hq
    by_cases e : q = p
    · subst e
      simp only [setThread_same]
      rcases agedThread_priority_cases s.totalTicks (s.threads q) with ⟨hw, -⟩ | ⟨-, h⟩
      · exact absurd ⟨hw, by omega⟩ hc
      · rw [h]; exact hpp
    · simp only [setThread_other _ _ _ _ e]; exact b2 q hq
  · intro q hq
    have e : q ≠ p := fun e => d23 p hp (e ▸ hq)
    simp only [setThread_other _ _ _ _ e]; exact b3 q hq

/-- An `Aging` call that returns keeps the ready lists duplicate-free and every ready
thread in the list of its priority band. -/
theorem Aging_wellQueued (s s' : Scheduler) (h : s.WellQueued) (hr : s.Aging = Except.ok s') :
    s'.WellQueued := by
  obtain ⟨hnd, hb⟩ := h
  have := Aging_induct
    (fun t => (∀ q ∈ t.readyListL1, 100 ≤ (t.threads q).priority) ∧
      (∀ q ∈ t.readyListL2, 50 ≤ (t.threads q).priority ∧ (t.threads q).priority ≤ 99) ∧
      (∀ q ∈ t.readyListL3, (t.threads q).priority ≤ 49))
    (fun t p hn hp hb => bands_agingL1 t p hn hp hb)
    (fun t p hn hp hb => bands_agingL2 t p hn hp hb)
    (fun t p hn hp hb => bands_agingL3 t p hn hp hb)
    (fun t p hn hp hl hb => bands_astrayL3 t p hn hp hl hb)
    s s' hnd hb hr
  exact ⟨this.2, this.1⟩

/-! ## The ready-list invariant -/

/-- The four outcomes of `ReadyToRun`, by the band of the thread's priority. -/
theorem ReadyToRun_cases (s : Scheduler) (p : Nat) :
    ((s.threads p).priority ≤ 49 ∧
      (s.ReadyToRun p).readyListL1 = s.readyListL1 ∧
      (s.ReadyToRun p).readyListL2 = s.readyListL2 ∧
      (s.ReadyToRun p).readyListL3 = s.readyListL3 ++ [p] ∧
      (s.ReadyToRun p).threads = setThread s.threads p
        (((s.threads p).setStatus ThreadStatus.READY).setReadyTime s.totalTicks)) ∨
    ((50 ≤ (s.threads p).priority ∧ (s.threads p).priority ≤ 99) ∧
      (s.ReadyToRun p).readyListL1 = s.readyListL1 ∧
      (s.ReadyToRun p).readyListL2 = SortedList_Insert
        (Scheduler.cmpL2 (setThread s.threads p
          ((s.threads p).setStatus ThreadStatus.READY))) p s.readyListL2 ∧
      (s.ReadyToRun p).readyListL3 = s.readyListL3 ∧
      (s.ReadyToRun p).threads = setThread s.threads p
        (((s.threads p).setStatus ThreadStatus.READY).setReadyTime s.totalTicks)) ∨
    ((100 ≤ (s.threads p).priority ∧ (s.threads p).priority ≤ 149) ∧
      (s.ReadyToRun p).readyListL1 = SortedList_Insert
        (Scheduler.cmpL1 (setThread s.threads p
          ((s.threads p).setStatus ThreadStatus.READY))) p s.readyListL1 ∧
      (s.ReadyToRun p).readyListL2 = s.readyListL2 ∧
      (s.ReadyToRun p).readyListL3 = s.readyListL3 ∧
      (s.ReadyToRun p).threads = setThread s.threads p
        (((s.threads p).setStatus ThreadStatus.READY).setReadyTime s.totalTicks)) ∨
    (149 < (s.threads p).priority ∧
      (s.ReadyToRun p).readyListL1 = s.readyListL1 ∧
      (s.ReadyToRun p).readyListL2 = s.readyListL2 ∧
      (s.ReadyToRun p).readyListL3 = s.readyListL3 ∧
      (s.ReadyToRun p).threads = setThread s.threads p
        ((s.threads p).setStatus ThreadStatus.READY)) := by
  by_cases h49 : (s.threads p).priority ≤ 49
  · left
    simp [Scheduler.ReadyToRun, Thread.getPriority, Thread.setStatus, h49, List_Append]
  · by_cases h99 : (s.threads p).priority ≤ 99
    · right; left
      have h50 : 50 ≤ (s.threads p).priority := by omega
      simp [Scheduler.ReadyToRun, Thread.getPriority, Thread.setStatus, h49, h99, h50]
    · by_cases h149 : (s.threads p).priority ≤ 149
      · right; right; left
        have h100 : 100 ≤ (s.threads p).priority := by omega
        simp [Scheduler.ReadyToRun, Thread.getPriority, Thread.setStatus, h49, h99, h100, h149]
      · right; right; right
        have h150 : 149 < (s.threads p).priority := by omega
        simp [Scheduler.ReadyToRun, Thread.getPriority, Thread.setStatus, h49, h99, h149, h150]

theorem ReadyToRun_priority (s : Scheduler) (p q : Nat) :
    ((s.ReadyToRun p).threads q).priority = (s.threads q).priority ∧
    ((s.ReadyToRun p).threads q).burstTime = (s.threads q).burstTime ∧
    ((s.ReadyToRun p).threads q).ID = (s.threads q).ID ∧
    ((s.ReadyToRun p).threads q).waitingTime = (s.threads q).waitingTime := by
  rcases ReadyToRun_cases s p with ⟨-, -, -, -, e⟩ | ⟨-, -, -, -, e⟩ | ⟨-, -, -, -, e⟩ |
    ⟨-, -, -, -, e⟩ <;>
  · rw [e]
    by_cases hq : q = p
    · subst hq; simp [setThread, Thread.setStatus, Thread.setReadyTime]
    · simp [setThread, hq]

theorem ReadyToRun_wellQueued (s : Scheduler) (p : Nat) (h : s.WellQueued)
    (hnq : p ∉ s.queued) : (s.ReadyToRun p).WellQueued := by
  obtain ⟨hnd, b1, b2, b3⟩ := h
  have hpri := fun q => (ReadyToRun_priority s p q).1
  simp only [Scheduler.queued, List.mem_append, not_or] at hnq
  obtain ⟨⟨q1, q2⟩, q3⟩ := hnq
  unfold Scheduler.WellQueued
  simp only [hpri]
  rcases ReadyToRun_cases s p with ⟨hb, e1, e2, e3, -⟩ | ⟨hb, e1, e2, e3, -⟩ |
    ⟨hb, e1, e2, e3, -⟩ | ⟨hb, e1, e2, e3, -⟩
  · simp only [Scheduler.queued, e1, e2, e3]
    refine ⟨?_, b1, b2, ?_⟩
    · have : (s.readyListL1 ++ s.readyListL2 ++ (s.readyListL3 ++ [p])).Perm
          (p :: (s.readyListL1 ++ s.readyListL2 ++ s.readyListL3)) := by
        rw [← List.append_assoc]
        exact List.perm_append_singleton _ _
      rw [this.nodup_iff, List.nodup_cons]
      exact ⟨by simp [q1, q2, q3], hnd⟩
    · intro q hq
      rcases List.mem_append.mp hq with h | h
      · exact b3 q h
      · simp only [List.mem_singleton] at h; subst h; exact hb
  · simp only [Scheduler.queued, e1, e2, e3]
    refine ⟨?_, b1, ?_, b3⟩
    · have : (s.readyListL1 ++ SortedList_Insert
          (Scheduler.cmpL2 (setThread s.threads p
            ((s.threads p).setStatus ThreadStatus.READY))) p s.readyListL2 ++
          s.readyListL3).Perm (p :: (s.readyListL1 ++ s.readyListL2 ++ s.readyListL3)) := by
        refine (List.Perm.append_right _
          (List.Perm.append_left _ (perm_SortedList_Insert _ p s.readyListL2))).trans ?_
        simp only [List.append_assoc]
        exact List.perm_middle
      rw [this.nodup_iff, List.nodup_cons]
      exact ⟨by simp [q1, q2, q3], hnd⟩
    · intro q hq
      rcases (mem_SortedList_Insert _ _ _ _).mp hq with h | h
      · subst h; exact hb
      · exact b2 q h
  · simp only [Scheduler.queued, e1, e2, e3]
    refine ⟨?_, ?_, b2, b3⟩
    · have : (SortedList_Insert
          (Scheduler.cmpL1 (setThread s.threads p
            ((s.threads p).setStatus ThreadStatus.READY))) p s.readyListL1 ++
          s.readyListL2 ++ s.readyListL3).Perm
          (p :: (s.readyListL1 ++ s.readyListL2 ++ s.readyListL3)) := by
        simp only [List.append_assoc]
        exact List.Perm.append_right _ (perm_SortedList_Insert _ p s.readyListL1)
      rw [this.nodup_iff, List.nodup_cons]
      exact ⟨by simp [q1, q2, q3], hnd⟩
    · intro q hq
      rcases (mem_SortedList_Insert _ _ _ _).mp hq with h | h
      · subst h; exact hb.1
      · exact b1 q h
  · simp only [Scheduler.queued, e1, e2, e3]
    exact ⟨hnd, b1, b2, b3⟩

theorem FindNextToRun_wellQueued (s : Scheduler) (h : s.WellQueued) :
    (s.FindNextToRun).2.WellQueued := by
  obtain ⟨h0, l1, l2, l3, tk⟩ := s
  obtain ⟨hnd, b1, b2, b3⟩ := h
  simp only [Scheduler.queued] at hnd
  cases l1 with
  | cons a r1 =>
    simp only [Scheduler.FindNextToRun, Scheduler.WellQueued, Scheduler.queued]
    refine ⟨?_, fun q hq => b1 q (by simp [hq]), b2, b3⟩
    simp only [List.cons_append, List.nodup_cons] at hnd
    exact hnd.2
  | nil =>
    cases l2 with
    | cons a r2 =>
      simp only [Scheduler.FindNextToRun, Scheduler.WellQueued, Scheduler.queued]
      refine ⟨?_, b1, fun q hq => b2 q (by simp [hq]), b3⟩
      simp only [List.nil_append, List.cons_append, List.nodup_cons] at hnd
      simpa using hnd.2
    | nil =>
      cases l3 with
      | cons a r3 =>
        simp only [Scheduler.FindNextToRun, Scheduler.WellQueued, Scheduler.queued]
        refine ⟨?_, b1, b2, fun q hq => b3 q (by simp [hq])⟩
        simp only [List.nil_append, List.nodup_cons] at hnd
        simpa using hnd.2
      | nil => exact ⟨hnd, b1, b2, b3⟩

/-- Every reachable scheduler state has duplicate-free ready lists whose threads are in
the list of their priority band. -/
theorem Reachable.wellQueued {s : Scheduler} (h : Reachable s) : s.WellQueued := by
  induction h with
  | init threads tk => simp [Scheduler.WellQueued, Scheduler.init, Scheduler.queued]
  | ready s p _ hnq _ _ ih => exact ReadyToRun_wellQueued s p ih hnq
  | find s _ ih => exact FindNextToRun_wellQueued s ih
  | aging s s' _ hr ih => exact Aging_wellQueued s s' ih hr
  | update s p t _ hnq ih =>
    obtain ⟨hnd, b1, b2, b3⟩ := ih
    simp only [Scheduler.queued, List.mem_append, not_or] at hnq
    obtain ⟨⟨q1, q2⟩, q3⟩ := hnq
    refine ⟨hnd, ?_, ?_, ?_⟩
    · intro q hq
      have e : q ≠ p := fun e => q1 (e ▸ hq)
      simp only [setThread_other _ _ _ _ e]; exact b1 q hq
    · intro q hq
      have e : q ≠ p := fun e => q2 (e ▸ hq)
      simp only [setThread_other _ _ _ _ e]; exact b2 q hq
    · intro q hq
      have e : q ≠ p := fun e => q3 (e ▸ hq)
      simp only [setThread_other _ _ _ _ e]; exact b3 q hq
  | tick s tk _ ih => exact ih

/-- In a well-queued state a ready thread occurs once in the ready lists and its list is
the one of its priority band. -/
theorem WellQueued_band {s : Scheduler} (h : s.WellQueued) (p : Nat) (hp : p ∈ s.queued) :
    s.queued.count p = 1 ∧
    (p ∈ s.readyListL3 ↔ (s.threads p).priority ≤ 49) ∧
    (p ∈ s.readyListL2 ↔ 50 ≤ (s.threads p).priority ∧ (s.threads p).priority ≤ 99) ∧
    (p ∈ s.readyListL1 ↔ 100 ≤ (s.threads p).priority) := by
  obtain ⟨hnd, b1, b2, b3⟩ := h
  refine ⟨List.count_eq_one_of_mem hnd hp, ?_, ?_, ?_⟩
  all_goals
    simp only [Scheduler.queued, List.mem_append] at hp
    constructor
  · exact b3 p
  · intro h
    rcases hp with (h1 | h2) | h3
    · have := b1 p h1; omega
    · have := b2 p h2; omega
    · exact h3
  · exact b2 p
  · intro h
    rcases hp with (h1 | h2) | h3
    · have := b1 p h1; omega
    · exact h2
    · have := b3 p h3; omega
  · exact b1 p
  · intro h
    rcases hp with (h1 | h2) | h3
    · exact h1
    · have := b2 p h2; omega
    · have := b3 p h3; omega

theorem aging_after_of_returned (r : Except Fault Scheduler) (dflt : Scheduler)
    (h : Scheduler.returned r = true) : r = Except.ok (Scheduler.after r dflt) := by
  cases r with
  | ok s => rfl
  | error e => simp [Scheduler.returned] at h

/-- The state after `k` calls of `Aging` that all returned is reachable. -/
theorem Reachable.agingTimes {s : Scheduler} (h : Reachable s) :
    ∀ (k : Nat) (s' : Scheduler), Scheduler.AgingTimes k s = Except.ok s' → Reachable s' := by
  intro k
  induction k with
  | zero =>
    intro s' e
    simp only [Scheduler.AgingTimes, pure, Except.pure] at e
    injection e with e
    exact e ▸ h
  | succ n ih =>
    intro s' e
    simp only [Scheduler.AgingTimes, bind, Except.bind] at e
    split at e
    · exact absurd e (by simp)
    · rename_i t ht
      exact Reachable.aging t s' (ih t ht) e

/-- C3: in every reachable scheduler state each ready thread occurs exactly once in
L1, L2, L3 and sits in the list of its current priority band (L3 up to 49, L2 for 50..99,
L1 from 100); and after one more `Aging` call (one that returns) each of these threads
is still ready and sits in the list of the band of its priority after the call, so a
thread raised across a band boundary has been moved within that call. -/
theorem ready_thread_in_band (s : Scheduler) (h : Reachable s) :
    (∀ p ∈ s.queued,
      s.queued.count p = 1 ∧
      (p ∈ s.readyListL3 ↔ (s.threads p).priority ≤ 49) ∧
      (p ∈ s.readyListL2 ↔ 50 ≤ (s.threads p).priority ∧ (s.threads p).priority ≤ 99) ∧
      (p ∈ s.readyListL1 ↔ 100 ≤ (s.threads p).priority)) ∧
    (∀ s', s.Aging = Except.ok s' → ∀ p ∈ s.queued,
      s'.queued.count p = 1 ∧
      (p ∈ s'.readyListL3 ↔ (s'.threads p).priority ≤ 49) ∧
      (p ∈ s'.readyListL2 ↔ 50 ≤ (s'.threads p).priority ∧ (s'.threads p).priority ≤ 99) ∧
      (p ∈ s'.readyListL1 ↔ 100 ≤ (s'.threads p).priority)) := by
  have hw := h.wellQueued
  refine ⟨fun p hp => WellQueued_band hw p hp, fun s' hr p hp => ?_⟩
  exact WellQueued_band (Aging_wellQueued s s' hw hr) p
    ((Aging_queued_perm s s' hw.1 hr).mem_iff.mpr hp)

/-- Witness for C3: thread A (priority 95, waited 1400 ticks) stands in L2 in front of
B, with C in L1; the next `Aging` call returns, raises A to 105 and moves it to L1. -/
theorem ready_thread_in_band_witness :
    Reachable schedABC ∧ 1 ∈ schedABC.readyListL2 ∧
    schedABC.Aging = Except.ok schedABCaged ∧
    (schedABCaged.threads 1).priority = 105 ∧
    1 ∈ schedABCaged.readyListL1 :=
  have h14 : Scheduler.returned
      (Scheduler.AgingTimes 14 ((Scheduler.init heapABC 0).ReadyToRun 1)) = true := by decide
  have hr : Reachable schedABC :=
    Reachable.ready _ 3
      (Reachable.ready _ 2
        (Reachable.agingTimes
          (Reachable.ready _ 1 (Reachable.init heapABC 0) (by decide) (by decide) (by decide))
          14 _ (aging_after_of_returned _ (Scheduler.init heapABC 0) h14))
        (by decide) (by decide) (by decide))
      (by decide) (by decide) (by decide)
  have ha : schedABC.Aging = Except.ok schedABCaged :=
    aging_after_of_returned _ schedABC (by decide)
  ⟨hr, by decide, ha, by decide,
    ((ready_thread_in_band schedABC hr).2 schedABCaged ha 1 (by decide)).2.2.2.mpr
      (by decide)⟩

/-! ## The order of L2 -/

/-- C4 (fails on the code): a reachable state in which L1 is empty and L2 = [T1, T2]
with priorities 65 and 70.  T2 was raised from 60 to 70 by `Aging` while staying in L2
and was not moved in front of T1, so L2 is no longer in descending priority order and
`FindNextToRun` returns T1, which is not the L2 thread of greatest priority. -/
theorem Aging_breaks_L2_order :
    Reachable schedL2 ∧
    schedL2.readyListL1 = [] ∧ schedL2.readyListL2 = [1, 2] ∧
    (schedL2.threads 1).priority = 65 ∧ (schedL2.threads 2).priority = 70 ∧
    (schedL2.FindNextToRun).1 = some 1 ∧
    ¬ schedL2.readyListL2.Pairwise (priorityLe schedL2.threads) := by
  refine ⟨?_, by decide, by decide, by decide, by decide, by decide, ?_⟩
  · have h14 : Scheduler.returned
        (Scheduler.AgingTimes 14 ((Scheduler.init heapL2 0).ReadyToRun 2)) = true := by decide
    exact Reachable.aging _ _
      (Reachable.ready _ 1
        (Reachable.agingTimes
          (Reachable.ready _ 2 (Reachable.init heapL2 0) (by decide) (by decide) (by decide))
          14 _ (aging_after_of_returned _ (Scheduler.init heapL2 0) h14))
        (by decide) (by decide) (by decide))
      (aging_after_of_returned _ (Scheduler.init heapL2 0) (by decide))
  · have e : schedL2.readyListL2 = [1, 2] := by decide
    rw [e]
    intro h
    have h12 : priorityLe schedL2.threads 1 2 := by
      simpa using (List.pairwise_cons.mp h).1 2
    have p1 : (schedL2.threads 1).priority = 65 := by decide
    have p2 : (schedL2.threads 2).priority = 70 := by decide
    unfold priorityLe at h12
    rw [p1, p2] at h12
    omega

/-! ## The order of L1 -/

theorem burstLe_congr (h h' : Nat → Thread) (a b : Nat)
    (ha : (h' a).burstTime = (h a).burstTime ∧ (h' a).ID = (h a).ID)
    (hb : (h' b).burstTime = (h b).burstTime ∧ (h' b).ID = (h b).ID) :
    burstLe h' a b ↔ burstLe h a b := by
  unfold burstLe
  rw [ha.1, ha.2, hb.1, hb.2]

theorem burstLe_refl (h : Nat → Thread) (a : Nat) : burstLe h a a := by
  unfold burstLe; right; exact ⟨rfl, le_refl _⟩

theorem burstLe_trans (h : Nat → Thread) (a b c : Nat) (hab : burstLe h a b)
    (hbc : burstLe h b c) : burstLe h a c := by
  unfold burstLe at *
  omega

theorem cmpL1_neg (h : Nat → Thread) (a b : Nat) (hc : Scheduler.cmpL1 h a b < 0) :
    burstLe h a b := by
  unfold Scheduler.cmpL1 comp_burst_time Thread.getBurstTime Thread.getID at hc
  unfold burstLe
  split_ifs at hc <;> omega

theorem cmpL1_not_neg (h : Nat → Thread) (a b : Nat) (hc : ¬ Scheduler.cmpL1 h a b < 0) :
    burstLe h b a := by
  unfold Scheduler.cmpL1 comp_burst_time Thread.getBurstTime Thread.getID at hc
  unfold burstLe
  split_ifs at hc <;> omega

/-- Inserting into a list ordered by burst time then id keeps it ordered. -/
theorem sorted_SortedList_Insert (h : Nat → Thread) (p : Nat) (l : List Nat)
    (hs : l.Pairwise (burstLe h)) :
    (SortedList_Insert (Scheduler.cmpL1 h) p l).Pairwise (burstLe h) := by
  induction l with
  | nil => simp [SortedList_Insert]
  | cons x xs ih =>
    obtain ⟨hx, hxs⟩ := List.pairwise_cons.mp hs
    unfold SortedList_Insert
    split
    · rename_i hc
      refine List.pairwise_cons.mpr ⟨?_, hs⟩
      intro y hy
      rcases List.mem_cons.mp hy with e | hm
      · subst e; exact cmpL1_neg h p y hc
      · exact burstLe_trans h p x y (cmpL1_neg h p x hc) (hx y hm)
    · rename_i hc
      refine List.pairwise_cons.mpr ⟨?_, ih hxs⟩
      intro y hy
      rcases (mem_SortedList_Insert _ _ _ _).mp hy with e | hm
      · subst e; exact cmpL1_not_neg h y x hc
      · exact hx y hm

theorem pairwise_burstLe_congr (h h' : Nat → Thread) (l : List Nat)
    (hq : ∀ q ∈ l, (h' q).burstTime = (h q).burstTime ∧ (h' q).ID = (h q).ID)
    (hs : l.Pairwise (burstLe h)) : l.Pairwise (burstLe h') := by
  refine List.Pairwise.imp_of_mem ?_ hs
  intro a b ha hb hab
  exact (burstLe_congr h h' a b (hq a ha) (hq b hb)).mpr hab

theorem agedThread_keys (tk : Int) (t : Thread) :
    (agedThread tk t).burstTime = t.burstTime ∧ (agedThread tk t).ID = t.ID := by
  unfold agedThread; split <;> exact ⟨rfl, rfl⟩

theorem setThread_aged_keys (h : Nat → Thread) (tk : Int) (p q : Nat) :
    (setThread h p (agedThread tk (h p)) q).burstTime = (h q).burstTime ∧
    (setThread h p (agedThread tk (h p)) q).ID = (h q).ID := by
  by_cases e : q = p
  · subst e; rw [setThread_same]; exact agedThread_keys tk _
  · rw [setThread_other _ _ _ _ e]; exact ⟨rfl, rfl⟩

/-- An `Aging` call that returns keeps L1 ordered by burst time then id. -/
theorem Aging_L1_sorted (s s' : Scheduler)
    (hs : s.readyListL1.Pairwise (burstLe s.threads)) (h : s.Aging = Except.ok s') :
    s'.readyListL1.Pairwise (burstLe s'.threads) :=
  (Aging_induct_mem (fun t => t.readyListL1.Pairwise (burstLe t.threads)) s
    (fun t p _ hb => by
      rw [agingL1_eq]
      exact pairwise_burstLe_congr _ _ _ (fun q _ => setThread_aged_keys _ _ p q) hb)
    (fun t p _ hb => by
      rw [agingL2_eq]
      split
      · exact sorted_SortedList_Insert _ p _
          (pairwise_burstLe_congr _ _ _ (fun q _ => setThread_aged_keys _ _ p q) hb)
      · exact pairwise_burstLe_congr _ _ _ (fun q _ => setThread_aged_keys _ _ p q) hb)
    (fun t p _ hb => by
      rw [agingL3_eq]
      split
      · exact pairwise_burstLe_congr _ _ _ (fun q _ => setThread_aged_keys _ _ p q) hb
      · exact pairwise_burstLe_congr _ _ _ (fun q _ => setThread_aged_keys _ _ p q) hb)
    s' hs h).1

theorem ReadyToRun_L1_sorted (s : Scheduler) (p : Nat)
    (hs : s.readyListL1.Pairwise (burstLe s.threads)) :
    (s.ReadyToRun p).readyListL1.Pairwise (burstLe (s.ReadyToRun p).threads) := by
  have hk : ∀ q, ((s.ReadyToRun p).threads q).burstTime = (s.threads q).burstTime ∧
      ((s.ReadyToRun p).threads q).ID = (s.threads q).ID :=
    fun q => ⟨(ReadyToRun_priority s p q).2.1, (ReadyToRun_priority s p q).2.2.1⟩
  refine pairwise_burstLe_congr s.threads _ _ (fun q _ => hk q) ?_
  rcases ReadyToRun_cases s p with ⟨-, e1, -⟩ | ⟨-, e1, -⟩ | ⟨-, e1, -⟩ | ⟨-, e1, -⟩
  · rw [e1]; exact hs
  · rw [e1]; exact hs
  · rw [e1]
    have hk0 : ∀ q, (setThread s.threads p ((s.threads p).setStatus ThreadStatus.READY)
          q).burstTime = (s.threads q).burstTime ∧
        (setThread s.threads p ((s.threads p).setStatus ThreadStatus.READY) q).ID =
          (s.threads q).ID := by
      intro q
      by_cases e : q = p
      · subst e; simp [setThread, Thread.setStatus]
      · simp [setThread, e]
    have h1 := sorted_SortedList_Insert _ p _
      (pairwise_burstLe_congr s.threads
        (setThread s.threads p ((s.threads p).setStatus ThreadStatus.READY)) _
        (fun q _ => hk0 q) hs)
    exact pairwise_burstLe_congr _ s.threads _
      (fun q _ => ⟨(hk0 q).1.symm, (hk0 q).2.symm⟩) h1
  · rw [e1]; exact hs

/-- In every reachable state L1 is ordered by burst time, then id. -/
theorem Reachable.L1_sorted {s : Scheduler} (h : Reachable s) :
    s.readyListL1.Pairwise (burstLe s.threads) := by
  induction h with
  | init threads tk => simp [Scheduler.init]
  | ready s p _ _ _ _ ih => exact ReadyToRun_L1_sorted s p ih
  | find s _ ih =>
    obtain ⟨h0, l1, l2, l3, tk⟩ := s
    cases l1 with
    | cons a r1 => exact (List.pairwise_cons.mp ih).2
    | nil =>
      cases l2 with
      | cons a r2 => exact ih
      | nil =>
        cases l3 with
        | cons a r3 => exact ih
        | nil => exact ih
  | aging s s' _ hr ih => exact Aging_L1_sorted s s' ih hr
  | update s p t _ hnq ih =>
    refine pairwise_burstLe_congr s.threads _ _ ?_ ih
    intro q hq
    have e : q ≠ p := fun e => hnq (by simp [Scheduler.queued, ← e, hq])
    simp [setThread, e]
  | tick s tk _ ih => exact ih

/-- C5: in every reachable state with L1 non-empty, `FindNextToRun` returns a thread of
L1 whose burst-time estimate is the smallest in L1 and, among the L1 threads of that
burst time, whose id is the lowest; this holds whether the threads came into L1 through
`ReadyToRun` or by aging out of L2. -/
theorem FindNextToRun_L1_shortest (s : Scheduler) (h : Reachable s)
    (hne : s.readyListL1 ≠ []) :
    ∃ t, (s.FindNextToRun).1 = some t ∧ t ∈ s.readyListL1 ∧
      ∀ u ∈ s.readyListL1,
        (s.threads t).burstTime < (s.threads u).burstTime ∨
        ((s.threads t).burstTime = (s.threads u).burstTime ∧
          (s.threads t).ID ≤ (s.threads u).ID) := by
  have hs := h.L1_sorted
  obtain ⟨h0, l1, l2, l3, tk⟩ := s
  cases l1 with
  | nil => exact absurd rfl hne
  | cons a r1 =>
    refine ⟨a, rfl, by simp, ?_⟩
    intro u hu
    rcases List.mem_cons.mp hu with e | hm
    · subst e; exact burstLe_refl h0 u
    · exact (List.pairwise_cons.mp hs).1 u hm

/-- Witness for C5: T_a (burst 5, id 2) then T_b (burst 5, id 1) are made ready and
`FindNextToRun` returns T_b; and after the `Aging` call that moved A (burst 5) out of L2
into L1, where C (burst 9) was waiting, `FindNextToRun` returns A. -/
theorem FindNextToRun_L1_shortest_witness :
    ((Reachable schedTie ∧ schedTie.readyListL1 ≠ []) ∧
      (schedTie.FindNextToRun).1 = some 2 ∧ (schedTie.threads 2).ID = 1 ∧
      ∃ t, (schedTie.FindNextToRun).1 = some t ∧ t ∈ schedTie.readyListL1 ∧
        ∀ u ∈ schedTie.readyListL1,
          (schedTie.threads t).burstTime < (schedTie.threads u).burstTime ∨
          ((schedTie.threads t).burstTime = (schedTie.threads u).burstTime ∧
            (schedTie.threads t).ID ≤ (schedTie.threads u).ID)) ∧
    ((Reachable schedABCaged ∧ schedABCaged.readyListL1 ≠ []) ∧
      1 ∈ schedABC.readyListL2 ∧ schedABCaged.readyListL1 = [1, 3] ∧
      (schedABCaged.FindNextToRun).1 = some 1 ∧
      ∃ t, (schedABCaged.FindNextToRun).1 = some t ∧ t ∈ schedABCaged.readyListL1 ∧
        ∀ u ∈ schedABCaged.readyListL1,
          (schedABCaged.threads t).burstTime < (schedABCaged.threads u).burstTime ∨
          ((schedABCaged.threads t).burstTime = (schedABCaged.threads u).burstTime ∧
            (schedABCaged.threads t).ID ≤ (schedABCaged.threads u).ID)) :=
  have hr : Reachable schedTie :=
    Reachable.ready _ 2
      (Reachable.ready _ 1 (Reachable.init heapTie 0) (by decide) (by decide) (by decide))
      (by decide) (by decide) (by decide)
  have h14 : Scheduler.returned
      (Scheduler.AgingTimes 14 ((Scheduler.init heapABC 0).ReadyToRun 1)) = true := by decide
  have ha : Reachable schedABCaged :=
    Reachable.aging schedABC _
      (Reachable.ready _ 3
        (Reachable.ready _ 2
          (Reachable.agingTimes
            (Reachable.ready _ 1 (Reachable.init heapABC 0) (by decide) (by decide)
              (by decide))
            14 _ (aging_after_of_returned _ (Scheduler.init heapABC 0) h14))
          (by decide) (by decide) (by decide))
        (by decide) (by decide) (by decide))
      (aging_after_of_returned _ schedABC (by decide))
  ⟨⟨⟨hr, by decide⟩, by decide, by decide,
      FindNextToRun_L1_shortest schedTie hr (by decide)⟩,
    ⟨ha, by decide⟩, by decide, by decide, by decide,
      FindNextToRun_L1_shortest schedABCaged ha (by decide)⟩

/-! ## Aging: the priority of a ready thread -/

/-- A visit of an `Aging` loop keeps every priority that was at most 149 on entry at or
above its value on entry and at most 149. -/
theorem priority_step (h0 : Nat → Thread) (t t' : Scheduler) (p : Nat)
    (e : t'.threads = setThread t.threads p (agedThread t.totalTicks (t.threads p)))
    (hb : ∀ q, (h0 q).priority ≤ 149 →
      (h0 q).priority ≤ (t.threads q).priority ∧ (t.threads q).priority ≤ 149) :
    ∀ q, (h0 q).priority ≤ 149 →
      (h0 q).priority ≤ (t'.threads q).priority ∧ (t'.threads q).priority ≤ 149 := by
  intro q hq
  obtain ⟨b1, b2⟩ := hb q hq
  rw [e]
  by_cases c : q = p
  · subst c
    rw [setThread_same]
    exact ⟨le_trans b1 (agedThread_priority_ge _ _ b2), agedThread_priority_le _ _ b2⟩
  · rw [setThread_other _ _ _ _ c]
    exact ⟨b1, b2⟩

/-- C7: if every ready thread has a priority in [0,149], then after one `Aging` call
(one that returns) every ready thread (the threads ready after the call are threads that
were ready before it) has a priority that is at least its priority before the call and
at most 149. -/
theorem Aging_priority_bounds (s s' : Scheduler)
    (hr : ∀ q ∈ s.queued, 0 ≤ (s.threads q).priority ∧ (s.threads q).priority ≤ 149)
    (h : s.Aging = Except.ok s') :
    (∀ q ∈ s.queued, (s.threads q).priority ≤ (s'.threads q).priority ∧
      (s'.threads q).priority ≤ 149) ∧
    (∀ q ∈ s'.queued, q ∈ s.queued ∧
      (s.threads q).priority ≤ (s'.threads q).priority ∧
      (s'.threads q).priority ≤ 149) := by
  have key := Aging_induct_mem
    (fun t => ∀ q, (s.threads q).priority ≤ 149 →
      (s.threads q).priority ≤ (t.threads q).priority ∧ (t.threads q).priority ≤ 149) s
    (fun t p _ hb => priority_step s.threads t _ p (agingL1_threads t p).1 hb)
    (fun t p _ hb => priority_step s.threads t _ p (agingL2_threads t p).1 hb)
    (fun t p _ hb => priority_step s.threads t _ p (agingL3_threads t p).1 hb)
    s' (fun q hq => ⟨le_refl _, hq⟩) h
  exact ⟨fun q hq => key.1 q (hr q hq).2,
    fun q hq => ⟨key.2 q hq, key.1 q (hr (q) (key.2 q hq)).2⟩⟩

/-- Witness for C7: an L1 thread with priority 145 whose waiting time reaches 1500 ends
with priority 149; and in the call that moves A from L2 to L1 (priority 95 to 105) while
B is not visited and C is visited twice, every ready thread keeps or raises its priority
and stays at or below 149. -/
theorem Aging_priority_bounds_witness :
    ((∀ q ∈ schedCap.queued,
        0 ≤ (schedCap.threads q).priority ∧ (schedCap.threads q).priority ≤ 149) ∧
      (schedCap.threads 1).priority = 145 ∧ 1 ∈ schedCap.readyListL1 ∧
      schedCap.Aging = Except.ok schedCapAged ∧
      (schedCapAged.threads 1).priority = 149 ∧
      (schedCap.threads 1).priority ≤ (schedCapAged.threads 1).priority ∧
      (schedCapAged.threads 1).priority ≤ 149) ∧
    ((∀ q ∈ schedABC.queued,
        0 ≤ (schedABC.threads q).priority ∧ (schedABC.threads q).priority ≤ 149) ∧
      schedABC.Aging = Except.ok schedABCaged ∧
      (schedABC.threads 1).priority = 95 ∧ (schedABCaged.threads 1).priority = 105 ∧
      ∀ q ∈ schedABCaged.queued, q ∈ schedABC.queued ∧
        (schedABC.threads q).priority ≤ (schedABCaged.threads q).priority ∧
        (schedABCaged.threads q).priority ≤ 149) :=
  have ha : schedCap.Aging = Except.ok schedCapAged :=
    aging_after_of_returned _ schedCap (by decide)
  have hb : schedABC.Aging = Except.ok schedABCaged :=
    aging_after_of_returned _ schedABC (by decide)
  ⟨⟨by decide, by decide, by decide, ha, by decide,
      (Aging_priority_bounds schedCap schedCapAged (by decide) ha).1 1 (by decide)⟩,
    by decide, hb, by decide, by decide,
    (Aging_priority_bounds schedABC schedABCaged (by decide) hb).2⟩

/-! ## Aging: the threads a call visits -/

/-- C8 (fails on the code): in the reachable state with L1 = [C] and L2 = [A, B], where A
(priority 95) has waited 1400 ticks and B and C have waited 0, one `Aging` call returns
with A moved to L1 in front of C; B, which stood behind A in L2, was not visited and
still has waiting time 0, and C, which stands behind A in L1, was visited a second time
and has waiting time 200.  One visit each would leave both with waiting time 100. -/
theorem Aging_skips_and_revisits :
    Reachable schedABC ∧ schedABC.queued.Nodup ∧
    schedABC.readyListL1 = [3] ∧ schedABC.readyListL2 = [1, 2] ∧
    schedABC.readyListL3 = [] ∧
    (schedABC.threads 1).waitingTime = 1400 ∧ (schedABC.threads 1).priority = 95 ∧
    (schedABC.threads 2).waitingTime = 0 ∧ (schedABC.threads 3).waitingTime = 0 ∧
    schedABC.Aging = Except.ok schedABCaged ∧
    schedABCaged.readyListL1 = [1, 3] ∧ schedABCaged.readyListL2 = [2] ∧
    (schedABCaged.threads 1).waitingTime = 0 ∧
    (schedABCaged.threads 2).waitingTime = 0 ∧
    (schedABCaged.threads 3).waitingTime = 200 := by
  have h14 : Scheduler.returned
      (Scheduler.AgingTimes 14 ((Scheduler.init heapABC 0).ReadyToRun 1)) = true := by decide
  have hr : Reachable schedABC :=
    Reachable.ready _ 3
      (Reachable.ready _ 2
        (Reachable.agingTimes
          (Reachable.ready _ 1 (Reachable.init heapABC 0) (by decide) (by decide) (by decide))
          14 _ (aging_after_of_returned _ (Scheduler.init heapABC 0) h14))
        (by decide) (by decide) (by decide))
      (by decide) (by decide) (by decide)
  exact ⟨hr, by decide, by decide, by decide, by decide, by decide, by decide, by decide,
    by decide, aging_after_of_returned _ schedABC (by decide), by decide, by decide,
    by decide, by decide, by decide⟩

/-! ## Aging: the schedule of a waiting thread -/

set_option maxRecDepth 1000000 in
/-- The priority-45 thread alone in the ready lists follows the schedule of the spec: every
call returns; after 15 calls it has priority 55 and is in L2, after 30 calls priority 65,
still in L2, after 150 calls priority 145, in L1. -/
theorem Aging_lone_thread :
    Scheduler.returned
      (Scheduler.AgingTimes 150 ((Scheduler.init heap45 0).ReadyToRun 1)) = true ∧
    ((sched45 15).threads 1).priority = 55 ∧ (sched45 15).readyListL2 = [1] ∧
    (sched45 15).readyListL3 = [] ∧
    ((sched45 30).threads 1).priority = 65 ∧ (sched45 30).readyListL2 = [1] ∧
    ((sched45 150).threads 1).priority = 145 ∧ (sched45 150).readyListL1 = [1] := by
  decide

/-- C6 (fails on the code): U and T, both with priority 45 and waiting time 0, are made
ready in this order at tick 0 and `Aging` is called 15 times; every call returns.  The
15th call moves U to L2 with priority 55 and does not visit T, which stood behind U in
L3: after the 15 calls T still has priority 45 and is in L3, not in L2, with 1400 ticks
of waiting time.  The schedule `p + 10 * (k / 15)` gives 55 and L2 for T. -/
theorem Aging_skips_neighbour :
    Reachable (schedPair 0) ∧ (schedPair 0).readyListL3 = [1, 2] ∧
    ((schedPair 0).threads 2).priority = 45 ∧ ((schedPair 0).threads 2).waitingTime = 0 ∧
    Scheduler.returned (Scheduler.AgingTimes 15 (schedPair 0)) = true ∧
    Reachable (schedPair 15) ∧
    ((schedPair 15).threads 1).priority = 55 ∧ (schedPair 15).readyListL2 = [1] ∧
    ((schedPair 15).threads 2).priority = 45 ∧ (schedPair 15).readyListL3 = [2] ∧
    ((schedPair 15).threads 2).waitingTime = 1400 := by
  have h0 : Reachable (((Scheduler.init heapPair 0).ReadyToRun 1).ReadyToRun 2) :=
    Reachable.ready _ 2
      (Reachable.ready _ 1 (Reachable.init heapPair 0) (by decide) (by decide) (by decide))
      (by decide) (by decide) (by decide)
  have h15 : Scheduler.returned
      (Scheduler.AgingTimes 15 (((Scheduler.init heapPair 0).ReadyToRun 1).ReadyToRun 2)) =
        true := by decide
  exact ⟨h0, by decide, by decide, by decide, h15,
    Reachable.agingTimes h0 15 _ (aging_after_of_returned _ (Scheduler.init heapPair 0) h15),
    by decide, by decide, by decide, by decide, by decide⟩
/-! # Theorems: file system -/

/-! ## The bitmap -/

theorem firstClear_spec (b : List Bool) (h : 0 < b.count false) :
    ∃ i, Bitmap.firstClear b = some i ∧ b[i]? = some false ∧
      (b.set i true).count false + 1 = b.count false := by
  induction b with
  | nil => simp at h
  | cons x xs ih =>
    cases x with
    | false => exact ⟨0, by simp [Bitmap.firstClear], by simp, by simp⟩
    | true =>
      have h' : 0 < xs.count false := by simpa using h
      obtain ⟨i, h1, h2, h3⟩ := ih h'
      refine ⟨i + 1, by simp [Bitmap.firstClear, h1], by simpa using h2, ?_⟩
      simpa using h3

theorem firstClear_none (b : List Bool) (h : b.count false = 0) :
    Bitmap.firstClear b = none := by
  induction b with
  | nil => rfl
  | cons x xs ih =>
    cases x with
    | false => simp at h
    | true =>
      have h' : xs.count false = 0 := by simpa using h
      simp [Bitmap.firstClear, ih h']

theorem Took_nil (b : Bitmap) : Took b [] b := by
  refine ⟨rfl, List.nodup_nil, ?_, fun _ _ => rfl, by simp⟩
  intro x hx; simp at hx

/-- Function `FindAndSet` on a bitmap with a clear bit takes one sector. -/
theorem FindAndSet_took (b : Bitmap) (h : 0 < b.NumClear) :
    (b.FindAndSet).1 ≠ -1 ∧ 0 ≤ (b.FindAndSet).1 ∧ Took b [(b.FindAndSet).1] (b.FindAndSet).2 := by
  have h' : 0 < b.count false := by simpa [Bitmap.NumClear] using h
  obtain ⟨i, h1, h2, h3⟩ := firstClear_spec b h'
  have hlt : i < b.length := by
    by_contra hc
    rw [List.getElem?_eq_none (by omega)] at h2
    exact absurd h2 (by simp)
  simp only [Bitmap.FindAndSet, h1]
  refine ⟨by omega, by omega, by simp, by simp, ?_, ?_, ?_⟩
  · intro x hx
    simp only [List.mem_singleton] at hx
    subst hx
    refine ⟨by omega, by simpa using h2, ?_⟩
    simp [List.getElem?_set_self hlt]
  · intro j hj
    have : i ≠ j := fun e => hj (by simp [e])
    simp [List.getElem?_set_ne this]
  · simp only [List.length_singleton]
    omega

theorem FindAndSet_full (b : Bitmap) (h : b.NumClear = 0) : (b.FindAndSet).1 = -1 := by
  have h' : b.count false = 0 := by simpa [Bitmap.NumClear] using h
  simp [Bitmap.FindAndSet, firstClear_none b h']

theorem Took_trans {a b c : Bitmap} {g1 g2 : List Int} (h1 : Took a g1 b) (h2 : Took b g2 c) :
    Took a (g1 ++ g2) c := by
  obtain ⟨l1, n1, m1, f1, c1⟩ := h1
  obtain ⟨l2, n2, m2, f2, c2⟩ := h2
  refine ⟨l2.trans l1, ?_, ?_, ?_, ?_⟩
  · rw [List.nodup_append]
    refine ⟨n1, n2, ?_⟩
    intro x hx1 hx2
    have e1 := (m1 x hx1).2.2
    have e2 := (m2 x hx2).2.1
    rw [e1] at e2
    exact absurd e2 (by simp)
  · intro x hx
    rcases List.mem_append.mp hx with h | h
    · obtain ⟨p1, p2, p3⟩ := m1 x h
      refine ⟨p1, p2, ?_⟩
      by_cases hx2 : x ∈ g2
      · exact (m2 x hx2).2.2
      · have := f2 x.toNat (by rwa [Int.toNat_of_nonneg p1])
        rw [this]; exact p3
    · obtain ⟨p1, p2, p3⟩ := m2 x h
      refine ⟨p1, ?_, p3⟩
      have hx1 : x ∉ g1 := by
        intro hx1
        have e1 := (m1 x hx1).2.2
        rw [e1] at p2
        exact absurd p2 (by simp)
      have := f1 x.toNat (by rwa [Int.toNat_of_nonneg p1])
      rw [← this]; exact p2
  · intro j hj
    simp only [List.mem_append, not_or] at hj
    rw [f2 j hj.2, f1 j hj.1]
  · simp only [List.length_append, Nat.cast_add]
    omega

/-- The allocation loop succeeds when enough bits are clear, and takes `k` sectors. -/
theorem allocLoop_took (k : Nat) (b : Bitmap) (h : (k : Int) ≤ b.NumClear) :
    ∃ got b', FileHeader.allocLoop k b = .ok (got, b') ∧ got.length = k ∧ Took b got b' := by
  induction k generalizing b with
  | zero => exact ⟨[], b, rfl, rfl, Took_nil b⟩
  | succ k ih =>
    have hpos : 0 < b.NumClear := by omega
    obtain ⟨hne, hge, ht⟩ := FindAndSet_took b hpos
    have hc := ht.2.2.2.2
    have hk : (k : Int) ≤ (b.FindAndSet).2.NumClear := by
      simp only [Bitmap.NumClear, List.length_singleton] at hc h ⊢
      omega
    obtain ⟨got, b', e, hl, ht'⟩ := ih (b.FindAndSet).2 hk
    refine ⟨(b.FindAndSet).1 :: got, b', ?_, by simp [hl], Took_trans ht ht'⟩
    simp [FileHeader.allocLoop, hge, e, bind, Except.bind, pure, Except.pure]

/-! ## Allocate -/

theorem divRoundUp_eq (n s : Int) (hn : 0 ≤ n) (hs : 0 ≤ s) :
    divRoundUp n s = n / s + (if n % s > 0 then 1 else 0) := by
  unfold divRoundUp
  rw [Int.tdiv_eq_ediv hn hs, Int.tmod_eq_emod hn hs]

theorem MaxFileSize_eq : (MaxFileSize : Int) = 3712 := by
  simp [MaxFileSize, NumDirect, SectorSize]

theorem SectorSize_eq : (SectorSize : Int) = 128 := by
  simp [SectorSize]

theorem NumDirect_eq : (NumDirect : Int) = 29 := by
  simp [NumDirect]

theorem take_append_replicate (got : List Int) (k : Nat) (h : got.length = k) (m : Nat) :
    (got ++ List.replicate m (-1 : Int)).take k = got := by
  rw [← h, List.take_left]

/-- Function `Allocate` succeeds when `sectorsNeeded n` bits are clear: it returns `true` with a
well-formed chain of total length `n`, whose recorded sectors it took from the free
map. -/
theorem AllocateAux_success (fuel : Nat) (b : Bitmap) (n : Int) (hn : 0 ≤ n)
    (hf : n < MaxFileSize * fuel) (hfree : sectorsNeeded n ≤ b.NumClear) :
    ∃ hdr b', FileHeader.AllocateAux fuel b n = .ok (true, hdr, b') ∧
      Took b hdr.allSectors b' ∧ hdr.cal_file_size = n ∧ hdr.WellFormed ∧
      (∀ k : Nat, 1 ≤ k → n ≤ MaxFileSize * k → hdr.chainLength ≤ k) := by
  induction fuel generalizing b n with
  | zero => simp at hf; omega
  | succ fuel ih =>
    have hM := MaxFileSize_eq
    have hS := SectorSize_eq
    unfold sectorsNeeded at hfree
    rw [divRoundUp_eq n SectorSize hn (by omega), hM, hS] at hfree
    by_cases hlt : n < 3712
    · -- one header, shorter than MaxFileSize
      have hns : divRoundUp n SectorSize = n / 128 + (if n % 128 > 0 then 1 else 0) := by
        rw [divRoundUp_eq n SectorSize hn (by omega), hS]
      have hle : n ≤ 3712 := by omega
      rw [if_pos hle] at hfree
      have hk : ((divRoundUp n SectorSize).toNat : Int) ≤ b.NumClear := by
        rw [hns]; split_ifs at hfree ⊢ <;> omega
      obtain ⟨got, b', e, hl, ht⟩ := allocLoop_took _ b hk
      refine ⟨.last n (divRoundUp n SectorSize) (got ++ List.replicate (NumDirect - got.length) (-1)) (-1),
        b', ?_, ?_, rfl, rfl, fun k hk _ => hk⟩
      · have hnc : ¬ b.NumClear < divRoundUp n SectorSize := by
          rw [hns]; split_ifs at hfree ⊢ <;> omega
        simp only [FileHeader.AllocateAux, hM, if_pos hlt, sub_self, hnc, if_false, e, bind,
          Except.bind, pure, Except.pure, gt_iff_lt, lt_self_iff_false]
      · simp only [FileHeader.allSectors]
        rw [take_append_replicate got _ hl]; exact ht
    · have hge : 3712 ≤ n := by omega
      have hns : divRoundUp (3712 : Int) SectorSize = 29 := by
        rw [divRoundUp_eq _ _ (by omega) (by omega), hS]; decide
      by_cases heq : n = 3712
      · -- one header of exactly MaxFileSize bytes
        subst heq
        have hk : ((29 : Int).toNat : Int) ≤ b.NumClear := by
          simp at hfree ⊢; omega
        obtain ⟨got, b', e, hl, ht⟩ := allocLoop_took _ b hk
        refine ⟨.last 3712 29 (got ++ List.replicate (NumDirect - got.length) (-1)) (-1),
          b', ?_, ?_, rfl, rfl, fun k hk _ => hk⟩
        · have hnc : ¬ b.NumClear < 29 := by simp at hfree; omega
          simp only [FileHeader.AllocateAux, hM, lt_self_iff_false, if_false, sub_self, hns,
            hnc, e, bind, Except.bind, pure, Except.pure, gt_iff_lt]
        · simp only [FileHeader.allSectors]
          rw [take_append_replicate got _ hl]; exact ht
      · -- a chained header follows
        have hgt : 3712 < n := by omega
        have hnle : ¬ n ≤ 3712 := by omega
        rw [if_neg hnle, divRoundUp_eq n 3712 hn (by omega)] at hfree
        have hk : ((29 : Int).toNat : Int) ≤ b.NumClear := by
          have e29 : (29 : Int).toNat = 29 := rfl
          rw [e29]; split_ifs at hfree <;> omega
        obtain ⟨got, b1, e, hl, ht⟩ := allocLoop_took _ b hk
        have hc1 := ht.2.2.2.2
        simp only [Bitmap.NumClear] at hfree hc1
        have hl' : (got.length : Int) = 29 := by rw [hl]; simp
        have hpos : 0 < b1.NumClear := by
          simp only [Bitmap.NumClear]; split_ifs at hfree <;> omega
        obtain ⟨hne, hge1, ht1⟩ := FindAndSet_took b1 hpos
        have hc2 := ht1.2.2.2.2
        simp only [Bitmap.NumClear, List.length_singleton] at hc2
        have hrec : sectorsNeeded (n - 3712) ≤ (b1.FindAndSet).2.NumClear := by
          unfold sectorsNeeded
          rw [divRoundUp_eq (n - 3712) SectorSize (by omega) (by omega), hM, hS]
          simp only [Bitmap.NumClear]
          by_cases h2 : n - 3712 ≤ 3712
          · rw [if_pos h2]
            split_ifs at hfree ⊢ <;> omega
          · rw [if_neg h2, divRoundUp_eq (n - 3712) 3712 (by omega) (by omega)]
            split_ifs at hfree ⊢ <;> omega
        have hf' : n - 3712 < MaxFileSize * fuel := by
          rw [hM] at hf ⊢; push_cast at hf; omega
        obtain ⟨hdr', b2, e2, ht2, hcal, hwf, hch⟩ :=
          ih (b1.FindAndSet).2 (n - 3712) (by omega) hf' hrec
        refine ⟨.link 3712 29 (got ++ List.replicate (NumDirect - got.length) (-1))
          (b1.FindAndSet).1 hdr', b2, ?_, ?_, ?_, ⟨hne, hwf⟩, ?_⟩
        · have hnc : ¬ b.NumClear < 29 := by
            simp only [Bitmap.NumClear]; split_ifs at hfree <;> omega
          have hlt' : ¬ n < 3712 := by omega
          have hrem : 0 < n - 3712 := by omega
          simp only [FileHeader.AllocateAux, hM, if_neg hlt', hns, hnc, if_false, e, bind,
            Except.bind, pure, Except.pure, gt_iff_lt, hrem, if_true, hne, e2]
        · simp only [FileHeader.allSectors]
          rw [take_append_replicate got _ hl]
          have := Took_trans ht (Took_trans ht1 ht2)
          simpa using this
        · simp only [FileHeader.cal_file_size, hcal]; omega
        · intro k hk1 hk2
          simp only [FileHeader.chainLength]
          rw [hM] at hk2
          have : hdr'.chainLength ≤ k - 1 := by
            apply hch (k - 1)
            · omega
            · rw [hM]; omega
          omega

/-! ## Header chains on disk -/

theorem ReadSector_ok (disk : Disk) (s : Int) (h0 : 0 ≤ s) (h1 : s < NumSectors) :
    ReadSector disk s = .ok (disk s.toNat) := by
  simp [ReadSector, h0, h1, pure, Except.pure]

theorem WriteSector_ok (disk : Disk) (s : Int) (d : SectorData) (h0 : 0 ≤ s)
    (h1 : s < NumSectors) :
    WriteSector disk s d = .ok (fun x => if x = s.toNat then d else disk x) := by
  simp [WriteSector, h0, h1, pure, Except.pure]

/-- A chain the disk holds is what `FetchFrom` loads, given fuel for its length. -/
theorem FetchFrom_of_holds (disk : Disk) (hdr : FileHeader) (s : Int) (fuel : Nat)
    (h : HoldsChain disk hdr s) (hf : hdr.chainLength ≤ fuel) :
    FileHeader.FetchFrom fuel disk s = .ok hdr := by
  induction hdr generalizing s fuel with
  | last nb ns ds nx =>
    obtain ⟨⟨h0, h1⟩, hd, hnx⟩ := h
    cases fuel with
    | zero => simp [FileHeader.chainLength] at hf
    | succ fuel =>
      simp [FileHeader.FetchFrom, ReadSector_ok disk s h0 h1, hd, hnx, bind, Except.bind,
        pure, Except.pure]
  | link nb ns ds nx next ih =>
    obtain ⟨⟨h0, h1⟩, hd, hnx, hrest⟩ := h
    cases fuel with
    | zero => simp [FileHeader.chainLength] at hf
    | succ fuel =>
      have := ih nx fuel hrest (by simpa [FileHeader.chainLength] using hf)
      simp [FileHeader.FetchFrom, ReadSector_ok disk s h0 h1, hd, hnx, this, bind, Except.bind,
        pure, Except.pure]

/-- What `FetchFrom` loads is a chain the disk holds. -/
theorem holds_of_FetchFrom (disk : Disk) (fuel : Nat) (s : Int) (hdr : FileHeader)
    (h : FileHeader.FetchFrom fuel disk s = .ok hdr) :
    HoldsChain disk hdr s ∧ hdr.chainLength ≤ fuel ∧ hdr.WellFormed := by
  induction fuel generalizing s hdr with
  | zero => simp [FileHeader.FetchFrom, throw, throwThe, MonadExceptOf.throw] at h
  | succ fuel ih =>
    unfold FileHeader.FetchFrom at h
    by_cases hr : 0 ≤ s ∧ s < NumSectors
    · rw [ReadSector_ok disk s hr.1 hr.2] at h
      simp only [bind, Except.bind] at h
      split at h
      · rename_i nb ns nx ds hd
        by_cases hnx : nx = -1
        · simp only [hnx, ne_eq, not_true_eq_false, if_false, pure, Except.pure] at h
          injection h with h
          subst h
          exact ⟨⟨hr, by rw [hd, hnx], rfl⟩, by simp [FileHeader.chainLength], rfl⟩
        · simp only [ne_eq, hnx, not_false_eq_true, if_true] at h
          cases hn : FileHeader.FetchFrom fuel disk nx with
          | error e => rw [hn] at h; simp at h
          | ok next =>
            rw [hn] at h
            simp only [pure, Except.pure] at h
            injection h with h
            subst h
            obtain ⟨i1, i2, i3⟩ := ih nx next hn
            exact ⟨⟨hr, hd, hnx, i1⟩, by simpa [FileHeader.chainLength] using i2, hnx, i3⟩
      · simp [throw, throwThe, MonadExceptOf.throw] at h
    · simp [ReadSector, hr, bind, Except.bind, throw, throwThe, MonadExceptOf.throw] at h

theorem HoldsChain_frame (disk disk' : Disk) (hdr : FileHeader) (s : Int)
    (h : HoldsChain disk hdr s)
    (hsame : ∀ x ∈ hdr.headerSectors s, disk' x.toNat = disk x.toNat) :
    HoldsChain disk' hdr s := by
  induction hdr generalizing s with
  | last nb ns ds nx =>
    obtain ⟨hr, hd, hnx⟩ := h
    exact ⟨hr, by rw [hsame s (by simp [FileHeader.headerSectors]), hd], hnx⟩
  | link nb ns ds nx next ih =>
    obtain ⟨hr, hd, hnx, hrest⟩ := h
    refine ⟨hr, by rw [hsame s (by simp [FileHeader.headerSectors]), hd], hnx, ?_⟩
    exact ih nx hrest (fun x hx => hsame x (by simp [FileHeader.headerSectors, hx]))

theorem headerSectors_subset (hdr : FileHeader) (s : Int) :
    ∀ x ∈ hdr.headerSectors s, x = s ∨ x ∈ hdr.allSectors := by
  induction hdr generalizing s with
  | last nb ns ds nx => intro x hx; left; simpa [FileHeader.headerSectors] using hx
  | link nb ns ds nx next ih =>
    intro x hx
    simp only [FileHeader.headerSectors, List.mem_cons] at hx
    rcases hx with e | hx
    · left; exact e
    · right
      simp only [FileHeader.allSectors, List.mem_append, List.mem_cons]
      rcases ih nx x hx with e | h
      · right; left; exact e
      · right; right; exact h

/-- Function `WriteBack` of a well-formed chain onto distinct sectors of the disk stores the chain
and touches no other sector. -/
theorem WriteBack_holds (hdr : FileHeader) (disk : Disk) (s : Int) (hwf : hdr.WellFormed)
    (hr : ∀ x ∈ hdr.headerSectors s, 0 ≤ x ∧ x < NumSectors)
    (hnd : (hdr.headerSectors s).Nodup) :
    ∃ disk', FileHeader.WriteBack hdr disk s = .ok disk' ∧ HoldsChain disk' hdr s ∧
      ∀ x : Nat, (x : Int) ∉ hdr.headerSectors s → disk' x = disk x := by
  induction hdr generalizing disk s with
  | last nb ns ds nx =>
    have hs := hr s (by simp [FileHeader.headerSectors])
    have hnx : nx = -1 := hwf
    refine ⟨fun x => if x = s.toNat then .header nb ns nx ds else disk x,
      by simp [FileHeader.WriteBack, WriteSector_ok disk s _ hs.1 hs.2, hnx, bind,
        Except.bind, pure, Except.pure], ⟨hs, by simp, hnx⟩, ?_⟩
    intro x hx
    have : x ≠ s.toNat := by
      intro e
      apply hx
      simp only [FileHeader.headerSectors, List.mem_singleton]
      omega
    simp [this]
  | link nb ns ds nx next ih =>
    have hs := hr s (by simp [FileHeader.headerSectors])
    obtain ⟨hnx, hwf'⟩ := hwf
    simp only [FileHeader.headerSectors, List.nodup_cons] at hnd
    obtain ⟨hsn, hnd'⟩ := hnd
    obtain ⟨disk', e, hh, hfr⟩ := ih (fun x => if x = s.toNat then .header nb ns nx ds else disk x)
      nx hwf' (fun x hx => hr x (by simp [FileHeader.headerSectors, hx])) hnd'
    refine ⟨disk', by simp [FileHeader.WriteBack, WriteSector_ok disk s _ hs.1 hs.2, hnx, e,
      bind, Except.bind], ⟨hs, ?_, hnx, hh⟩, ?_⟩
    · rw [hfr s.toNat (by rwa [Int.toNat_of_nonneg hs.1])]
      simp
    · intro x hx
      simp only [FileHeader.headerSectors, List.mem_cons, not_or] at hx
      rw [hfr x hx.2]
      have : x ≠ s.toNat := by
        intro e
        apply hx.1
        omega
      simp [this]

/-! ## File contents on disk -/

theorem sectorsOf_last (f : OpenFile) (nb ns nx : Int) (ds : List Int)
    (hf : f.hdr = .last nb ns ds nx) (count i : Nat) (h1 : i + count ≤ NumDirect)
    (h2 : i + count ≤ ds.length) :
    OpenFile.sectorsOf f i count = .ok ((ds.drop i).take count) := by
  induction count generalizing i with
  | zero => simp [OpenFile.sectorsOf, pure, Except.pure]
  | succ c ih =>
    have hi : i < ds.length := by omega
    have hb : f.hdr.ByteToSector ((i : Int) * SectorSize) = .ok ds[i] := by
      rw [hf]
      have hdiv : Int.tdiv ((i : Int) * SectorSize) SectorSize = i := by
        rw [Int.tdiv_eq_ediv (by positivity) (by positivity)]
        simp [SectorSize]
      have hlt : (i : Int) < NumDirect := by
        have : i < NumDirect := by omega
        exact_mod_cast this
      simp only [FileHeader.ByteToSector, hdiv, hlt, if_true, Int.toNat_ofNat,
        Nat.cast_nonneg, pure, Except.pure]
      simp [List.getD_eq_getElem?_getD, List.getElem?_eq_getElem hi]
    have := ih (i + 1) (by omega) (by omega)
    simp only [OpenFile.sectorsOf, hb, this, bind, Except.bind, pure, Except.pure]
    rw [List.drop_eq_getElem_cons hi, List.take_succ_cons]

theorem readPieces_of_holds (disk : Disk) (obj : FileObject) (secs : List Int) (i : Nat)
    (acc : Option FileObject) (h : HoldsPieces disk obj secs i)
    (hacc : acc = none ∨ acc = some obj) :
    readPieces disk secs i acc = .ok (if secs = [] then acc else some obj) := by
  induction secs generalizing i acc with
  | nil => simp [readPieces, pure, Except.pure]
  | cons s rest ih =>
    obtain ⟨hr, hd, hrest⟩ := h
    have := ih (i + 1) (some obj) hrest (Or.inr rfl)
    simp only [readPieces, ReadSector_ok disk s hr.1 hr.2, hd, bind, Except.bind, true_and,
      hacc, if_true, this]
    split <;> simp

theorem readPieces_frame (disk disk' : Disk) (secs : List Int) (i : Nat)
    (acc : Option FileObject) (h : ∀ x ∈ secs, disk' x.toNat = disk x.toNat) :
    readPieces disk' secs i acc = readPieces disk secs i acc := by
  induction secs generalizing i acc with
  | nil => rfl
  | cons s rest ih =>
    have hs := h s (by simp)
    have hrest := fun j a => ih j a (fun x hx => h x (by simp [hx]))
    simp only [readPieces, ReadSector, hs, hrest]

theorem HoldsPieces_frame (disk disk' : Disk) (obj : FileObject) (secs : List Int) (i : Nat)
    (h : HoldsPieces disk obj secs i) (hsame : ∀ x ∈ secs, disk' x.toNat = disk x.toNat) :
    HoldsPieces disk' obj secs i := by
  induction secs generalizing i with
  | nil => trivial
  | cons s rest ih =>
    obtain ⟨hr, hd, hrest⟩ := h
    exact ⟨hr, by rw [hsame s (by simp), hd],
      ih (i + 1) hrest (fun x hx => hsame x (by simp [hx]))⟩

theorem writePieces_holds (obj : FileObject) (disk : Disk) (secs : List Int) (i : Nat)
    (hr : ∀ x ∈ secs, 0 ≤ x ∧ x < NumSectors) (hnd : secs.Nodup) :
    ∃ disk', writePieces obj disk secs i = .ok disk' ∧ HoldsPieces disk' obj secs i ∧
      ∀ x : Nat, (x : Int) ∉ secs → disk' x = disk x := by
  induction secs generalizing disk i with
  | nil => exact ⟨disk, rfl, trivial, fun _ _ => rfl⟩
  | cons s rest ih =>
    have hs := hr s (by simp)
    obtain ⟨hsn, hnd'⟩ := List.nodup_cons.mp hnd
    obtain ⟨disk', e, hh, hfr⟩ := ih (fun x => if x = s.toNat then .piece obj i else disk x)
      (i + 1) (fun x hx => hr x (by simp [hx])) hnd'
    refine ⟨disk', by simp [writePieces, WriteSector_ok disk s _ hs.1 hs.2, e, bind,
      Except.bind], ⟨hs, ?_, hh⟩, ?_⟩
    · rw [hfr s.toNat (by rwa [Int.toNat_of_nonneg hs.1])]
      simp
    · intro x hx
      simp only [List.mem_cons, not_or] at hx
      rw [hfr x hx.2]
      have : x ≠ s.toNat := by
        intro e
        apply hx.1
        omega
      simp [this]

/-- Shape of a directory-file header. -/
theorem isDirectoryHeader_eq (h : FileHeader) (hd : h.isDirectoryHeader = true) :
    ∃ ds, h = .last DirectoryFileSize 10 ds (-1) ∧ ds.length = NumDirect ∧
      h.allSectors = ds.take 10 := by
  cases h with
  | link nb ns ds nx next => simp [FileHeader.isDirectoryHeader] at hd
  | last nb ns ds nx =>
    simp only [FileHeader.isDirectoryHeader, Bool.and_eq_true, beq_iff_eq] at hd
    obtain ⟨⟨⟨h1, h2⟩, h3⟩, h4⟩ := hd
    have h10 : divRoundUp DirectoryFileSize SectorSize = 10 := by decide
    rw [h10] at h2
    subst h1 h2 h3
    exact ⟨ds, rfl, h4, rfl⟩

/-- Shape of the free-map file header. -/
theorem isFreeMapHeader_eq (h : FileHeader) (hd : h.isFreeMapHeader = true) :
    ∃ ds, h = .last FreeMapFileSize 1 ds (-1) ∧ ds.length = NumDirect ∧
      h.allSectors = ds.take 1 := by
  cases h with
  | link nb ns ds nx next => simp [FileHeader.isFreeMapHeader] at hd
  | last nb ns ds nx =>
    simp only [FileHeader.isFreeMapHeader, Bool.and_eq_true, beq_iff_eq] at hd
    obtain ⟨⟨⟨h1, h2⟩, h3⟩, h4⟩ := hd
    have h10 : divRoundUp FreeMapFileSize SectorSize = 1 := by decide
    rw [h10] at h2
    subst h1 h2 h3
    exact ⟨ds, rfl, h4, rfl⟩

/-- Reading a directory file reads the recorded sectors of its header. -/
theorem Directory_FetchFrom_eq (disk : Disk) (f : OpenFile) (cur : List DirectoryEntry)
    (hd : f.hdr.isDirectoryHeader = true) (hc : cur.length = NumDirEntries) :
    Directory.FetchFrom disk f cur =
      (match readPieces disk f.hdr.allSectors 0 none with
       | .error e => .error e
       | .ok none => .ok cur
       | .ok (some (.table t)) =>
         if t.length = NumDirEntries then .ok t else .error Fault.unspecified
       | .ok (some (.bitmap _)) => .error Fault.unspecified) := by
  obtain ⟨ds, e1, e2, e3⟩ := isDirectoryHeader_eq f.hdr hd
  have hs := sectorsOf_last f _ _ _ ds e1 10 0 (by simp [NumDirect]) (by simp [e2, NumDirect])
  simp only [List.drop_zero] at hs
  have hcount : (NumDirEntries * DirectoryEntrySize + SectorSize - 1) / SectorSize = 10 := by
    decide
  have hne : ¬ (NumDirEntries * DirectoryEntrySize = 0 ∨ f.hdr.FileLength ≤ 0) := by
    rw [e1]
    simp [FileHeader.FileLength, FileHeader.numBytes, DirectoryFileSize, DirectoryEntrySize,
      NumDirEntries]
  have hnl : ¬ (f.hdr.FileLength < ((NumDirEntries * DirectoryEntrySize : Nat) : Int)) := by
    rw [e1]
    simp [FileHeader.FileLength, FileHeader.numBytes, DirectoryFileSize, DirectoryEntrySize,
      NumDirEntries]
  unfold Directory.FetchFrom OpenFile.ReadAt
  simp only [hc, hne, hnl, if_false, hcount, hs, e3, bind, Except.bind]
  cases readPieces disk (List.take 10 ds) 0 none with
  | error e => rfl
  | ok v =>
    cases v with
    | none => rfl
    | some o =>
      cases o with
      | table t => simp only [pure, Except.pure, throw, throwThe, MonadExceptOf.throw]
      | bitmap b => rfl

theorem Directory_FetchFrom_frame (disk disk' : Disk) (f : OpenFile)
    (cur : List DirectoryEntry) (hd : f.hdr.isDirectoryHeader = true)
    (hc : cur.length = NumDirEntries)
    (h : ∀ x ∈ f.hdr.allSectors, disk' x.toNat = disk x.toNat) :
    Directory.FetchFrom disk' f cur = Directory.FetchFrom disk f cur := by
  rw [Directory_FetchFrom_eq disk' f cur hd hc, Directory_FetchFrom_eq disk f cur hd hc,
    readPieces_frame disk disk' _ 0 none h]

theorem Directory_FetchFrom_of_holds (disk : Disk) (f : OpenFile)
    (cur t : List DirectoryEntry) (hd : f.hdr.isDirectoryHeader = true)
    (hc : cur.length = NumDirEntries) (ht : t.length = NumDirEntries)
    (h : HoldsPieces disk (.table t) f.hdr.allSectors 0) :
    Directory.FetchFrom disk f cur = .ok t := by
  rw [Directory_FetchFrom_eq disk f cur hd hc, readPieces_of_holds disk _ _ 0 none h (Or.inl rfl)]
  obtain ⟨ds, e1, e2, e3⟩ := isDirectoryHeader_eq f.hdr hd
  have : ¬ f.hdr.allSectors = [] := by
    rw [e3]
    intro hnil
    have := congrArg List.length hnil
    simp [e2, NumDirect] at this
  simp [this, ht]

theorem Directory_FetchFrom_length (disk : Disk) (f : OpenFile)
    (cur t : List DirectoryEntry) (h : Directory.FetchFrom disk f cur = .ok t) :
    t.length = cur.length := by
  unfold Directory.FetchFrom at h
  simp only [bind, Except.bind] at h
  split at h
  · simp at h
  · split at h
    · simp only [pure, Except.pure] at h; injection h with h; rw [h]
    · split at h
      · rename_i hl
        simp only [pure, Except.pure] at h; injection h with h; rw [← h, hl]
      · simp [throw, throwThe, MonadExceptOf.throw] at h
    · simp [throw, throwThe, MonadExceptOf.throw] at h

/-- Function `Directory::WriteBack` to a directory file on distinct sectors of the disk stores the
table in the recorded sectors and touches no other sector. -/
theorem Directory_WriteBack_holds (disk : Disk) (table : List DirectoryEntry) (f : OpenFile)
    (hd : f.hdr.isDirectoryHeader = true) (hc : table.length = NumDirEntries)
    (hr : ∀ x ∈ f.hdr.allSectors, 0 ≤ x ∧ x < NumSectors) (hnd : f.hdr.allSectors.Nodup) :
    ∃ disk', Directory.WriteBack disk table f = .ok disk' ∧
      HoldsPieces disk' (.table table) f.hdr.allSectors 0 ∧
      ∀ x : Nat, (x : Int) ∉ f.hdr.allSectors → disk' x = disk x := by
  obtain ⟨ds, e1, e2, e3⟩ := isDirectoryHeader_eq f.hdr hd
  have hs := sectorsOf_last f _ _ _ ds e1 10 0 (by simp [NumDirect]) (by simp [e2, NumDirect])
  simp only [List.drop_zero] at hs
  have hcount : (NumDirEntries * DirectoryEntrySize + SectorSize - 1) / SectorSize = 10 := by
    decide
  have hne : ¬ (NumDirEntries * DirectoryEntrySize = 0 ∨ f.hdr.FileLength ≤ 0) := by
    rw [e1]
    simp [FileHeader.FileLength, FileHeader.numBytes, DirectoryFileSize, DirectoryEntrySize,
      NumDirEntries]
  have hnl : ¬ (f.hdr.FileLength < ((NumDirEntries * DirectoryEntrySize : Nat) : Int)) := by
    rw [e1]
    simp [FileHeader.FileLength, FileHeader.numBytes, DirectoryFileSize, DirectoryEntrySize,
      NumDirEntries]
  obtain ⟨disk', e, hh, hfr⟩ := writePieces_holds (.table table) disk f.hdr.allSectors 0 hr hnd
  refine ⟨disk', ?_, hh, hfr⟩
  unfold Directory.WriteBack OpenFile.WriteAt
  simp only [hc, hne, hnl, if_false, hcount, hs, bind, Except.bind]
  rw [← e3]; exact e

/-- Function `PersistentBitmap::WriteBack` to the free-map file on distinct sectors of the disk
touches no sector but the recorded ones. -/
theorem Bitmap_WriteBack_holds (disk : Disk) (b : Bitmap) (f : OpenFile)
    (hd : f.hdr.isFreeMapHeader = true) (hc : b.length = NumSectors)
    (hr : ∀ x ∈ f.hdr.allSectors, 0 ≤ x ∧ x < NumSectors) (hnd : f.hdr.allSectors.Nodup) :
    ∃ disk', PersistentBitmap.WriteBack disk b f = .ok disk' ∧
      HoldsPieces disk' (.bitmap b) f.hdr.allSectors 0 ∧
      ∀ x : Nat, (x : Int) ∉ f.hdr.allSectors → disk' x = disk x := by
  obtain ⟨ds, e1, e2, e3⟩ := isFreeMapHeader_eq f.hdr hd
  have hs := sectorsOf_last f _ _ _ ds e1 1 0 (by simp [NumDirect]) (by simp [e2, NumDirect])
  simp only [List.drop_zero] at hs
  have hcount : ((NumSectors + 31) / 32 * 4 + SectorSize - 1) / SectorSize = 1 := by
    decide
  have hne : ¬ ((NumSectors + 31) / 32 * 4 = 0 ∨ f.hdr.FileLength ≤ 0) := by
    rw [e1]
    simp [FileHeader.FileLength, FileHeader.numBytes, FreeMapFileSize, NumSectors]
  have hnl : ¬ (f.hdr.FileLength < (((NumSectors + 31) / 32 * 4 : Nat) : Int)) := by
    rw [e1]
    simp [FileHeader.FileLength, FileHeader.numBytes, FreeMapFileSize, NumSectors]
  obtain ⟨disk', e, hh, hfr⟩ := writePieces_holds (.bitmap b) disk f.hdr.allSectors 0 hr hnd
  refine ⟨disk', ?_, hh, hfr⟩
  unfold PersistentBitmap.WriteBack OpenFile.WriteAt
  simp only [hc, hne, hnl, if_false, hcount, hs, bind, Except.bind]
  rw [← e3]; exact e

/-! ## The directory tree on disk -/

theorem Find_hit (fuel : Nat) (disk : Disk) (table : List DirectoryEntry) (name : List Char)
    (sub : Bool) (e : DirectoryEntry) (hi : Directory.FindIndex table name ≠ -1)
    (he : Directory.entryAt table (Directory.FindIndex table name) = .ok e) :
    Directory.Find fuel disk table name sub = .ok e.sector := by
  unfold Directory.Find
  simp [hi, he, bind, Except.bind, pure, Except.pure]

theorem Find_miss (fuel : Nat) (disk : Disk) (table : List DirectoryEntry) (name : List Char)
    (hi : Directory.FindIndex table name = -1) :
    Directory.Find fuel disk table name false = .ok (-1) := by
  unfold Directory.Find
  simp [hi, pure, Except.pure]

theorem HoldsChain_unique (disk : Disk) (h h' : FileHeader) (s : Int)
    (h1 : HoldsChain disk h s) (h2 : HoldsChain disk h' s) : h = h' := by
  induction h generalizing h' s with
  | last nb ns ds nx =>
    obtain ⟨-, d1, n1⟩ := h1
    cases h' with
    | last nb' ns' ds' nx' =>
      obtain ⟨-, d2, -⟩ := h2
      rw [d1] at d2
      injection d2 with a b c d
      subst a b c d; rfl
    | link nb' ns' ds' nx' next' =>
      obtain ⟨-, d2, n2, -⟩ := h2
      rw [d1] at d2
      injection d2 with a b c d
      exact absurd (c ▸ n1) n2
  | link nb ns ds nx next ih =>
    obtain ⟨-, d1, n1, r1⟩ := h1
    cases h' with
    | last nb' ns' ds' nx' =>
      obtain ⟨-, d2, n2⟩ := h2
      rw [d1] at d2
      injection d2 with a b c d
      exact absurd (c ▸ n2) n1
    | link nb' ns' ds' nx' next' =>
      obtain ⟨-, d2, -, r2⟩ := h2
      rw [d1] at d2
      injection d2 with a b c d
      subst a b c d
      rw [ih next' nx r1 r2]

theorem open_inv (fuel : Nat) (disk : Disk) (s : Int) (f : OpenFile)
    (h : OpenFile.open fuel disk s = .ok f) :
    f.sector = s ∧ FileHeader.FetchFrom fuel disk s = .ok f.hdr := by
  unfold OpenFile.open at h
  simp only [bind, Except.bind] at h
  split at h
  · simp at h
  · rename_i hdr e
    simp only [pure, Except.pure] at h
    injection h with h
    subst h
    exact ⟨rfl, e⟩

theorem open_of_holds (fuel : Nat) (disk : Disk) (s : Int) (hdr : FileHeader)
    (h : HoldsChain disk hdr s) (hf : hdr.chainLength ≤ fuel) :
    OpenFile.open fuel disk s = .ok ⟨s, hdr⟩ := by
  simp [OpenFile.open, FetchFrom_of_holds disk hdr s fuel h hf, bind, Except.bind, pure,
    Except.pure]

/-- Opening a directory file reads only its header sector. -/
theorem open_frame_dir (fuel : Nat) (disk disk' : Disk) (s : Int) (f : OpenFile)
    (h : OpenFile.open fuel disk s = .ok f) (hd : f.hdr.isDirectoryHeader = true)
    (hs : disk' s.toNat = disk s.toNat) : OpenFile.open fuel disk' s = .ok f := by
  obtain ⟨e1, e2⟩ := open_inv fuel disk s f h
  obtain ⟨hc, hl, -⟩ := holds_of_FetchFrom disk fuel s f.hdr e2
  obtain ⟨ds, e, -, -⟩ := isDirectoryHeader_eq f.hdr hd
  have hc' : HoldsChain disk' f.hdr s := by
    apply HoldsChain_frame disk disk' f.hdr s hc
    intro x hx
    rw [e] at hx
    simp only [FileHeader.headerSectors, List.mem_singleton] at hx
    rw [hx]; exact hs
  have := open_of_holds fuel disk' s f.hdr hc' hl
  rw [this]
  cases f
  simp only at e1
  rw [e1]

theorem entrySectors_inv (fuel : Nat) (disk : Disk)
    (below : List DirectoryEntry → Except Fault (List Int)) (e : DirectoryEntry)
    (fe : List Int) (h : entrySectors fuel disk below e = .ok fe) :
    (e.inUse = false ∧ fe = []) ∨
    (e.inUse = true ∧ ∃ f, OpenFile.open fuel disk e.sector = .ok f ∧
      ((e.type = DIR ∧ f.hdr.isDirectoryHeader = true ∧ ∃ tbl sub,
          Directory.FetchFrom disk f (Directory.new NumDirEntries) = .ok tbl ∧
          below tbl = .ok sub ∧ fe = e.sector :: f.hdr.allSectors ++ sub) ∨
       (e.type ≠ DIR ∧ fe = e.sector :: f.hdr.allSectors))) := by
  unfold entrySectors at h
  by_cases hu : e.inUse = true
  · right
    refine ⟨hu, ?_⟩
    simp only [hu, Bool.not_true, Bool.false_eq_true, if_false, bind, Except.bind] at h
    cases ho : OpenFile.open fuel disk e.sector with
    | error err => rw [ho] at h; simp at h
    | ok f =>
      rw [ho] at h
      refine ⟨f, rfl, ?_⟩
      by_cases ht : e.type = DIR
      · left
        simp only [ht, beq_self_eq_true, if_true] at h
        by_cases hd : f.hdr.isDirectoryHeader = true
        · simp only [hd, if_true] at h
          cases hf : Directory.FetchFrom disk f (Directory.new NumDirEntries) with
          | error err => rw [hf] at h; simp at h
          | ok tbl =>
            rw [hf] at h
            dsimp only at h
            cases hb : below tbl with
            | error err => rw [hb] at h; simp at h
            | ok sub =>
              rw [hb] at h
              simp only [pure, Except.pure] at h
              injection h with h
              exact ⟨ht, hd, tbl, sub, rfl, hb, h.symm⟩
        · simp [hd, throw, throwThe, MonadExceptOf.throw] at h
      · right
        have : (e.type == DIR) = false := by simpa using ht
        simp only [this, Bool.false_eq_true, if_false, pure, Except.pure] at h
        injection h with h
        exact ⟨ht, h.symm⟩
  · left
    have hu' : e.inUse = false := by simpa using hu
    simp only [hu', Bool.not_false, if_true, pure, Except.pure] at h
    injection h with h
    exact ⟨hu', h.symm⟩

theorem entriesSectors_cons_inv (fuel : Nat) (disk : Disk)
    (below : List DirectoryEntry → Except Fault (List Int)) (e : DirectoryEntry)
    (es : List DirectoryEntry) (fp : List Int)
    (h : entriesSectors fuel disk below (e :: es) = .ok fp) :
    ∃ fe fes, entrySectors fuel disk below e = .ok fe ∧
      entriesSectors fuel disk below es = .ok fes ∧ fp = fe ++ fes := by
  unfold entriesSectors at h
  simp only [bind, Except.bind] at h
  cases h1 : entrySectors fuel disk below e with
  | error err => rw [h1] at h; simp at h
  | ok fe =>
    rw [h1] at h
    cases h2 : entriesSectors fuel disk below es with
    | error err => rw [h2] at h; simp at h
    | ok fes =>
      rw [h2] at h
      simp only [pure, Except.pure] at h
      injection h with h
      exact ⟨fe, fes, rfl, rfl, h.symm⟩

/-- The sectors of an in-use entry of a table are among the sectors of the table. -/
theorem entriesSectors_mem (fuel : Nat) (disk : Disk)
    (below : List DirectoryEntry → Except Fault (List Int)) (es : List DirectoryEntry)
    (fp : List Int) (h : entriesSectors fuel disk below es = .ok fp) (e : DirectoryEntry)
    (he : e ∈ es) (hu : e.inUse = true) :
    ∃ f, OpenFile.open fuel disk e.sector = .ok f ∧
      (e.sector :: f.hdr.allSectors).Sublist fp := by
  induction es generalizing fp with
  | nil => simp at he
  | cons a as ih =>
    obtain ⟨fe, fes, h1, h2, h3⟩ := entriesSectors_cons_inv fuel disk below a as fp h
    subst h3
    rcases List.mem_cons.mp he with e1 | e2
    · subst e1
      rcases entrySectors_inv fuel disk below e fe h1 with ⟨hn, -⟩ | ⟨-, f, ho, hc⟩
      · rw [hu] at hn; exact absurd hn (by simp)
      · refine ⟨f, ho, ?_⟩
        rcases hc with ⟨-, -, tbl, sub, -, -, efe⟩ | ⟨-, efe⟩
        · rw [efe]
          exact ((List.sublist_append_left _ sub).trans (List.sublist_append_left _ fes))
        · rw [efe]
          exact List.sublist_append_left _ fes
    · obtain ⟨f, ho, m1⟩ := ih fes h2 e2
      exact ⟨f, ho, m1.trans (List.sublist_append_right fe fes)⟩

theorem FindIndexFrom_hit (name : List Char) (es : List DirectoryEntry) (k : Nat) (i : Int)
    (h : Directory.FindIndexFrom name es k = i) (hi : i ≠ -1) :
    ∃ j e, i = (k + j : Nat) ∧ es[j]? = some e ∧ e.inUse = true ∧
      nameMatch e.name name = true := by
  induction es generalizing k with
  | nil => simp [Directory.FindIndexFrom] at h; exact absurd h.symm hi
  | cons a as ih =>
    unfold Directory.FindIndexFrom at h
    by_cases hc : (a.inUse && nameMatch a.name name) = true
    · simp only [hc, if_true] at h
      simp only [Bool.and_eq_true] at hc
      exact ⟨0, a, by simp [h], by simp, hc.1, hc.2⟩
    · simp only [hc, Bool.false_eq_true, if_false] at h
      obtain ⟨j, e, h1, h2, h3, h4⟩ := ih (k + 1) h
      exact ⟨j + 1, e, by rw [h1]; congr 1; omega, by simpa using h2, h3, h4⟩

theorem FindIndex_hit (table : List DirectoryEntry) (name : List Char)
    (hi : Directory.FindIndex table name ≠ -1) :
    ∃ e, Directory.entryAt table (Directory.FindIndex table name) = .ok e ∧ e ∈ table ∧
      e.inUse = true ∧ nameMatch e.name name = true := by
  obtain ⟨j, e, h1, h2, h3, h4⟩ := FindIndexFrom_hit name table 0 _ rfl hi
  refine ⟨e, ?_, List.getElem?_mem h2, h3, h4⟩
  have : Directory.FindIndex table name = (j : Nat) := by
    unfold Directory.FindIndex; rw [h1]; simp
  rw [this]
  simp [Directory.entryAt, List.get?_eq_getElem?, h2, pure, Except.pure]

theorem treeSectors_succ (fuel : Nat) (disk : Disk) (table : List DirectoryEntry) :
    treeSectors (fuel + 1) disk table =
      entriesSectors fuel disk (treeSectors fuel disk) table := rfl

theorem Find_miss_sub (fuel : Nat) (disk : Disk) (table : List DirectoryEntry)
    (name : List Char) (hi : Directory.FindIndex table name = -1) :
    Directory.Find (fuel + 1) disk table name true =
      Directory.findSub fuel disk (fun t => Directory.Find fuel disk t name true) table := by
  conv_lhs => unfold Directory.Find
  simp [hi]

theorem findSub_skip (fuel : Nat) (disk : Disk) (F : List DirectoryEntry → Except Fault Int)
    (e : DirectoryEntry) (es : List DirectoryEntry)
    (h : (e.inUse && e.type == DIR) = false) :
    Directory.findSub fuel disk F (e :: es) = Directory.findSub fuel disk F es := by
  conv_lhs => unfold Directory.findSub
  simp [h]

theorem findSub_dir (fuel : Nat) (disk : Disk) (F : List DirectoryEntry → Except Fault Int)
    (e : DirectoryEntry) (es : List DirectoryEntry) (f : OpenFile)
    (tbl : List DirectoryEntry) (h : (e.inUse && e.type == DIR) = true)
    (ho : OpenFile.open fuel disk e.sector = .ok f)
    (hf : Directory.FetchFrom disk f (Directory.new NumDirEntries) = .ok tbl) :
    Directory.findSub fuel disk F (e :: es) =
      (match F tbl with
       | .error err => .error err
       | .ok r => if r ≠ -1 then .ok r else Directory.findSub fuel disk F es) := by
  conv_lhs => unfold Directory.findSub
  simp only [h, if_true, ho, hf, bind, Except.bind, pure, Except.pure]
  cases F tbl with
  | error err => rfl
  | ok r => by_cases hr : r = -1 <;> simp [hr]

/-- An in-use entry that is a sub-directory, as the sector computation sees it. -/
theorem entrySectors_dir (fuel : Nat) (disk : Disk)
    (below : List DirectoryEntry → Except Fault (List Int)) (e : DirectoryEntry)
    (fe : List Int) (h : entrySectors fuel disk below e = .ok fe)
    (hd : (e.inUse && e.type == DIR) = true) :
    ∃ f tbl sub, OpenFile.open fuel disk e.sector = .ok f ∧
      f.hdr.isDirectoryHeader = true ∧
      Directory.FetchFrom disk f (Directory.new NumDirEntries) = .ok tbl ∧
      below tbl = .ok sub ∧ fe = e.sector :: f.hdr.allSectors ++ sub := by
  simp only [Bool.and_eq_true, beq_iff_eq] at hd
  rcases entrySectors_inv fuel disk below e fe h with ⟨hn, -⟩ | ⟨-, f, ho, hc⟩
  · rw [hd.1] at hn; exact absurd hn (by simp)
  · rcases hc with ⟨-, hdir, tbl, sub, h1, h2, h3⟩ | ⟨hn, -⟩
    · exact ⟨f, tbl, sub, ho, hdir, h1, h2, h3⟩
    · exact absurd hd.2 hn

/-- Where the sub-directory loop finds its result, given where the recursive calls find
theirs. -/
theorem findSub_location (fuel : Nat) (disk : Disk) (name : List Char)
    (hrec : ∀ table fp t, treeSectors fuel disk table = .ok fp →
      Directory.Find fuel disk table name true = .ok t → t ≠ -1 →
      ∃ h, HoldsChain disk h t ∧ (t :: h.allSectors).Sublist fp)
    (es : List DirectoryEntry) (fp : List Int) (t : Int)
    (hs : entriesSectors fuel disk (treeSectors fuel disk) es = .ok fp)
    (hfind : Directory.findSub fuel disk (fun t => Directory.Find fuel disk t name true) es =
      .ok t)
    (ht : t ≠ -1) :
    ∃ h, HoldsChain disk h t ∧ (t :: h.allSectors).Sublist fp := by
  induction es generalizing fp with
  | nil =>
    simp only [Directory.findSub, pure, Except.pure] at hfind
    injection hfind with hfind
    exact absurd hfind.symm ht
  | cons e es ih =>
    obtain ⟨fe, fes, h1, h2, h3⟩ := entriesSectors_cons_inv _ _ _ e es fp hs
    subst h3
    by_cases hd : (e.inUse && e.type == DIR) = true
    · obtain ⟨f, tbl, sub, ho, -, hf, hb, hfe⟩ := entrySectors_dir _ _ _ e fe h1 hd
      rw [findSub_dir fuel disk _ e es f tbl hd ho hf] at hfind
      cases hr : Directory.Find fuel disk tbl name true with
      | error err => rw [hr] at hfind; simp at hfind
      | ok r =>
        rw [hr] at hfind
        dsimp only at hfind
        by_cases hr1 : r = -1
        · simp only [hr1, ne_eq, not_true_eq_false, if_false] at hfind
          obtain ⟨h, c1, c2⟩ := ih fes h2 hfind
          exact ⟨h, c1, c2.trans (List.sublist_append_right fe fes)⟩
        · simp only [ne_eq, hr1, not_false_eq_true, if_true] at hfind
          injection hfind with hfind
          subst hfind
          obtain ⟨h, c1, c2⟩ := hrec tbl sub r hb hr hr1
          refine ⟨h, c1, ?_⟩
          rw [hfe]
          exact (c2.trans (List.sublist_append_right _ sub)).trans
            (List.sublist_append_left _ fes)
    · have hd' : (e.inUse && e.type == DIR) = false := by simpa using hd
      rw [findSub_skip fuel disk _ e es hd'] at hfind
      obtain ⟨h, c1, c2⟩ := ih fes h2 hfind
      exact ⟨h, c1, c2.trans (List.sublist_append_right fe fes)⟩

/-- The sector the recursive search returns is the header sector of an entry of the tree,
and the sectors recorded by the header it holds belong to the tree. -/
theorem Find_location (fuel : Nat) (disk : Disk) (name : List Char)
    (table : List DirectoryEntry) (fp : List Int) (t : Int)
    (hs : treeSectors fuel disk table = .ok fp)
    (hfind : Directory.Find fuel disk table name true = .ok t) (ht : t ≠ -1) :
    ∃ h, HoldsChain disk h t ∧ (t :: h.allSectors).Sublist fp := by
  induction fuel generalizing table fp t with
  | zero => simp [treeSectors, throw, throwThe, MonadExceptOf.throw] at hs
  | succ fuel ih =>
    rw [treeSectors_succ] at hs
    by_cases hi : Directory.FindIndex table name = -1
    · rw [Find_miss_sub fuel disk table name hi] at hfind
      exact findSub_location fuel disk name (fun tb fp' t' a b c => ih tb fp' t' a b c)
        table fp t hs hfind ht
    · obtain ⟨e, he, hm, hu, -⟩ := FindIndex_hit table name hi
      rw [Find_hit (fuel + 1) disk table name true e hi he] at hfind
      injection hfind with hfind
      subst hfind
      obtain ⟨f, ho, m1⟩ := entriesSectors_mem _ _ _ table fp hs e hm hu
      obtain ⟨-, e2⟩ := open_inv fuel disk e.sector f ho
      exact ⟨f.hdr, (holds_of_FetchFrom disk fuel e.sector f.hdr e2).1, m1⟩

theorem findSub_frame (fuel : Nat) (disk disk' : Disk) (name : List Char)
    (hrec : ∀ table fp, treeSectors fuel disk table = .ok fp →
      (∀ x ∈ fp, disk' x.toNat = disk x.toNat) →
      Directory.Find fuel disk' table name true = Directory.Find fuel disk table name true)
    (es : List DirectoryEntry) (fp : List Int)
    (hs : entriesSectors fuel disk (treeSectors fuel disk) es = .ok fp)
    (hsame : ∀ x ∈ fp, disk' x.toNat = disk x.toNat) :
    Directory.findSub fuel disk' (fun t => Directory.Find fuel disk' t name true) es =
      Directory.findSub fuel disk (fun t => Directory.Find fuel disk t name true) es := by
  induction es generalizing fp with
  | nil => rfl
  | cons e es ih =>
    obtain ⟨fe, fes, h1, h2, h3⟩ := entriesSectors_cons_inv _ _ _ e es fp hs
    subst h3
    have ih' := ih fes h2 (fun x hx => hsame x (by simp [hx]))
    by_cases hd : (e.inUse && e.type == DIR) = true
    · obtain ⟨f, tbl, sub, ho, hdir, hf, hb, hfe⟩ := entrySectors_dir _ _ _ e fe h1 hd
      have ho' : OpenFile.open fuel disk' e.sector = .ok f :=
        open_frame_dir fuel disk disk' e.sector f ho hdir (hsame _ (by simp [hfe]))
      have hf' : Directory.FetchFrom disk' f (Directory.new NumDirEntries) = .ok tbl := by
        rw [Directory_FetchFrom_frame disk disk' f _ hdir (by simp [Directory.new])
          (fun x hx => hsame x (by simp [hfe, hx]))]
        exact hf
      rw [findSub_dir fuel disk' _ e es f tbl hd ho' hf',
        findSub_dir fuel disk _ e es f tbl hd ho hf, ih',
        hrec tbl sub hb (fun x hx => hsame x (by simp [hfe, hx]))]
    · have hd' : (e.inUse && e.type == DIR) = false := by simpa using hd
      rw [findSub_skip fuel disk' _ e es hd', findSub_skip fuel disk _ e es hd', ih']

/-- The recursive search reads only sectors of the tree. -/
theorem Find_frame (fuel : Nat) (disk disk' : Disk) (name : List Char)
    (table : List DirectoryEntry) (fp : List Int)
    (hs : treeSectors fuel disk table = .ok fp)
    (hsame : ∀ x ∈ fp, disk' x.toNat = disk x.toNat) :
    Directory.Find fuel disk' table name true = Directory.Find fuel disk table name true := by
  induction fuel generalizing table fp with
  | zero => simp [treeSectors, throw, throwThe, MonadExceptOf.throw] at hs
  | succ fuel ih =>
    rw [treeSectors_succ] at hs
    by_cases hi : Directory.FindIndex table name = -1
    · rw [Find_miss_sub fuel disk table name hi, Find_miss_sub fuel disk' table name hi]
      exact findSub_frame fuel disk disk' name (fun tb fp' a b => ih tb fp' a b) table fp hs
        hsame
    · obtain ⟨e, he, -⟩ := FindIndex_hit table name hi
      rw [Find_hit (fuel + 1) disk table name true e hi he,
        Find_hit (fuel + 1) disk' table name true e hi he]

theorem findSub_stable (fuel : Nat) (disk disk' : Disk) (name : List Char) (t : Int)
    (h : FileHeader) (hh : HoldsChain disk h t) (ht : t ≠ -1)
    (hrec : ∀ table fp, treeSectors fuel disk table = .ok fp → fp.Nodup →
      Directory.Find fuel disk table name true = .ok t →
      (∀ x ∈ fp, x ∉ h.allSectors → disk' x.toNat = disk x.toNat) →
      Directory.Find fuel disk' table name true = .ok t)
    (es : List DirectoryEntry) (fp : List Int)
    (hs : entriesSectors fuel disk (treeSectors fuel disk) es = .ok fp) (hnd : fp.Nodup)
    (hfind : Directory.findSub fuel disk (fun t => Directory.Find fuel disk t name true) es =
      .ok t)
    (hsame : ∀ x ∈ fp, x ∉ h.allSectors → disk' x.toNat = disk x.toNat) :
    Directory.findSub fuel disk' (fun t => Directory.Find fuel disk' t name true) es =
      .ok t := by
  induction es generalizing fp with
  | nil =>
    simp only [Directory.findSub, pure, Except.pure] at hfind
    injection hfind with hfind
    exact absurd hfind.symm ht
  | cons e es ih =>
    obtain ⟨fe, fes, h1, h2, h3⟩ := entriesSectors_cons_inv _ _ _ e es fp hs
    subst h3
    obtain ⟨nfe, nfes, hdisj⟩ := List.nodup_append.mp hnd
    have ih' := ih fes h2 nfes
    by_cases hd : (e.inUse && e.type == DIR) = true
    · obtain ⟨f, tbl, sub, ho, hdir, hf, hb, hfe⟩ := entrySectors_dir _ _ _ e fe h1 hd
      rw [findSub_dir fuel disk _ e es f tbl hd ho hf] at hfind
      cases hr : Directory.Find fuel disk tbl name true with
      | error err => rw [hr] at hfind; simp at hfind
      | ok r =>
        rw [hr] at hfind
        dsimp only at hfind
        have hfe_nd : (e.sector :: f.hdr.allSectors ++ sub).Nodup := hfe ▸ nfe
        by_cases hr1 : r = -1
        · -- nothing below `e`; the result comes from a later entry
          simp only [hr1, ne_eq, not_true_eq_false, if_false] at hfind
          obtain ⟨h', c1, c2⟩ := findSub_location fuel disk name
            (fun tb fp' t' a b c => Find_location fuel disk name tb fp' t' a b c)
            es fes t h2 hfind ht
          have c3 : ∀ x ∈ h'.allSectors, x ∈ fes := fun x hx => c2.subset (by simp [hx])
          have hu := HoldsChain_unique disk h' h t c1 hh
          subst hu
          have hout : ∀ x ∈ fe, x ∉ h'.allSectors := fun x hx hx' => hdisj hx (c3 x hx')
          have hagree : ∀ x ∈ fe, disk' x.toNat = disk x.toNat :=
            fun x hx => hsame x (by simp [hx]) (hout x hx)
          have ho' : OpenFile.open fuel disk' e.sector = .ok f :=
            open_frame_dir fuel disk disk' e.sector f ho hdir (hagree _ (by simp [hfe]))
          have hf' : Directory.FetchFrom disk' f (Directory.new NumDirEntries) = .ok tbl := by
            rw [Directory_FetchFrom_frame disk disk' f _ hdir (by simp [Directory.new])
              (fun x hx => hagree x (by simp [hfe, hx]))]
            exact hf
          rw [findSub_dir fuel disk' _ e es f tbl hd ho' hf',
            Find_frame fuel disk disk' name tbl sub hb
              (fun x hx => hagree x (by simp [hfe, hx])), hr]
          simp only [hr1, ne_eq, not_true_eq_false, if_false]
          exact ih' hfind (fun x hx => hsame x (by simp [hx]))
        · -- the result is found below `e`
          simp only [ne_eq, hr1, not_false_eq_true, if_true] at hfind
          injection hfind with hfind
          subst hfind
          obtain ⟨h', c1, c2⟩ := Find_location fuel disk name tbl sub r hb hr hr1
          have c3 : ∀ x ∈ h'.allSectors, x ∈ sub := fun x hx => c2.subset (by simp [hx])
          have hu := HoldsChain_unique disk h' h r c1 hh
          subst hu
          have hown : ∀ x ∈ e.sector :: f.hdr.allSectors, x ∉ h'.allSectors := by
            intro x hx hx'
            have hsub := c3 x hx'
            exact (List.nodup_append.mp hfe_nd).2.2 hx hsub
          have hagree : ∀ x ∈ e.sector :: f.hdr.allSectors, disk' x.toNat = disk x.toNat :=
            fun x hx => hsame x (by
              rw [hfe]
              rcases List.mem_cons.mp hx with e1 | e2
              · simp [e1]
              · simp [e2]) (hown x hx)
          have ho' : OpenFile.open fuel disk' e.sector = .ok f :=
            open_frame_dir fuel disk disk' e.sector f ho hdir (hagree _ (by simp))
          have hf' : Directory.FetchFrom disk' f (Directory.new NumDirEntries) = .ok tbl := by
            rw [Directory_FetchFrom_frame disk disk' f _ hdir (by simp [Directory.new])
              (fun x hx => hagree x (by simp [hx]))]
            exact hf
          have hsub_nd : sub.Nodup := (List.nodup_append.mp hfe_nd).2.1
          rw [findSub_dir fuel disk' _ e es f tbl hd ho' hf',
            hrec tbl sub hb hsub_nd hr (fun x hx => hsame x (by simp [hfe, hx]))]
          simp [hr1]
    · have hd' : (e.inUse && e.type == DIR) = false := by simpa using hd
      rw [findSub_skip fuel disk _ e es hd'] at hfind
      rw [findSub_skip fuel disk' _ e es hd']
      exact ih' hfind (fun x hx => hsame x (by simp [hx]))

/-- The recursive search returns the same sector on a disk that differs from the given
one only outside the tree and on the sectors recorded by the header found. -/
theorem Find_stable (fuel : Nat) (disk disk' : Disk) (name : List Char) (t : Int)
    (h : FileHeader) (hh : HoldsChain disk h t) (ht : t ≠ -1)
    (table : List DirectoryEntry) (fp : List Int)
    (hs : treeSectors fuel disk table = .ok fp) (hnd : fp.Nodup)
    (hfind : Directory.Find fuel disk table name true = .ok t)
    (hsame : ∀ x ∈ fp, x ∉ h.allSectors → disk' x.toNat = disk x.toNat) :
    Directory.Find fuel disk' table name true = .ok t := by
  induction fuel generalizing table fp with
  | zero => simp [treeSectors, throw, throwThe, MonadExceptOf.throw] at hs
  | succ fuel ih =>
    rw [treeSectors_succ] at hs
    by_cases hi : Directory.FindIndex table name = -1
    · rw [Find_miss_sub fuel disk table name hi] at hfind
      rw [Find_miss_sub fuel disk' table name hi]
      exact findSub_stable fuel disk disk' name t h hh ht
        (fun tb fp' a b c d => ih tb fp' a b c d) table fp hs hnd hfind hsame
    · obtain ⟨e, he, -⟩ := FindIndex_hit table name hi
      rw [Find_hit (fuel + 1) disk table name true e hi he] at hfind
      rw [Find_hit (fuel + 1) disk' table name true e hi he]
      exact hfind

/-! ## Directory::Add -/

theorem FindIndexFrom_miss (name : List Char) (es : List DirectoryEntry) (k : Nat)
    (h : Directory.FindIndexFrom name es k = -1) :
    ∀ e ∈ es, (e.inUse && nameMatch e.name name) = false := by
  induction es generalizing k with
  | nil => intro e he; simp at he
  | cons a as ih =>
    unfold Directory.FindIndexFrom at h
    by_cases hc : (a.inUse && nameMatch a.name name) = true
    · simp only [hc, if_true] at h
      omega
    · simp only [hc, Bool.false_eq_true, if_false] at h
      intro e he
      rcases List.mem_cons.mp he with e1 | e2
      · subst e1; simpa using hc
      · exact ih (k + 1) h e e2

/-- Function `Add` of an absent name into a table with a free entry: the lowest free entry is
taken, and the name is then found there. -/
theorem addLoop_spec (name : List Char) (s ty : Int) (es : List DirectoryEntry) (k : Nat)
    (hfree : ∃ e ∈ es, e.inUse = false)
    (habs : ∀ e ∈ es, (e.inUse && nameMatch e.name name) = false) :
    ∃ es' j, Directory.addLoop name s ty es = some es' ∧ es'.length = es.length ∧
      es'[j]? = some ⟨true, name.take FileNameMaxLen, s, ty⟩ ∧
      Directory.FindIndexFrom name es' k = (k + j : Nat) := by
  induction es generalizing k with
  | nil => obtain ⟨e, he, -⟩ := hfree; simp at he
  | cons a as ih =>
    by_cases ha : a.inUse = true
    · have hfree' : ∃ e ∈ as, e.inUse = false := by
        obtain ⟨e, he, hu⟩ := hfree
        rcases List.mem_cons.mp he with e1 | e2
        · subst e1; rw [ha] at hu; exact absurd hu (by simp)
        · exact ⟨e, e2, hu⟩
      obtain ⟨es', j, h1, h2, h3, h4⟩ := ih (k + 1) hfree'
        (fun e he => habs e (by simp [he]))
      refine ⟨a :: es', j + 1, by simp [Directory.addLoop, ha, h1], by simp [h2],
        by simpa using h3, ?_⟩
      have hma := habs a (by simp)
      unfold Directory.FindIndexFrom
      simp only [hma, Bool.false_eq_true, if_false, h4]
      congr 1
      omega
    · have ha' : a.inUse = false := by simpa using ha
      refine ⟨⟨true, name.take FileNameMaxLen, s, ty⟩ :: as, 0,
        by simp [Directory.addLoop, ha'], by simp, by simp, ?_⟩
      unfold Directory.FindIndexFrom
      simp [nameMatch, List.take_take]

theorem Add_spec (table : List DirectoryEntry) (name : List Char) (s ty : Int)
    (habs : Directory.FindIndex table name = -1) (hfree : ∃ e ∈ table, e.inUse = false) :
    (Directory.Add table name s ty).1 = true ∧
    (Directory.Add table name s ty).2.length = table.length ∧
    ⟨true, name.take FileNameMaxLen, s, ty⟩ ∈ (Directory.Add table name s ty).2 ∧
    Directory.FindIndex (Directory.Add table name s ty).2 name ≠ -1 ∧
    Directory.entryAt (Directory.Add table name s ty).2
      (Directory.FindIndex (Directory.Add table name s ty).2 name) =
        .ok ⟨true, name.take FileNameMaxLen, s, ty⟩ := by
  obtain ⟨es', j, h1, h2, h3, h4⟩ := addLoop_spec name s ty table 0 hfree
    (FindIndexFrom_miss name table 0 habs)
  have hadd : Directory.Add table name s ty = (true, es') := by
    simp [Directory.Add, habs, h1]
  have hfi : Directory.FindIndex es' name = (j : Nat) := by
    unfold Directory.FindIndex; rw [h4]; simp
  rw [hadd]
  refine ⟨rfl, h2, List.getElem?_mem h3, ?_, ?_⟩
  · simp only [hfi]; omega
  · simp only [hfi]
    simp [Directory.entryAt, List.get?_eq_getElem?, h3, pure, Except.pure]

/-! ## Create: the success path -/

theorem fetch_length (disk : Disk) (f : OpenFile) (numItems : Nat) (b : Bitmap)
    (h : PersistentBitmap.fetch disk f numItems = .ok b) : b.length = numItems := by
  unfold PersistentBitmap.fetch at h
  simp only [bind, Except.bind] at h
  split at h
  · simp at h
  · split at h
    · simp only [pure, Except.pure] at h; injection h with h; rw [← h]; simp
    · split at h
      · rename_i hl
        simp only [pure, Except.pure] at h; injection h with h; rw [← h, hl]
      · simp [throw, throwThe, MonadExceptOf.throw] at h
    · simp [throw, throwThe, MonadExceptOf.throw] at h

theorem headerSectors_nodup (hdr : FileHeader) (s : Int)
    (h : (s :: hdr.allSectors).Nodup) : (hdr.headerSectors s).Nodup := by
  induction hdr generalizing s with
  | last nb ns ds nx => simp [FileHeader.headerSectors]
  | link nb ns ds nx next ih =>
    simp only [FileHeader.allSectors, List.nodup_cons, List.mem_append, List.mem_cons,
      not_or] at h
    obtain ⟨⟨-, hsnx, hsnext⟩, hnd⟩ := h
    have hnd' : (nx :: next.allSectors).Nodup :=
      (List.nodup_append.mp hnd).2.1
    simp only [FileHeader.headerSectors, List.nodup_cons]
    refine ⟨?_, ih nx hnd'⟩
    intro hmem
    rcases headerSectors_subset next nx s hmem with e | hm
    · exact hsnx e
    · exact hsnext hm

theorem inRange_of_bit (b : Bitmap) (hl : b.length = NumSectors) (x : Int) (v : Bool)
    (h0 : 0 ≤ x) (hb : b[x.toNat]? = some v) : 0 ≤ x ∧ x < NumSectors := by
  refine ⟨h0, ?_⟩
  have : x.toNat < b.length := by
    by_contra hc
    rw [List.getElem?_eq_none (by omega)] at hb
    exact absurd hb (by simp)
  omega

/-- The part of `Create` after the directory file is known succeeds when the name is
absent, the table has a free entry and enough sectors are free; the new header chain,
the table with the new entry and nothing else of what the free map protects is then on
the disk. -/
theorem CreateIn_success (fuel : Nat) (fs : FileSystem) (dfile : OpenFile)
    (fname : List Char) (n : Int) (dir : List DirectoryEntry) (freeMap : Bitmap)
    (hisdir : dfile.hdr.isDirectoryHeader = true)
    (hfm : fs.freeMapFile.hdr.isFreeMapHeader = true)
    (htab : Directory.FetchFrom fs.disk dfile (Directory.new NumDirEntries) = .ok dir)
    (habs : Directory.FindIndex dir fname = -1) (hslot : ∃ e ∈ dir, e.inUse = false)
    (hmap : PersistentBitmap.fetch fs.disk fs.freeMapFile NumSectors = .ok freeMap)
    (hn : 0 ≤ n) (hfree : 1 + sectorsNeeded n ≤ freeMap.NumClear)
    (hTD : ∀ x ∈ dfile.hdr.allSectors, 0 ≤ x ∧ freeMap[x.toNat]? = some true)
    (hTDnd : dfile.hdr.allSectors.Nodup)
    (hFD : ∀ x ∈ fs.freeMapFile.hdr.allSectors, 0 ≤ x ∧ freeMap[x.toNat]? = some true)
    (hFDnd : fs.freeMapFile.hdr.allSectors.Nodup)
    (hdisj : ∀ x ∈ dfile.hdr.allSectors, x ∉ fs.freeMapFile.hdr.allSectors) :
    ∃ disk' hdr,
      FileSystem.CreateIn fuel fs dfile fname n = .ok (true, { fs with disk := disk' }) ∧
      0 ≤ (freeMap.FindAndSet).1 ∧
      HoldsChain disk' hdr (freeMap.FindAndSet).1 ∧ hdr.cal_file_size = n ∧
      (∀ k : Nat, 1 ≤ k → n ≤ MaxFileSize * k → hdr.chainLength ≤ k) ∧
      HoldsPieces disk' (.table (Directory.Add dir fname (freeMap.FindAndSet).1 FILE).2)
        dfile.hdr.allSectors 0 ∧
      (∀ x : Int, 0 ≤ x → freeMap[x.toNat]? = some true → x ∉ dfile.hdr.allSectors →
        x ∉ fs.freeMapFile.hdr.allSectors → disk' x.toNat = fs.disk x.toNat) := by
  have hlen := fetch_length _ _ _ _ hmap
  have hdirlen : dir.length = NumDirEntries := by
    rw [Directory_FetchFrom_length _ _ _ _ htab]; simp [Directory.new]
  -- the header sector
  have hneed : 0 ≤ sectorsNeeded n := by
    unfold sectorsNeeded
    rw [divRoundUp_eq n SectorSize hn (by simp [SectorSize]), MaxFileSize_eq, SectorSize_eq]
    by_cases h : n ≤ 3712
    · rw [if_pos h]; split_ifs <;> omega
    · rw [if_neg h, divRoundUp_eq n 3712 hn (by omega)]; split_ifs <;> omega
  obtain ⟨hs1, hs0, ht1⟩ := FindAndSet_took freeMap (by omega)
  -- the directory entry
  obtain ⟨ha1, ha2, -, -, -⟩ := Add_spec dir fname (freeMap.FindAndSet).1 FILE habs hslot
  -- the header chain
  have hc1 := ht1.2.2.2.2
  simp only [Bitmap.NumClear, List.length_singleton] at hc1 hfree
  obtain ⟨hdr, bm2, eal, ht2, hcal, hwf, hch⟩ :=
    AllocateAux_success (n.toNat + 1) (freeMap.FindAndSet).2 n hn
      (by rw [MaxFileSize_eq]; push_cast; rw [Int.toNat_of_nonneg hn]; omega)
      (by simp only [Bitmap.NumClear]; omega)
  have htook := Took_trans ht1 ht2
  simp only [List.singleton_append] at htook
  obtain ⟨tl, tnd, tm, -, -⟩ := htook
  have hnew : ∀ x ∈ (freeMap.FindAndSet).1 :: hdr.allSectors,
      0 ≤ x ∧ x < NumSectors ∧ freeMap[x.toNat]? = some false := fun x hx =>
    ⟨(tm x hx).1, (inRange_of_bit freeMap hlen x false (tm x hx).1 (tm x hx).2.1).2,
      (tm x hx).2.1⟩
  have hhs : ∀ x ∈ hdr.headerSectors (freeMap.FindAndSet).1,
      x ∈ (freeMap.FindAndSet).1 :: hdr.allSectors := by
    intro x hx
    rcases headerSectors_subset hdr _ x hx with e | hm
    · simp [e]
    · simp [hm]
  obtain ⟨disk1, ew1, hold1, fr1⟩ := WriteBack_holds hdr fs.disk (freeMap.FindAndSet).1 hwf
    (fun x hx => ⟨(hnew x (hhs x hx)).1, (hnew x (hhs x hx)).2.1⟩)
    (headerSectors_nodup hdr _ tnd)
  -- the directory table
  have hTDr : ∀ x ∈ dfile.hdr.allSectors, 0 ≤ x ∧ x < NumSectors := fun x hx =>
    inRange_of_bit freeMap hlen x true (hTD x hx).1 (hTD x hx).2
  obtain ⟨disk2, ew2, hold2, fr2⟩ := Directory_WriteBack_holds disk1
    (Directory.Add dir fname (freeMap.FindAndSet).1 FILE).2 dfile hisdir
    (by rw [ha2, hdirlen]) hTDr hTDnd
  -- the free map
  have hFDr : ∀ x ∈ fs.freeMapFile.hdr.allSectors, 0 ≤ x ∧ x < NumSectors := fun x hx =>
    inRange_of_bit freeMap hlen x true (hFD x hx).1 (hFD x hx).2
  obtain ⟨disk3, ew3, -, fr3⟩ := Bitmap_WriteBack_holds disk2 bm2 fs.freeMapFile hfm
    (by rw [tl, hlen]) hFDr hFDnd
  -- marked sectors are not new
  have hmarked_not_new : ∀ x : Int, freeMap[x.toNat]? = some true →
      x ∉ (freeMap.FindAndSet).1 :: hdr.allSectors := by
    intro x hx hmem
    have := (hnew x hmem).2.2
    rw [hx] at this
    exact absurd this (by simp)
  have toNat_mem : ∀ (x : Int) (l : List Int), 0 ≤ x → x ∉ l → ((x.toNat : Nat) : Int) ∉ l := by
    intro x l h0 hx
    rwa [Int.toNat_of_nonneg h0]
  refine ⟨disk3, hdr, ?_, hs0, ?_, hcal, hch, ?_, ?_⟩
  · have hal : FileHeader.Allocate (freeMap.FindAndSet).2 n = .ok (true, hdr, bm2) := eal
    simp [FileSystem.CreateIn, htab, Find_miss fuel fs.disk dir fname habs, hmap, hs1, ha1,
      hal, ew1, ew2, ew3, bind, Except.bind, pure, Except.pure]
  · apply HoldsChain_frame disk1 disk3 hdr _ hold1
    intro x hx
    have hxn := hhs x hx
    have h0 := (hnew x hxn).1
    have hxTD : x ∉ dfile.hdr.allSectors := fun hm =>
      hmarked_not_new x (hTD x hm).2 hxn
    have hxFD : x ∉ fs.freeMapFile.hdr.allSectors := fun hm =>
      hmarked_not_new x (hFD x hm).2 hxn
    rw [fr3 x.toNat (toNat_mem x _ h0 hxFD), fr2 x.toNat (toNat_mem x _ h0 hxTD)]
  · apply HoldsPieces_frame disk2 disk3 _ _ 0 hold2
    intro x hx
    rw [fr3 x.toNat (toNat_mem x _ (hTD x hx).1 (hdisj x hx))]
  · intro x h0 hx hxTD hxFD
    have hxn := hmarked_not_new x hx
    have hxh : x ∉ hdr.headerSectors (freeMap.FindAndSet).1 := fun hm => hxn (hhs x hm)
    rw [fr3 x.toNat (toNat_mem x _ h0 hxFD), fr2 x.toNat (toNat_mem x _ h0 hxTD),
      fr1 x.toNat (toNat_mem x _ h0 hxh)]

theorem CreateDirFile_some_inv (fuel : Nat) (fs : FileSystem) (d : List Char)
    (dfile : OpenFile) (root : List DirectoryEntry)
    (hroot : Directory.FetchFrom fs.disk fs.directoryFile (Directory.new NumDirEntries) =
      .ok root)
    (h : FileSystem.CreateDirFile fuel fs (some d) = .ok (some dfile)) :
    ∃ t, Directory.Find fuel fs.disk root d true = .ok t ∧ t ≠ -1 ∧
      OpenFile.open fuel fs.disk t = .ok dfile := by
  simp only [FileSystem.CreateDirFile, hroot, bind, Except.bind] at h
  cases hf : Directory.Find fuel fs.disk root d true with
  | error err => rw [hf] at h; simp at h
  | ok t =>
    rw [hf] at h
    dsimp only at h
    by_cases ht : t = -1
    · simp [ht, pure, Except.pure] at h
    · simp only [ht, if_false] at h
      cases ho : OpenFile.open fuel fs.disk t with
      | error err => rw [ho] at h; simp at h
      | ok f =>
        rw [ho] at h
        simp only [pure, Except.pure] at h
        injection h with h
        injection h with h
        subst h
        exact ⟨t, rfl, ht, ho⟩

/-- Evaluation of `Open` from the results of its steps. -/
theorem Open_eval (fuel : Nat) (fs : FileSystem) (name : List Char) (off : Nat)
    (dn : Option (List Char)) (root dirT : List DirectoryEntry) (s : Int) (hdr : FileHeader)
    (hoff : get_file_name name = some off) (hdn : get_dir_name name = .ok dn)
    (hroot : Directory.FetchFrom fs.disk fs.directoryFile (Directory.new NumDirEntries) =
      .ok root)
    (hres : (dn = none → dirT = root) ∧
      (∀ d, dn = some d → ∃ t dfile, Directory.Find fuel fs.disk root d true = .ok t ∧
          OpenFile.open fuel fs.disk t = .ok dfile ∧
          Directory.FetchFrom fs.disk dfile root = .ok dirT))
    (hfind : Directory.Find fuel fs.disk dirT (name.drop off) false = .ok s) (hs : 0 ≤ s)
    (hopen : OpenFile.open fuel fs.disk s = .ok ⟨s, hdr⟩) :
    FileSystem.Open fuel fs name = .ok (some ⟨s, hdr⟩) := by
  cases dn with
  | none =>
    have e := hres.1 rfl
    subst e
    simp [FileSystem.Open, hoff, hdn, hroot, hfind, hs, hopen, bind, Except.bind, pure,
      Except.pure]
  | some d =>
    obtain ⟨t, dfile, h1, h2, h3⟩ := hres.2 d rfl
    simp [FileSystem.Open, hoff, hdn, hroot, h1, h2, h3, hfind, hs, hopen, bind, Except.bind,
      pure, Except.pure]

theorem check_len_true (name : List Char) (off : Nat) (h : check_len name = .ok true)
    (hoff : get_file_name name = some off) : (name.drop off).length ≤ FileNameMaxLen := by
  simp only [check_len, hoff] at h
  by_cases h9 : (name.drop off).length > 9
  · rw [if_pos h9] at h
    simp [pure, Except.pure] at h
  · simp only [FileNameMaxLen]; omega

theorem treeSectors_fuel_pos (fuel : Nat) (disk : Disk) (table : List DirectoryEntry)
    (fp : List Int) (h : treeSectors fuel disk table = .ok fp) : 1 ≤ fuel := by
  cases fuel with
  | zero => simp [treeSectors, throw, throwThe, MonadExceptOf.throw] at h
  | succ k => omega

/-- In a consistent file system a `Create` whose preconditions hold returns `true`, the
target table read back has the new entry, and `Open` on the same path returns a handle
on the new header chain. -/
theorem Create_Open_core (fuel : Nat) (fs : FileSystem) (name : List Char) (n : Int)
    (off : Nat) (dn : Option (List Char)) (dfile : OpenFile) (dir : List DirectoryEntry)
    (freeMap : Bitmap)
    (hcons : fs.Consistent fuel)
    (hlen : check_len name = .ok true) (hoff : get_file_name name = some off)
    (hdn : get_dir_name name = .ok dn)
    (hdir : FileSystem.CreateDirFile fuel fs dn = .ok (some dfile))
    (hisdir : dfile.hdr.isDirectoryHeader = true)
    (htab : Directory.FetchFrom fs.disk dfile (Directory.new NumDirEntries) = .ok dir)
    (habs : Directory.FindIndex dir (name.drop off) = -1)
    (hslot : ∃ e ∈ dir, e.inUse = false)
    (hmap : PersistentBitmap.fetch fs.disk fs.freeMapFile NumSectors = .ok freeMap)
    (hn : 0 ≤ n) (hfree : 1 + sectorsNeeded n ≤ freeMap.NumClear)
    (hfuel : n ≤ MaxFileSize * fuel) :
    ∃ fs' dir' e h,
      FileSystem.Create fuel fs name n = .ok (true, fs') ∧
      Directory.FetchFrom fs'.disk dfile (Directory.new NumDirEntries) = .ok dir' ∧
      e ∈ dir' ∧ e.inUse = true ∧ e.type = FILE ∧ e.name = name.drop off ∧
      FileSystem.Open fuel fs' name = .ok (some h) ∧ h.sector = e.sector ∧
      FileHeader.FetchFrom fuel fs'.disk e.sector = .ok h.hdr ∧
      h.hdr.cal_file_size = n := by
  obtain ⟨bm0, root, below, c1, c2, c3, c4, c5, c6, c7⟩ := hcons
  rw [hmap] at c1
  injection c1 with c1
  subst c1
  have hfuel1 := treeSectors_fuel_pos fuel fs.disk root below c3
  have hrootlen : root.length = NumDirEntries := by
    rw [Directory_FetchFrom_length _ _ _ _ c2]; simp [Directory.new]
  -- the sectors of the system files and of the tree
  obtain ⟨n1a, n1b, n1c⟩ := List.nodup_append.mp c6
  obtain ⟨n2a, nbelow, n2c⟩ := List.nodup_append.mp n1b
  have nFD : fs.freeMapFile.hdr.allSectors.Nodup := (List.nodup_cons.mp n1a).2
  have hFD : ∀ x ∈ fs.freeMapFile.hdr.allSectors, 0 ≤ x ∧ freeMap[x.toNat]? = some true :=
    fun x hx => ⟨(c7 x (by simp [hx])).1, (c7 x (by simp [hx])).2.2⟩
  have hRD : ∀ x ∈ fs.directoryFile.hdr.allSectors,
      0 ≤ x ∧ freeMap[x.toNat]? = some true :=
    fun x hx => ⟨(c7 x (by simp [hx])).1, (c7 x (by simp [hx])).2.2⟩
  have hBelow : ∀ x ∈ below, 0 ≤ x ∧ freeMap[x.toNat]? = some true :=
    fun x hx => ⟨(c7 x (by simp [hx])).1, (c7 x (by simp [hx])).2.2⟩
  have dRF : ∀ x ∈ fs.directoryFile.hdr.allSectors, x ∉ fs.freeMapFile.hdr.allSectors :=
    fun x hx hf => n1c (List.mem_cons_of_mem _ hf) (by simp [hx])
  have dBF : ∀ x ∈ below, x ∉ fs.freeMapFile.hdr.allSectors :=
    fun x hx hf => n1c (List.mem_cons_of_mem _ hf) (by simp [hx])
  have dRB : ∀ x ∈ fs.directoryFile.hdr.allSectors, x ∉ below :=
    fun x hx hb => n2c (List.mem_cons_of_mem _ hx) hb
  -- the target directory file
  have hres : (∀ x ∈ dfile.hdr.allSectors, 0 ≤ x ∧ freeMap[x.toNat]? = some true) ∧
      dfile.hdr.allSectors.Nodup ∧
      (∀ x ∈ dfile.hdr.allSectors, x ∉ fs.freeMapFile.hdr.allSectors) ∧
      ∀ (disk' : Disk) (dirT : List DirectoryEntry),
        (∀ x : Int, 0 ≤ x → freeMap[x.toNat]? = some true → x ∉ dfile.hdr.allSectors →
          x ∉ fs.freeMapFile.hdr.allSectors → disk' x.toNat = fs.disk x.toNat) →
        (∀ cur : List DirectoryEntry, cur.length = NumDirEntries →
          Directory.FetchFrom disk' dfile cur = .ok dirT) →
        ∃ root', Directory.FetchFrom disk' fs.directoryFile (Directory.new NumDirEntries) =
            .ok root' ∧
          (dn = none → dirT = root') ∧
          (∀ d, dn = some d → ∃ t dfile', Directory.Find fuel disk' root' d true = .ok t ∧
               OpenFile.open fuel disk' t = .ok dfile' ∧
               Directory.FetchFrom disk' dfile' root' = .ok dirT) := by
    cases dn with
    | none =>
      have e : dfile = fs.directoryFile := by
        simp only [FileSystem.CreateDirFile, pure, Except.pure] at hdir
        injection hdir with hdir
        injection hdir with hdir
        exact hdir.symm
      subst e
      refine ⟨hRD, (List.nodup_cons.mp n2a).2, dRF, ?_⟩
      intro disk' dirT _ hT
      exact ⟨dirT, hT _ (by simp [Directory.new]), fun _ => rfl,
        fun d hd => absurd hd (by simp)⟩
    | some d =>
      obtain ⟨t, hfind, ht, hopen⟩ := CreateDirFile_some_inv fuel fs d dfile root c2 hdir
      obtain ⟨h, hh, hsub⟩ := Find_location fuel fs.disk d root below t c3 hfind ht
      obtain ⟨-, ef⟩ := open_inv _ _ _ _ hopen
      have hh' := (holds_of_FetchFrom _ _ _ _ ef).1
      have hu := HoldsChain_unique _ _ _ _ hh hh'
      subst hu
      have hsubnd : (t :: dfile.hdr.allSectors).Nodup := hsub.nodup nbelow
      have hTB : ∀ x ∈ dfile.hdr.allSectors, x ∈ below :=
        fun x hx => hsub.subset (by simp [hx])
      have htB : t ∈ below := hsub.subset (by simp)
      refine ⟨fun x hx => hBelow x (hTB x hx), (List.nodup_cons.mp hsubnd).2,
        fun x hx => dBF x (hTB x hx), ?_⟩
      intro disk' dirT hP hT
      refine ⟨root, ?_, fun hd => absurd hd (by simp), fun d' hd' => ?_⟩
      · rw [Directory_FetchFrom_frame fs.disk disk' fs.directoryFile _ c5
          (by simp [Directory.new])
          (fun x hx => hP x (hRD x hx).1 (hRD x hx).2 (fun hm => dRB x hx (hTB x hm))
            (dRF x hx))]
        exact c2
      injection hd' with hd'
      subst hd'
      refine ⟨t, dfile, ?_, ?_, hT root hrootlen⟩
      · exact Find_stable fuel fs.disk disk' d t dfile.hdr hh' ht root below c3 nbelow hfind
          (fun x hx hxT => hP x (hBelow x hx).1 (hBelow x hx).2 hxT (dBF x hx))
      · exact open_frame_dir fuel fs.disk disk' t dfile hopen hisdir
          (hP t (hBelow t htB).1 (hBelow t htB).2 (List.nodup_cons.mp hsubnd).1 (dBF t htB))
  obtain ⟨hTD, hTDnd, hdisj, hresolve⟩ := hres
  -- the call
  obtain ⟨disk', hdr, eC, hs0, hold, hcal, hch, hpieces, hframe⟩ :=
    CreateIn_success fuel fs dfile (name.drop off) n dir freeMap hisdir c4 htab habs hslot
      hmap hn hfree hTD hTDnd hFD nFD hdisj
  obtain ⟨-, ha2, ha3, ha4, ha5⟩ :=
    Add_spec dir (name.drop off) (freeMap.FindAndSet).1 FILE habs hslot
  have hdirlen : dir.length = NumDirEntries := by
    rw [Directory_FetchFrom_length _ _ _ _ htab]; simp [Directory.new]
  have hread : ∀ cur : List DirectoryEntry, cur.length = NumDirEntries →
      Directory.FetchFrom disk' dfile cur =
        .ok (Directory.Add dir (name.drop off) (freeMap.FindAndSet).1 FILE).2 :=
    fun cur hc => Directory_FetchFrom_of_holds disk' dfile cur _ hisdir hc
      (by rw [ha2, hdirlen]) hpieces
  obtain ⟨root', hr1, hr2, hr3⟩ := hresolve disk' _ hframe hread
  have hchain : hdr.chainLength ≤ fuel := hch fuel hfuel1 hfuel
  have hOpen := Open_eval fuel { fs with disk := disk' } name off dn root' _
    (freeMap.FindAndSet).1 hdr hoff hdn hr1 ⟨hr2, hr3⟩
    (Find_hit fuel disk' _ (name.drop off) false _ ha4 ha5) hs0
    (open_of_holds fuel disk' _ hdr hold hchain)
  refine ⟨{ fs with disk := disk' }, _,
    ⟨true, (name.drop off).take FileNameMaxLen, (freeMap.FindAndSet).1, FILE⟩,
    ⟨(freeMap.FindAndSet).1, hdr⟩, ?_, hread _ (by simp [Directory.new]), ha3, rfl, rfl,
    List.take_of_length_le (check_len_true name off hlen hoff), hOpen, rfl,
    FetchFrom_of_holds disk' hdr _ fuel hold hchain, hcal⟩
  simp [FileSystem.Create, hlen, hoff, hdn, hdir, eC, bind, Except.bind, pure, Except.pure]

/-- C9: in a consistent file system, for a path that passes the length check, whose
directory part resolves to a directory file and whose final name is absent from that
directory's table, and for a size `n ≥ 0` such that the table has a free entry and the
free map has a clear bit for the header and for every sector `Allocate` needs: `Create`
returns `true`; afterwards the table read back from the target directory file has an
in-use entry of type FILE with the final name; `Open` on the same path returns a handle
bound to that entry's header sector; and the header chain read back from that sector has
total length `n`.  `fuel` has to cover the depth of the tree and the length of the new
chain. -/
theorem Create_then_Open (fuel : Nat) (fs : FileSystem) (name : List Char) (n : Int)
    (off : Nat) (dn : Option (List Char)) (dfile : OpenFile) (dir : List DirectoryEntry)
    (freeMap : Bitmap)
    (hcons : fs.Consistent fuel)
    (hlen : check_len name = .ok true) (hoff : get_file_name name = some off)
    (hdn : get_dir_name name = .ok dn)
    (hdir : FileSystem.CreateDirFile fuel fs dn = .ok (some dfile))
    (hisdir : dfile.hdr.isDirectoryHeader = true)
    (htab : Directory.FetchFrom fs.disk dfile (Directory.new NumDirEntries) = .ok dir)
    (habs : Directory.FindIndex dir (name.drop off) = -1)
    (hslot : ∃ e ∈ dir, e.inUse = false)
    (hmap : PersistentBitmap.fetch fs.disk fs.freeMapFile NumSectors = .ok freeMap)
    (hn : 0 ≤ n) (hfree : 1 + sectorsNeeded n ≤ freeMap.NumClear)
    (hfuel : n ≤ MaxFileSize * fuel) :
    ∃ fs' dir' e h,
      FileSystem.Create fuel fs name n = .ok (true, fs') ∧
      Directory.FetchFrom fs'.disk dfile (Directory.new NumDirEntries) = .ok dir' ∧
      e ∈ dir' ∧ e.inUse = true ∧ e.type = FILE ∧ e.name = name.drop off ∧
      FileSystem.Open fuel fs' name = .ok (some h) ∧ h.sector = e.sector ∧
      FileHeader.FetchFrom fuel fs'.disk e.sector = .ok h.hdr ∧
      h.hdr.cal_file_size = n :=
  Create_Open_core fuel fs name n off dn dfile dir freeMap hcons hlen hoff hdn hdir hisdir htab
    habs hslot hmap hn hfree hfuel

set_option maxRecDepth 100000 in
/-- Witness for C9: on the freshly formatted disk `Create("/f", 5 * SectorSize)` returns
`true` and `Open("/f")` then returns a handle whose header chain, read back from the
entry's sector, has length `5 * SectorSize`. -/
theorem Create_then_Open_witness :
    (formattedFS.Consistent 5 ∧ check_len pathF = .ok true ∧
      Directory.FindIndex (Directory.new NumDirEntries) (pathF.drop 1) = -1 ∧
      1 + sectorsNeeded (5 * SectorSize) ≤ formattedMap.NumClear) ∧
    (∃ fs' dir' e h,
      FileSystem.Create 5 formattedFS pathF (5 * SectorSize) = .ok (true, fs') ∧
      Directory.FetchFrom fs'.disk formattedFS.directoryFile (Directory.new NumDirEntries) =
        .ok dir' ∧
      e ∈ dir' ∧ e.inUse = true ∧ e.type = FILE ∧ e.name = pathF.drop 1 ∧
      FileSystem.Open 5 fs' pathF = .ok (some h) ∧ h.sector = e.sector ∧
      FileHeader.FetchFrom 5 fs'.disk e.sector = .ok h.hdr ∧
      h.hdr.cal_file_size = 5 * SectorSize) :=
  have hc : formattedFS.Consistent 5 :=
    ⟨formattedMap, Directory.new NumDirEntries, [], rfl, rfl, rfl, rfl, rfl, by decide,
      by decide⟩
  ⟨⟨hc, rfl, by decide, by decide⟩,
    Create_then_Open 5 formattedFS pathF (5 * SectorSize) 1 none formattedFS.directoryFile
      (Directory.new NumDirEntries) formattedMap hc rfl rfl rfl rfl rfl rfl (by decide)
      ⟨DirectoryEntry.zero, by decide, rfl⟩ rfl (by decide) (by decide) (by decide)⟩

/-! ## Create: the failure paths -/

theorem CreateIn_false (fuel : Nat) (fs fs' : FileSystem) (directory_file : OpenFile)
    (file_name : List Char) (initialSize : Int)
    (h : FileSystem.CreateIn fuel fs directory_file file_name initialSize = .ok (false, fs')) :
    fs' = fs := by
  unfold FileSystem.CreateIn at h
  simp only [bind, Except.bind, pure, Except.pure] at h
  repeat' split at h
  all_goals first
    | (injection h with h; injection h with h1 h2; first | exact h2.symm | exact absurd h1 (by simp))
    | exact absurd h (by simp)

theorem Create_false (fuel : Nat) (fs fs' : FileSystem) (name : List Char) (initialSize : Int)
    (h : FileSystem.Create fuel fs name initialSize = .ok (false, fs')) : fs' = fs := by
  unfold FileSystem.Create at h
  simp only [bind, Except.bind, pure, Except.pure] at h
  repeat' split at h
  all_goals first
    | exact CreateIn_false _ _ _ _ _ _ h
    | (injection h with h; injection h with h1 h2; exact h2.symm)
    | exact absurd h (by simp)

/-- C10: `Create` returns `false` in each of the six cases (the path fails the length
check; the search for the directory part returns -1; the final name is found in the
target directory; the free map has no clear bit for the header; the target directory
has no free entry; `Allocate` reports that the free sectors do not suffice), and
whenever `Create` returns `false` the file system, and with it every disk sector, is
the one before the call. -/
theorem Create_failure_leaves_disk (fuel : Nat) (fs : FileSystem) (name : List Char)
    (initialSize : Int) :
    (∀ fs', FileSystem.Create fuel fs name initialSize = .ok (false, fs') →
      fs' = fs ∧ fs'.disk = fs.disk) ∧
    (check_len name = .ok false →
      FileSystem.Create fuel fs name initialSize = .ok (false, fs)) ∧
    (∀ off dn root, check_len name = .ok true → get_file_name name = some off →
      get_dir_name name = .ok (some dn) →
      Directory.FetchFrom fs.disk fs.directoryFile (Directory.new NumDirEntries) = .ok root →
      Directory.Find fuel fs.disk root dn true = .ok (-1) →
      FileSystem.Create fuel fs name initialSize = .ok (false, fs)) ∧
    (∀ off dn directory_file directory, check_len name = .ok true →
      get_file_name name = some off → get_dir_name name = .ok dn →
      FileSystem.CreateDirFile fuel fs dn = .ok (some directory_file) →
      Directory.FetchFrom fs.disk directory_file (Directory.new NumDirEntries) =
        .ok directory →
      ((∀ e, Directory.FindIndex directory (name.drop off) ≠ -1 →
          Directory.entryAt directory (Directory.FindIndex directory (name.drop off)) =
            .ok e →
          e.sector ≠ -1 →
          FileSystem.Create fuel fs name initialSize = .ok (false, fs)) ∧
       (∀ freeMap, Directory.FindIndex directory (name.drop off) = -1 →
          PersistentBitmap.fetch fs.disk fs.freeMapFile NumSectors = .ok freeMap →
          ((freeMap.FindAndSet).1 = -1 →
            FileSystem.Create fuel fs name initialSize = .ok (false, fs)) ∧
          ((freeMap.FindAndSet).1 ≠ -1 → (∀ e ∈ directory, e.inUse = true) →
            FileSystem.Create fuel fs name initialSize = .ok (false, fs)) ∧
          (∀ hdr freeMap', (freeMap.FindAndSet).1 ≠ -1 →
            (Directory.Add directory (name.drop off) (freeMap.FindAndSet).1 FILE).1 = true →
            FileHeader.Allocate (freeMap.FindAndSet).2 initialSize =
              .ok (false, hdr, freeMap') →
            FileSystem.Create fuel fs name initialSize = .ok (false, fs))))) := by
  refine ⟨fun fs' h => ?_, fun h => ?_, fun off dn root h1 h2 h3 h4 h5 => ?_,
    fun off dn directory_file directory h1 h2 h3 h4 h5 => ⟨fun e h6 h7 h8 => ?_,
      fun freeMap h6 h7 => ⟨fun h8 => ?_, fun h8 h9 => ?_, fun hdr freeMap' h8 h9 h10 => ?_⟩⟩⟩
  · have := Create_false fuel fs fs' name initialSize h
    exact ⟨this, by rw [this]⟩
  · simp [FileSystem.Create, h, bind, Except.bind, pure, Except.pure]
  · simp [FileSystem.Create, FileSystem.CreateDirFile, h1, h2, h3, h4, h5, bind, Except.bind,
      pure, Except.pure]
  · simp [FileSystem.Create, FileSystem.CreateIn, Find_hit fuel fs.disk _ _ false e h6 h7,
      h1, h2, h3, h4, h5, h8, bind, Except.bind, pure, Except.pure]
  · simp [FileSystem.Create, FileSystem.CreateIn, Find_miss fuel fs.disk _ _ h6, h1, h2, h3,
      h4, h5, h7, h8, bind, Except.bind, pure, Except.pure]
  · have hadd : (Directory.Add directory (name.drop off) (freeMap.FindAndSet).1 FILE).1 =
        false := by
      have hl : ∀ (l : List DirectoryEntry), (∀ e ∈ l, e.inUse = true) →
          Directory.addLoop (name.drop off) (freeMap.FindAndSet).1 FILE l = none := by
        intro l
        induction l with
        | nil => intro _; rfl
        | cons e es ih =>
          intro hl
          have he := hl e (by simp)
          simp [Directory.addLoop, he, ih (fun x hx => hl x (by simp [hx]))]
      simp [Directory.Add, h6, hl directory h9]
    simp [FileSystem.Create, FileSystem.CreateIn, Find_miss fuel fs.disk _ _ h6, h1, h2, h3,
      h4, h5, h7, h8, hadd, bind, Except.bind, pure, Except.pure]
  · simp [FileSystem.Create, FileSystem.CreateIn, Find_miss fuel fs.disk _ _ h6, h1, h2, h3,
      h4, h5, h7, h8, h9, h10, bind, Except.bind, pure, Except.pure]

set_option maxRecDepth 100000 in
/-- Witness for C10: on the freshly formatted disk `Create("/abcdefghij", 0)` fails the
length check, `Create("/d/f", 0)` finds no directory `d`, and after `/f` was created a
second `Create("/f", 0)` finds the name; each returns `false` and leaves the file system
as it was. -/
theorem Create_failure_leaves_disk_witness :
    (check_len pathLong = .ok false ∧
      FileSystem.Create 5 formattedFS pathLong 0 = .ok (false, formattedFS)) ∧
    FileSystem.Create 5 formattedFS pathDF 0 = .ok (false, formattedFS) ∧
    FileSystem.Create 5 fsWithF pathF 0 = .ok (false, fsWithF) :=
  ⟨⟨rfl, (Create_failure_leaves_disk 5 formattedFS pathLong 0).2.1 rfl⟩,
   (Create_failure_leaves_disk 5 formattedFS pathDF 0).2.2.1 3 ['d']
     (Directory.new NumDirEntries) rfl rfl rfl rfl rfl,
   ((Create_failure_leaves_disk 5 fsWithF pathF 0).2.2.2 1 none fsWithF.directoryFile
     ((Directory.Add (Directory.new NumDirEntries) ['f'] 13 FILE).2) rfl rfl rfl rfl rfl).1
     ⟨true, ['f'], 13, FILE⟩ (by decide) rfl (by decide)⟩

/-! ## Allocate: what a successful call leaves -/

theorem FindAndSet_took_of_ne (b : Bitmap) (h : (b.FindAndSet).1 ≠ -1) :
    0 ≤ (b.FindAndSet).1 ∧ Took b [(b.FindAndSet).1] (b.FindAndSet).2 := by
  have hpos : 0 < b.NumClear := by
    by_contra hc
    have h0 : b.NumClear = 0 := by
      simp only [Bitmap.NumClear] at hc ⊢
      omega
    exact h (FindAndSet_full b h0)
  exact (FindAndSet_took b hpos).2

theorem allocLoop_inv (k : Nat) (b : Bitmap) (got : List Int) (b' : Bitmap)
    (h : FileHeader.allocLoop k b = .ok (got, b')) : got.length = k ∧ Took b got b' := by
  induction k generalizing b got with
  | zero =>
    simp only [FileHeader.allocLoop, pure, Except.pure, Except.ok.injEq, Prod.mk.injEq] at h
    obtain ⟨h1, h2⟩ := h
    subst h1; subst h2
    exact ⟨rfl, Took_nil b⟩
  | succ k ih =>
    simp only [FileHeader.allocLoop, bind, Except.bind, pure, Except.pure] at h
    split at h
    · rename_i hge
      cases e : FileHeader.allocLoop k (b.FindAndSet).2 with
      | error f => rw [e] at h; simp at h
      | ok r =>
        rw [e] at h
        simp only [Except.ok.injEq, Prod.mk.injEq] at h
        obtain ⟨h1, h2⟩ := h
        obtain ⟨hl, ht⟩ := ih (b.FindAndSet).2 r.1 (by rw [← h2, e])
        have hne : (b.FindAndSet).1 ≠ -1 := by omega
        refine ⟨by rw [← h1]; simp [hl], ?_⟩
        rw [← h1]
        have := Took_trans (FindAndSet_took_of_ne b hne).2 ht
        simpa using this
    · simp [throw, throwThe, MonadExceptOf.throw] at h

theorem divRoundUp_toNat_le (nb : Int) (h : nb ≤ MaxFileSize) :
    (divRoundUp nb SectorSize).toNat ≤ NumDirect := by
  rw [MaxFileSize_eq] at h
  by_cases hn : 0 ≤ nb
  · rw [divRoundUp_eq nb SectorSize hn (by simp), SectorSize_eq]
    simp only [NumDirect]
    split_ifs <;> omega
  · have e1 : Int.tdiv nb 128 = -Int.tdiv (-nb) 128 := by
      rw [Int.neg_tdiv]; omega
    have e2 := Int.tmod_def nb 128
    have e3 := Int.tmod_def (-nb) 128
    have e4 := Int.tmod_nonneg (a := -nb) (128 : Int) (by omega)
    have e5 := Int.tdiv_nonneg (a := -nb) (b := 128) (by omega) (by omega)
    have h2 : ¬ Int.tmod nb 128 > 0 := by omega
    unfold divRoundUp
    rw [SectorSize_eq, if_neg h2]
    omega

theorem AllocateAux_inv (fuel : Nat) (b : Bitmap) (n : Int) (hdr : FileHeader) (b' : Bitmap)
    (h : FileHeader.AllocateAux fuel b n = .ok (true, hdr, b')) :
    hdr.AllocatedFor n ∧ Took b hdr.allSectors b' := by
  induction fuel generalizing b n hdr b' with
  | zero => simp [FileHeader.AllocateAux, throw, throwThe, MonadExceptOf.throw] at h
  | succ fuel ih =>
    unfold FileHeader.AllocateAux at h
    simp only [bind, Except.bind, pure, Except.pure] at h
    have hnb : (if n < MaxFileSize then n else MaxFileSize) ≤ (MaxFileSize : Int) := by
      split_ifs <;> omega
    generalize hdef : (if n < (MaxFileSize : Int) then n else MaxFileSize) = nb at h hnb
    by_cases hc : b.NumClear < divRoundUp nb SectorSize
    · rw [if_pos hc] at h; simp at h
    · rw [if_neg hc] at h
      cases e : FileHeader.allocLoop (divRoundUp nb SectorSize).toNat b with
      | error f => rw [e] at h; simp at h
      | ok r =>
        obtain ⟨got, b1⟩ := r
        rw [e] at h
        simp only at h
        obtain ⟨hl, ht⟩ := allocLoop_inv _ _ _ _ e
        have hle := divRoundUp_toNat_le _ hnb
        have hlen : (got ++ List.replicate (NumDirect - got.length) (-1 : Int)).length =
            NumDirect := by
          simp only [List.length_append, List.length_replicate]
          omega
        by_cases hrem : n - nb > 0
        · rw [if_pos hrem] at h
          by_cases hne : (b1.FindAndSet).1 = -1
          · rw [if_pos hne] at h; simp at h
          · rw [if_neg hne] at h
            cases e2 : FileHeader.AllocateAux fuel (b1.FindAndSet).2 (n - nb) with
            | error f => rw [e2] at h; simp at h
            | ok r2 =>
              obtain ⟨ok, next_hdf, b2⟩ := r2
              rw [e2] at h
              simp only [Except.ok.injEq, Prod.mk.injEq] at h
              obtain ⟨h1, h2, h3⟩ := h
              subst h1; subst h2; subst h3
              obtain ⟨ha, ht2⟩ := ih _ _ _ _ e2
              refine ⟨⟨hdef.symm, rfl, hlen, hne, hrem, ha⟩, ?_⟩
              simp only [FileHeader.allSectors]
              rw [take_append_replicate got _ hl]
              have := Took_trans ht (Took_trans (FindAndSet_took_of_ne b1 hne).2 ht2)
              simpa using this
        · rw [if_neg hrem] at h
          simp only [Except.ok.injEq, Prod.mk.injEq, true_and] at h
          obtain ⟨h2, h3⟩ := h
          subst h2; subst h3
          refine ⟨⟨hdef.symm, rfl, hlen, rfl, hrem⟩, ?_⟩
          simp only [FileHeader.allSectors]
          rw [take_append_replicate got _ hl]
          exact ht

theorem AllocatedFor_sizes (hdr : FileHeader) (n : Int) (hn : 0 ≤ n) (h : hdr.AllocatedFor n) :
    hdr.SizedFor n ∧ hdr.cal_file_size = n := by
  have hM := MaxFileSize_eq
  have hS := SectorSize_eq
  induction hdr generalizing n with
  | last nb ns ds nx =>
    obtain ⟨h1, h2, _, _, h5⟩ := h
    rw [hM] at h1
    have hnb : nb = n ∧ n ≤ 3712 := by split_ifs at h1 <;> omega
    have hnb0 : 0 ≤ nb := by omega
    rw [divRoundUp_eq nb SectorSize hnb0 (by omega), hS] at h2
    refine ⟨⟨?_, ?_⟩, hnb.1⟩
    · rw [hM]; omega
    · rw [hS]; split_ifs at h2 <;> omega
  | link nb ns ds nx next_hdf ih =>
    obtain ⟨h1, h2, _, _, h5, h6⟩ := h
    rw [hM] at h1
    have hnb : nb = 3712 ∧ 3712 < n := by split_ifs at h1 <;> omega
    have hnb0 : 0 ≤ nb := by omega
    rw [divRoundUp_eq nb SectorSize hnb0 (by omega), hS] at h2
    obtain ⟨i1, i2⟩ := ih (n - nb) (by omega) h6
    refine ⟨⟨?_, ?_, i1⟩, ?_⟩
    · rw [hM]; omega
    · rw [hS]; split_ifs at h2 <;> omega
    · simp only [FileHeader.cal_file_size, i2]; omega

theorem AllocatedFor_full (hdr : FileHeader) (n : Int) (h : hdr.AllocatedFor n) :
    (∀ g ∈ hdr.chain, g.next_hdf_sector ≠ -1 →
      g.numBytes = MaxFileSize ∧ g.numSectors = NumDirect) ∧
    (∀ g ∈ hdr.chain, g.get_next_hdf = none → g.next_hdf_sector = -1) ∧
    (∀ g ∈ hdr.chain, g.next_hdf_sector = -1 → g.get_next_hdf = none) := by
  have hM := MaxFileSize_eq
  have hS := SectorSize_eq
  induction hdr generalizing n with
  | last nb ns ds nx =>
    obtain ⟨_, _, _, h4, _⟩ := h
    simp only [FileHeader.chain, List.mem_singleton]
    refine ⟨?_, ?_, ?_⟩
    · intro g hg hne; subst hg; exact absurd h4 hne
    · intro g hg _; subst hg; exact h4
    · intro g hg _; subst hg; rfl
  | link nb ns ds nx next_hdf ih =>
    obtain ⟨h1, h2, _, h4, h5, h6⟩ := h
    rw [hM] at h1
    have hnb : nb = 3712 := by split_ifs at h1 <;> omega
    have hns : ns = 29 := by
      rw [h2, hnb, divRoundUp_eq _ _ (by omega) (by omega), hS]; decide
    obtain ⟨i1, i2, i3⟩ := ih (n - nb) h6
    simp only [FileHeader.chain, List.mem_cons]
    refine ⟨?_, ?_, ?_⟩
    · intro g hg hne
      rcases hg with hg | hg
      · subst hg
        simp only [FileHeader.numBytes, FileHeader.numSectors, hM, NumDirect_eq]
        exact ⟨hnb, hns⟩
      · exact i1 g hg hne
    · intro g hg hnone
      rcases hg with hg | hg
      · subst hg; simp [FileHeader.get_next_hdf] at hnone
      · exact i2 g hg hnone
    · intro g hg hnx
      rcases hg with hg | hg
      · subst hg; exact absurd hnx h4
      · exact i3 g hg hnx

theorem usedData_subset (hdr : FileHeader) : ∀ x ∈ hdr.usedData, x ∈ hdr.allSectors := by
  induction hdr with
  | last nb ns ds nx => intro x hx; exact hx
  | link nb ns ds nx next_hdf ih =>
    intro x hx
    simp only [FileHeader.usedData, FileHeader.allSectors, List.mem_append, List.mem_cons] at hx ⊢
    rcases hx with hx | hx
    · exact Or.inl hx
    · exact Or.inr (Or.inr (ih x hx))

theorem AllocatedFor_ByteToSector (hdr : FileHeader) (n o : Int) (h : hdr.AllocatedFor n)
    (h0 : 0 ≤ o) (h1 : o < n) :
    ∃ s, hdr.ByteToSector o = .ok s ∧ hdr.allData[(o / SectorSize).toNat]? = some s ∧
      s ∈ hdr.usedData := by
  have hM := MaxFileSize_eq
  have hS := SectorSize_eq
  have hD := NumDirect_eq
  induction hdr generalizing n o with
  | last nb ns ds nx =>
    obtain ⟨e1, e2, e3, _, e5⟩ := h
    rw [hM] at e1
    have hnb : nb = n ∧ n ≤ 3712 := by split_ifs at e1 <;> omega
    rw [divRoundUp_eq nb SectorSize (by omega) (by omega), hS] at e2
    have hidx : Int.tdiv o SectorSize = o / 128 := by
      rw [Int.tdiv_eq_ediv h0 (by omega), hS]
    have hlt : (o / 128).toNat < ns.toNat := by split_ifs at e2 <;> omega
    have hlt29 : (o / 128).toNat < ds.length := by rw [e3]; simp only [NumDirect]; omega
    refine ⟨ds[(o / 128).toNat], ?_, ?_, ?_⟩
    · have c1 : o / 128 < (NumDirect : Int) := by rw [hD]; omega
      have c2 : 0 ≤ o / 128 := by omega
      simp only [FileHeader.ByteToSector, hidx, c1, c2, if_true, pure, Except.pure]
      rw [List.getD_eq_getElem _ _ hlt29]
    · simp only [FileHeader.allData, hS]
      exact List.getElem?_eq_getElem hlt29
    · simp only [FileHeader.usedData]
      rw [List.mem_take_iff_getElem]
      exact ⟨(o / 128).toNat, by omega, rfl⟩
  | link nb ns ds nx next_hdf ih =>
    obtain ⟨e1, e2, e3, _, e5, e6⟩ := h
    rw [hM] at e1
    have hnb : nb = 3712 ∧ 3712 < n := by split_ifs at e1 <;> omega
    have hns : ns = 29 := by
      rw [e2, hnb.1, divRoundUp_eq _ _ (by omega) (by omega), hS]; decide
    have hidx : Int.tdiv o SectorSize = o / 128 := by
      rw [Int.tdiv_eq_ediv h0 (by omega), hS]
    have hl29 : ds.length = 29 := by rw [e3]; rfl
    by_cases hlo : o < 3712
    · have hlt29 : (o / 128).toNat < ds.length := by omega
      refine ⟨ds[(o / 128).toNat], ?_, ?_, ?_⟩
      · have c1 : o / 128 < (NumDirect : Int) := by rw [hD]; omega
        have c2 : 0 ≤ o / 128 := by omega
        simp only [FileHeader.ByteToSector, hidx, c1, c2, if_true, pure, Except.pure]
        rw [List.getD_eq_getElem _ _ hlt29]
      · simp only [FileHeader.allData, hS]
        rw [List.getElem?_append_left hlt29]
        exact List.getElem?_eq_getElem hlt29
      · simp only [FileHeader.usedData, List.mem_append]
        left
        rw [List.mem_take_iff_getElem]
        exact ⟨(o / 128).toNat, by omega, rfl⟩
    · obtain ⟨s, i1, i2, i3⟩ := ih (n - nb) (o - 3712) e6 (by omega) (by omega)
      refine ⟨s, ?_, ?_, ?_⟩
      · have c1 : ¬ o / 128 < (NumDirect : Int) := by rw [hD]; omega
        simp only [FileHeader.ByteToSector, hidx, c1, if_false, hM]
        exact i1
      · simp only [FileHeader.allData, hS] at i2 ⊢
        have hge : ds.length ≤ (o / 128).toNat := by omega
        rw [List.getElem?_append_right hge]
        have : (o / 128).toNat - ds.length = ((o - 3712) / 128).toNat := by omega
        rw [this]; exact i2
      · simp only [FileHeader.usedData, List.mem_append]
        exact Or.inr i3

theorem allocLoop_fault (k : Nat) (b : Bitmap) (f : Fault)
    (h : FileHeader.allocLoop k b = .error f) : f = Fault.assertion := by
  induction k generalizing b with
  | zero => simp [FileHeader.allocLoop, pure, Except.pure] at h
  | succ k ih =>
    simp only [FileHeader.allocLoop, bind, Except.bind, pure, Except.pure] at h
    split at h
    · cases e : FileHeader.allocLoop k (b.FindAndSet).2 with
      | error g =>
        rw [e] at h
        simp only [Except.error.injEq] at h
        subst h; exact ih _ e
      | ok r => rw [e] at h; simp at h
    · simp only [throw, throwThe, MonadExceptOf.throw, Except.error.injEq] at h
      exact h.symm

/-- The fuel `Allocate` gives its recursion suffices: the chain grows by one header per
`MaxFileSize` bytes. -/
theorem AllocateAux_fuel (fuel : Nat) (b : Bitmap) (n : Int) (h : n.toNat < fuel) :
    FileHeader.AllocateAux fuel b n ≠ .error Fault.outOfFuel := by
  induction fuel generalizing b n with
  | zero => omega
  | succ fuel ih =>
    have hM := MaxFileSize_eq
    unfold FileHeader.AllocateAux
    simp only [bind, Except.bind, pure, Except.pure]
    have hnb : (if n < MaxFileSize then n else MaxFileSize) = n ∨
        ((if n < MaxFileSize then n else MaxFileSize) = 3712 ∧ 3712 ≤ n) := by
      rw [hM]; split_ifs <;> omega
    generalize (if n < (MaxFileSize : Int) then n else MaxFileSize) = nb at hnb
    by_cases hc : b.NumClear < divRoundUp nb SectorSize
    · rw [if_pos hc]; simp
    · rw [if_neg hc]
      cases e : FileHeader.allocLoop (divRoundUp nb SectorSize).toNat b with
      | error f =>
        simp only
        rw [allocLoop_fault _ _ _ e]
        simp
      | ok r =>
        obtain ⟨got, b1⟩ := r
        simp only
        by_cases hrem : n - nb > 0
        · rw [if_pos hrem]
          by_cases hne : (b1.FindAndSet).1 = -1
          · rw [if_pos hne]; simp
          · rw [if_neg hne]
            have hlt : (n - nb).toNat < fuel := by omega
            have := ih (b1.FindAndSet).2 (n - nb) hlt
            cases e2 : FileHeader.AllocateAux fuel (b1.FindAndSet).2 (n - nb) with
            | error f =>
              simp only
              intro hf
              simp only [Except.error.injEq] at hf
              rw [e2, hf] at this
              exact this rfl
            | ok r2 => simp
        · rw [if_neg hrem]; simp

theorem Allocate_fuel (b : Bitmap) (n : Int) :
    FileHeader.Allocate b n ≠ .error Fault.outOfFuel :=
  AllocateAux_fuel _ b n (by omega)

theorem ok_of_toOption {α : Type} (r : Except Fault α) (v : α) (h : r.toOption = some v) :
    r = .ok v := by
  cases r with
  | error f => simp [Except.toOption] at h
  | ok w => simp only [Except.toOption, Option.some.injEq] at h; rw [h]

/-- C15: when `Allocate(freeMap, fileSize)` returns `true`, the sectors the chain records
(`dataSectors[i]` for `i < numSectors` of every header and every chained header sector)
are pairwise distinct, were clear before the call and are marked after it; no other bit
of the free map changed, and `NumClear` went down by the number of recorded sectors. -/
theorem Allocate_takes_recorded_sectors (freeMap : Bitmap) (fileSize : Int) (hdr : FileHeader)
    (freeMap' : Bitmap)
    (h : FileHeader.Allocate freeMap fileSize = .ok (true, hdr, freeMap')) :
    hdr.allSectors.Nodup ∧
    (∀ x ∈ hdr.allSectors,
      0 ≤ x ∧ freeMap[x.toNat]? = some false ∧ freeMap'[x.toNat]? = some true) ∧
    (∀ j : Nat, (j : Int) ∉ hdr.allSectors → freeMap'[j]? = freeMap[j]?) ∧
    freeMap'.length = freeMap.length ∧
    freeMap'.NumClear = freeMap.NumClear - hdr.allSectors.length := by
  obtain ⟨_, hl, hnd, hm, hf, hc⟩ := AllocateAux_inv _ _ _ _ _ h
  refine ⟨hnd, hm, hf, hl, ?_⟩
  simp only [Bitmap.NumClear]
  omega

set_option maxRecDepth 100000 in
/-- Witness for C15: `Allocate(freeMap, 4000)` on the free map of the freshly formatted disk
returns `true` with a chain of two headers. -/
theorem Allocate_takes_recorded_sectors_witness :
    FileHeader.Allocate formattedMap 4000 = .ok (true, alloc4000.2.1, alloc4000.2.2) ∧
    (alloc4000.2.1.allSectors.Nodup ∧
    (∀ x ∈ alloc4000.2.1.allSectors,
      0 ≤ x ∧ formattedMap[x.toNat]? = some false ∧ alloc4000.2.2[x.toNat]? = some true) ∧
    (∀ j : Nat, (j : Int) ∉ alloc4000.2.1.allSectors → alloc4000.2.2[j]? = formattedMap[j]?) ∧
    alloc4000.2.2.length = formattedMap.length ∧
    alloc4000.2.2.NumClear = formattedMap.NumClear - alloc4000.2.1.allSectors.length) :=
  ⟨ok_of_toOption _ _ (by decide!),
    Allocate_takes_recorded_sectors formattedMap 4000 alloc4000.2.1 alloc4000.2.2
      (ok_of_toOption _ _ (by decide!))⟩

/-- C16: when `Allocate(freeMap, fileSize)` returns `true` for `fileSize ≥ 0`, every header
of the chain has `numBytes = min(remaining, MaxFileSize)` and `numSectors = ceil(numBytes /
SectorSize)`, where `remaining` is `fileSize` less the bytes of the headers before it, and
`cal_file_size` of the chain is `fileSize`. -/
theorem Allocate_chain_sizes (freeMap : Bitmap) (fileSize : Int) (hdr : FileHeader)
    (freeMap' : Bitmap) (hsize : 0 ≤ fileSize)
    (h : FileHeader.Allocate freeMap fileSize = .ok (true, hdr, freeMap')) :
    hdr.SizedFor fileSize ∧ hdr.cal_file_size = fileSize :=
  AllocatedFor_sizes hdr fileSize hsize (AllocateAux_inv _ _ _ _ _ h).1

set_option maxRecDepth 100000 in
/-- Witness for C16: `Allocate(freeMap, 5000)` on the free map of the freshly formatted
disk. -/
theorem Allocate_chain_sizes_witness :
    ((0 : Int) ≤ 5000 ∧
      FileHeader.Allocate formattedMap 5000 = .ok (true, alloc5000.2.1, alloc5000.2.2)) ∧
    (alloc5000.2.1.SizedFor 5000 ∧ alloc5000.2.1.cal_file_size = 5000) :=
  ⟨⟨by decide, ok_of_toOption _ _ (by decide!)⟩,
    Allocate_chain_sizes formattedMap 5000 alloc5000.2.1 alloc5000.2.2 (by decide)
      (ok_of_toOption _ _ (by decide!))⟩

/-- C18: in a chain that `Allocate` built when it returned `true`, every header whose
`next_hdf_sector` is not -1 has `numBytes = MaxFileSize` and `numSectors = NumDirect`, and
the last header (the one whose `next_hdf` is `NULL`), and only it, has `next_hdf_sector =
-1`. -/
theorem Allocate_inner_headers_full (freeMap : Bitmap) (fileSize : Int) (hdr : FileHeader)
    (freeMap' : Bitmap)
    (h : FileHeader.Allocate freeMap fileSize = .ok (true, hdr, freeMap')) :
    (∀ g ∈ hdr.chain, g.next_hdf_sector ≠ -1 →
      g.numBytes = MaxFileSize ∧ g.numSectors = NumDirect) ∧
    (∀ g ∈ hdr.chain, g.get_next_hdf = none → g.next_hdf_sector = -1) ∧
    (∀ g ∈ hdr.chain, g.next_hdf_sector = -1 → g.get_next_hdf = none) :=
  AllocatedFor_full hdr fileSize (AllocateAux_inv _ _ _ _ _ h).1

set_option maxRecDepth 100000 in
/-- Witness for C18: `Allocate(freeMap, 7500)` on the free map of the freshly formatted
disk, a chain of three headers. -/
theorem Allocate_inner_headers_full_witness :
    FileHeader.Allocate formattedMap 7500 = .ok (true, alloc7500.2.1, alloc7500.2.2) ∧
    ((∀ g ∈ alloc7500.2.1.chain, g.next_hdf_sector ≠ -1 →
      g.numBytes = MaxFileSize ∧ g.numSectors = NumDirect) ∧
    (∀ g ∈ alloc7500.2.1.chain, g.get_next_hdf = none → g.next_hdf_sector = -1) ∧
    (∀ g ∈ alloc7500.2.1.chain, g.next_hdf_sector = -1 → g.get_next_hdf = none)) :=
  ⟨ok_of_toOption _ _ (by decide!),
    Allocate_inner_headers_full formattedMap 7500 alloc7500.2.1 alloc7500.2.2
      (ok_of_toOption _ _ (by decide!))⟩

/-- C20: on a chain that `Allocate(freeMap, n)` built when it returned `true`, for every
offset `0 ≤ o < n` the call `ByteToSector(o)` returns (no assertion fails) the entry at
position `o / SectorSize` of the headers' `dataSectors` arrays laid end to end in chain
order; that sector is one of the data sectors the chain records, it is not negative, and
it is marked in the free map the call left. -/
theorem ByteToSector_on_allocated_chain (freeMap : Bitmap) (n : Int) (hdr : FileHeader)
    (freeMap' : Bitmap) (o : Int)
    (h : FileHeader.Allocate freeMap n = .ok (true, hdr, freeMap'))
    (h0 : 0 ≤ o) (h1 : o < n) :
    ∃ s, hdr.ByteToSector o = .ok s ∧ hdr.allData[(o / SectorSize).toNat]? = some s ∧
      s ∈ hdr.usedData ∧ s ≠ -1 ∧ 0 ≤ s ∧ freeMap'[s.toNat]? = some true := by
  obtain ⟨ha, ht⟩ := AllocateAux_inv _ _ _ _ _ h
  obtain ⟨s, e1, e2, e3⟩ := AllocatedFor_ByteToSector hdr n o ha h0 h1
  obtain ⟨p1, _, p3⟩ := ht.2.2.1 s (usedData_subset hdr s e3)
  exact ⟨s, e1, e2, e3, by omega, p1, p3⟩

set_option maxRecDepth 100000 in
/-- Witness for C20: offset 3800 of the chain of `Allocate(freeMap, 4000)` lies in the
second header. -/
theorem ByteToSector_on_allocated_chain_witness :
    (FileHeader.Allocate formattedMap 4000 = .ok (true, alloc4000.2.1, alloc4000.2.2) ∧
      (0 : Int) ≤ 3800 ∧ (3800 : Int) < 4000) ∧
    ∃ s, alloc4000.2.1.ByteToSector 3800 = .ok s ∧
      alloc4000.2.1.allData[((3800 : Int) / SectorSize).toNat]? = some s ∧
      s ∈ alloc4000.2.1.usedData ∧ s ≠ -1 ∧ 0 ≤ s ∧ alloc4000.2.2[s.toNat]? = some true :=
  ⟨⟨ok_of_toOption _ _ (by decide!), by decide, by decide⟩,
    ByteToSector_on_allocated_chain formattedMap 4000 alloc4000.2.1 alloc4000.2.2 3800
      (ok_of_toOption _ _ (by decide!)) (by decide) (by decide)⟩

/-! ## FileLength and Deallocate on a chain of several headers -/

set_option maxRecDepth 100000 in
/-- C17, where the code departs from it: `Allocate(freeMap, 4000)` on the free map of the
freshly formatted disk returns `true` with a chain of two headers; `FileLength()` on the
first header returns 3712, the `numBytes` of that header, while the sum of `numBytes`
along the chain, which `cal_file_size()` returns, is 4000. -/
theorem FileLength_ignores_chain :
    FileHeader.Allocate formattedMap 4000 = .ok (true, alloc4000.2.1, alloc4000.2.2) ∧
    alloc4000.2.1.chainLength = 2 ∧
    alloc4000.2.1.FileLength = 3712 ∧ alloc4000.2.1.cal_file_size = 4000 :=
  have h : (FileHeader.Allocate formattedMap 4000).toOption =
        some (true, alloc4000.2.1, alloc4000.2.2) ∧
      alloc4000.2.1.chainLength = 2 ∧
      alloc4000.2.1.FileLength = 3712 ∧ alloc4000.2.1.cal_file_size = 4000 := by decide!
  ⟨ok_of_toOption _ _ h.1, h.2⟩

set_option maxRecDepth 100000 in
/-- C19, where the code departs from it: after `Allocate(freeMap, 4000)` on the free map of
the freshly formatted disk took sectors 13 to 45 (sector 42 for the second header),
`Deallocate` on the chain clears the data sectors of both headers and leaves sector 42
marked: the free map is not the one before `Allocate`. -/
theorem Deallocate_keeps_chained_header :
    FileHeader.Allocate formattedMap 4000 = .ok (true, alloc4000.2.1, alloc4000.2.2) ∧
    alloc4000.2.1.next_hdf_sector = 42 ∧
    (∀ x ∈ alloc4000.2.1.allSectors, alloc4000.2.2[x.toNat]? = some true) ∧
    alloc4000.2.1.Deallocate alloc4000.2.2 = .ok (formattedMap.set 42 true) ∧
    formattedMap[42]? = some false ∧ (formattedMap.set 42 true)[42]? = some true :=
  have h : (FileHeader.Allocate formattedMap 4000).toOption =
        some (true, alloc4000.2.1, alloc4000.2.2) ∧
      alloc4000.2.1.next_hdf_sector = 42 ∧
      (∀ x ∈ alloc4000.2.1.allSectors, alloc4000.2.2[x.toNat]? = some true) ∧
      (alloc4000.2.1.Deallocate alloc4000.2.2).toOption = some (formattedMap.set 42 true) ∧
      formattedMap[42]? = some false ∧ (formattedMap.set 42 true)[42]? = some true := by
    decide!
  ⟨ok_of_toOption _ _ h.1, h.2.1, h.2.2.1, ok_of_toOption _ _ h.2.2.2.1, h.2.2.2.2⟩


/-! ## Remove and create_directory on concrete disks -/

theorem after_of_returned (r : Except Fault (Bool × FileSystem)) (b : Bool) (dflt : FileSystem)
    (h : returned r b = true) : r = .ok (b, FileSystem.after r dflt) := by
  cases r with
  | error f => simp [returned] at h
  | ok v =>
    obtain ⟨b', fs⟩ := v
    simp only [returned, beq_iff_eq] at h
    subst h
    rfl

theorem afterDir_of_returned (r : Except Fault FileSystem) (dflt : FileSystem)
    (h : returnedDir r = true) : r = .ok (FileSystem.afterDir r dflt) := by
  cases r with
  | error f => simp [returnedDir] at h
  | ok v => rfl

theorem fault_of_faultOf {α : Type} (r : Except Fault α) (f : Fault) (h : faultOf r = some f) :
    r = .error f := by
  cases r with
  | error g => simp only [faultOf, Option.some.injEq] at h; rw [h]
  | ok v => simp [faultOf] at h

set_option maxRecDepth 100000 in
/-- Formatting the blank disk returns, with the file system `formattedFS`. -/
theorem format_returns : FileSystem.format blankDisk = .ok formattedFS := by
  have h : returnedDir (FileSystem.format blankDisk) = true := by decide!
  unfold formattedFS
  cases e : FileSystem.format blankDisk with
  | error f => rw [e] at h; simp [returnedDir] at h
  | ok fs => rfl

set_option maxRecDepth 100000 in
/-- The freshly formatted disk is consistent. -/
theorem formattedFS_consistent : formattedFS.Consistent 5 :=
  have h : (PersistentBitmap.fetch formattedFS.disk formattedFS.freeMapFile
        NumSectors).toOption = some formattedMap ∧
      (Directory.FetchFrom formattedFS.disk formattedFS.directoryFile
        (Directory.new NumDirEntries)).toOption = some (Directory.new NumDirEntries) ∧
      (treeSectors 5 formattedFS.disk (Directory.new NumDirEntries)).toOption = some [] ∧
      formattedFS.freeMapFile.hdr.isFreeMapHeader = true ∧
      formattedFS.directoryFile.hdr.isDirectoryHeader = true ∧
      (formattedFS.freeMapFile.sector :: formattedFS.freeMapFile.hdr.allSectors ++
        (formattedFS.directoryFile.sector :: formattedFS.directoryFile.hdr.allSectors ++
          [])).Nodup ∧
      ∀ s : Int, s ∈ formattedFS.freeMapFile.sector :: formattedFS.freeMapFile.hdr.allSectors ++
          (formattedFS.directoryFile.sector :: formattedFS.directoryFile.hdr.allSectors ++
            []) →
        0 ≤ s ∧ s < NumSectors ∧ formattedMap[s.toNat]? = some true := by decide!
  ⟨formattedMap, Directory.new NumDirEntries, [], ok_of_toOption _ _ h.1,
    ok_of_toOption _ _ h.2.1, ok_of_toOption _ _ h.2.2.1, h.2.2.2⟩

set_option maxRecDepth 100000 in
/-- On the freshly formatted disk `create_directory("/d")` returns; afterwards the root
table holds the entry of `d`, the free map marks sectors 0 to 23, and the disk is
consistent. -/
theorem fsWithD_facts :
    FileSystem.create_directory 5 formattedFS pathD = .ok fsWithD ∧
    Directory.FetchFrom fsWithD.disk fsWithD.directoryFile (Directory.new NumDirEntries) =
      .ok ((Directory.new NumDirEntries).set 0 ⟨true, ['d'], 23, DIR⟩) ∧
    PersistentBitmap.fetch fsWithD.disk fsWithD.freeMapFile NumSectors = .ok (markedBelow 24) ∧
    fsWithD.Consistent 5 :=
  have h : returnedDir (FileSystem.create_directory 5 formattedFS pathD) = true ∧
      (Directory.FetchFrom fsWithD.disk fsWithD.directoryFile
        (Directory.new NumDirEntries)).toOption =
        some ((Directory.new NumDirEntries).set 0 ⟨true, ['d'], 23, DIR⟩) ∧
      (PersistentBitmap.fetch fsWithD.disk fsWithD.freeMapFile NumSectors).toOption =
        some (markedBelow 24) ∧
      (treeSectors 5 fsWithD.disk
        ((Directory.new NumDirEntries).set 0 ⟨true, ['d'], 23, DIR⟩)).toOption =
        some [23, 13, 14, 15, 16, 17, 18, 19, 20, 21, 22] ∧
      fsWithD.freeMapFile.hdr.isFreeMapHeader = true ∧
      fsWithD.directoryFile.hdr.isDirectoryHeader = true ∧
      (fsWithD.freeMapFile.sector :: fsWithD.freeMapFile.hdr.allSectors ++
        (fsWithD.directoryFile.sector :: fsWithD.directoryFile.hdr.allSectors ++
          [23, 13, 14, 15, 16, 17, 18, 19, 20, 21, 22])).Nodup ∧
      ∀ s : Int, s ∈ fsWithD.freeMapFile.sector :: fsWithD.freeMapFile.hdr.allSectors ++
          (fsWithD.directoryFile.sector :: fsWithD.directoryFile.hdr.allSectors ++
            [23, 13, 14, 15, 16, 17, 18, 19, 20, 21, 22]) →
        0 ≤ s ∧ s < NumSectors ∧ (markedBelow 24)[s.toNat]? = some true := by decide!
  ⟨afterDir_of_returned _ _ h.1, ok_of_toOption _ _ h.2.1, ok_of_toOption _ _ h.2.2.1,
    markedBelow 24, (Directory.new NumDirEntries).set 0 ⟨true, ['d'], 23, DIR⟩,
    [23, 13, 14, 15, 16, 17, 18, 19, 20, 21, 22], ok_of_toOption _ _ h.2.2.1,
    ok_of_toOption _ _ h.2.1, ok_of_toOption _ _ h.2.2.2.1, h.2.2.2.2⟩

/-- The disk after `create_directory("/d")` is consistent. -/
theorem fsWithD_consistent : fsWithD.Consistent 5 := fsWithD_facts.2.2.2

set_option maxRecDepth 100000 in
/-- C11, where the code departs from it: on the freshly formatted disk `Create("/f", 4000)`
returns `true` and `Remove("/f", false)` returns `true`, and the free map read back
afterwards differs from the one before `Create`: sector 43, which `Allocate` took for the
second header of the file, is still marked. -/
theorem Create_Remove_keeps_chained_header :
    FileSystem.format blankDisk = .ok formattedFS ∧ formattedFS.Consistent 5 ∧
    PersistentBitmap.fetch formattedFS.disk formattedFS.freeMapFile NumSectors =
      .ok formattedMap ∧
    FileSystem.Create 5 formattedFS pathF 4000 = .ok (true, fsBigF) ∧
    FileSystem.Remove 5 fsBigF pathF false = .ok (true, fsBigFRemoved) ∧
    PersistentBitmap.fetch fsBigFRemoved.disk fsBigFRemoved.freeMapFile NumSectors =
      .ok (formattedMap.set 43 true) ∧
    formattedMap[43]? = some false ∧ (formattedMap.set 43 true)[43]? = some true ∧
    Directory.FetchFrom fsBigFRemoved.disk fsBigFRemoved.directoryFile
      (Directory.new NumDirEntries) =
      .ok ((Directory.new NumDirEntries).set 0 ⟨false, ['f'], 13, FILE⟩) :=
  have h : (PersistentBitmap.fetch formattedFS.disk formattedFS.freeMapFile
        NumSectors).toOption = some formattedMap ∧
      returned (FileSystem.Create 5 formattedFS pathF 4000) true = true ∧
      returned (FileSystem.Remove 5 fsBigF pathF false) true = true ∧
      (PersistentBitmap.fetch fsBigFRemoved.disk fsBigFRemoved.freeMapFile
        NumSectors).toOption = some (formattedMap.set 43 true) ∧
      formattedMap[43]? = some false ∧ (formattedMap.set 43 true)[43]? = some true ∧
      (Directory.FetchFrom fsBigFRemoved.disk fsBigFRemoved.directoryFile
        (Directory.new NumDirEntries)).toOption =
        some ((Directory.new NumDirEntries).set 0 ⟨false, ['f'], 13, FILE⟩) := by decide!
  ⟨format_returns, formattedFS_consistent, ok_of_toOption _ _ h.1,
    after_of_returned _ _ _ h.2.1, after_of_returned _ _ _ h.2.2.1,
    ok_of_toOption _ _ h.2.2.2.1, h.2.2.2.2.1, h.2.2.2.2.2.1,
    ok_of_toOption _ _ h.2.2.2.2.2.2⟩

set_option maxRecDepth 100000 in
/-- C12, where the code departs from it: after `create_directory("/d")` on the freshly
formatted disk the root directory has the in-use entry `d` of type `DIR`;
`Remove("/d", false)` then returns `TRUE`, and every sector of the disk is as it was. -/
theorem Remove_of_directory_returns_true :
    FileSystem.format blankDisk = .ok formattedFS ∧
    FileSystem.create_directory 5 formattedFS pathD = .ok fsWithD ∧ fsWithD.Consistent 5 ∧
    Directory.FetchFrom fsWithD.disk fsWithD.directoryFile (Directory.new NumDirEntries) =
      .ok ((Directory.new NumDirEntries).set 0 ⟨true, ['d'], 23, DIR⟩) ∧
    ∃ fs', FileSystem.Remove 5 fsWithD pathD false = .ok (true, fs') ∧
      ∀ s, s < NumSectors → fs'.disk s = fsWithD.disk s :=
  have h : returned (FileSystem.Remove 5 fsWithD pathD false) true = true ∧
      ∀ s, s < NumSectors →
        (FileSystem.after (FileSystem.Remove 5 fsWithD pathD false) fsWithD).disk s =
          fsWithD.disk s := by decide!
  ⟨format_returns, fsWithD_facts.1, fsWithD_facts.2.2.2, fsWithD_facts.2.1,
    FileSystem.after (FileSystem.Remove 5 fsWithD pathD false) fsWithD,
    after_of_returned _ _ _ h.1, h.2⟩

set_option maxRecDepth 100000 in
/-- C13, where the code departs from it: on the freshly formatted disk, after
`create_directory("/d")` and `Create("/d/g", SectorSize)` (which returns `true`), the call
`Remove("/d", true)` does not return: having removed the entry `d` from the root table it
searches that table for `d` again, gets -1 and passes it to `freeMap->Clear`. -/
theorem Remove_recursive_aborts :
    FileSystem.format blankDisk = .ok formattedFS ∧ formattedFS.Consistent 5 ∧
    FileSystem.create_directory 5 formattedFS pathD = .ok fsWithD ∧
    FileSystem.Create 5 fsWithD pathDG SectorSize = .ok (true, fsWithDG) ∧
    FileSystem.Remove 5 fsWithDG pathD true = .error Fault.assertion :=
  have h : returned (FileSystem.Create 5 fsWithD pathDG SectorSize) true = true ∧
      faultOf (FileSystem.Remove 5 fsWithDG pathD true) = some Fault.assertion := by decide!
  ⟨format_returns, formattedFS_consistent, fsWithD_facts.1,
    after_of_returned _ _ _ h.1, fault_of_faultOf _ _ h.2⟩

set_option maxRecDepth 100000 in
/-- C14, where the code departs from it: on the freshly formatted disk the calls
`create_directory("/a")`, `Create("/a/x", 0)`, `create_directory("/x")` and
`Remove("/x", true)` all return, the last one with `TRUE`; afterwards the directory `/a`
still has the in-use entry `x` with header sector 24, and sector 24 is clear in the free
map on disk. -/
theorem Remove_recursive_unmarks_namesake :
    FileSystem.format blankDisk = .ok formattedFS ∧
    FileSystem.create_directory 5 formattedFS pathA = .ok fsWithA ∧
    FileSystem.Create 5 fsWithA pathAX 0 = .ok (true, fsWithAX) ∧
    FileSystem.create_directory 5 fsWithAX pathX = .ok fsTwoX ∧
    FileSystem.Remove 5 fsTwoX pathX true = .ok (true, fsTwoXRemoved) ∧
    Directory.FetchFrom fsTwoXRemoved.disk fsTwoXRemoved.directoryFile
      (Directory.new NumDirEntries) =
      .ok (((Directory.new NumDirEntries).set 0 ⟨true, ['a'], 23, DIR⟩).set 1
        ⟨false, ['x'], 35, DIR⟩) ∧
    (∃ a, OpenFile.open 5 fsTwoXRemoved.disk 23 = .ok a ∧
      Directory.FetchFrom fsTwoXRemoved.disk a (Directory.new NumDirEntries) =
        .ok ((Directory.new NumDirEntries).set 0 ⟨true, ['x'], 24, FILE⟩)) ∧
    ∃ m, PersistentBitmap.fetch fsTwoXRemoved.disk fsTwoXRemoved.freeMapFile NumSectors =
        .ok m ∧ m[24]? = some false :=
  have h : returnedDir (FileSystem.create_directory 5 formattedFS pathA) = true ∧
      returned (FileSystem.Create 5 fsWithA pathAX 0) true = true ∧
      returnedDir (FileSystem.create_directory 5 fsWithAX pathX) = true ∧
      returned (FileSystem.Remove 5 fsTwoX pathX true) true = true ∧
      (Directory.FetchFrom fsTwoXRemoved.disk fsTwoXRemoved.directoryFile
        (Directory.new NumDirEntries)).toOption =
        some (((Directory.new NumDirEntries).set 0 ⟨true, ['a'], 23, DIR⟩).set 1
          ⟨false, ['x'], 35, DIR⟩) ∧
      (OpenFile.open 5 fsTwoXRemoved.disk 23).toOption = some handleD ∧
      (Directory.FetchFrom fsTwoXRemoved.disk handleD
        (Directory.new NumDirEntries)).toOption =
        some ((Directory.new NumDirEntries).set 0 ⟨true, ['x'], 24, FILE⟩) ∧
      (PersistentBitmap.fetch fsTwoXRemoved.disk fsTwoXRemoved.freeMapFile
        NumSectors).toOption = some (markedBelow 24 |>.set 24 false) ∧
      (markedBelow 24 |>.set 24 false)[24]? = some false := by decide!
  ⟨format_returns, afterDir_of_returned _ _ h.1, after_of_returned _ _ _ h.2.1,
    afterDir_of_returned _ _ h.2.2.1, after_of_returned _ _ _ h.2.2.2.1,
    ok_of_toOption _ _ h.2.2.2.2.1,
    ⟨handleD, ok_of_toOption _ _ h.2.2.2.2.2.1, ok_of_toOption _ _ h.2.2.2.2.2.2.1⟩,
    ⟨markedBelow 24 |>.set 24 false, ok_of_toOption _ _ h.2.2.2.2.2.2.2.1,
      h.2.2.2.2.2.2.2.2⟩⟩

/-! ## Directory::Add and Directory::Remove on an arbitrary table -/

theorem FindIndexFrom_none (name : List Char) (es : List DirectoryEntry) (k : Nat)
    (h : ∀ e ∈ es, (e.inUse && nameMatch e.name name) = false) :
    Directory.FindIndexFrom name es k = -1 := by
  induction es generalizing k with
  | nil => rfl
  | cons e es ih =>
    have he := h e (by simp)
    simp only [Directory.FindIndexFrom, he, Bool.false_eq_true, if_false]
    exact ih (k + 1) (fun x hx => h x (by simp [hx]))

theorem FindIndexFrom_first (name : List Char) (es : List DirectoryEntry) (k i : Nat)
    (hi : i < es.length) (h1 : (es[i].inUse && nameMatch es[i].name name) = true)
    (h2 : ∀ j (hj : j < i), (es[j].inUse && nameMatch es[j].name name) = false) :
    Directory.FindIndexFrom name es k = ((k + i : Nat) : Int) := by
  induction es generalizing k i with
  | nil => simp at hi
  | cons e es ih =>
    cases i with
    | zero =>
      simp only [List.getElem_cons_zero] at h1
      simp [Directory.FindIndexFrom, h1]
    | succ i =>
      have h0 := h2 0 (by omega)
      simp only [List.getElem_cons_zero] at h0
      simp only [Directory.FindIndexFrom, h0, Bool.false_eq_true, if_false]
      have hi' : i < es.length := by simpa using hi
      rw [ih (k + 1) i hi' (by simpa using h1)
        (fun j hj => by simpa using h2 (j + 1) (by omega))]
      congr 1
      omega

theorem FindIndex_first (table : List DirectoryEntry) (name : List Char) (i : Nat)
    (hi : i < table.length) (h1 : (table[i].inUse && nameMatch table[i].name name) = true)
    (h2 : ∀ j (hj : j < i), (table[j].inUse && nameMatch table[j].name name) = false) :
    Directory.FindIndex table name = (i : Int) := by
  unfold Directory.FindIndex
  rw [FindIndexFrom_first name table 0 i hi h1 h2]
  simp

theorem addLoop_first (name : List Char) (s ty : Int) (es : List DirectoryEntry) (i : Nat)
    (hi : i < es.length) (h1 : es[i].inUse = false)
    (h2 : ∀ j (hj : j < i), es[j].inUse = true) :
    Directory.addLoop name s ty es =
      some (es.set i ⟨true, name.take FileNameMaxLen, s, ty⟩) := by
  induction es generalizing i with
  | nil => simp at hi
  | cons e es ih =>
    cases i with
    | zero =>
      simp only [List.getElem_cons_zero] at h1
      simp [Directory.addLoop, h1]
    | succ i =>
      have h0 := h2 0 (by omega)
      simp only [List.getElem_cons_zero] at h0
      have hi' : i < es.length := by simpa using hi
      simp only [Directory.addLoop, h0, Bool.not_true, Bool.false_eq_true, if_false,
        List.set_cons_succ]
      rw [ih i hi' (by simpa using h1) (fun j hj => by simpa using h2 (j + 1) (by omega))]
      rfl

theorem addLoop_full (name : List Char) (s ty : Int) (es : List DirectoryEntry)
    (h : ∀ e ∈ es, e.inUse = true) : Directory.addLoop name s ty es = none := by
  induction es with
  | nil => rfl
  | cons e es ih =>
    have he := h e (by simp)
    simp [Directory.addLoop, he, ih (fun x hx => h x (by simp [hx]))]

theorem nameMatch_eq (a b : List Char) (ha : a.length ≤ FileNameMaxLen)
    (hb : b.length ≤ FileNameMaxLen) : nameMatch a b = true ↔ a = b := by
  unfold nameMatch
  rw [List.take_of_length_le ha, List.take_of_length_le hb]
  simp

/-- C21: `Directory::Add` on an arbitrary table.  If an in-use entry matches the name (its
first `FileNameMaxLen` characters, as `FindIndex` compares), or if every entry is in use,
`Add` returns `FALSE` and the table is unchanged.  Otherwise it returns `TRUE` and the
table differs only at the lowest-indexed free entry `i`, which is now in use with the name
(as `strncpy` stores it), the sector and the type; `Find(name, false)` on the new table
returns that sector.  A name of at most `FileNameMaxLen` characters is stored whole, and
is matched by exactly the entries whose name equals it. -/
theorem Add_contract (table : List DirectoryEntry) (name : List Char) (newSector fileType : Int)
    (fuel : Nat) (disk : Disk) :
    ((∃ e ∈ table, e.inUse = true ∧ nameMatch e.name name = true) →
      Directory.Add table name newSector fileType = (false, table)) ∧
    ((∀ e ∈ table, e.inUse = true) →
      Directory.Add table name newSector fileType = (false, table)) ∧
    ((∀ e ∈ table, e.inUse = true → nameMatch e.name name = false) →
      ∀ i (hi : i < table.length), table[i].inUse = false →
        (∀ j (hj : j < i), table[j].inUse = true) →
        Directory.Add table name newSector fileType =
          (true, table.set i ⟨true, name.take FileNameMaxLen, newSector, fileType⟩) ∧
        Directory.Find fuel disk
          (table.set i ⟨true, name.take FileNameMaxLen, newSector, fileType⟩) name false =
          .ok newSector) ∧
    (name.length ≤ FileNameMaxLen →
      name.take FileNameMaxLen = name ∧
      ∀ e : DirectoryEntry, e.name.length ≤ FileNameMaxLen →
        (nameMatch e.name name = true ↔ e.name = name)) := by
  refine ⟨?_, ?_, ?_, ?_⟩
  · rintro ⟨e, he, h1, h2⟩
    have hne : Directory.FindIndex table name ≠ -1 := by
      intro hc
      have := FindIndexFrom_miss name table 0 hc e he
      simp [h1, h2] at this
    simp [Directory.Add, hne]
  · intro hfull
    unfold Directory.Add
    split
    · rfl
    · rw [addLoop_full name newSector fileType table hfull]
  · intro habs i hi hfree hlow
    have hnone : Directory.FindIndex table name = -1 := by
      apply FindIndexFrom_none
      intro e he
      cases hu : e.inUse with
      | false => rfl
      | true => simpa using habs e he hu
    have hadd : Directory.Add table name newSector fileType =
        (true, table.set i ⟨true, name.take FileNameMaxLen, newSector, fileType⟩) := by
      simp [Directory.Add, hnone, addLoop_first name newSector fileType table i hi hfree hlow]
    refine ⟨hadd, ?_⟩
    have hi' : i < (table.set i
        ⟨true, name.take FileNameMaxLen, newSector, fileType⟩).length := by simpa using hi
    have hidx : Directory.FindIndex
        (table.set i ⟨true, name.take FileNameMaxLen, newSector, fileType⟩) name = (i : Int) := by
      apply FindIndex_first _ _ i hi'
      · simp [nameMatch]
      · intro j hj
        have hjl : j < table.length := by omega
        rw [List.getElem_set_ne (by omega)]
        have hu := hlow j hj
        simpa [hu] using habs table[j] (List.getElem_mem _) hu
    apply Find_hit fuel disk _ name false ⟨true, name.take FileNameMaxLen, newSector, fileType⟩
    · rw [hidx]; omega
    · rw [hidx]
      simp [Directory.entryAt, List.get?_eq_getElem?, hi, pure, Except.pure]
  · intro hlen
    refine ⟨List.take_of_length_le hlen, fun e he => nameMatch_eq _ _ he hlen⟩

/-- Witness for C21: in the four-entry table with `f` and `d` in use, `Add("g", 40, FILE)`
takes the free entry at index 1, and `Find("g", false)` then returns 40; `Add("f", ..)`
is refused. -/
theorem Add_contract_witness :
    ((∀ e ∈ smallTable, e.inUse = true → nameMatch e.name ['g'] = false) ∧
      smallTable[1]?.map (·.inUse) = some false ∧
      (∃ e ∈ smallTable, e.inUse = true ∧ nameMatch e.name ['f'] = true)) ∧
    (Directory.Add smallTable ['g'] 40 FILE =
        (true, smallTable.set 1 ⟨true, ['g'].take FileNameMaxLen, 40, FILE⟩) ∧
      Directory.Find 1 blankDisk
        (smallTable.set 1 ⟨true, ['g'].take FileNameMaxLen, 40, FILE⟩) ['g'] false =
          .ok 40) ∧
    Directory.Add smallTable ['f'] 40 FILE = (false, smallTable) :=
  ⟨⟨by decide, by decide, ⟨⟨true, ['f'], 13, FILE⟩, by decide, rfl, by decide⟩⟩,
    (Add_contract smallTable ['g'] 40 FILE 1 blankDisk).2.2.1 (by decide) 1 (by decide)
      (by decide) (by decide),
    (Add_contract smallTable ['f'] 40 FILE 1 blankDisk).1
      ⟨⟨true, ['f'], 13, FILE⟩, by decide, rfl, by decide⟩⟩

/-- C22: `Directory::Remove` on an arbitrary table, whatever word lies in front of the
array.  If no in-use entry matches the name, the call returns `FALSE` and the table is
unchanged.  If entry `i` is the lowest-indexed in-use entry that matches: with
`is_remove_file` and type `DIR` the call returns `FALSE` and the table is unchanged;
otherwise it returns `TRUE` and the table differs only at entry `i`, which is no longer
in use. -/
theorem Remove_contract (table : List DirectoryEntry) (name : List Char) (fileOnly : Bool)
    (stray : Int) :
    ((∀ e ∈ table, e.inUse = true → nameMatch e.name name = false) →
      Directory.Remove table name fileOnly stray = (false, table)) ∧
    (∀ i (hi : i < table.length),
      table[i].inUse = true → nameMatch table[i].name name = true →
      (∀ j (hj : j < i), (table[j].inUse && nameMatch table[j].name name) = false) →
      (fileOnly = true ∧ table[i].type = DIR →
        Directory.Remove table name fileOnly stray = (false, table)) ∧
      (¬ (fileOnly = true ∧ table[i].type = DIR) →
        Directory.Remove table name fileOnly stray =
          (true, table.set i { table[i] with inUse := false }))) := by
  refine ⟨?_, ?_⟩
  · intro habs
    have hnone : Directory.FindIndex table name = -1 := by
      apply FindIndexFrom_none
      intro e he
      cases hu : e.inUse with
      | false => rfl
      | true => simpa using habs e he hu
    unfold Directory.Remove
    simp only [hnone]
    split
    · rfl
    · rfl
  · intro i hi hu hm hlow
    have hidx : Directory.FindIndex table name = (i : Int) :=
      FindIndex_first table name i hi (by simp [hu, hm]) hlow
    have hty : Directory.typeAt table (i : Int) stray = table[i].type := by
      simp [Directory.typeAt, List.get?_eq_getElem?, hi]
    have hne : ¬ ((i : Int) = -1) := by omega
    refine ⟨?_, ?_⟩
    · rintro ⟨hf, hd⟩
      simp [Directory.Remove, hidx, hty, hf, hd]
    · intro hnot
      have hcond : (fileOnly && table[i].type == DIR) = false := by
        cases fileOnly with
        | false => rfl
        | true =>
          have : table[i].type ≠ DIR := fun h => hnot ⟨rfl, h⟩
          simp [this]
      simp only [Directory.Remove, hidx, hty, hcond, Bool.false_eq_true, if_false, hne]
      simp [Directory.clearAt, List.get?_eq_getElem?, hi]

/-- Witness for C22: in the four-entry table, `Remove("d", true)` is refused and
`Remove("d", false)` frees entry 2; `Remove("g", true)` finds no entry. -/
theorem Remove_contract_witness :
    ((∀ e ∈ smallTable, e.inUse = true → nameMatch e.name ['g'] = false) ∧
      smallTable[2]? = some ⟨true, ['d'], 23, DIR⟩) ∧
    Directory.Remove smallTable ['g'] true 1 = (false, smallTable) ∧
    Directory.Remove smallTable ['d'] true 0 = (false, smallTable) ∧
    Directory.Remove smallTable ['d'] false 0 =
      (true, smallTable.set 2 ⟨false, ['d'], 23, DIR⟩) :=
  ⟨⟨by decide, by decide⟩,
    (Remove_contract smallTable ['g'] true 1).1 (by decide),
    ((Remove_contract smallTable ['d'] true 0).2 2 (by decide) (by decide) (by decide)
      (by decide)).1 ⟨rfl, by decide⟩,
    ((Remove_contract smallTable ['d'] false 0).2 2 (by decide) (by decide) (by decide)
      (by decide)).2 (by decide)⟩

/-! ## check_len -/

theorem lastSlashFrom_none (cs : List Char) (i : Nat) (h : '/' ∉ cs) :
    lastSlashFrom cs i = none := by
  induction cs generalizing i with
  | nil => rfl
  | cons c cs ih =>
    simp only [List.mem_cons, not_or] at h
    have hc : ¬ c = '/' := fun e => h.1 e.symm
    simp [lastSlashFrom, ih (i + 1) h.2, hc]

theorem lastSlashFrom_split (pre suf : List Char) (i : Nat) (h : '/' ∉ suf) :
    lastSlashFrom (pre ++ '/' :: suf) i = some (i + pre.length) := by
  induction pre generalizing i with
  | nil => simp [lastSlashFrom, lastSlashFrom_none suf (i + 1) h]
  | cons c pre ih =>
    rw [List.cons_append, lastSlashFrom, ih (i + 1)]
    simp only [List.length_cons]
    exact congrArg some (by omega)

theorem get_file_name_split (pre suf : List Char) (h : '/' ∉ suf) :
    get_file_name (pre ++ '/' :: suf) = some (pre.length + 1) := by
  simp [get_file_name, lastSlashFrom_split pre suf 0 h]

theorem split_at_last_slash (name : List Char) (h : '/' ∈ name) :
    ∃ pre suf, name = pre ++ '/' :: suf ∧ '/' ∉ suf := by
  induction name with
  | nil => simp at h
  | cons c cs ih =>
    by_cases hcs : '/' ∈ cs
    · obtain ⟨pre, suf, e, hs⟩ := ih hcs
      exact ⟨c :: pre, suf, by rw [e]; rfl, hs⟩
    · simp only [List.mem_cons] at h
      rcases h with h | h
      · exact ⟨[], cs, by rw [← h]; rfl, hcs⟩
      · exact absurd h hcs

/-- C28: for a path that is `pre ++ "/" ++ suf` with no `'/'` in `suf` (every path that
contains a `'/'` is one, in one way), `check_len` returns `true` exactly when the path has
at most 255 characters and `suf` at most 9; and on every path for which `check_len` returns
`false`, `Create` and `Remove` (with either flag) return `false` and leave the file system,
hence the disk, as it was. -/
theorem check_len_contract (name : List Char) (fuel : Nat) (fs : FileSystem) (initialSize : Int)
    (rr_flag : Bool) :
    (∀ pre suf, name = pre ++ '/' :: suf → '/' ∉ suf →
      check_len name = .ok (decide (name.length ≤ 255 ∧ suf.length ≤ 9))) ∧
    ('/' ∈ name → ∃ pre suf, name = pre ++ '/' :: suf ∧ '/' ∉ suf) ∧
    (check_len name = .ok false →
      FileSystem.Create fuel fs name initialSize = .ok (false, fs) ∧
      FileSystem.Remove fuel fs name rr_flag = .ok (false, fs)) := by
  refine ⟨?_, split_at_last_slash name, ?_⟩
  · intro pre suf e hs
    subst e
    have hd : ((pre ++ '/' :: suf).drop (pre.length + 1)).length = suf.length := by
      simp
    simp only [check_len, get_file_name_split pre suf hs, hd]
    by_cases h9 : suf.length > 9
    · rw [if_pos h9]
      show Except.ok false = _
      rw [decide_eq_false (fun h => by omega)]
    · rw [if_neg h9]
      by_cases h255 : (pre ++ '/' :: suf).length > 255
      · rw [if_pos h255]
        show Except.ok false = _
        rw [decide_eq_false (fun h => by omega)]
      · rw [if_neg h255]
        show Except.ok true = _
        rw [decide_eq_true ⟨by omega, by omega⟩]
  · intro h
    constructor
    · simp [FileSystem.Create, h, bind, Except.bind, pure, Except.pure]
    · simp [FileSystem.Remove, h, bind, Except.bind, pure, Except.pure]

/-- Witness for C28: `/abcdefghij` has a final name of ten characters: `check_len` returns
`false`, and `Create` and `Remove` return `false` on the freshly formatted disk. -/
theorem check_len_contract_witness :
    (pathLong = [] ++ '/' :: ['a', 'b', 'c', 'd', 'e', 'f', 'g', 'h', 'i', 'j'] ∧
      '/' ∉ ['a', 'b', 'c', 'd', 'e', 'f', 'g', 'h', 'i', 'j']) ∧
    check_len pathLong = .ok (decide (pathLong.length ≤ 255 ∧
      ['a', 'b', 'c', 'd', 'e', 'f', 'g', 'h', 'i', 'j'].length ≤ 9)) ∧
    FileSystem.Create 5 formattedFS pathLong 100 = .ok (false, formattedFS) ∧
    FileSystem.Remove 5 formattedFS pathLong true = .ok (false, formattedFS) :=
  ⟨⟨rfl, by decide⟩,
    (check_len_contract pathLong 5 formattedFS 100 true).1 []
      ['a', 'b', 'c', 'd', 'e', 'f', 'g', 'h', 'i', 'j'] rfl (by decide),
    ((check_len_contract pathLong 5 formattedFS 100 true).2.2 rfl).1,
    ((check_len_contract pathLong 5 formattedFS 100 true).2.2 rfl).2⟩

/-! ## SysOpen -/

theorem findSlot_first (table : List (Option OpenFile)) (k a i : Nat) (ha : a ≤ i)
    (hk : i < a + k) (hi : table[i]? = some none)
    (hlow : ∀ j, a ≤ j → j < i → ∃ h, table[j]? = some (some h)) :
    SysOpen.findSlot table a k = .ok (i : Int) := by
  induction k generalizing a with
  | zero => omega
  | succ k ih =>
    by_cases hai : a = i
    · subst hai
      simp [SysOpen.findSlot, List.get?_eq_getElem?, hi, pure, Except.pure]
    · obtain ⟨h, hh⟩ := hlow a (le_refl a) (by omega)
      simp only [SysOpen.findSlot, List.get?_eq_getElem?, hh]
      exact ih (a + 1) (by omega) (by omega) (fun j h1 h2 => hlow j (by omega) h2)

theorem findSlot_full (table : List (Option OpenFile)) (k a : Nat)
    (h : ∀ j, a ≤ j → j < a + k → ∃ h, table[j]? = some (some h)) :
    SysOpen.findSlot table a k = .ok (-1) := by
  induction k generalizing a with
  | zero => rfl
  | succ k ih =>
    obtain ⟨x, hx⟩ := h a (le_refl a) (by omega)
    simp only [SysOpen.findSlot, List.get?_eq_getElem?, hx]
    exact ih (a + 1) (fun j h1 h2 => h j (by omega) (by omega))

theorem findSlot_range (table : List (Option OpenFile)) (k a : Nat) (v : Int)
    (h : SysOpen.findSlot table a k = .ok v) :
    v = -1 ∨ ∃ i : Nat, v = (i : Int) ∧ a ≤ i ∧ i < a + k ∧ table[i]? = some none := by
  induction k generalizing a with
  | zero =>
    simp only [SysOpen.findSlot, pure, Except.pure, Except.ok.injEq] at h
    exact Or.inl h.symm
  | succ k ih =>
    simp only [SysOpen.findSlot, List.get?_eq_getElem?] at h
    split at h
    · simp [throw, throwThe, MonadExceptOf.throw] at h
    · rename_i hn
      simp only [pure, Except.pure, Except.ok.injEq] at h
      exact Or.inr ⟨a, h.symm, le_refl a, by omega, hn⟩
    · rcases ih (a + 1) h with h1 | ⟨i, h1, h2, h3, h4⟩
      · exact Or.inl h1
      · exact Or.inr ⟨i, h1, by omega, by omega, h4⟩

/-- C29: when the descriptor table (20 slots) has a free slot, `i` being the lowest-indexed
one, and `FileSystem::Open` returns a handle for the name, `SysOpen` returns `i + 1`, a
value from 1 to 20, and the table differs only at slot `i`, which holds the handle. -/
theorem SysOpen_stores_handle (fuel : Nat) (fs : FileSystem) (table : List (Option OpenFile))
    (filename : List Char) (handle : OpenFile) (i : Nat)
    (hlen : table.length = 20) (hi : table[i]? = some none)
    (hlow : ∀ j, j < i → ∃ h, table[j]? = some (some h))
    (hopen : FileSystem.Open fuel fs filename = .ok (some handle)) :
    SysOpen fuel fs table filename = .ok ((i : Int) + 1, table.set i (some handle)) ∧
    (1 : Int) ≤ (i : Int) + 1 ∧ (i : Int) + 1 ≤ 20 ∧
    (table.set i (some handle))[i]? = some (some handle) ∧
    ∀ j, j ≠ i → (table.set i (some handle))[j]? = table[j]? := by
  have hi20 : i < 20 := by
    by_contra hc
    rw [List.getElem?_eq_none (by omega)] at hi
    simp at hi
  have hslot := findSlot_first table 20 0 i (Nat.zero_le i) (by omega) hi
    (fun j _ h2 => hlow j h2)
  have hne : ¬ ((i : Int) = -1) := by omega
  refine ⟨?_, by omega, by omega, ?_, ?_⟩
  · simp [SysOpen, hopen, hslot, hne, bind, Except.bind, pure, Except.pure]
  · rw [List.getElem?_set_self (by omega)]
  · intro j hj
    rw [List.getElem?_set_ne (Ne.symm hj)]

set_option maxRecDepth 100000 in
/-- Witness for C29: after `Create("/f", 5 * SectorSize)` on the freshly formatted disk,
`SysOpen("/f")` on a table whose slots 0 and 1 are taken stores the handle in slot 2 and
returns 3. -/
theorem SysOpen_stores_handle_witness :
    (twoDescriptors.length = 20 ∧ twoDescriptors[2]? = some none ∧
      (∀ j, j < 2 → ∃ h, twoDescriptors[j]? = some (some h)) ∧
      FileSystem.Open 5 fsWithF pathF = .ok (some handleF)) ∧
    (SysOpen 5 fsWithF twoDescriptors pathF =
        .ok (((2 : Nat) : Int) + 1, twoDescriptors.set 2 (some handleF)) ∧
      (1 : Int) ≤ ((2 : Nat) : Int) + 1 ∧ ((2 : Nat) : Int) + 1 ≤ 20 ∧
      (twoDescriptors.set 2 (some handleF))[2]? = some (some handleF) ∧
      ∀ j, j ≠ 2 → (twoDescriptors.set 2 (some handleF))[j]? = twoDescriptors[j]?) :=
  have hlow : ∀ j, j < 2 → ∃ h, twoDescriptors[j]? = some (some h) := by
    intro j hj
    have : j = 0 ∨ j = 1 := by omega
    rcases this with h | h <;> subst h <;> exact ⟨_, rfl⟩
  ⟨⟨rfl, rfl, hlow, ok_of_toOption _ _ (by decide!)⟩,
    SysOpen_stores_handle 5 fsWithF twoDescriptors pathF handleF 2 rfl rfl hlow
      (ok_of_toOption _ _ (by decide!))⟩

set_option maxRecDepth 100000 in
/-- C30 fails as stated, twice.  With all 20 slots taken `SysOpen("/f")` returns -1, not
0 (the file `/f` exists).  On the freshly formatted disk, where `Open("/f")` returns
`NULL`, `SysOpen("/f")` on the empty table returns 1, and slot 0 holds `NULL`. -/
theorem SysOpen_failure_values :
    (SysOpen 5 fsWithF fullDescriptors pathF = .ok (-1, fullDescriptors) ∧ (-1 : Int) ≠ 0) ∧
    (FileSystem.Open 5 formattedFS pathF = .ok none ∧
      SysOpen 5 formattedFS emptyDescriptors pathF = .ok (1, emptyDescriptors) ∧
      (1 : Int) ≠ 0 ∧ emptyDescriptors[0]? = some none) :=
  have h : (SysOpen 5 fsWithF fullDescriptors pathF).toOption = some (-1, fullDescriptors) ∧
      (FileSystem.Open 5 formattedFS pathF).toOption = some none ∧
      (SysOpen 5 formattedFS emptyDescriptors pathF).toOption =
        some (1, emptyDescriptors) := by decide!
  ⟨⟨ok_of_toOption _ _ h.1, by decide⟩,
    ⟨ok_of_toOption _ _ h.2.1, ok_of_toOption _ _ h.2.2, by decide, rfl⟩⟩

/-- C30 as the code has it: on a table of 20 slots, when `FileSystem::Open` returns (a
handle or `NULL`) and every slot is taken, `SysOpen` returns -1 and the table is unchanged;
and when `Open` returns a handle, `SysOpen` either returns -1 with the table unchanged or
returns a slot id from 1 to 20 whose slot then holds that handle. -/
theorem SysOpen_full_table (fuel : Nat) (fs : FileSystem) (table : List (Option OpenFile))
    (filename : List Char) (hlen : table.length = 20) :
    (∀ r, FileSystem.Open fuel fs filename = .ok r →
      (∀ j, j < 20 → ∃ h, table[j]? = some (some h)) →
      SysOpen fuel fs table filename = .ok (-1, table)) ∧
    (∀ v t handle, SysOpen fuel fs table filename = .ok (v, t) →
      FileSystem.Open fuel fs filename = .ok (some handle) →
      (v = -1 ∧ t = table) ∨
      (1 ≤ v ∧ v ≤ 20 ∧ t[(v - 1).toNat]? = some (some handle))) := by
  refine ⟨?_, ?_⟩
  · intro r hr hfull
    have hslot := findSlot_full table 20 0 (fun j _ h2 => hfull j (by omega))
    simp [SysOpen, hr, hslot, bind, Except.bind, pure, Except.pure]
  · intro v t handle h ho
    unfold SysOpen at h
    simp only [bind, Except.bind, pure, Except.pure, ho] at h
    cases hs : SysOpen.findSlot table 0 20 with
    | error f => rw [hs] at h; simp at h
    | ok idx =>
      rw [hs] at h
      simp only at h
      rcases findSlot_range table 20 0 idx hs with h1 | ⟨i, h1, _, h3, h4⟩
      · subst h1
        simp only [if_true, Except.ok.injEq, Prod.mk.injEq] at h
        exact Or.inl ⟨h.1.symm, h.2.symm⟩
      · subst h1
        have hne : ¬ ((i : Int) = -1) := by omega
        simp only [hne, if_false, Except.ok.injEq, Prod.mk.injEq, Int.toNat_ofNat] at h
        obtain ⟨hv, ht⟩ := h
        subst hv; subst ht
        refine Or.inr ⟨by omega, by omega, ?_⟩
        have : ((i : Int) + 1 - 1).toNat = i := by omega
        rw [this, List.getElem?_set_self (by omega)]

set_option maxRecDepth 100000 in
/-- Witness for C30 as the code has it: the full table, with `/f` present. -/
theorem SysOpen_full_table_witness :
    fullDescriptors.length = 20 ∧
    SysOpen 5 fsWithF fullDescriptors pathF = .ok (-1, fullDescriptors) :=
  ⟨rfl, (SysOpen_full_table 5 fsWithF fullDescriptors pathF rfl).1 (some handleF)
    (ok_of_toOption _ _ (by decide!))
    (fun j hj => ⟨⟨13, FileHeader.new⟩, by
      rw [fullDescriptors, List.getElem?_replicate, if_pos hj]⟩)⟩


theorem removeAll_of_returned (r : Except Fault (List DirectoryEntry × Bitmap × Disk))
    (t : List DirectoryEntry) (m : Bitmap) (dflt : Disk) (h : tableAndMap r = some (t, m)) :
    r = .ok (t, m, diskAfter r dflt) := by
  cases r with
  | error f => simp [tableAndMap] at h
  | ok v =>
    obtain ⟨t', m', d⟩ := v
    simp only [tableAndMap, Option.some.injEq, Prod.mk.injEq] at h
    obtain ⟨h1, h2⟩ := h
    subst h1; subst h2
    rfl

/-! ## Open, create_directory and remove_all_object on concrete disks -/

set_option maxRecDepth 100000 in
/-- C25, where the code departs from it: on the freshly formatted disk the path `/d/f` has
the directory part `d`, which the search from the root does not find (it returns -1);
`Open("/d/f")` then builds an `OpenFile` on sector -1, whose header is read from the disk:
the call ends in the disk's range check instead of returning `NULL`.  `Create("/d/f", 0)`
returns `false` in the same state. -/
theorem Open_reads_sector_minus_one :
    FileSystem.format blankDisk = .ok formattedFS ∧ formattedFS.Consistent 5 ∧
    get_dir_name pathDF = .ok (some ['d']) ∧
    Directory.FetchFrom formattedFS.disk formattedFS.directoryFile
      (Directory.new NumDirEntries) = .ok (Directory.new NumDirEntries) ∧
    Directory.Find 5 formattedFS.disk (Directory.new NumDirEntries) ['d'] true = .ok (-1) ∧
    OpenFile.open 5 formattedFS.disk (-1) = .error Fault.badSector ∧
    FileSystem.Open 5 formattedFS pathDF = .error Fault.badSector ∧
    returned (FileSystem.Create 5 formattedFS pathDF 0) false = true :=
  have h : (get_dir_name pathDF).toOption = some (some ['d']) ∧
      (Directory.FetchFrom formattedFS.disk formattedFS.directoryFile
        (Directory.new NumDirEntries)).toOption = some (Directory.new NumDirEntries) ∧
      (Directory.Find 5 formattedFS.disk (Directory.new NumDirEntries) ['d'] true).toOption =
        some (-1) ∧
      faultOf (OpenFile.open 5 formattedFS.disk (-1)) = some Fault.badSector ∧
      faultOf (FileSystem.Open 5 formattedFS pathDF) = some Fault.badSector ∧
      returned (FileSystem.Create 5 formattedFS pathDF 0) false = true := by decide!
  ⟨format_returns, formattedFS_consistent, ok_of_toOption _ _ h.1, ok_of_toOption _ _ h.2.1,
    ok_of_toOption _ _ h.2.2.1, fault_of_faultOf _ _ h.2.2.2.1,
    fault_of_faultOf _ _ h.2.2.2.2.1, h.2.2.2.2.2⟩

set_option maxRecDepth 100000 in
/-- C27, where the code departs from it: after `create_directory("/d")` on the freshly
formatted disk (sectors 0 to 23 marked, `d` in the root table), a second
`create_directory("/d")` returns with the root table as it was, but with sectors 24 to 34
marked in the free map on disk: the ten data sectors and the header sector of a directory
that was not added. -/
theorem create_directory_twice_leaks :
    FileSystem.format blankDisk = .ok formattedFS ∧
    FileSystem.create_directory 5 formattedFS pathD = .ok fsWithD ∧ fsWithD.Consistent 5 ∧
    Directory.FetchFrom fsWithD.disk fsWithD.directoryFile (Directory.new NumDirEntries) =
      .ok ((Directory.new NumDirEntries).set 0 ⟨true, ['d'], 23, DIR⟩) ∧
    PersistentBitmap.fetch fsWithD.disk fsWithD.freeMapFile NumSectors = .ok (markedBelow 24) ∧
    FileSystem.create_directory 5 fsWithD pathD = .ok fsWithDD ∧
    Directory.FetchFrom fsWithDD.disk fsWithDD.directoryFile (Directory.new NumDirEntries) =
      .ok ((Directory.new NumDirEntries).set 0 ⟨true, ['d'], 23, DIR⟩) ∧
    PersistentBitmap.fetch fsWithDD.disk fsWithDD.freeMapFile NumSectors =
      .ok (markedBelow 35) ∧
    markedBelow 35 ≠ markedBelow 24 :=
  have h : returnedDir (FileSystem.create_directory 5 fsWithD pathD) = true ∧
      (Directory.FetchFrom fsWithDD.disk fsWithDD.directoryFile
        (Directory.new NumDirEntries)).toOption =
        some ((Directory.new NumDirEntries).set 0 ⟨true, ['d'], 23, DIR⟩) ∧
      (PersistentBitmap.fetch fsWithDD.disk fsWithDD.freeMapFile NumSectors).toOption =
        some (markedBelow 35) ∧
      markedBelow 35 ≠ markedBelow 24 := by decide!
  ⟨format_returns, fsWithD_facts.1, fsWithD_facts.2.2.2, fsWithD_facts.2.1,
    fsWithD_facts.2.2.1, afterDir_of_returned _ _ h.1, ok_of_toOption _ _ h.2.1,
    ok_of_toOption _ _ h.2.2.1, h.2.2.2⟩

set_option maxRecDepth 100000 in
/-- C24, where the code departs from it: the directory `/d` (header sector 23) holds the
file `g` of 4000 bytes, whose chain has the header sectors 24 and 54 and the data sectors
25 to 53 and 55 to 57; sectors 0 to 57 are marked.  `remove_all_object` on the table of
`/d` writes back a table without in-use entry and clears 24 to 53 and 55 to 57 in the free
map, but leaves the chained header sector 54 marked. -/
theorem remove_all_object_keeps_chained_header :
    FileSystem.create_directory 5 formattedFS pathD = .ok fsWithD ∧
    FileSystem.Create 5 fsWithD pathDG 4000 = .ok (true, fsWithDBig) ∧
    OpenFile.open 5 fsWithDBig.disk 23 = .ok handleD ∧
    Directory.FetchFrom fsWithDBig.disk handleD (Directory.new NumDirEntries) =
      .ok ((Directory.new NumDirEntries).set 0 ⟨true, ['g'], 24, FILE⟩) ∧
    PersistentBitmap.fetch fsWithDBig.disk fsWithDBig.freeMapFile NumSectors =
      .ok (markedBelow 58) ∧
    (∃ hdr, FileHeader.FetchFrom 5 fsWithDBig.disk 24 = .ok hdr ∧ hdr.next_hdf_sector = 54 ∧
      hdr.allSectors = (List.range 33).map (fun i => ((25 + i : Nat) : Int))) ∧
    ∃ disk', Directory.remove_all_object 5
        ((Directory.new NumDirEntries).set 0 ⟨true, ['g'], 24, FILE⟩) handleD (markedBelow 58)
        fsWithDBig.disk =
        .ok ((Directory.new NumDirEntries).set 0 ⟨false, ['g'], 24, FILE⟩,
          (markedBelow 24).set 54 true, disk') ∧
      Directory.FetchFrom disk' handleD (Directory.new NumDirEntries) =
        .ok ((Directory.new NumDirEntries).set 0 ⟨false, ['g'], 24, FILE⟩) ∧
      ((markedBelow 24).set 54 true)[54]? = some true :=
  have h : returned (FileSystem.Create 5 fsWithD pathDG 4000) true = true ∧
      (OpenFile.open 5 fsWithDBig.disk 23).toOption = some handleD ∧
      (Directory.FetchFrom fsWithDBig.disk handleD (Directory.new NumDirEntries)).toOption =
        some ((Directory.new NumDirEntries).set 0 ⟨true, ['g'], 24, FILE⟩) ∧
      (PersistentBitmap.fetch fsWithDBig.disk fsWithDBig.freeMapFile NumSectors).toOption =
        some (markedBelow 58) ∧
      (FileHeader.FetchFrom 5 fsWithDBig.disk 24).toOption =
        some ((FileHeader.FetchFrom 5 fsWithDBig.disk 24).toOption.getD FileHeader.new) ∧
      ((FileHeader.FetchFrom 5 fsWithDBig.disk 24).toOption.getD
        FileHeader.new).next_hdf_sector = 54 ∧
      ((FileHeader.FetchFrom 5 fsWithDBig.disk 24).toOption.getD
        FileHeader.new).allSectors = (List.range 33).map (fun i => ((25 + i : Nat) : Int)) ∧
      tableAndMap (Directory.remove_all_object 5
        ((Directory.new NumDirEntries).set 0 ⟨true, ['g'], 24, FILE⟩) handleD (markedBelow 58)
        fsWithDBig.disk) =
        some ((Directory.new NumDirEntries).set 0 ⟨false, ['g'], 24, FILE⟩,
          (markedBelow 24).set 54 true) ∧
      (Directory.FetchFrom (diskAfter (Directory.remove_all_object 5
        ((Directory.new NumDirEntries).set 0 ⟨true, ['g'], 24, FILE⟩) handleD (markedBelow 58)
        fsWithDBig.disk) fsWithDBig.disk) handleD (Directory.new NumDirEntries)).toOption =
        some ((Directory.new NumDirEntries).set 0 ⟨false, ['g'], 24, FILE⟩) ∧
      ((markedBelow 24).set 54 true)[54]? = some true := by decide!
  ⟨fsWithD_facts.1, after_of_returned _ _ _ h.1, ok_of_toOption _ _ h.2.1,
    ok_of_toOption _ _ h.2.2.1, ok_of_toOption _ _ h.2.2.2.1,
    ⟨(FileHeader.FetchFrom 5 fsWithDBig.disk 24).toOption.getD FileHeader.new,
      ok_of_toOption _ _ h.2.2.2.2.1, h.2.2.2.2.2.1, h.2.2.2.2.2.2.1⟩,
    ⟨diskAfter (Directory.remove_all_object 5
        ((Directory.new NumDirEntries).set 0 ⟨true, ['g'], 24, FILE⟩) handleD (markedBelow 58)
        fsWithDBig.disk) fsWithDBig.disk,
      removeAll_of_returned _ _ _ _ h.2.2.2.2.2.2.2.1,
      ok_of_toOption _ _ h.2.2.2.2.2.2.2.2.1, h.2.2.2.2.2.2.2.2.2⟩⟩


/-! ## Directory::Find on a directory tree -/

theorem FindIndexFrom_find (name : List Char) (es : List DirectoryEntry) (k : Nat) :
    (Directory.FindIndexFrom name es k = -1 ∧
      (es.filter (·.inUse)).find? (fun e => nameMatch e.name name) = none) ∨
    (∃ j e, Directory.FindIndexFrom name es k = ((k + j : Nat) : Int) ∧ es[j]? = some e ∧
      (es.filter (·.inUse)).find? (fun e => nameMatch e.name name) = some e) := by
  induction es generalizing k with
  | nil => exact Or.inl ⟨rfl, rfl⟩
  | cons x xs ih =>
    by_cases hx : (x.inUse && nameMatch x.name name) = true
    · right
      simp only [Bool.and_eq_true] at hx
      refine ⟨0, x, ?_, by simp, ?_⟩
      · simp [Directory.FindIndexFrom, hx.1, hx.2]
      · simp [List.filter_cons, hx.1, List.find?_cons, hx.2]
    · have hx' : (x.inUse && nameMatch x.name name) = false := by simpa using hx
      have hfind : ((x :: xs).filter (·.inUse)).find? (fun e => nameMatch e.name name) =
          (xs.filter (·.inUse)).find? (fun e => nameMatch e.name name) := by
        cases hu : x.inUse with
        | false => simp [List.filter_cons, hu]
        | true =>
          have : nameMatch x.name name = false := by simpa [hu] using hx'
          simp [List.filter_cons, hu, List.find?_cons, this]
      rcases ih (k + 1) with ⟨h1, h2⟩ | ⟨j, e, h1, h2, h3⟩
      · left
        refine ⟨?_, by rw [hfind]; exact h2⟩
        simp only [Directory.FindIndexFrom, hx', Bool.false_eq_true, if_false]
        exact h1
      · right
        refine ⟨j + 1, e, ?_, by simpa using h2, by rw [hfind]; exact h3⟩
        simp only [Directory.FindIndexFrom, hx', Bool.false_eq_true, if_false, h1]
        congr 1
        omega

theorem Find_own (fuel : Nat) (disk : Disk) (table : List DirectoryEntry) (name : List Char)
    (sub : Bool) :
    (Directory.FindIndex table name = -1 ∧
      (table.filter (·.inUse)).find? (fun e => nameMatch e.name name) = none) ∨
    (∃ e, Directory.FindIndex table name ≠ -1 ∧
      (table.filter (·.inUse)).find? (fun e => nameMatch e.name name) = some e ∧
      Directory.Find fuel disk table name sub = .ok e.sector) := by
  rcases FindIndexFrom_find name table 0 with ⟨h1, h2⟩ | ⟨j, e, h1, h2, h3⟩
  · exact Or.inl ⟨h1, h2⟩
  · right
    have hi : Directory.FindIndex table name = (j : Int) := by
      simpa [Directory.FindIndex] using h1
    have hne : Directory.FindIndex table name ≠ -1 := by rw [hi]; omega
    refine ⟨e, hne, h3, Find_hit fuel disk table name sub e hne ?_⟩
    rw [hi]
    simp [Directory.entryAt, List.get?_eq_getElem?, h2, pure, Except.pure]

theorem firstNamed_append (name : List Char) (a b : List DirectoryEntry) :
    firstNamed name (a ++ b) =
      (match a.find? (fun e => nameMatch e.name name) with
       | some e => e.sector
       | none => firstNamed name b) := by
  unfold firstNamed
  rw [List.find?_append]
  cases a.find? (fun e => nameMatch e.name name) <;> rfl

theorem firstNamed_eq_neg_one (name : List Char) (l : List DirectoryEntry)
    (hsec : ∀ e ∈ l, e.sector ≠ -1) :
    firstNamed name l = -1 ↔ ∀ e ∈ l, nameMatch e.name name = false := by
  unfold firstNamed
  cases h : l.find? (fun e => nameMatch e.name name) with
  | none =>
    simp only [true_iff]
    intro e he
    have := List.find?_eq_none.mp h e he
    simpa using this
  | some e =>
    have hm := List.find?_some h
    have hmem := List.mem_of_find?_eq_some h
    simp only
    constructor
    · intro hs; exact absurd hs (hsec e hmem)
    · intro hall
      have := hall e hmem
      rw [this] at hm
      exact absurd hm (by simp)

theorem firstNamed_append_if (name : List Char) (a b : List DirectoryEntry)
    (hsec : ∀ e ∈ a, e.sector ≠ -1) :
    firstNamed name (a ++ b) =
      if firstNamed name a ≠ -1 then firstNamed name a else firstNamed name b := by
  rw [firstNamed_append]
  cases h : a.find? (fun e => nameMatch e.name name) with
  | none => simp [firstNamed, h]
  | some e =>
    have hne : e.sector ≠ -1 := hsec e (List.mem_of_find?_eq_some h)
    simp [firstNamed, h, hne]

theorem findSub_order (fuel : Nat) (disk : Disk) (name : List Char)
    (ih : ∀ t l, searchOrder fuel disk t = .ok l → (∀ e ∈ l, e.sector ≠ -1) →
      Directory.Find fuel disk t name true = .ok (firstNamed name l))
    (es below : List DirectoryEntry)
    (h : subEntries fuel disk (searchOrder fuel disk) es = .ok below)
    (hsec : ∀ e ∈ below, e.sector ≠ -1) :
    Directory.findSub fuel disk (fun t => Directory.Find fuel disk t name true) es =
      .ok (firstNamed name below) := by
  induction es generalizing below with
  | nil =>
    simp only [subEntries, pure, Except.pure, Except.ok.injEq] at h
    subst h
    rfl
  | cons e es ihes =>
    by_cases hd : (e.inUse && e.type == DIR) = true
    · simp only [subEntries, hd, if_true, bind, Except.bind, pure, Except.pure] at h
      cases ho : OpenFile.open fuel disk e.sector with
      | error f => rw [ho] at h; simp at h
      | ok f =>
        rw [ho] at h
        simp only at h
        cases hf : Directory.FetchFrom disk f (Directory.new NumDirEntries) with
        | error g => rw [hf] at h; simp at h
        | ok t =>
          rw [hf] at h
          simp only at h
          cases ha : searchOrder fuel disk t with
          | error g => rw [ha] at h; simp at h
          | ok a =>
            rw [ha] at h
            simp only at h
            cases hb : subEntries fuel disk (searchOrder fuel disk) es with
            | error g => rw [hb] at h; simp at h
            | ok b =>
              rw [hb] at h
              simp only [Except.ok.injEq] at h
              subst h
              have hsa : ∀ x ∈ a, x.sector ≠ -1 := fun x hx => hsec x (by simp [hx])
              have hsb : ∀ x ∈ b, x.sector ≠ -1 := fun x hx => hsec x (by simp [hx])
              rw [findSub_dir fuel disk _ e es f t hd ho hf, ih t a ha hsa]
              simp only
              rw [firstNamed_append_if name a b hsa]
              by_cases hne : firstNamed name a ≠ -1
              · rw [if_pos hne, if_pos hne]
              · rw [if_neg hne, if_neg hne]
                exact ihes b hb hsb
    · have hd' : (e.inUse && e.type == DIR) = false := by simpa using hd
      simp only [subEntries, hd', Bool.false_eq_true, if_false] at h
      rw [findSub_skip fuel disk _ e es hd']
      exact ihes below h hsec

theorem Find_order (fuel : Nat) (disk : Disk) (name : List Char) (table order : List DirectoryEntry)
    (horder : searchOrder fuel disk table = .ok order) (hsec : ∀ e ∈ order, e.sector ≠ -1) :
    Directory.Find fuel disk table name true = .ok (firstNamed name order) := by
  induction fuel generalizing table order with
  | zero => simp [searchOrder, throw, throwThe, MonadExceptOf.throw] at horder
  | succ fuel ih =>
    simp only [searchOrder, bind, Except.bind, pure, Except.pure] at horder
    cases hb : subEntries fuel disk (searchOrder fuel disk) table with
    | error g => rw [hb] at horder; simp at horder
    | ok below =>
      rw [hb] at horder
      simp only [Except.ok.injEq] at horder
      subst horder
      rw [firstNamed_append]
      rcases Find_own (fuel + 1) disk table name true with ⟨h1, h2⟩ | ⟨e, h1, h2, h3⟩
      · rw [h2, Find_miss_sub fuel disk table name h1]
        exact findSub_order fuel disk name (fun t l => ih t l) table below hb
          (fun x hx => hsec x (by simp [hx]))
      · rw [h2, h3]

/-- C23: `Directory::Find` on a directory tree that can be loaded within `fuel` levels (an
acyclic tree) and whose in-use entries have a sector other than -1.  `order` lists the
in-use entries as a depth-first descent meets them: the entries of this directory in table
order, then the trees of its in-use sub-directory entries in table order.
`Find(name, false)` returns the sector of the first in-use entry of this directory that
matches, or -1; `Find(name, true)` returns the sector of the first matching entry of
`order`, which is this directory's own match when there is one, and it returns -1 exactly
when no entry of `order` matches. -/
theorem Find_contract (fuel : Nat) (disk : Disk) (name : List Char)
    (table order : List DirectoryEntry)
    (horder : searchOrder fuel disk table = .ok order) (hsec : ∀ e ∈ order, e.sector ≠ -1) :
    Directory.Find fuel disk table name false =
      .ok (firstNamed name (table.filter (·.inUse))) ∧
    Directory.Find fuel disk table name true = .ok (firstNamed name order) ∧
    (∃ below, order = table.filter (·.inUse) ++ below ∧
      (firstNamed name (table.filter (·.inUse)) ≠ -1 →
        firstNamed name order = firstNamed name (table.filter (·.inUse)))) ∧
    (Directory.Find fuel disk table name true = .ok (-1) ↔
      ∀ e ∈ order, nameMatch e.name name = false) := by
  have htrue := Find_order fuel disk name table order horder hsec
  refine ⟨?_, htrue, ?_, ?_⟩
  · rcases Find_own fuel disk table name false with ⟨h1, h2⟩ | ⟨e, h1, h2, h3⟩
    · rw [Find_miss fuel disk table name h1]
      simp [firstNamed, h2]
    · rw [h3]
      simp [firstNamed, h2]
  · cases fuel with
    | zero => simp [searchOrder, throw, throwThe, MonadExceptOf.throw] at horder
    | succ fuel =>
      simp only [searchOrder, bind, Except.bind, pure, Except.pure] at horder
      cases hb : subEntries fuel disk (searchOrder fuel disk) table with
      | error g => rw [hb] at horder; simp at horder
      | ok below =>
        rw [hb] at horder
        simp only [Except.ok.injEq] at horder
        refine ⟨below, horder.symm, ?_⟩
        intro hne
        rw [← horder, firstNamed_append_if name _ below
          (fun x hx => hsec x (by rw [← horder]; simp [hx])), if_pos hne]
  · rw [htrue]
    simp only [Except.ok.injEq]
    exact firstNamed_eq_neg_one name order hsec

set_option maxRecDepth 100000 in
/-- Witness for C23: on the disk with the directory `/d` and the file `/d/g`, the search
from the root meets `d` (sector 23) and then `g` (sector 24): `Find("g", false)` returns
-1 and `Find("g", true)` returns 24. -/
theorem Find_contract_witness :
    (searchOrder 5 fsWithDG.disk ((Directory.new NumDirEntries).set 0 ⟨true, ['d'], 23, DIR⟩) =
        .ok [⟨true, ['d'], 23, DIR⟩, ⟨true, ['g'], 24, FILE⟩] ∧
      ∀ e ∈ [(⟨true, ['d'], 23, DIR⟩ : DirectoryEntry), ⟨true, ['g'], 24, FILE⟩],
        e.sector ≠ -1) ∧
    Directory.Find 5 fsWithDG.disk ((Directory.new NumDirEntries).set 0 ⟨true, ['d'], 23, DIR⟩)
      ['g'] false = .ok (-1) ∧
    Directory.Find 5 fsWithDG.disk ((Directory.new NumDirEntries).set 0 ⟨true, ['d'], 23, DIR⟩)
      ['g'] true = .ok 24 :=
  have h1 : searchOrder 5 fsWithDG.disk
      ((Directory.new NumDirEntries).set 0 ⟨true, ['d'], 23, DIR⟩) =
      .ok [⟨true, ['d'], 23, DIR⟩, ⟨true, ['g'], 24, FILE⟩] := ok_of_toOption _ _ (by decide!)
  have h2 : ∀ e ∈ [(⟨true, ['d'], 23, DIR⟩ : DirectoryEntry), ⟨true, ['g'], 24, FILE⟩],
      e.sector ≠ -1 := by decide
  ⟨⟨h1, h2⟩, (Find_contract 5 fsWithDG.disk ['g'] _ _ h1 h2).1,
    (Find_contract 5 fsWithDG.disk ['g'] _ _ h1 h2).2.1⟩

/-! ## create_directory: the success path -/

/-- Reading the free map back from its file yields the bitmap the recorded sectors hold. -/
theorem Bitmap_fetch_of_holds (disk : Disk) (f : OpenFile) (b : Bitmap)
    (hd : f.hdr.isFreeMapHeader = true) (hb : b.length = NumSectors)
    (h : HoldsPieces disk (.bitmap b) f.hdr.allSectors 0) :
    PersistentBitmap.fetch disk f NumSectors = .ok b := by
  obtain ⟨ds, e1, e2, e3⟩ := isFreeMapHeader_eq f.hdr hd
  have hs := sectorsOf_last f _ _ _ ds e1 1 0 (by simp [NumDirect]) (by simp [e2, NumDirect])
  simp only [List.drop_zero] at hs
  have hcount : ((NumSectors + 31) / 32 * 4 + SectorSize - 1) / SectorSize = 1 := by
    decide
  have hne : ¬ ((NumSectors + 31) / 32 * 4 = 0 ∨ f.hdr.FileLength ≤ 0) := by
    rw [e1]
    simp [FileHeader.FileLength, FileHeader.numBytes, FreeMapFileSize, NumSectors]
  have hnl : ¬ (f.hdr.FileLength < (((NumSectors + 31) / 32 * 4 : Nat) : Int)) := by
    rw [e1]
    simp [FileHeader.FileLength, FileHeader.numBytes, FreeMapFileSize, NumSectors]
  have hr := readPieces_of_holds disk _ _ 0 none h (Or.inl rfl)
  have hnil : ¬ f.hdr.allSectors = [] := by
    rw [e3]
    intro hn
    have := congrArg List.length hn
    simp [e2, NumDirect] at this
  rw [if_neg hnil, e3] at hr
  unfold PersistentBitmap.fetch OpenFile.ReadAt
  simp only [hne, hnl, if_false, hcount, hs, hr, bind, Except.bind, hb, if_true, pure,
    Except.pure]

/-- Function `Allocate(freeMap, DirectoryFileSize)` with ten clear bits returns `true` with the
one header of a directory file. -/
theorem Allocate_directory (b : Bitmap) (h : sectorsNeeded DirectoryFileSize ≤ b.NumClear) :
    ∃ hdr b', FileHeader.Allocate b DirectoryFileSize = .ok (true, hdr, b') ∧
      Took b hdr.allSectors b' ∧ hdr.isDirectoryHeader = true := by
  have hD : ((DirectoryFileSize : Nat) : Int) = 1216 := by decide
  obtain ⟨hdr, b', e, ht, -, -, -⟩ :=
    AllocateAux_success ((DirectoryFileSize : Int).toNat + 1) b DirectoryFileSize
      (by rw [hD]; omega) (by rw [hD, MaxFileSize_eq]; decide) h
  refine ⟨hdr, b', e, ht, ?_⟩
  obtain ⟨ha, -⟩ := AllocateAux_inv _ _ _ _ _ e
  cases hdr with
  | link nb ns ds nx next =>
    obtain ⟨h1, -, -, -, h5, -⟩ := ha
    rw [hD, MaxFileSize_eq] at h1
    rw [hD] at h5
    simp only [show ((1216 : Int) < 3712) from by decide, if_true] at h1
    omega
  | last nb ns ds nx =>
    obtain ⟨h1, h2, h3, h4, -⟩ := ha
    rw [hD, MaxFileSize_eq] at h1
    simp only [show ((1216 : Int) < 3712) from by decide, if_true] at h1
    subst h1 h2 h4
    simp only [FileHeader.isDirectoryHeader, hD, h3, beq_self_eq_true, Bool.and_self]

/-- The writes of `create_directory` succeed when the new header and its sectors, the
parent's directory file and the free-map file lie on distinct sectors of the disk; the
disk then holds the new header, the empty table of the new directory, the parent's table
with the new entry, and the free map. -/
theorem createDirectoryIn_success (fuel : Nat) (fs : FileSystem) (hdr : FileHeader)
    (bm : Bitmap) (fmf pfile : OpenFile) (parent : List DirectoryEntry) (fname : List Char)
    (sector : Int) (hfuel : 1 ≤ fuel) (hhdr : hdr.isDirectoryHeader = true)
    (hnew : ∀ x ∈ sector :: hdr.allSectors, 0 ≤ x ∧ x < NumSectors)
    (hnd : (sector :: hdr.allSectors).Nodup)
    (hpdir : pfile.hdr.isDirectoryHeader = true) (hplen : parent.length = NumDirEntries)
    (habs : Directory.FindIndex parent fname = -1) (hslot : ∃ e ∈ parent, e.inUse = false)
    (hP : ∀ x ∈ pfile.hdr.allSectors, 0 ≤ x ∧ x < NumSectors)
    (hPnd : pfile.hdr.allSectors.Nodup)
    (hfm : fmf.hdr.isFreeMapHeader = true) (hbm : bm.length = NumSectors)
    (hF : ∀ x ∈ fmf.hdr.allSectors, 0 ≤ x ∧ x < NumSectors)
    (hFnd : fmf.hdr.allSectors.Nodup)
    (d1 : ∀ x ∈ sector :: hdr.allSectors, x ∉ pfile.hdr.allSectors)
    (d2 : ∀ x ∈ sector :: hdr.allSectors, x ∉ fmf.hdr.allSectors)
    (d3 : ∀ x ∈ pfile.hdr.allSectors, x ∉ fmf.hdr.allSectors) :
    ∃ disk', FileSystem.createDirectoryIn fuel fs hdr bm fmf parent pfile fname sector =
        .ok { fs with disk := disk' } ∧
      HoldsChain disk' hdr sector ∧
      HoldsPieces disk' (.table (Directory.new NumDirEntries)) hdr.allSectors 0 ∧
      HoldsPieces disk' (.table (Directory.Add parent fname sector DIR).2)
        pfile.hdr.allSectors 0 ∧
      HoldsPieces disk' (.bitmap bm) fmf.hdr.allSectors 0 := by
  obtain ⟨ds, e1, -, -⟩ := isDirectoryHeader_eq hdr hhdr
  have hwf : hdr.WellFormed := by rw [e1]; rfl
  have hhs : hdr.headerSectors sector = [sector] := by rw [e1]; rfl
  have hcl : hdr.chainLength ≤ fuel := by rw [e1]; exact hfuel
  have toNat_mem : ∀ (x : Int) (l : List Int), 0 ≤ x → x ∉ l → ((x.toNat : Nat) : Int) ∉ l := by
    intro x l h0 hx
    rwa [Int.toNat_of_nonneg h0]
  have hs0 := (hnew sector (by simp)).1
  have hsnot : sector ∉ hdr.allSectors := (List.nodup_cons.mp hnd).1
  -- the header
  obtain ⟨disk1, ew1, hold1, -⟩ := WriteBack_holds hdr fs.disk sector hwf
    (by rw [hhs]; intro x hx; simp only [List.mem_singleton] at hx; subst hx
        exact hnew x (by simp))
    (by rw [hhs]; simp)
  have ho : OpenFile.open fuel disk1 sector = .ok ⟨sector, hdr⟩ :=
    open_of_holds fuel disk1 sector hdr hold1 hcl
  -- the empty table of the new directory
  obtain ⟨disk2, ew2, hold2, fr2⟩ := Directory_WriteBack_holds disk1
    (Directory.new NumDirEntries) ⟨sector, hdr⟩ hhdr (by simp [Directory.new])
    (fun x hx => hnew x (by simp [hx])) (List.nodup_cons.mp hnd).2
  -- the parent's table
  obtain ⟨-, ha2, -, -, -⟩ := Add_spec parent fname sector DIR habs hslot
  obtain ⟨disk3, ew3, hold3, fr3⟩ := Directory_WriteBack_holds disk2
    (Directory.Add parent fname sector DIR).2 pfile hpdir (by rw [ha2, hplen]) hP hPnd
  -- the free map
  obtain ⟨disk4, ew4, hold4, fr4⟩ := Bitmap_WriteBack_holds disk3 bm fmf hfm hbm hF hFnd
  refine ⟨disk4, ?_, ?_, ?_, ?_, hold4⟩
  · simp [FileSystem.createDirectoryIn, ew1, ho, ew2, ew3, ew4, bind, Except.bind, pure,
      Except.pure]
  · apply HoldsChain_frame disk1 disk4 hdr sector hold1
    rw [hhs]
    intro x hx
    simp only [List.mem_singleton] at hx
    subst hx
    rw [fr4 x.toNat (toNat_mem x _ hs0 (d2 x (by simp))),
      fr3 x.toNat (toNat_mem x _ hs0 (d1 x (by simp))),
      fr2 x.toNat (toNat_mem x _ hs0 hsnot)]
  · apply HoldsPieces_frame disk2 disk4 _ _ 0 hold2
    intro x hx
    have h0 := (hnew x (by simp [hx])).1
    rw [fr4 x.toNat (toNat_mem x _ h0 (d2 x (by simp [hx]))),
      fr3 x.toNat (toNat_mem x _ h0 (d1 x (by simp [hx])))]
  · apply HoldsPieces_frame disk3 disk4 _ _ 0 hold3
    intro x hx
    rw [fr4 x.toNat (toNat_mem x _ (hP x hx).1 (d3 x hx))]

/-- C26: in a consistent file system whose free-map handle is the file opened on
`FreeMapSector`, for a path that passes the length check, whose directory part resolves
(by the search `create_directory` itself makes) to the directory file `pfile`, whose final
name is not in that directory, which has a free entry, while the free map has a clear bit
for the header and for each sector of a directory file: `create_directory` returns; the
parent's table read back from the disk has an in-use entry of type `DIR` with the final
name; the entry's sector holds the header of a directory file, that sector and the data
sectors of the file are marked in the free map read back from the disk, and the table read
back from the new directory file has no in-use entry. -/
theorem create_directory_success (fuel : Nat) (fs : FileSystem) (name : List Char) (off : Nat)
    (dn : Option (List Char)) (pfile : OpenFile) (dir : List DirectoryEntry) (freeMap : Bitmap)
    (hcons : fs.Consistent fuel)
    (hopenFM : OpenFile.open fuel fs.disk FreeMapSector = .ok fs.freeMapFile)
    (hlen : check_len name = .ok true) (hoff : get_file_name name = some off)
    (hdn : get_dir_name name = .ok dn)
    (hdir : FileSystem.CreateDirFile fuel fs dn = .ok (some pfile))
    (hisdir : pfile.hdr.isDirectoryHeader = true)
    (htab : Directory.FetchFrom fs.disk pfile (Directory.new NumDirEntries) = .ok dir)
    (habs : Directory.FindIndex dir (name.drop off) = -1)
    (hslot : ∃ e ∈ dir, e.inUse = false)
    (hmap : PersistentBitmap.fetch fs.disk fs.freeMapFile NumSectors = .ok freeMap)
    (hfree : 1 + sectorsNeeded DirectoryFileSize ≤ freeMap.NumClear) :
    ∃ fs' e f,
      FileSystem.create_directory fuel fs name = .ok fs' ∧
      (∃ dir', Directory.FetchFrom fs'.disk pfile (Directory.new NumDirEntries) = .ok dir' ∧
        e ∈ dir') ∧
      e.inUse = true ∧ e.type = DIR ∧ e.name = name.drop off ∧
      OpenFile.open fuel fs'.disk e.sector = .ok f ∧ f.hdr.isDirectoryHeader = true ∧
      (∃ m, PersistentBitmap.fetch fs'.disk fs'.freeMapFile NumSectors = .ok m ∧
        ∀ x ∈ e.sector :: f.hdr.allSectors, 0 ≤ x ∧ m[x.toNat]? = some true) ∧
      (∃ t, Directory.FetchFrom fs'.disk f (Directory.new NumDirEntries) = .ok t ∧
        ∀ x ∈ t, x.inUse = false) := by
  obtain ⟨bm0, root, below, c1, c2, c3, c4, c5, c6, c7⟩ := hcons
  rw [hmap] at c1
  injection c1 with c1
  subst c1
  have hfuel1 := treeSectors_fuel_pos fuel fs.disk root below c3
  have hlenmap := fetch_length _ _ _ _ hmap
  have hdirlen : dir.length = NumDirEntries := by
    rw [Directory_FetchFrom_length _ _ _ _ htab]; simp [Directory.new]
  -- the sectors of the system files and of the tree
  obtain ⟨n1a, n1b, n1c⟩ := List.nodup_append.mp c6
  obtain ⟨n2a, nbelow, n2c⟩ := List.nodup_append.mp n1b
  have nFD : fs.freeMapFile.hdr.allSectors.Nodup := (List.nodup_cons.mp n1a).2
  have hFD : ∀ x ∈ fs.freeMapFile.hdr.allSectors, 0 ≤ x ∧ freeMap[x.toNat]? = some true :=
    fun x hx => ⟨(c7 x (by simp [hx])).1, (c7 x (by simp [hx])).2.2⟩
  have hRD : ∀ x ∈ fs.directoryFile.hdr.allSectors,
      0 ≤ x ∧ freeMap[x.toNat]? = some true :=
    fun x hx => ⟨(c7 x (by simp [hx])).1, (c7 x (by simp [hx])).2.2⟩
  have hBelow : ∀ x ∈ below, 0 ≤ x ∧ freeMap[x.toNat]? = some true :=
    fun x hx => ⟨(c7 x (by simp [hx])).1, (c7 x (by simp [hx])).2.2⟩
  have dRF : ∀ x ∈ fs.directoryFile.hdr.allSectors, x ∉ fs.freeMapFile.hdr.allSectors :=
    fun x hx hf => n1c (List.mem_cons_of_mem _ hf) (by simp [hx])
  have dBF : ∀ x ∈ below, x ∉ fs.freeMapFile.hdr.allSectors :=
    fun x hx hf => n1c (List.mem_cons_of_mem _ hf) (by simp [hx])
  -- the parent directory file
  have hres : (∀ x ∈ pfile.hdr.allSectors, 0 ≤ x ∧ freeMap[x.toNat]? = some true) ∧
      pfile.hdr.allSectors.Nodup ∧
      (∀ x ∈ pfile.hdr.allSectors, x ∉ fs.freeMapFile.hdr.allSectors) ∧
      (dn = none → pfile = fs.directoryFile) ∧
      (∀ d, dn = some d → ∃ t, Directory.Find fuel fs.disk root d true = .ok t ∧ t ≠ -1 ∧
        OpenFile.open fuel fs.disk t = .ok pfile) := by
    cases dn with
    | none =>
      have e : pfile = fs.directoryFile := by
        simp only [FileSystem.CreateDirFile, pure, Except.pure] at hdir
        injection hdir with hdir
        injection hdir with hdir
        exact hdir.symm
      subst e
      exact ⟨hRD, (List.nodup_cons.mp n2a).2, dRF, fun _ => rfl,
        fun d hd => absurd hd (by simp)⟩
    | some d =>
      obtain ⟨t, hfind, ht, hopen⟩ := CreateDirFile_some_inv fuel fs d pfile root c2 hdir
      obtain ⟨h, hh, hsub⟩ := Find_location fuel fs.disk d root below t c3 hfind ht
      obtain ⟨-, ef⟩ := open_inv _ _ _ _ hopen
      have hh' := (holds_of_FetchFrom _ _ _ _ ef).1
      have hu := HoldsChain_unique _ _ _ _ hh hh'
      subst hu
      have hsubnd : (t :: pfile.hdr.allSectors).Nodup := hsub.nodup nbelow
      have hTB : ∀ x ∈ pfile.hdr.allSectors, x ∈ below :=
        fun x hx => hsub.subset (by simp [hx])
      refine ⟨fun x hx => hBelow x (hTB x hx), (List.nodup_cons.mp hsubnd).2,
        fun x hx => dBF x (hTB x hx), fun hd => absurd hd (by simp), fun d' hd' => ?_⟩
      injection hd' with hd'
      subst hd'
      exact ⟨t, hfind, ht, hopen⟩
  obtain ⟨hPD, hPnd, hPF, hnone, hsome⟩ := hres
  -- the sectors the call takes
  have hneed : sectorsNeeded DirectoryFileSize = 10 := by decide
  rw [hneed] at hfree
  obtain ⟨hdr, b1, eal, ht1, hhdr⟩ := Allocate_directory freeMap (by rw [hneed]; omega)
  obtain ⟨ds, e1, e2, e3⟩ := isDirectoryHeader_eq hdr hhdr
  have hcount : hdr.allSectors.length = 10 := by
    rw [e3, List.length_take, e2]; simp [NumDirect]
  have hc1 := ht1.2.2.2.2
  have hpos : 0 < b1.NumClear := by
    simp only [Bitmap.NumClear] at hfree ⊢
    omega
  obtain ⟨hs1, hs0, ht2⟩ := FindAndSet_took b1 hpos
  have htook := Took_trans ht1 ht2
  obtain ⟨tl, tnd, tm, -, -⟩ := htook
  have hmem : ∀ x ∈ (b1.FindAndSet).1 :: hdr.allSectors,
      x ∈ hdr.allSectors ++ [(b1.FindAndSet).1] := by
    intro x hx
    simp only [List.mem_cons] at hx
    simp only [List.mem_append, List.mem_singleton]
    tauto
  have hnd : ((b1.FindAndSet).1 :: hdr.allSectors).Nodup := by
    have := List.nodup_append.mp tnd
    rw [List.nodup_cons]
    exact ⟨fun hm => this.2.2 hm (by simp), this.1⟩
  have hnew : ∀ x ∈ (b1.FindAndSet).1 :: hdr.allSectors, 0 ≤ x ∧ x < NumSectors :=
    fun x hx => inRange_of_bit freeMap hlenmap x false (tm x (hmem x hx)).1
      (tm x (hmem x hx)).2.1
  have hclear : ∀ x ∈ (b1.FindAndSet).1 :: hdr.allSectors, ∀ l : List Int,
      (∀ y ∈ l, 0 ≤ y ∧ freeMap[y.toNat]? = some true) → x ∉ l := by
    intro x hx l hl hxl
    have a := (tm x (hmem x hx)).2.1
    rw [(hl x hxl).2] at a
    exact absurd a (by simp)
  have hPDr : ∀ x ∈ pfile.hdr.allSectors, 0 ≤ x ∧ x < NumSectors := fun x hx =>
    inRange_of_bit freeMap hlenmap x true (hPD x hx).1 (hPD x hx).2
  have hFDr : ∀ x ∈ fs.freeMapFile.hdr.allSectors, 0 ≤ x ∧ x < NumSectors := fun x hx =>
    inRange_of_bit freeMap hlenmap x true (hFD x hx).1 (hFD x hx).2
  obtain ⟨disk', eC, hold, hinside, hparent, hbits⟩ :=
    createDirectoryIn_success fuel fs hdr (b1.FindAndSet).2 fs.freeMapFile pfile dir
      (name.drop off) (b1.FindAndSet).1 hfuel1 hhdr hnew hnd hisdir hdirlen habs hslot hPDr
      hPnd c4 (by rw [tl, hlenmap]) hFDr nFD (fun x hx => hclear x hx _ hPD)
      (fun x hx => hclear x hx _ hFD) hPF
  obtain ⟨-, ha2, ha3, -, -⟩ := Add_spec dir (name.drop off) (b1.FindAndSet).1 DIR habs hslot
  have hcl : hdr.chainLength ≤ fuel := by rw [e1]; exact hfuel1
  refine ⟨{ fs with disk := disk' },
    ⟨true, (name.drop off).take FileNameMaxLen, (b1.FindAndSet).1, DIR⟩,
    ⟨(b1.FindAndSet).1, hdr⟩, ?_,
    ⟨_, Directory_FetchFrom_of_holds disk' pfile _ _ hisdir (by simp [Directory.new])
      (by rw [ha2, hdirlen]) hparent, ha3⟩,
    rfl, rfl, List.take_of_length_le (check_len_true name off hlen hoff),
    open_of_holds fuel disk' _ hdr hold hcl, hhdr,
    ⟨(b1.FindAndSet).2, Bitmap_fetch_of_holds disk' fs.freeMapFile _ c4
      (by rw [tl, hlenmap]) hbits,
      fun x hx => ⟨(tm x (hmem x hx)).1, (tm x (hmem x hx)).2.2⟩⟩,
    ⟨Directory.new NumDirEntries,
      Directory_FetchFrom_of_holds disk' ⟨(b1.FindAndSet).1, hdr⟩ _ _ hhdr
        (by simp [Directory.new]) (by simp [Directory.new]) hinside,
      fun x hx => by
        simp only [Directory.new, List.mem_replicate] at hx
        rw [hx.2]; rfl⟩⟩
  cases dn with
  | none =>
    have e := hnone rfl
    subst e
    have hroot : dir = root := by
      rw [htab] at c2
      injection c2
    subst hroot
    simp [FileSystem.create_directory, hlen, hoff, hdn, hmap, hopenFM, eal, htab, hs1, eC,
      bind, Except.bind, pure, Except.pure]
  | some d =>
    obtain ⟨t, hfind, ht, hopen⟩ := hsome d rfl
    simp [FileSystem.create_directory, hlen, hoff, hdn, hmap, hopenFM, eal, c2, hfind, ht,
      hopen, htab, eC, bind, Except.bind, pure, Except.pure]

set_option maxRecDepth 100000 in
/-- Witness for C26: `create_directory("/d/g")` after `create_directory("/d")` on the
freshly formatted disk. -/
theorem create_directory_success_witness :
    (fsWithD.Consistent 5 ∧
      OpenFile.open 5 fsWithD.disk FreeMapSector = .ok fsWithD.freeMapFile ∧
      check_len pathDG = .ok true ∧ get_file_name pathDG = some 3 ∧
      get_dir_name pathDG = .ok (some ['d']) ∧
      FileSystem.CreateDirFile 5 fsWithD (some ['d']) = .ok (some handleD) ∧
      handleD.hdr.isDirectoryHeader = true ∧
      Directory.FetchFrom fsWithD.disk handleD (Directory.new NumDirEntries) =
        .ok (Directory.new NumDirEntries) ∧
      Directory.FindIndex (Directory.new NumDirEntries) (pathDG.drop 3) = -1 ∧
      PersistentBitmap.fetch fsWithD.disk fsWithD.freeMapFile NumSectors =
        .ok (markedBelow 24) ∧
      1 + sectorsNeeded DirectoryFileSize ≤ (markedBelow 24).NumClear) ∧
    ∃ fs' e f,
      FileSystem.create_directory 5 fsWithD pathDG = .ok fs' ∧
      (∃ dir', Directory.FetchFrom fs'.disk handleD (Directory.new NumDirEntries) = .ok dir' ∧
        e ∈ dir') ∧
      e.inUse = true ∧ e.type = DIR ∧ e.name = pathDG.drop 3 ∧
      OpenFile.open 5 fs'.disk e.sector = .ok f ∧ f.hdr.isDirectoryHeader = true ∧
      (∃ m, PersistentBitmap.fetch fs'.disk fs'.freeMapFile NumSectors = .ok m ∧
        ∀ x ∈ e.sector :: f.hdr.allSectors, 0 ≤ x ∧ m[x.toNat]? = some true) ∧
      (∃ t, Directory.FetchFrom fs'.disk f (Directory.new NumDirEntries) = .ok t ∧
        ∀ x ∈ t, x.inUse = false) :=
  have h : (OpenFile.open 5 fsWithD.disk FreeMapSector).toOption = some fsWithD.freeMapFile ∧
      (FileSystem.CreateDirFile 5 fsWithD (some ['d'])).toOption = some (some handleD) ∧
      (Directory.FetchFrom fsWithD.disk handleD (Directory.new NumDirEntries)).toOption =
        some (Directory.new NumDirEntries) ∧
      1 + sectorsNeeded DirectoryFileSize ≤ (markedBelow 24).NumClear := by decide!
  have h1 : OpenFile.open 5 fsWithD.disk FreeMapSector = .ok fsWithD.freeMapFile :=
    ok_of_toOption _ _ h.1
  have h2 : check_len pathDG = .ok true := ok_of_toOption _ _ (by decide)
  have h3 : get_dir_name pathDG = .ok (some ['d']) := ok_of_toOption _ _ (by decide)
  have h4 : FileSystem.CreateDirFile 5 fsWithD (some ['d']) = .ok (some handleD) :=
    ok_of_toOption _ _ h.2.1
  have h5 : Directory.FetchFrom fsWithD.disk handleD (Directory.new NumDirEntries) =
      .ok (Directory.new NumDirEntries) := ok_of_toOption _ _ h.2.2.1
  have h6 : PersistentBitmap.fetch fsWithD.disk fsWithD.freeMapFile NumSectors =
      .ok (markedBelow 24) := fsWithD_facts.2.2.1
  have h7 : 1 + sectorsNeeded DirectoryFileSize ≤ (markedBelow 24).NumClear := h.2.2.2
  ⟨⟨fsWithD_consistent, h1, h2, by decide, h3, h4, by decide, h5, by decide, h6, h7⟩,
    create_directory_success 5 fsWithD pathDG 3 (some ['d']) handleD
      (Directory.new NumDirEntries) (markedBelow 24) fsWithD_consistent h1 h2 (by decide) h3
      h4 (by decide) h5 (by decide) ⟨DirectoryEntry.zero, by decide, rfl⟩ h6 h7⟩

/-! ## Close -/

theorem toInt32_pred (id : Int) (h1 : -2 ^ 31 ≤ id) (h2 : id < 2 ^ 31) :
    (1 ≤ id → toInt32 (id - 1) = id - 1) ∧
    (id < 1 → toInt32 (id - 1) < 0 ∨ toInt32 (id - 1) > 19) := by
  unfold toInt32
  constructor
  · intro h; omega
  · intro h; omega

theorem Close_taken (table : List (Option OpenFile)) (id : Int) (h : OpenFile)
    (h1 : 1 ≤ id) (h2 : id ≤ 20) (hs : table[(id - 1).toNat]? = some (some h)) :
    FileSystem.Close table id = .ok (1, table.set (id - 1).toNat none) := by
  have e := (toInt32_pred id (by omega) (by omega)).1 h1
  have hn : ¬ (id - 1 < 0 ∨ id - 1 > 19) := by omega
  simp only [FileSystem.Close, e, if_neg hn, List.get?_eq_getElem?, hs, pure, Except.pure]

theorem Close_refused (table : List (Option OpenFile)) (id : Int) (hlen : table.length = 20)
    (h1 : -2 ^ 31 ≤ id) (h2 : id < 2 ^ 31)
    (h : ¬ (1 ≤ id ∧ id ≤ 20 ∧ ∃ h, table[(id - 1).toNat]? = some (some h))) :
    FileSystem.Close table id = .ok (0, table) := by
  by_cases hlo : 1 ≤ id
  · have e := (toInt32_pred id h1 h2).1 hlo
    by_cases hhi : id ≤ 20
    · have hn : ¬ (id - 1 < 0 ∨ id - 1 > 19) := by omega
      have hlt : (id - 1).toNat < table.length := by omega
      cases hs : table[(id - 1).toNat]? with
      | none =>
        rw [List.getElem?_eq_none_iff] at hs
        omega
      | some slot =>
        cases slot with
        | none =>
          simp only [FileSystem.Close, e, if_neg hn, List.get?_eq_getElem?, hs, pure,
            Except.pure]
        | some x => exact absurd ⟨hlo, hhi, x, hs⟩ h
    · have hp : id - 1 < 0 ∨ id - 1 > 19 := by omega
      simp only [FileSystem.Close, e, if_pos hp, pure, Except.pure]
  · have hp := (toInt32_pred id h1 h2).2 (by omega)
    simp only [FileSystem.Close, if_pos hp, pure, Except.pure]

/-- C31: on a descriptor table of 20 slots and for every `int` value `id`: when
`1 ≤ id ≤ 20` and slot `id - 1` holds a handle, `Close(id)` returns 1, slot `id - 1` is
free afterwards and every other slot is as before, and a second `Close(id)` returns 0 and
leaves the table as the first left it; in every other case `Close(id)` returns 0 and the
table is unchanged. -/
theorem Close_contract (table : List (Option OpenFile)) (id : Int) (hlen : table.length = 20)
    (hid : -2 ^ 31 ≤ id ∧ id < 2 ^ 31) :
    (∀ h, 1 ≤ id → id ≤ 20 → table[(id - 1).toNat]? = some (some h) →
      FileSystem.Close table id = .ok (1, table.set (id - 1).toNat none) ∧
      (table.set (id - 1).toNat none)[(id - 1).toNat]? = some none ∧
      (∀ j, j ≠ (id - 1).toNat → (table.set (id - 1).toNat none)[j]? = table[j]?) ∧
      FileSystem.Close (table.set (id - 1).toNat none) id =
        .ok (0, table.set (id - 1).toNat none)) ∧
    (¬ (1 ≤ id ∧ id ≤ 20 ∧ ∃ h, table[(id - 1).toNat]? = some (some h)) →
      FileSystem.Close table id = .ok (0, table)) := by
  refine ⟨?_, Close_refused table id hlen hid.1 hid.2⟩
  intro h h1 h2 hs
  have hlt : (id - 1).toNat < table.length := by omega
  have hfree : (table.set (id - 1).toNat none)[(id - 1).toNat]? = some none := by
    rw [List.getElem?_set_self hlt]
  refine ⟨Close_taken table id h h1 h2 hs, hfree, ?_, ?_⟩
  · intro j hj
    rw [List.getElem?_set_ne (Ne.symm hj)]
  · apply Close_refused _ id (by simp [hlen]) hid.1 hid.2
    rintro ⟨_, _, x, hx⟩
    rw [hfree] at hx
    simp at hx

/-- Witness for C31: on the table whose slots 0 and 1 are taken, `Close(2)` frees slot 1
and a second `Close(2)` returns 0; `Close(3)`, on the free slot 2, returns 0. -/
theorem Close_contract_witness :
    (twoDescriptors.length = 20 ∧ (-(2 : Int) ^ 31 ≤ 2 ∧ (2 : Int) < 2 ^ 31) ∧
      twoDescriptors[1]? = some (some ⟨13, FileHeader.new⟩)) ∧
    (FileSystem.Close twoDescriptors 2 = .ok (1, twoDescriptors.set 1 none) ∧
      (twoDescriptors.set 1 none)[1]? = some none ∧
      (∀ j, j ≠ 1 → (twoDescriptors.set 1 none)[j]? = twoDescriptors[j]?) ∧
      FileSystem.Close (twoDescriptors.set 1 none) 2 = .ok (0, twoDescriptors.set 1 none)) ∧
    FileSystem.Close twoDescriptors 3 = .ok (0, twoDescriptors) :=
  ⟨⟨rfl, by decide, rfl⟩,
    (Close_contract twoDescriptors 2 rfl (by decide)).1 ⟨13, FileHeader.new⟩ (by decide)
      (by decide) rfl,
    (Close_contract twoDescriptors 3 rfl (by decide)).2 (by
      rintro ⟨_, _, x, hx⟩
      simp [twoDescriptors] at hx)⟩

/-! ## SysOpen and Close -/

theorem lowest_free_slot (table : List (Option OpenFile)) (hlen : table.length = 20)
    (hfree : ∃ i : Nat, table[i]? = some none) :
    ∃ i, i < 20 ∧ table[i]? = some none ∧ ∀ j, j < i → ∃ h, table[j]? = some (some h) := by
  classical
  refine ⟨Nat.find hfree, ?_, Nat.find_spec hfree, ?_⟩
  · by_contra hc
    have := Nat.find_spec hfree
    rw [List.getElem?_eq_none (by omega)] at this
    simp at this
  · intro j hj
    have hne := Nat.find_min hfree hj
    have hj20 : j < 20 := by
      have : Nat.find hfree < 20 := by
        by_contra hc
        have := Nat.find_spec hfree
        rw [List.getElem?_eq_none (by omega)] at this
        simp at this
      omega
    cases hs : table[j]? with
    | none =>
      rw [List.getElem?_eq_none_iff] at hs
      omega
    | some slot =>
      cases slot with
      | none => exact absurd hs hne
      | some x => exact ⟨x, rfl⟩

theorem set_free_again (table : List (Option OpenFile)) (i : Nat) (x : Option OpenFile)
    (hi : table[i]? = some none) : (table.set i x).set i none = table := by
  rw [List.set_set]
  apply List.ext_getElem?
  intro j
  by_cases hj : i = j
  · subst hj
    have hlt : i < table.length := by
      by_contra hc
      rw [List.getElem?_eq_none (by omega)] at hi
      simp at hi
    rw [List.getElem?_set_self hlt, hi]
  · rw [List.getElem?_set_ne hj]

theorem SysOpen_then_Close (fuel : Nat) (fs : FileSystem) (table : List (Option OpenFile))
    (name : List Char) (handle : OpenFile) (hlen : table.length = 20)
    (hfree : ∃ i : Nat, table[i]? = some none)
    (hopen : FileSystem.Open fuel fs name = .ok (some handle)) :
    ∃ fid t, SysOpen fuel fs table name = .ok (fid, t) ∧ 1 ≤ fid ∧ fid ≤ 20 ∧
      t[(fid - 1).toNat]? = some (some handle) ∧
      FileSystem.Close t fid = .ok (1, table) := by
  obtain ⟨i, hi20, hi, hlow⟩ := lowest_free_slot table hlen hfree
  have hslot := findSlot_first table 20 0 i (Nat.zero_le i) (by omega) hi
    (fun j _ h2 => hlow j h2)
  have hne : ¬ ((i : Int) = -1) := by omega
  have hget : (table.set i (some handle))[i]? = some (some handle) := by
    rw [List.getElem?_set_self (by omega)]
  have hidx : ((i : Int) + 1 - 1).toNat = i := by omega
  refine ⟨(i : Int) + 1, table.set i (some handle), ?_, by omega, by omega, ?_, ?_⟩
  · simp [SysOpen, hopen, hslot, hne, bind, Except.bind, pure, Except.pure]
  · rw [hidx]; exact hget
  · rw [Close_taken (table.set i (some handle)) ((i : Int) + 1) handle (by omega) (by omega)
      (by rw [hidx]; exact hget), hidx, set_free_again table i _ hi]

/-- C32: in a consistent file system, for a path and a size for which `Create` succeeds
(the preconditions of C9) and a descriptor table of 20 slots with a free slot: `Create`
returns `true`; `SysOpen` on the same path then returns an id from 1 to 20, whose slot holds
the handle `FileSystem::Open` returns; and `Close` of that id returns 1 and leaves the table
that was there before `SysOpen`. -/
theorem Open_Close_round_trip (fuel : Nat) (fs : FileSystem) (name : List Char) (n : Int)
    (off : Nat) (dn : Option (List Char)) (dfile : OpenFile) (dir : List DirectoryEntry)
    (freeMap : Bitmap) (table : List (Option OpenFile))
    (hcons : fs.Consistent fuel)
    (hlen : check_len name = .ok true) (hoff : get_file_name name = some off)
    (hdn : get_dir_name name = .ok dn)
    (hdir : FileSystem.CreateDirFile fuel fs dn = .ok (some dfile))
    (hisdir : dfile.hdr.isDirectoryHeader = true)
    (htab : Directory.FetchFrom fs.disk dfile (Directory.new NumDirEntries) = .ok dir)
    (habs : Directory.FindIndex dir (name.drop off) = -1)
    (hslot : ∃ e ∈ dir, e.inUse = false)
    (hmap : PersistentBitmap.fetch fs.disk fs.freeMapFile NumSectors = .ok freeMap)
    (hn : 0 ≤ n) (hfree : 1 + sectorsNeeded n ≤ freeMap.NumClear)
    (hfuel : n ≤ MaxFileSize * fuel)
    (htable : table.length = 20) (hfreeSlot : ∃ i : Nat, table[i]? = some none) :
    ∃ fs' handle fid t,
      FileSystem.Create fuel fs name n = .ok (true, fs') ∧
      FileSystem.Open fuel fs' name = .ok (some handle) ∧
      SysOpen fuel fs' table name = .ok (fid, t) ∧ 1 ≤ fid ∧ fid ≤ 20 ∧
      t[(fid - 1).toNat]? = some (some handle) ∧
      FileSystem.Close t fid = .ok (1, table) := by
  obtain ⟨fs', -, -, handle, hc, -, -, -, -, -, ho, -⟩ :=
    Create_Open_core fuel fs name n off dn dfile dir freeMap hcons hlen hoff hdn hdir hisdir
      htab habs hslot hmap hn hfree hfuel
  obtain ⟨fid, t, h1, h2, h3, h4, h5⟩ :=
    SysOpen_then_Close fuel fs' table name handle htable hfreeSlot ho
  exact ⟨fs', handle, fid, t, hc, ho, h1, h2, h3, h4, h5⟩

set_option maxRecDepth 100000 in
/-- Witness for C32: on the freshly formatted disk `Create("/f", 5 * SectorSize)` returns
`true`; with slots 0 and 1 of the descriptor table taken, `SysOpen("/f")` and `Close` of
the id it returns leave the table as it was. -/
theorem Open_Close_round_trip_witness :
    (formattedFS.Consistent 5 ∧ check_len pathF = .ok true ∧
      Directory.FindIndex (Directory.new NumDirEntries) (pathF.drop 1) = -1 ∧
      1 + sectorsNeeded (5 * SectorSize) ≤ formattedMap.NumClear ∧
      twoDescriptors.length = 20 ∧ twoDescriptors[2]? = some none) ∧
    (∃ fs' handle fid t,
      FileSystem.Create 5 formattedFS pathF (5 * SectorSize) = .ok (true, fs') ∧
      FileSystem.Open 5 fs' pathF = .ok (some handle) ∧
      SysOpen 5 fs' twoDescriptors pathF = .ok (fid, t) ∧ 1 ≤ fid ∧ fid ≤ 20 ∧
      t[(fid - 1).toNat]? = some (some handle) ∧
      FileSystem.Close t fid = .ok (1, twoDescriptors)) :=
  ⟨⟨formattedFS_consistent, rfl, by decide, by decide, rfl, rfl⟩,
    Open_Close_round_trip 5 formattedFS pathF (5 * SectorSize) 1 none
      formattedFS.directoryFile (Directory.new NumDirEntries) formattedMap twoDescriptors
      formattedFS_consistent rfl rfl rfl rfl rfl rfl (by decide)
      ⟨DirectoryEntry.zero, by decide, rfl⟩ rfl (by decide) (by decide) (by decide) rfl
      ⟨2, rfl⟩⟩

/-! ## get_file_name and get_dir_name on a path of segments -/

theorem pathOf_append (a b : List (List Char)) : pathOf (a ++ b) = pathOf a ++ pathOf b := by
  induction a with
  | nil => rfl
  | cons s a ih => simp [pathOf, ih]

theorem pathOf_head (segs : List (List Char)) :
    pathOf segs = [] ∨ ∃ r, pathOf segs = '/' :: r := by
  cases segs with
  | nil => exact Or.inl rfl
  | cons s rest => exact Or.inr ⟨s ++ pathOf rest, rfl⟩

theorem pathOf_length_mem (segs : List (List Char)) (s : List Char) (h : s ∈ segs) :
    s.length + 1 ≤ (pathOf segs).length := by
  induction segs with
  | nil => simp at h
  | cons a rest ih =>
    simp only [pathOf, List.length_append, List.length_cons]
    rcases List.mem_cons.mp h with h | h
    · subst h; omega
    · have := ih h; omega

theorem strtokFrom_word (s rest : List Char) (i start : Nat) (acc : List Char)
    (hs : '/' ∉ s) (hrest : rest = [] ∨ ∃ r, rest = '/' :: r) :
    strtokFrom (s ++ rest) i (some (start, acc)) =
      (start, acc.reverse ++ s) :: strtokFrom rest (i + s.length) none := by
  induction s generalizing i acc with
  | nil =>
    rcases hrest with h | ⟨r, h⟩
    · subst h; simp [strtokFrom]
    · subst h; simp [strtokFrom]
  | cons c s ih =>
    have hc : ¬ c = '/' := fun e => hs (by simp [e])
    have hs' : '/' ∉ s := fun e => hs (by simp [e])
    rw [List.cons_append, strtokFrom, if_neg hc]
    rw [ih (i + 1) (c :: acc) hs']
    simp only [List.reverse_cons, List.append_assoc, List.singleton_append, List.length_cons]
    congr 2
    omega

theorem strtokFrom_path (segs : List (List Char)) (i : Nat)
    (h : ∀ s ∈ segs, s ≠ [] ∧ '/' ∉ s) :
    strtokFrom (pathOf segs) i none = tokensOf segs i := by
  induction segs generalizing i with
  | nil => rfl
  | cons s rest ih =>
    obtain ⟨hne, hns⟩ := h s (by simp)
    cases s with
    | nil => exact absurd rfl hne
    | cons c s =>
      have hc : ¬ c = '/' := fun e => hns (by simp [e])
      have hs' : '/' ∉ s := fun e => hns (by simp [e])
      simp only [pathOf, List.cons_append, tokensOf]
      rw [strtokFrom, if_pos rfl]
      rw [strtokFrom, if_neg hc]
      rw [strtokFrom_word s (pathOf rest) (i + 1 + 1) (i + 1) [c] hs' (pathOf_head rest),
        ih (i + 1 + 1 + s.length) (fun t ht => h t (by simp [ht]))]
      simp only [List.reverse_cons, List.reverse_nil, List.nil_append, List.singleton_append,
        List.length_cons]
      congr 2
      omega

theorem dirNameLoop_path (init : List (List Char)) (last : List Char) (i : Nat)
    (ans : List Char) (h : ∀ s ∈ init, s ≠ [] ∧ s.length + 1 ≤ 255) :
    dirNameLoop (some (i + (pathOf init).length + 1)) (tokensOf (init ++ [last]) i) ans =
      .ok (init.getLast?.getD ans) := by
  induction init generalizing i ans with
  | nil => simp [pathOf, tokensOf, dirNameLoop, pure, Except.pure]
  | cons s init ih =>
    obtain ⟨hne, hl⟩ := h s (by simp)
    have hpos : 0 < s.length := List.length_pos.mpr hne
    have hstart : ¬ some (i + 1) = some (i + (pathOf (s :: init)).length + 1) := by
      simp only [pathOf, List.length_append, List.length_cons, Option.some.injEq]
      omega
    have hlong : ¬ s.length + 1 > 255 := by omega
    rw [List.cons_append, tokensOf, dirNameLoop, if_neg hstart, if_neg hlong]
    have e : i + (pathOf (s :: init)).length + 1 =
        (i + 1 + s.length) + (pathOf init).length + 1 := by
      simp only [pathOf, List.length_append, List.length_cons]
      omega
    rw [e, ih (i + 1 + s.length) s (fun t ht => h t (by simp [ht]))]
    simp [List.getLast?_cons]

theorem dirNameLoopText_of_loop (file_name : Option Nat) (toks : List (Nat × List Char))
    (ans text a : List Char) (h : dirNameLoop file_name toks ans = .ok a) :
    ∃ t, dirNameLoopText file_name toks ans text = .ok (a, t) := by
  induction toks generalizing ans text with
  | nil => simp [dirNameLoop, throw, throwThe, MonadExceptOf.throw] at h
  | cons p rest ih =>
    obtain ⟨start, tok⟩ := p
    simp only [dirNameLoop] at h
    simp only [dirNameLoopText]
    by_cases h1 : some start = file_name
    · rw [if_pos h1] at h ⊢
      simp only [pure, Except.pure, Except.ok.injEq] at h
      subst h
      exact ⟨_, rfl⟩
    · rw [if_neg h1] at h ⊢
      by_cases h2 : tok.length + 1 > 255
      · rw [if_pos h2] at h
        simp [throw, throwThe, MonadExceptOf.throw] at h
      · rw [if_neg h2] at h ⊢
        exact ih tok _ h

theorem get_dir_name_text_of (name : List Char) (r : Option (List Char))
    (h : get_dir_name name = .ok r) : get_dir_name_text name = .ok (r, name) := by
  simp only [get_dir_name, bind, Except.bind] at h
  cases e : dirNameLoop (get_file_name name) (strtokFrom name 0 none) [] with
  | error f => rw [e] at h; simp at h
  | ok a =>
    rw [e] at h
    dsimp only at h
    obtain ⟨t, ht⟩ := dirNameLoopText_of_loop _ _ [] name a e
    simp only [get_dir_name_text, bind, Except.bind, ht]
    by_cases h0 : a.length = 0
    · rw [if_pos h0] at h ⊢
      simp only [pure, Except.pure, Except.ok.injEq] at h ⊢
      rw [h]
    · rw [if_neg h0] at h ⊢
      simp only [pure, Except.pure, Except.ok.injEq] at h ⊢
      rw [h]

/-- C37: for a path `/s1/s2/.../sk` (a path of the data model: at most 255 characters) with
`k ≥ 1` whose segments are non-empty and free of `'/'`: `get_file_name` points at the last
segment `sk`; `get_dir_name` returns `NULL` when `k = 1` and otherwise the segment
`s(k-1)` alone; and when `get_dir_name` has returned, the text in the buffer `name` is the
path again. -/
theorem path_split (init : List (List Char)) (last : List Char)
    (hseg : ∀ s ∈ init ++ [last], s ≠ [] ∧ '/' ∉ s)
    (hlen : (pathOf (init ++ [last])).length ≤ 255) :
    (∃ off, get_file_name (pathOf (init ++ [last])) = some off ∧
      (pathOf (init ++ [last])).drop off = last) ∧
    get_dir_name (pathOf (init ++ [last])) = .ok init.getLast? ∧
    get_dir_name_text (pathOf (init ++ [last])) =
      .ok (init.getLast?, pathOf (init ++ [last])) := by
  have hlast : '/' ∉ last := (hseg last (by simp)).2
  have hpath : pathOf (init ++ [last]) = pathOf init ++ '/' :: last := by
    rw [pathOf_append]; simp [pathOf]
  have hfile : get_file_name (pathOf (init ++ [last])) = some ((pathOf init).length + 1) := by
    rw [hpath]; exact get_file_name_split (pathOf init) last hlast
  have hinit : ∀ s ∈ init, s ≠ [] ∧ s.length + 1 ≤ 255 := by
    intro s hs
    refine ⟨(hseg s (by simp [hs])).1, ?_⟩
    have := pathOf_length_mem (init ++ [last]) s (by simp [hs])
    omega
  have hdir : get_dir_name (pathOf (init ++ [last])) = .ok init.getLast? := by
    have hloop := dirNameLoop_path init last 0 [] hinit
    rw [Nat.zero_add] at hloop
    simp only [get_dir_name, hfile, strtokFrom_path (init ++ [last]) 0 hseg, hloop, bind,
      Except.bind]
    cases hl : init.getLast? with
    | none => simp [pure, Except.pure]
    | some s =>
      have hs : s ≠ [] := (hinit s (List.mem_of_getLast?_eq_some hl)).1
      have : ¬ s.length = 0 := fun e => hs (List.length_eq_zero.mp e)
      simp [this, pure, Except.pure]
  refine ⟨⟨(pathOf init).length + 1, hfile, ?_⟩, hdir, get_dir_name_text_of _ _ hdir⟩
  rw [hpath]
  have : (pathOf init).length + 1 = (pathOf init ++ ['/']).length := by simp
  rw [this, show pathOf init ++ '/' :: last = (pathOf init ++ ['/']) ++ last by simp,
    List.drop_left]

/-- Witness for C37: the path `/a/d/g`, whose directory name is `d`. -/
theorem path_split_witness :
    ((∀ s ∈ [['a'], ['d']] ++ [['g']], s ≠ [] ∧ '/' ∉ s) ∧
      (pathOf ([['a'], ['d']] ++ [['g']])).length ≤ 255 ∧
      pathOf ([['a'], ['d']] ++ [['g']]) = ['/', 'a', '/', 'd', '/', 'g']) ∧
    ((∃ off, get_file_name (pathOf ([['a'], ['d']] ++ [['g']])) = some off ∧
      (pathOf ([['a'], ['d']] ++ [['g']])).drop off = ['g']) ∧
    get_dir_name (pathOf ([['a'], ['d']] ++ [['g']])) = .ok (some ['d']) ∧
    get_dir_name_text (pathOf ([['a'], ['d']] ++ [['g']])) =
      .ok (some ['d'], pathOf ([['a'], ['d']] ++ [['g']]))) :=
  ⟨⟨by decide, by decide, rfl⟩, path_split [['a'], ['d']] ['g'] (by decide) (by decide)⟩

/-! ## Directory::Remove: the entries it touches -/

theorem bind_ok {α β : Type} (x : Except Fault α) (f : α → Except Fault β) (b : β)
    (h : x >>= f = Except.ok b) : ∃ a, x = Except.ok a ∧ f a = Except.ok b := by
  cases x with
  | error e => exact absurd h (by simp [bind, Except.bind])
  | ok a => exact ⟨a, rfl, h⟩

theorem strtokFrom_starts (cs : List Char) (i : Nat) (cur : Option (Nat × List Char))
    (hcur : ∀ p ∈ cur, p.1 < i) : ∀ p ∈ strtokFrom cs i cur, p.1 < i + cs.length := by
  induction cs generalizing i cur with
  | nil =>
    cases cur with
    | none => simp [strtokFrom]
    | some q =>
      obtain ⟨s, acc⟩ := q
      intro p hp
      simp only [strtokFrom, List.mem_singleton] at hp
      subst hp
      have := hcur (s, acc) rfl
      simpa using this
  | cons c cs ih =>
    intro p hp
    simp only [List.length_cons]
    by_cases hc : c = '/'
    · cases cur with
      | none =>
        simp only [strtokFrom, hc, if_true] at hp
        have := ih (i + 1) none (by simp) p hp
        omega
      | some q =>
        obtain ⟨s, acc⟩ := q
        simp only [strtokFrom, hc, if_true, List.mem_cons] at hp
        rcases hp with hp | hp
        · subst hp
          have := hcur (s, acc) rfl
          simp only at this ⊢
          omega
        · have := ih (i + 1) none (by simp) p hp
          omega
    · cases cur with
      | none =>
        simp only [strtokFrom, hc, if_false] at hp
        have := ih (i + 1) (some (i, [c])) (by simp) p hp
        omega
      | some q =>
        obtain ⟨s, acc⟩ := q
        simp only [strtokFrom, hc, if_false] at hp
        have hs := hcur (s, acc) rfl
        simp only at hs
        have := ih (i + 1) (some (s, c :: acc)) (by simp; omega) p hp
        omega

theorem dirNameLoop_past (n : Nat) (toks : List (Nat × List Char)) (ans : List Char)
    (h : ∀ p ∈ toks, p.1 < n) : ∀ r, dirNameLoop (some n) toks ans ≠ .ok r := by
  induction toks generalizing ans with
  | nil => intro r; simp [dirNameLoop, throw, throwThe, MonadExceptOf.throw]
  | cons p rest ih =>
    obtain ⟨start, tok⟩ := p
    intro r
    have hs : start < n := h (start, tok) (by simp)
    have hne : ¬ some start = some n := by simp; omega
    rw [dirNameLoop, if_neg hne]
    by_cases hl : tok.length + 1 > 255
    · rw [if_pos hl]; simp [throw, throwThe, MonadExceptOf.throw]
    · rw [if_neg hl]; exact ih tok (fun q hq => h q (by simp [hq])) r

theorem get_dir_name_trailing (pre : List Char) :
    ∀ r, get_dir_name (pre ++ ['/']) ≠ .ok r := by
  intro r hr
  have hf : get_file_name (pre ++ ['/']) = some (pre.length + 1) :=
    get_file_name_split pre [] (by simp)
  have hst := strtokFrom_starts (pre ++ ['/']) 0 none (by simp)
  simp only [List.length_append, List.length_singleton, Nat.zero_add] at hst
  simp only [get_dir_name, hf, bind, Except.bind] at hr
  cases e : dirNameLoop (some (pre.length + 1)) (strtokFrom (pre ++ ['/']) 0 none) [] with
  | error f => rw [e] at hr; simp at hr
  | ok a => exact dirNameLoop_past _ _ [] hst a e

/-- C38, where the code departs from it: for `"/"` and `"/a/"`, which pass `check_len`,
`get_file_name` points at the end of the text, where no token starts; the loop of
`get_dir_name` runs past the last token and passes the null pointer `strtok` then returns
to `strlen`.  So `get_dir_name`, and with it `Create("/")`, does not return; the same
holds for every path that ends in `'/'`. -/
theorem get_dir_name_uses_null_token :
    (check_len ['/'] = .ok true ∧ get_file_name ['/'] = some 1 ∧
      strtokFrom ['/'] 0 none = [] ∧ get_dir_name ['/'] = .error Fault.nullPointer) ∧
    (check_len pathATrail = .ok true ∧ get_file_name pathATrail = some 3 ∧
      strtokFrom pathATrail 0 none = [(1, ['a'])] ∧
      get_dir_name pathATrail = .error Fault.nullPointer) ∧
    FileSystem.Create 5 formattedFS ['/'] 0 = .error Fault.nullPointer ∧
    (∀ pre r, get_dir_name (pre ++ ['/']) ≠ .ok r) :=
  ⟨⟨rfl, rfl, rfl, rfl⟩, ⟨rfl, rfl, rfl, rfl⟩, rfl, get_dir_name_trailing⟩

/-! ## Allocate: when it returns true -/

/-- Function `Allocate` fails when fewer than `sectorsNeeded n` bits are clear: it returns
`false`, from the check of a header or from the `FindAndSet` for a chained header. -/
theorem AllocateAux_short (fuel : Nat) (b : Bitmap) (n : Int) (hn : 0 ≤ n)
    (hf : n < MaxFileSize * fuel) (hshort : b.NumClear < sectorsNeeded n) :
    ∃ hdr b', FileHeader.AllocateAux fuel b n = .ok (false, hdr, b') := by
  induction fuel generalizing b n with
  | zero => simp at hf; omega
  | succ fuel ih =>
    have hM := MaxFileSize_eq
    have hS := SectorSize_eq
    unfold sectorsNeeded at hshort
    rw [divRoundUp_eq n SectorSize hn (by omega), hM, hS] at hshort
    by_cases hle : n ≤ 3712
    · -- one header: its own check fails
      rw [if_pos hle] at hshort
      have hnb : (if n < (MaxFileSize : Int) then n else MaxFileSize) = n := by
        rw [hM]; split_ifs <;> omega
      have hc : b.NumClear < divRoundUp n SectorSize := by
        rw [divRoundUp_eq n SectorSize hn (by omega), hS]; omega
      simp only [FileHeader.AllocateAux, hnb, if_pos hc, pure, Except.pure]
      exact ⟨_, _, rfl⟩
    · have hgt : 3712 < n := by omega
      have hnb : (if n < (MaxFileSize : Int) then n else MaxFileSize) = 3712 := by
        rw [hM]; split_ifs <;> omega
      have hns : divRoundUp (3712 : Int) SectorSize = 29 := by
        rw [divRoundUp_eq _ _ (by omega) (by omega), hS]; decide
      rw [if_neg hle, divRoundUp_eq n 3712 hn (by omega)] at hshort
      by_cases hc : b.NumClear < 29
      · simp only [FileHeader.AllocateAux, hnb, hns, if_pos hc, pure, Except.pure]
        exact ⟨_, _, rfl⟩
      · have hk : ((29 : Int).toNat : Int) ≤ b.NumClear := by
          have e29 : (29 : Int).toNat = 29 := rfl
          rw [e29]; omega
        obtain ⟨got, b1, e, hl, ht⟩ := allocLoop_took _ b hk
        have hc1 := ht.2.2.2.2
        have hl' : (got.length : Int) = 29 := by rw [hl]; simp
        have hrem : n - 3712 > 0 := by omega
        by_cases hfull : (b1.FindAndSet).1 = -1
        · simp only [FileHeader.AllocateAux, hnb, hns, if_neg hc, e, bind, Except.bind,
              pure, Except.pure, if_pos hrem, if_pos hfull]
          exact ⟨_, _, rfl⟩
        · obtain ⟨-, ht1⟩ := FindAndSet_took_of_ne b1 hfull
          have hc2 := ht1.2.2.2.2
          simp only [Bitmap.NumClear, List.length_singleton] at hc2 hc1 hshort
          have hrec : (b1.FindAndSet).2.NumClear < sectorsNeeded (n - 3712) := by
            unfold sectorsNeeded
            rw [divRoundUp_eq (n - 3712) SectorSize (by omega) (by omega), hM, hS]
            simp only [Bitmap.NumClear]
            by_cases h2 : n - 3712 ≤ 3712
            · rw [if_pos h2]
              split_ifs at hshort ⊢ <;> omega
            · rw [if_neg h2, divRoundUp_eq (n - 3712) 3712 (by omega) (by omega)]
              split_ifs at hshort ⊢ <;> omega
          have hf' : n - 3712 < MaxFileSize * fuel := by
            rw [hM] at hf ⊢; push_cast at hf; omega
          obtain ⟨hdr', b2, e2⟩ := ih (b1.FindAndSet).2 (n - 3712) (by omega) hf' hrec
          simp only [FileHeader.AllocateAux, hnb, hns, if_neg hc, e, bind, Except.bind,
              pure, Except.pure, if_pos hrem, if_neg hfull, e2]
          exact ⟨_, _, rfl⟩

theorem sectorsNeeded_eq (n : Int) (hn : 0 ≤ n) :
    sectorsNeeded n =
      (n + SectorSize - 1) / SectorSize + max 0 ((n + MaxFileSize - 1) / MaxFileSize - 1) := by
  have hM := MaxFileSize_eq
  have hS := SectorSize_eq
  unfold sectorsNeeded
  rw [divRoundUp_eq n SectorSize hn (by omega), hM, hS]
  by_cases hle : n ≤ 3712
  · rw [if_pos hle, max_eq_left (by omega)]
    split_ifs <;> omega
  · rw [if_neg hle, divRoundUp_eq n 3712 hn (by omega), max_eq_right (by omega)]
    split_ifs <;> omega

/-- C34: for every free map and every `fileSize ≥ 0`, `Allocate(freeMap, fileSize)` returns,
and it returns `true` exactly when `NumClear` is at least `ceil(fileSize / SectorSize) +
max(0, ceil(fileSize / MaxFileSize) - 1)`; and on every bitmap with at least `k` clear
bits the `k` calls of `FindAndSet` in the allocation loop return sectors `≥ 0`, so the loop
ends without a failed assertion. -/
theorem Allocate_iff_enough_clear (freeMap : Bitmap) (fileSize : Int) (hsize : 0 ≤ fileSize) :
    (∃ ok hdr freeMap', FileHeader.Allocate freeMap fileSize = .ok (ok, hdr, freeMap') ∧
      (ok = true ↔
        (fileSize + SectorSize - 1) / SectorSize +
          max 0 ((fileSize + MaxFileSize - 1) / MaxFileSize - 1) ≤ freeMap.NumClear)) ∧
    (∀ (b : Bitmap) (k : Nat), (k : Int) ≤ b.NumClear →
      ∃ got b', FileHeader.allocLoop k b = .ok (got, b') ∧ got.length = k ∧
        ∀ x ∈ got, 0 ≤ x) := by
  have hM := MaxFileSize_eq
  have hf : fileSize < MaxFileSize * (fileSize.toNat + 1 : Nat) := by
    rw [hM]; push_cast; omega
  refine ⟨?_, ?_⟩
  · rw [← sectorsNeeded_eq fileSize hsize]
    by_cases hfree : sectorsNeeded fileSize ≤ freeMap.NumClear
    · obtain ⟨hdr, b', e, -⟩ := AllocateAux_success _ freeMap fileSize hsize hf hfree
      exact ⟨true, hdr, b', e, by simp [hfree]⟩
    · obtain ⟨hdr, b', e⟩ := AllocateAux_short _ freeMap fileSize hsize hf (by omega)
      exact ⟨false, hdr, b', e, by simp [hfree]⟩
  · intro b k hk
    obtain ⟨got, b', e, hl, ht⟩ := allocLoop_took k b hk
    exact ⟨got, b', e, hl, fun x hx => (ht.2.2.1 x hx).1⟩

set_option maxRecDepth 100000 in
/-- Witness for C34: on the free map of the freshly formatted disk, which has 1011 clear
bits, `Allocate(freeMap, 4000)` needs 32 data sectors and one chained header and returns
`true`. -/
theorem Allocate_iff_enough_clear_witness :
    ((0 : Int) ≤ 4000 ∧ formattedMap.NumClear = 1011 ∧
      ((4000 : Int) + SectorSize - 1) / SectorSize +
        max 0 (((4000 : Int) + MaxFileSize - 1) / MaxFileSize - 1) = 33) ∧
    ((∃ ok hdr freeMap', FileHeader.Allocate formattedMap 4000 = .ok (ok, hdr, freeMap') ∧
      (ok = true ↔
        ((4000 : Int) + SectorSize - 1) / SectorSize +
          max 0 (((4000 : Int) + MaxFileSize - 1) / MaxFileSize - 1) ≤
            formattedMap.NumClear)) ∧
    (∀ (b : Bitmap) (k : Nat), (k : Int) ≤ b.NumClear →
      ∃ got b', FileHeader.allocLoop k b = .ok (got, b') ∧ got.length = k ∧
        ∀ x ∈ got, 0 ≤ x)) :=
  ⟨⟨by decide, by decide!, by decide⟩, Allocate_iff_enough_clear formattedMap 4000 (by decide)⟩

/-! ## Recursive Remove: the sectors it clears -/

theorem findSub_unused (fuel : Nat) (disk : Disk) (F : List DirectoryEntry → Except Fault Int)
    (table : List DirectoryEntry) (h : ∀ e ∈ table, e.inUse = false) :
    Directory.findSub fuel disk F table = .ok (-1) := by
  induction table with
  | nil => rfl
  | cons e es ih =>
    rw [findSub_skip fuel disk F e es (by simp [h e (by simp)])]
    exact ih (fun x hx => h x (by simp [hx]))

set_option maxRecDepth 100000 in
/-- C35, where the code departs from it: `Remove("/d", true)` for the empty directory `d`
directly under the root of a consistent disk (the claim's own witness).  The first half
of the recursive branch frees `d` and marks its entry unused in the root table; the
second half searches that table for `d` again, finds nothing in it (on whatever disk) and
passes the -1 to `Clear`, which fails its assertion on every bitmap: `Remove` aborts. -/
theorem Remove_recursive_clears_minus_one :
    FileSystem.create_directory 5 formattedFS pathD = .ok fsWithD ∧ fsWithD.Consistent 5 ∧
    Directory.FetchFrom fsWithD.disk fsWithD.directoryFile (Directory.new NumDirEntries) =
      .ok ((Directory.new NumDirEntries).set 0 ⟨true, ['d'], 23, DIR⟩) ∧
    Directory.Remove ((Directory.new NumDirEntries).set 0 ⟨true, ['d'], 23, DIR⟩) ['d'] false 0 =
      (true, (Directory.new NumDirEntries).set 0 ⟨false, ['d'], 23, DIR⟩) ∧
    (∀ disk, Directory.Find 5 disk ((Directory.new NumDirEntries).set 0 ⟨false, ['d'], 23, DIR⟩)
      ['d'] true = .ok (-1)) ∧
    (∀ m : Bitmap, m.Clear (-1) = .error Fault.assertion) ∧
    FileSystem.Remove 5 fsWithD pathD true = .error Fault.assertion :=
  have h : faultOf (FileSystem.Remove 5 fsWithD pathD true) = some Fault.assertion ∧
      Directory.FindIndex ((Directory.new NumDirEntries).set 0 ⟨false, ['d'], 23, DIR⟩)
        ['d'] = -1 ∧
      (∀ e ∈ (Directory.new NumDirEntries).set 0 ⟨false, ['d'], 23, DIR⟩,
        e.inUse = false) := by decide!
  ⟨fsWithD_facts.1, fsWithD_facts.2.2.2, fsWithD_facts.2.1, by decide,
    fun disk => by
      rw [Find_miss_sub 4 disk _ _ h.2.1]
      exact findSub_unused 4 disk _ _ h.2.2,
    fun m => by simp [Bitmap.Clear, throw, throwThe, MonadExceptOf.throw],
    fault_of_faultOf _ _ h.1⟩

/-! ## The order of the write-back calls -/

theorem DirectoryCallsOnly.refl (l : List WriteBackCall) : DirectoryCallsOnly l l :=
  ⟨[], by simp, fun w hw => absurd hw (List.not_mem_nil w)⟩

theorem DirectoryCallsOnly.trans {a b c : List WriteBackCall} (h1 : DirectoryCallsOnly a b)
    (h2 : DirectoryCallsOnly b c) : DirectoryCallsOnly a c := by
  obtain ⟨m1, e1, p1⟩ := h1
  obtain ⟨m2, e2, p2⟩ := h2
  refine ⟨m1 ++ m2, by rw [e2, e1, List.append_assoc], ?_⟩
  intro w hw
  rcases List.mem_append.mp hw with h | h
  · exact p1 w h
  · exact p2 w h

theorem WriteBackTraced_header (hdr : FileHeader) (td td' : TracedDisk) (sector : Int)
    (h : hdr.WriteBackTraced td sector = Except.ok td') :
    hdr.WriteBack td.disk sector = Except.ok td'.disk ∧
    td'.calls = td.calls ++ [WriteBackCall.header sector] := by
  unfold FileHeader.WriteBackTraced at h
  obtain ⟨d, e, h⟩ := bind_ok _ _ _ h
  simp only [pure, Except.pure] at h
  injection h with h
  subst h
  exact ⟨e, rfl⟩

theorem WriteBackTraced_directory (td td' : TracedDisk) (table : List DirectoryEntry)
    (file : OpenFile) (h : Directory.WriteBackTraced td table file = Except.ok td') :
    Directory.WriteBack td.disk table file = Except.ok td'.disk ∧
    td'.calls = td.calls ++ [WriteBackCall.directory file.sector] := by
  unfold Directory.WriteBackTraced at h
  obtain ⟨d, e, h⟩ := bind_ok _ _ _ h
  simp only [pure, Except.pure] at h
  injection h with h
  subst h
  exact ⟨e, rfl⟩

theorem WriteBackTraced_freeMap (td td' : TracedDisk) (freeMap : Bitmap) (file : OpenFile)
    (h : PersistentBitmap.WriteBackTraced td freeMap file = Except.ok td') :
    PersistentBitmap.WriteBack td.disk freeMap file = Except.ok td'.disk ∧
    td'.calls = td.calls ++ [WriteBackCall.freeMap] := by
  unfold PersistentBitmap.WriteBackTraced at h
  obtain ⟨d, e, h⟩ := bind_ok _ _ _ h
  simp only [pure, Except.pure] at h
  injection h with h
  subst h
  exact ⟨e, rfl⟩

theorem CreateInTraced_calls (fuel : Nat) (fs fs' : FileSystem) (td : TracedDisk)
    (directory_file : OpenFile)
    (file_name : List Char) (initialSize : Int) (calls : List WriteBackCall)
    (h : FileSystem.CreateInTraced fuel fs td directory_file file_name initialSize =
      .ok (true, fs', calls)) :
    ∃ s, calls = td.calls ++
      [WriteBackCall.header s, .directory directory_file.sector, .freeMap] := by
  unfold FileSystem.CreateInTraced at h
  obtain ⟨directory, -, h⟩ := bind_ok _ _ _ h
  obtain ⟨found, -, h⟩ := bind_ok _ _ _ h
  split at h
  · simp [pure, Except.pure] at h
  obtain ⟨freeMap, -, h⟩ := bind_ok _ _ _ h
  simp only at h
  split at h
  · simp [pure, Except.pure] at h
  split at h
  · simp [pure, Except.pure] at h
  obtain ⟨al, -, h⟩ := bind_ok _ _ _ h
  split at h
  · simp [pure, Except.pure] at h
  obtain ⟨td1, e1, h⟩ := bind_ok _ _ _ h
  obtain ⟨td2, e2, h⟩ := bind_ok _ _ _ h
  obtain ⟨td3, e3, h⟩ := bind_ok _ _ _ h
  simp only [pure, Except.pure, Except.ok.injEq, Prod.mk.injEq] at h
  refine ⟨freeMap.FindAndSet.1, ?_⟩
  rw [← h.2.2, (WriteBackTraced_freeMap _ _ _ _ e3).2, (WriteBackTraced_directory _ _ _ _ e2).2,
    (WriteBackTraced_header _ _ _ _ e1).2]
  simp

theorem CreateTraced_calls (fuel : Nat) (fs fs' : FileSystem) (name : List Char)
    (initialSize : Int) (calls : List WriteBackCall)
    (h : FileSystem.CreateTraced fuel fs name initialSize = .ok (true, fs', calls)) :
    ∃ s d, calls = [WriteBackCall.header s, .directory d, .freeMap] := by
  unfold FileSystem.CreateTraced at h
  simp only at h
  obtain ⟨okLen, -, h⟩ := bind_ok _ _ _ h
  split at h
  · simp [pure, Except.pure] at h
  split at h
  · simp [throw, throwThe, MonadExceptOf.throw] at h
  obtain ⟨dir_name, -, h⟩ := bind_ok _ _ _ h
  obtain ⟨df, -, h⟩ := bind_ok _ _ _ h
  split at h
  · simp [pure, Except.pure] at h
  · obtain ⟨s, hs⟩ := CreateInTraced_calls _ _ _ _ _ _ _ _ h
    exact ⟨s, _, by simpa using hs⟩

theorem createDirectoryInTraced_calls (fuel : Nat) (fs fs' : FileSystem) (td : TracedDisk)
    (hdr : FileHeader)
    (freeMap : Bitmap) (freeMapFile : OpenFile) (parent : List DirectoryEntry)
    (parent_file : OpenFile) (file_name : List Char) (sector : Int)
    (calls : List WriteBackCall)
    (h : FileSystem.createDirectoryInTraced fuel fs td hdr freeMap freeMapFile parent
      parent_file file_name sector = .ok (fs', calls)) :
    ∃ d, calls = td.calls ++ [WriteBackCall.header sector, .directory d,
      .directory parent_file.sector, .freeMap] := by
  unfold FileSystem.createDirectoryInTraced at h
  obtain ⟨td1, e1, h⟩ := bind_ok _ _ _ h
  obtain ⟨inside, -, h⟩ := bind_ok _ _ _ h
  obtain ⟨td2, e2, h⟩ := bind_ok _ _ _ h
  simp only at h
  obtain ⟨td3, e3, h⟩ := bind_ok _ _ _ h
  obtain ⟨td4, e4, h⟩ := bind_ok _ _ _ h
  simp only [pure, Except.pure, Except.ok.injEq, Prod.mk.injEq] at h
  refine ⟨inside.sector, ?_⟩
  rw [← h.2, (WriteBackTraced_freeMap _ _ _ _ e4).2, (WriteBackTraced_directory _ _ _ _ e3).2,
    (WriteBackTraced_directory _ _ _ _ e2).2, (WriteBackTraced_header _ _ _ _ e1).2]
  simp

theorem create_directoryTraced_calls (fuel : Nat) (fs fs' : FileSystem) (name : List Char)
    (calls : List WriteBackCall)
    (h : FileSystem.create_directoryTraced fuel fs name = .ok (fs', calls)) :
    calls = [] ∨
      ∃ s d p, calls = [WriteBackCall.header s, .directory d, .directory p, .freeMap] := by
  unfold FileSystem.create_directoryTraced at h
  simp only at h
  obtain ⟨okLen, -, h⟩ := bind_ok _ _ _ h
  split at h
  · simp only [pure, Except.pure, Except.ok.injEq, Prod.mk.injEq] at h
    exact Or.inl h.2.symm
  split at h
  · simp [throw, throwThe, MonadExceptOf.throw] at h
  obtain ⟨dir_name, -, h⟩ := bind_ok _ _ _ h
  obtain ⟨freeMap, -, h⟩ := bind_ok _ _ _ h
  obtain ⟨freeMapFile, -, h⟩ := bind_ok _ _ _ h
  obtain ⟨al, -, h⟩ := bind_ok _ _ _ h
  obtain ⟨directory, -, h⟩ := bind_ok _ _ _ h
  split at h
  · obtain ⟨dfs, -, h⟩ := bind_ok _ _ _ h
    split at h
    · simp only [pure, Except.pure, Except.ok.injEq, Prod.mk.injEq] at h
      exact Or.inl h.2.symm
    · obtain ⟨cdf, -, h⟩ := bind_ok _ _ _ h
      obtain ⟨cd, -, h⟩ := bind_ok _ _ _ h
      obtain ⟨d, hd⟩ := createDirectoryInTraced_calls _ _ _ _ _ _ _ _ _ _ _ _ h
      exact Or.inr ⟨_, d, _, by simpa using hd⟩
  · split at h
    · simp only [pure, Except.pure, Except.ok.injEq, Prod.mk.injEq] at h
      exact Or.inl h.2.symm
    · obtain ⟨d, hd⟩ := createDirectoryInTraced_calls _ _ _ _ _ _ _ _ _ _ _ _ h
      exact Or.inr ⟨_, d, _, by simpa using hd⟩

theorem RemoveFileTraced_tail (fs fs' : FileSystem) (td : TracedDisk)
    (delete_file : OpenFile) (freeMap2 : Bitmap) (r : Bool × List DirectoryEntry)
    (b : Bool) (calls : List WriteBackCall)
    (h : (if r.1 = true then do
        let td1 ← PersistentBitmap.WriteBackTraced td freeMap2 fs.freeMapFile
        let td2 ← Directory.WriteBackTraced td1 r.2 delete_file
        pure (true, { fs with disk := td2.disk }, td2.calls)
      else pure (true, fs, td.calls)) = Except.ok (b, fs', calls)) :
    calls = td.calls ∨ ∃ d, calls = td.calls ++ [WriteBackCall.freeMap, .directory d] := by
  split at h
  · obtain ⟨td1, e1, h⟩ := bind_ok _ _ _ h
    obtain ⟨td2, e2, h⟩ := bind_ok _ _ _ h
    simp only [pure, Except.pure, Except.ok.injEq, Prod.mk.injEq] at h
    refine Or.inr ⟨delete_file.sector, ?_⟩
    rw [← h.2.2, (WriteBackTraced_directory _ _ _ _ e2).2, (WriteBackTraced_freeMap _ _ _ _ e1).2]
    simp
  · simp only [pure, Except.pure, Except.ok.injEq, Prod.mk.injEq] at h
    exact Or.inl h.2.2.symm

theorem RemoveFileTraced_calls (fuel : Nat) (fs fs' : FileSystem) (td : TracedDisk)
    (directory : List DirectoryEntry) (file_name : List Char) (dir_name : Option (List Char))
    (b : Bool) (calls : List WriteBackCall)
    (h : FileSystem.RemoveFileTraced fuel fs td directory file_name dir_name =
      .ok (b, fs', calls)) :
    calls = td.calls ∨ ∃ d, calls = td.calls ++ [WriteBackCall.freeMap, .directory d] := by
  unfold FileSystem.RemoveFileTraced at h
  cases dir_name with
  | none =>
    simp only [pure_bind] at h
    obtain ⟨sector, -, h⟩ := bind_ok _ _ _ h
    split at h
    · simp only [pure, Except.pure, Except.ok.injEq, Prod.mk.injEq] at h
      exact Or.inl h.2.2.symm
    obtain ⟨fileHdr, -, h⟩ := bind_ok _ _ _ h
    obtain ⟨freeMap, -, h⟩ := bind_ok _ _ _ h
    obtain ⟨freeMap1, -, h⟩ := bind_ok _ _ _ h
    obtain ⟨freeMap2, -, h⟩ := bind_ok _ _ _ h
    exact RemoveFileTraced_tail fs fs' td _ freeMap2 _ b calls h
  | some dn =>
    simp only [bind_assoc, pure_bind] at h
    obtain ⟨s, -, h⟩ := bind_ok _ _ _ h
    obtain ⟨f, -, h⟩ := bind_ok _ _ _ h
    obtain ⟨d, -, h⟩ := bind_ok _ _ _ h
    obtain ⟨sector, -, h⟩ := bind_ok _ _ _ h
    split at h
    · simp only [pure, Except.pure, Except.ok.injEq, Prod.mk.injEq] at h
      exact Or.inl h.2.2.symm
    obtain ⟨fileHdr, -, h⟩ := bind_ok _ _ _ h
    obtain ⟨freeMap, -, h⟩ := bind_ok _ _ _ h
    obtain ⟨freeMap1, -, h⟩ := bind_ok _ _ _ h
    obtain ⟨freeMap2, -, h⟩ := bind_ok _ _ _ h
    exact RemoveFileTraced_tail fs fs' td _ freeMap2 _ b calls h

theorem removeLoopTraced_calls (fuel : Nat)
    (removeAllT : List DirectoryEntry → OpenFile → Bitmap → TracedDisk →
      Except Fault (Bitmap × TracedDisk))
    (hRA : ∀ t f b d r, removeAllT t f b d = .ok r → DirectoryCallsOnly d.calls r.2.calls)
    (es : List DirectoryEntry) (freeMap : Bitmap) (td : TracedDisk)
    (r : List DirectoryEntry × Bitmap × TracedDisk)
    (h : Directory.removeLoopTraced fuel removeAllT es freeMap td = .ok r) :
    DirectoryCallsOnly td.calls r.2.2.calls := by
  induction es generalizing freeMap td r with
  | nil =>
    simp only [Directory.removeLoopTraced, pure, Except.pure, Except.ok.injEq] at h
    subst h
    exact DirectoryCallsOnly.refl _
  | cons e es ih =>
    unfold Directory.removeLoopTraced at h
    by_cases hu : e.inUse = true
    · rw [if_pos hu] at h
      by_cases hd : (e.type == DIR) = true
      · simp only [hd, if_true, bind_assoc] at h
        obtain ⟨ndf, -, h⟩ := bind_ok _ _ _ h
        obtain ⟨nd, -, h⟩ := bind_ok _ _ _ h
        obtain ⟨⟨freeMap1, td1⟩, e1, h⟩ := bind_ok _ _ _ h
        simp only at h
        obtain ⟨hdr, -, h⟩ := bind_ok _ _ _ h
        obtain ⟨freeMap2, -, h⟩ := bind_ok _ _ _ h
        obtain ⟨freeMap3, -, h⟩ := bind_ok _ _ _ h
        obtain ⟨⟨es', freeMap4, td2⟩, e2, h⟩ := bind_ok _ _ _ h
        simp only [pure, Except.pure, Except.ok.injEq] at h
        subst h
        exact (hRA _ _ _ _ _ e1).trans (ih _ _ (es', freeMap4, td2) e2)
      · simp only [hd, Bool.false_eq_true, if_false, pure_bind] at h
        obtain ⟨hdr, -, h⟩ := bind_ok _ _ _ h
        obtain ⟨freeMap2, -, h⟩ := bind_ok _ _ _ h
        obtain ⟨freeMap3, -, h⟩ := bind_ok _ _ _ h
        obtain ⟨⟨es', freeMap4, td2⟩, e2, h⟩ := bind_ok _ _ _ h
        simp only [pure, Except.pure, Except.ok.injEq] at h
        subst h
        exact ih _ _ (es', freeMap4, td2) e2
    · rw [if_neg hu] at h
      obtain ⟨⟨es', freeMap1, td1⟩, e1, h⟩ := bind_ok _ _ _ h
      simp only [pure, Except.pure, Except.ok.injEq] at h
      subst h
      exact ih _ _ (es', freeMap1, td1) e1

theorem remove_all_objectTraced_calls (fuel : Nat) (table : List DirectoryEntry)
    (delete_file : OpenFile) (freeMap : Bitmap) (td : TracedDisk)
    (r : List DirectoryEntry × Bitmap × TracedDisk)
    (h : Directory.remove_all_objectTraced fuel table delete_file freeMap td = .ok r) :
    DirectoryCallsOnly td.calls r.2.2.calls := by
  induction fuel generalizing table delete_file freeMap td r with
  | zero => simp [Directory.remove_all_objectTraced, throw, throwThe, MonadExceptOf.throw] at h
  | succ fuel ih =>
    unfold Directory.remove_all_objectTraced at h
    obtain ⟨⟨table1, freeMap1, td1⟩, e1, h⟩ := bind_ok _ _ _ h
    simp only at h
    obtain ⟨td2, e2, h⟩ := bind_ok _ _ _ h
    simp only [pure, Except.pure, Except.ok.injEq] at h
    subst h
    have hloop := removeLoopTraced_calls fuel _ (fun t f b d r hr => by
      obtain ⟨v, e, hr⟩ := bind_ok _ _ _ hr
      simp only [pure, Except.pure, Except.ok.injEq] at hr
      subst hr
      exact ih _ _ _ _ _ e) table freeMap td _ e1
    refine hloop.trans ⟨[WriteBackCall.directory delete_file.sector],
      (WriteBackTraced_directory _ _ _ _ e2).2, ?_⟩
    intro w hw
    exact ⟨_, List.mem_singleton.mp hw⟩

theorem RemoveRecursiveTraced_calls (fuel : Nat) (fs fs' : FileSystem) (td : TracedDisk)
    (directory : List DirectoryEntry) (file_name : List Char) (dir_name : Option (List Char))
    (calls : List WriteBackCall)
    (h : FileSystem.RemoveRecursiveTraced fuel fs td directory file_name dir_name =
      .ok (true, fs', calls)) :
    ∃ pre d, calls = td.calls ++ pre ++ [WriteBackCall.freeMap,
        .directory fs.directoryFile.sector, .freeMap, .directory d] ∧
      ∀ w ∈ pre, ∃ s, w = WriteBackCall.directory s := by
  unfold FileSystem.RemoveRecursiveTraced at h
  obtain ⟨freeMap, -, h⟩ := bind_ok _ _ _ h
  obtain ⟨sector, -, h⟩ := bind_ok _ _ _ h
  split at h
  · simp [pure, Except.pure] at h
  obtain ⟨tmp_dir, -, h⟩ := bind_ok _ _ _ h
  cases dir_name with
  | none =>
    simp only [pure_bind] at h
    obtain ⟨delete_file, -, h⟩ := bind_ok _ _ _ h
    obtain ⟨directory2, -, h⟩ := bind_ok _ _ _ h
    obtain ⟨⟨t1, freeMap1, td1⟩, e1, h⟩ := bind_ok _ _ _ h
    simp only at h
    obtain ⟨fileHdr, -, h⟩ := bind_ok _ _ _ h
    obtain ⟨freeMap2, -, h⟩ := bind_ok _ _ _ h
    obtain ⟨freeMap3, -, h⟩ := bind_ok _ _ _ h
    obtain ⟨td2, e2, h⟩ := bind_ok _ _ _ h
    obtain ⟨td3, e3, h⟩ := bind_ok _ _ _ h
    obtain ⟨directory3, -, h⟩ := bind_ok _ _ _ h
    obtain ⟨fi, -, h⟩ := bind_ok _ _ _ h
    obtain ⟨freeMap4, -, h⟩ := bind_ok _ _ _ h
    obtain ⟨td4, e4, h⟩ := bind_ok _ _ _ h
    obtain ⟨td5, e5, h⟩ := bind_ok _ _ _ h
    simp only [pure, Except.pure, Except.ok.injEq, Prod.mk.injEq] at h
    obtain ⟨pre, hpre, hdir⟩ := remove_all_objectTraced_calls _ _ _ _ _ _ e1
    refine ⟨pre, fs.directoryFile.sector, ?_, hdir⟩
    have c1 : td1.calls = td.calls ++ pre := hpre
    rw [← h.2.2, (WriteBackTraced_directory _ _ _ _ e5).2,
      (WriteBackTraced_freeMap _ _ _ _ e4).2, (WriteBackTraced_directory _ _ _ _ e3).2,
      (WriteBackTraced_freeMap _ _ _ _ e2).2, c1]
    simp
  | some dn =>
    simp only [bind_assoc, pure_bind] at h
    obtain ⟨s, -, h⟩ := bind_ok _ _ _ h
    obtain ⟨f0, -, h⟩ := bind_ok _ _ _ h
    obtain ⟨directory1, -, h⟩ := bind_ok _ _ _ h
    obtain ⟨delete_file, -, h⟩ := bind_ok _ _ _ h
    obtain ⟨directory2, -, h⟩ := bind_ok _ _ _ h
    obtain ⟨⟨t1, freeMap1, td1⟩, e1, h⟩ := bind_ok _ _ _ h
    simp only at h
    obtain ⟨fileHdr, -, h⟩ := bind_ok _ _ _ h
    obtain ⟨freeMap2, -, h⟩ := bind_ok _ _ _ h
    obtain ⟨freeMap3, -, h⟩ := bind_ok _ _ _ h
    obtain ⟨td2, e2, h⟩ := bind_ok _ _ _ h
    obtain ⟨td3, e3, h⟩ := bind_ok _ _ _ h
    obtain ⟨directory3, -, h⟩ := bind_ok _ _ _ h
    obtain ⟨s1, -, h⟩ := bind_ok _ _ _ h
    obtain ⟨delete_file1, -, h⟩ := bind_ok _ _ _ h
    obtain ⟨directory4, -, h⟩ := bind_ok _ _ _ h
    obtain ⟨fi, -, h⟩ := bind_ok _ _ _ h
    obtain ⟨freeMap4, -, h⟩ := bind_ok _ _ _ h
    obtain ⟨td4, e4, h⟩ := bind_ok _ _ _ h
    obtain ⟨td5, e5, h⟩ := bind_ok _ _ _ h
    simp only [pure, Except.pure, Except.ok.injEq, Prod.mk.injEq] at h
    obtain ⟨pre, hpre, hdir⟩ := remove_all_objectTraced_calls _ _ _ _ _ _ e1
    refine ⟨pre, delete_file1.sector, ?_, hdir⟩
    have c1 : td1.calls = td.calls ++ pre := hpre
    rw [← h.2.2, (WriteBackTraced_directory _ _ _ _ e5).2,
      (WriteBackTraced_freeMap _ _ _ _ e4).2, (WriteBackTraced_directory _ _ _ _ e3).2,
      (WriteBackTraced_freeMap _ _ _ _ e2).2, c1]
    simp

theorem RemoveTraced_calls_file (fuel : Nat) (fs fs' : FileSystem) (name : List Char)
    (b : Bool) (calls : List WriteBackCall)
    (h : FileSystem.RemoveTraced fuel fs name false = .ok (b, fs', calls)) :
    calls = [] ∨ ∃ d, calls = [WriteBackCall.freeMap, .directory d] := by
  unfold FileSystem.RemoveTraced at h
  simp only at h
  obtain ⟨okLen, -, h⟩ := bind_ok _ _ _ h
  split at h
  · simp only [pure, Except.pure, Except.ok.injEq, Prod.mk.injEq] at h
    exact Or.inl h.2.2.symm
  split at h
  · simp [throw, throwThe, MonadExceptOf.throw] at h
  obtain ⟨dir_name, -, h⟩ := bind_ok _ _ _ h
  obtain ⟨directory, -, h⟩ := bind_ok _ _ _ h
  simp only [Bool.false_eq_true, if_false] at h
  simpa using RemoveFileTraced_calls _ _ _ _ _ _ _ _ _ h

theorem RemoveTraced_calls_recursive (fuel : Nat) (fs fs' : FileSystem) (name : List Char)
    (calls : List WriteBackCall)
    (h : FileSystem.RemoveTraced fuel fs name true = .ok (true, fs', calls)) :
    ∃ pre d, calls = pre ++ [WriteBackCall.freeMap, .directory fs.directoryFile.sector,
        .freeMap, .directory d] ∧
      ∀ w ∈ pre, ∃ s, w = WriteBackCall.directory s := by
  unfold FileSystem.RemoveTraced at h
  simp only at h
  obtain ⟨okLen, -, h⟩ := bind_ok _ _ _ h
  split at h
  · simp [pure, Except.pure] at h
  split at h
  · simp [throw, throwThe, MonadExceptOf.throw] at h
  obtain ⟨dir_name, -, h⟩ := bind_ok _ _ _ h
  obtain ⟨directory, -, h⟩ := bind_ok _ _ _ h
  simp only [if_true] at h
  obtain ⟨pre, d, hc, hp⟩ := RemoveRecursiveTraced_calls _ _ _ _ _ _ _ _ h
  exact ⟨pre, d, by simpa using hc, hp⟩

theorem CreateInTraced_erase (fuel : Nat) (fs : FileSystem) (calls : List WriteBackCall)
    (directory_file : OpenFile) (file_name : List Char) (initialSize : Int) :
    (fun r => (r.1, r.2.1)) <$>
      FileSystem.CreateInTraced fuel fs { disk := fs.disk, calls := calls } directory_file
        file_name initialSize =
    FileSystem.CreateIn fuel fs directory_file file_name initialSize := by
  unfold FileSystem.CreateInTraced FileSystem.CreateIn FileHeader.WriteBackTraced
    Directory.WriteBackTraced PersistentBitmap.WriteBackTraced
  simp only [map_bind, map_pure, bind_assoc, pure_bind,
    apply_ite (Functor.map (fun r : Bool × FileSystem × List WriteBackCall => (r.1, r.2.1)))]

theorem CreateTraced_erase (fuel : Nat) (fs : FileSystem) (name : List Char)
    (initialSize : Int) :
    (fun r => (r.1, r.2.1)) <$> FileSystem.CreateTraced fuel fs name initialSize =
    FileSystem.Create fuel fs name initialSize := by
  unfold FileSystem.CreateTraced FileSystem.Create
  simp only [map_bind, map_pure, apply_ite (Functor.map (fun r : Bool × FileSystem × List WriteBackCall => (r.1, r.2.1)))]
  congr 1
  funext okLen
  split
  · rfl
  · split
    · rfl
    · simp only [map_bind]
      congr 1
      funext dn
      congr 1
      funext x
      split
      · rfl
      · exact CreateInTraced_erase _ _ _ _ _ _

theorem removeLoopTraced_erase (fuel : Nat)
    (removeAllT : List DirectoryEntry → OpenFile → Bitmap → TracedDisk →
      Except Fault (Bitmap × TracedDisk))
    (removeAll : List DirectoryEntry → OpenFile → Bitmap → Disk → Except Fault (Bitmap × Disk))
    (hRA : ∀ t f b d, (fun r => (r.1, r.2.disk)) <$> removeAllT t f b d =
      removeAll t f b d.disk)
    (es : List DirectoryEntry) (freeMap : Bitmap) (td : TracedDisk) :
    (fun r => (r.1, r.2.1, r.2.2.disk)) <$>
      Directory.removeLoopTraced fuel removeAllT es freeMap td =
    Directory.removeLoop fuel removeAll es freeMap td.disk := by
  induction es generalizing freeMap td with
  | nil => rfl
  | cons e es ih =>
    unfold Directory.removeLoopTraced Directory.removeLoop
    by_cases hu : e.inUse = true
    · rw [if_pos hu, if_pos hu]
      by_cases hd : (e.type == DIR) = true
      · rw [if_pos hd, if_pos hd]
        simp only [map_bind, map_pure, bind_assoc, ← hRA, bind_map_left, ← ih]
      · rw [if_neg hd, if_neg hd]
        simp only [map_bind, map_pure, bind_assoc, pure_bind, ← ih, bind_map_left]
    · rw [if_neg hu, if_neg hu]
      simp only [map_bind, map_pure, ← ih, bind_map_left]

theorem remove_all_objectTraced_erase (fuel : Nat) (table : List DirectoryEntry)
    (delete_file : OpenFile) (freeMap : Bitmap) (td : TracedDisk) :
    (fun r => (r.1, r.2.1, r.2.2.disk)) <$>
      Directory.remove_all_objectTraced fuel table delete_file freeMap td =
    Directory.remove_all_object fuel table delete_file freeMap td.disk := by
  induction fuel generalizing table delete_file freeMap td with
  | zero => rfl
  | succ fuel ih =>
    unfold Directory.remove_all_objectTraced Directory.remove_all_object
      Directory.WriteBackTraced
    rw [← removeLoopTraced_erase fuel
      (fun t f b d => do
        let r ← Directory.remove_all_objectTraced fuel t f b d
        pure (r.2.1, r.2.2))
      (fun t f b d => do
        let r ← Directory.remove_all_object fuel t f b d
        pure (r.2.1, r.2.2))
      (fun t f b d => by
        simp only [map_bind, map_pure, ← ih, bind_map_left])]
    simp only [map_bind, map_pure, bind_map_left, bind_assoc, pure_bind]

theorem RemoveRecursiveTraced_erase (fuel : Nat) (fs : FileSystem) (calls : List WriteBackCall)
    (directory : List DirectoryEntry) (file_name : List Char)
    (dir_name : Option (List Char)) :
    (fun r => (r.1, r.2.1)) <$>
      FileSystem.RemoveRecursiveTraced fuel fs { disk := fs.disk, calls := calls } directory
        file_name dir_name =
    FileSystem.RemoveRecursive fuel fs directory file_name dir_name := by
  unfold FileSystem.RemoveRecursiveTraced FileSystem.RemoveRecursive
    Directory.WriteBackTraced PersistentBitmap.WriteBackTraced
  have e := fun t f b => remove_all_objectTraced_erase fuel t f b
    { disk := fs.disk, calls := calls }
  simp only at e
  cases dir_name <;> simp only [pure_bind, bind_assoc, map_bind, map_pure, ← e, bind_map_left,
    apply_ite (Functor.map (fun r : Bool × FileSystem × List WriteBackCall => (r.1, r.2.1)))]

theorem RemoveFileTraced_erase (fuel : Nat) (fs : FileSystem) (calls : List WriteBackCall)
    (directory : List DirectoryEntry) (file_name : List Char)
    (dir_name : Option (List Char)) :
    (fun r => (r.1, r.2.1)) <$>
      FileSystem.RemoveFileTraced fuel fs { disk := fs.disk, calls := calls } directory
        file_name dir_name =
    FileSystem.RemoveFile fuel fs directory file_name dir_name := by
  unfold FileSystem.RemoveFileTraced FileSystem.RemoveFile
    Directory.WriteBackTraced PersistentBitmap.WriteBackTraced
  cases dir_name <;> simp only [pure_bind, bind_assoc, map_bind, map_pure,
    apply_ite (Functor.map (fun r : Bool × FileSystem × List WriteBackCall => (r.1, r.2.1)))]

/-- Without its record of calls, `RemoveTraced` is `Remove`. -/
theorem RemoveTraced_erase (fuel : Nat) (fs : FileSystem) (name : List Char)
    (rr_flag : Bool) :
    (fun r => (r.1, r.2.1)) <$> FileSystem.RemoveTraced fuel fs name rr_flag =
    FileSystem.Remove fuel fs name rr_flag := by
  unfold FileSystem.RemoveTraced FileSystem.Remove
  simp only [map_bind, map_pure,
    apply_ite (Functor.map (fun r : Bool × FileSystem × List WriteBackCall => (r.1, r.2.1))),
    RemoveRecursiveTraced_erase, RemoveFileTraced_erase]
  congr 1
  funext okLen
  split
  · rfl
  · split
    · rfl
    · simp only [map_bind,
        apply_ite (Functor.map
          (fun r : Bool × FileSystem × List WriteBackCall => (r.1, r.2.1))),
        RemoveRecursiveTraced_erase, RemoveFileTraced_erase]

theorem createDirectoryInTraced_erase (fuel : Nat) (fs : FileSystem)
    (calls : List WriteBackCall) (hdr : FileHeader)
    (freeMap : Bitmap) (freeMapFile : OpenFile) (parent : List DirectoryEntry)
    (parent_file : OpenFile) (file_name : List Char) (sector : Int) :
    (fun r => r.1) <$> FileSystem.createDirectoryInTraced fuel fs
      { disk := fs.disk, calls := calls } hdr freeMap freeMapFile
      parent parent_file file_name sector =
    FileSystem.createDirectoryIn fuel fs hdr freeMap freeMapFile parent parent_file file_name
      sector := by
  unfold FileSystem.createDirectoryInTraced FileSystem.createDirectoryIn
    FileHeader.WriteBackTraced Directory.WriteBackTraced PersistentBitmap.WriteBackTraced
  simp only [map_bind, map_pure, bind_assoc, pure_bind]

/-- Without its record of calls, `create_directoryTraced` is `create_directory`. -/
theorem create_directoryTraced_erase (fuel : Nat) (fs : FileSystem) (name : List Char) :
    (fun r => r.1) <$> FileSystem.create_directoryTraced fuel fs name =
    FileSystem.create_directory fuel fs name := by
  unfold FileSystem.create_directoryTraced FileSystem.create_directory
  simp only [map_bind, map_pure,
    apply_ite (Functor.map (fun r : FileSystem × List WriteBackCall => r.1))]
  congr 1
  funext okLen
  split
  · rfl
  · split
    · rfl
    · simp only [map_bind]
      congr 1; funext dn
      congr 1; funext freeMap
      congr 1; funext freeMapFile
      congr 1; funext al
      congr 1; funext directory
      split
      · simp only [map_bind, map_pure,
          apply_ite (Functor.map (fun r : FileSystem × List WriteBackCall => r.1)),
          createDirectoryInTraced_erase]
      · simp only [map_pure,
          apply_ite (Functor.map (fun r : FileSystem × List WriteBackCall => r.1)),
          createDirectoryInTraced_erase]

theorem traced_of_erase {α β : Type} (f : α → β) (x : Except Fault α) (y : β)
    (h : f <$> x = .ok y) : ∃ z, x = .ok z ∧ f z = y := by
  cases x with
  | error e => exact absurd h (by simp [Functor.map, Except.map])
  | ok z =>
    simp only [Functor.map, Except.map, Except.ok.injEq] at h
    exact ⟨z, rfl, h⟩

theorem traced_of_calls (r : Except Fault (Bool × FileSystem × List WriteBackCall)) (b : Bool)
    (calls : List WriteBackCall) (h : tracedCalls r = some (b, calls)) :
    ∃ fs', r = .ok (b, fs', calls) := by
  cases r with
  | error f => simp [tracedCalls] at h
  | ok v =>
    obtain ⟨b', fs', c⟩ := v
    simp only [tracedCalls, Option.some.injEq, Prod.mk.injEq] at h
    obtain ⟨h1, h2⟩ := h
    subst h1; subst h2
    exact ⟨fs', rfl⟩

theorem traced_of_dir_calls (r : Except Fault (FileSystem × List WriteBackCall))
    (calls : List WriteBackCall) (h : tracedDirCalls r = some calls) :
    ∃ fs', r = .ok (fs', calls) := by
  cases r with
  | error f => simp [tracedDirCalls] at h
  | ok v =>
    obtain ⟨fs', c⟩ := v
    simp only [tracedDirCalls, Option.some.injEq] at h
    subst h
    exact ⟨fs', rfl⟩

set_option maxRecDepth 100000 in
/-- C33, where the code departs from it: both branches of `Remove` write the free map
back before the directory.  `Remove("/d/g", false)` of a file in the directory `/d`
(header sector 23) returns `TRUE` after the calls free map, directory 23; the recursive
`Remove("/x", true)` of the second scenario of C14 returns `TRUE` after the calls
directory 35 (from `remove_all_object`), free map, root directory, free map, root
directory.  In both the free map is flushed first. -/
theorem Remove_flushes_free_map_first :
    FileSystem.create_directory 5 formattedFS pathD = .ok fsWithD ∧
    FileSystem.Create 5 fsWithD pathDG SectorSize = .ok (true, fsWithDG) ∧
    (∃ fs', FileSystem.RemoveTraced 5 fsWithDG pathDG false =
        .ok (true, fs', [.freeMap, .directory 23]) ∧
      FileSystem.Remove 5 fsWithDG pathDG false = .ok (true, fs')) ∧
    (∃ fs', FileSystem.RemoveTraced 5 fsTwoX pathX true =
        .ok (true, fs', [.directory 35, .freeMap, .directory 1, .freeMap, .directory 1]) ∧
      FileSystem.Remove 5 fsTwoX pathX true = .ok (true, fs')) ∧
    [WriteBackCall.freeMap, .directory 23].indexOf WriteBackCall.freeMap <
      [WriteBackCall.freeMap, .directory 23].indexOf (WriteBackCall.directory 23) ∧
    [WriteBackCall.directory 35, .freeMap, .directory 1, .freeMap, .directory 1].indexOf
        WriteBackCall.freeMap <
      [WriteBackCall.directory 35, .freeMap, .directory 1, .freeMap, .directory 1].indexOf
        (WriteBackCall.directory 1) :=
  have h : returned (FileSystem.Create 5 fsWithD pathDG SectorSize) true = true ∧
      tracedCalls (FileSystem.RemoveTraced 5 fsWithDG pathDG false) =
        some (true, [.freeMap, .directory 23]) ∧
      tracedCalls (FileSystem.RemoveTraced 5 fsTwoX pathX true) =
        some (true, [.directory 35, .freeMap, .directory 1, .freeMap, .directory 1]) := by
    decide!
  ⟨fsWithD_facts.1, after_of_returned _ _ _ h.1,
    Exists.elim (traced_of_calls _ _ _ h.2.1) (fun fs' e => ⟨fs', e, by
      rw [← RemoveTraced_erase, e]; rfl⟩),
    Exists.elim (traced_of_calls _ _ _ h.2.2) (fun fs' e => ⟨fs', e, by
      rw [← RemoveTraced_erase, e]; rfl⟩),
    by decide, by decide⟩

/-- C33 as amended: every `Create` that returns `TRUE` has made exactly three write-back
calls, the file header, the parent directory, the free map, in this order; every
`create_directory` that returns has made none, or exactly the four calls new header, new
directory's table, parent directory, free map, in this order: in both the free map is
written last.  A `Remove` without `rr_flag` that returns `TRUE` has made no call or the two
calls free map, directory; with `rr_flag` its calls end with free map, root directory,
free map, directory, after write-backs of directories only: `Remove` writes the free map
before the directory. -/
theorem write_back_order (fuel : Nat) (fs : FileSystem) (name : List Char) :
    (∀ n fs', FileSystem.Create fuel fs name n = .ok (true, fs') →
      ∃ s d, FileSystem.CreateTraced fuel fs name n =
        .ok (true, fs', [.header s, .directory d, .freeMap])) ∧
    (∀ fs', FileSystem.create_directory fuel fs name = .ok fs' →
      FileSystem.create_directoryTraced fuel fs name = .ok (fs', []) ∨
      ∃ s d p, FileSystem.create_directoryTraced fuel fs name =
        .ok (fs', [.header s, .directory d, .directory p, .freeMap])) ∧
    (∀ fs', FileSystem.Remove fuel fs name false = .ok (true, fs') →
      FileSystem.RemoveTraced fuel fs name false = .ok (true, fs', []) ∨
      ∃ d, FileSystem.RemoveTraced fuel fs name false =
        .ok (true, fs', [.freeMap, .directory d])) ∧
    (∀ fs', FileSystem.Remove fuel fs name true = .ok (true, fs') →
      ∃ pre d, FileSystem.RemoveTraced fuel fs name true =
          .ok (true, fs', pre ++ [.freeMap, .directory fs.directoryFile.sector, .freeMap,
            .directory d]) ∧
        ∀ w ∈ pre, ∃ s, w = WriteBackCall.directory s) := by
  refine ⟨?_, ?_, ?_, ?_⟩
  · intro n fs' h
    rw [← CreateTraced_erase] at h
    obtain ⟨⟨b, fs1, calls⟩, e, hz⟩ := traced_of_erase _ _ _ h
    simp only [Prod.mk.injEq] at hz
    obtain ⟨h1, h2⟩ := hz
    subst h1; subst h2
    obtain ⟨s, d, hc⟩ := CreateTraced_calls _ _ _ _ _ _ e
    exact ⟨s, d, by rw [e, hc]⟩
  · intro fs' h
    rw [← create_directoryTraced_erase] at h
    obtain ⟨⟨fs1, calls⟩, e, hz⟩ := traced_of_erase _ _ _ h
    simp only at hz
    subst hz
    rcases create_directoryTraced_calls _ _ _ _ _ e with hc | ⟨s, d, p, hc⟩
    · exact Or.inl (by rw [e, hc])
    · exact Or.inr ⟨s, d, p, by rw [e, hc]⟩
  · intro fs' h
    rw [← RemoveTraced_erase] at h
    obtain ⟨⟨b, fs1, calls⟩, e, hz⟩ := traced_of_erase _ _ _ h
    simp only [Prod.mk.injEq] at hz
    obtain ⟨h1, h2⟩ := hz
    subst h1; subst h2
    rcases RemoveTraced_calls_file _ _ _ _ _ _ e with hc | ⟨d, hc⟩
    · exact Or.inl (by rw [e, hc])
    · exact Or.inr ⟨d, by rw [e, hc]⟩
  · intro fs' h
    rw [← RemoveTraced_erase] at h
    obtain ⟨⟨b, fs1, calls⟩, e, hz⟩ := traced_of_erase _ _ _ h
    simp only [Prod.mk.injEq] at hz
    obtain ⟨h1, h2⟩ := hz
    subst h1; subst h2
    obtain ⟨pre, d, hc, hpre⟩ := RemoveTraced_calls_recursive _ _ _ _ _ e
    exact ⟨pre, d, by rw [e, hc], hpre⟩

set_option maxRecDepth 100000 in
/-- Witness for the amended C33: `create_directory("/d")` on the freshly formatted disk,
then `Create("/d/g", SectorSize)`, then `Remove("/d/g", false)`. -/
theorem write_back_order_witness :
    (FileSystem.create_directory 5 formattedFS pathD = .ok fsWithD ∧
      FileSystem.Create 5 fsWithD pathDG SectorSize = .ok (true, fsWithDG) ∧
      returned (FileSystem.Remove 5 fsWithDG pathDG false) true = true) ∧
    (FileSystem.create_directoryTraced 5 formattedFS pathD = .ok (fsWithD, []) ∨
      ∃ s d p, FileSystem.create_directoryTraced 5 formattedFS pathD =
        .ok (fsWithD, [.header s, .directory d, .directory p, .freeMap])) ∧
    (∃ s d, FileSystem.CreateTraced 5 fsWithD pathDG SectorSize =
      .ok (true, fsWithDG, [.header s, .directory d, .freeMap])) ∧
    (FileSystem.RemoveTraced 5 fsWithDG pathDG false =
        .ok (true, FileSystem.after (FileSystem.Remove 5 fsWithDG pathDG false) fsWithDG, []) ∨
      ∃ d, FileSystem.RemoveTraced 5 fsWithDG pathDG false =
        .ok (true, FileSystem.after (FileSystem.Remove 5 fsWithDG pathDG false) fsWithDG,
          [.freeMap, .directory d])) :=
  have h : returned (FileSystem.Create 5 fsWithD pathDG SectorSize) true = true ∧
      returned (FileSystem.Remove 5 fsWithDG pathDG false) true = true := by decide!
  ⟨⟨fsWithD_facts.1, after_of_returned _ _ _ h.1, h.2⟩,
    (write_back_order 5 formattedFS pathD).2.1 fsWithD fsWithD_facts.1,
    (write_back_order 5 fsWithD pathDG).1 SectorSize fsWithDG (after_of_returned _ _ _ h.1),
    (write_back_order 5 fsWithDG pathDG).2.2.1 _ (after_of_returned _ _ _ h.2)⟩

end Nachos
